import Mathlib

/-!
Shallow embeddings of the puzzle programs of the repository, one namespace per source
file, and the properties proved about them.

* `GardenGroups`, `GardenGroupsP2`: `src/2024/day12/garden-groups.cpp` and
  `garden-groups_p2.cpp`, the region scan, the perimeter and the side count.
* `HoofIt`: `src/2024/day10/hoof-it.cpp`, score and rating of a trailhead.
* `BridgeRepair`: `src/2024/day7/bridge-repair.cpp`, the equation check.
* `GuardGallivant`: `src/2024/day6/guard-gallivant_p2.cpp`, the walk of the guard.
* `PrintQueue`: `src/2024/day5/print-queue.cpp`, the validation of an update.
* `CeresSearch`: `src/2024/day4/cares-search.cpp`, the centers of the X shapes.
* `PlutonianPebbles`: `src/2024/day11/plutonian-pebbles.cpp` and
  `plutonian-pebbles_p2.cpp`, the split of a number and the memoized stone count.
* `ClawContraption`: `src/2024/day13/claw-contraption.cpp`, the token counts.
* `DiskFragmenterP2`: `src/2024/day9/disk-fragmenter_p2.cpp`, the move of whole files.
* `DiskFragmenter`: `src/2024/day9/disk-fragmenter.cpp`, the move of single blocks.

Conventions of the embedding:

* `std::set<std::pair<int,int>>` is a `Finset (Int × Int)`, `std::set` of regions a
  `Finset (Finset (Int × Int))`; `std::deque` is a `List` whose head is the front.
* `int` coordinates are unbounded integers: the scan only produces coordinates between
  `-1` and the grid size, far from the range where `int` arithmetic overflows. Where the
  width of a machine integer matters, the conversion is written out (`toInt32`) and an
  operation that leaves the range is undefined (`none`).
* `float` corner coordinates are modelled exactly: a half-integer value `v` is stored
  as the integer `2 * v`, and the conversion `double → float` is IEEE-754 binary32
  rounding to nearest, ties to even (`toFloat`).
* `grid[r][c]` outside the vectors is undefined behaviour in the source; the model
  reports it as `ScanError.outOfBounds`, or as `none` in the other programs.
* The `while (!Q.empty())` loop runs on fuel; `ScanError.outOfFuel` is returned when the
  fuel is used up before the queue is empty.
* The global `cache` of `plutonian-pebbles_p2.cpp` is a function from keys to optional
  values that `processStoneAfterBlinks` takes and returns; the conversion
  `long long → double` of the argument of `std::log10` is IEEE-754 binary64 rounding
  (`toDouble`).
* The `std::vector<long long>` of `disk-fragmenter.cpp` is its storage together with its
  size (`Vec`): `pop_back` lowers the size and leaves the element in the storage, and
  `v[i]` reads the storage without a comparison with the size.
* The `int` counters of `calculateRatingForTrailhead` are added with `addInt`, which has
  no result for a sum outside `int`.
-/

namespace GardenGroups

/-- Equality of results is decidable when it is on errors and on values. -/
instance decEqExcept {ε α : Type} [DecidableEq ε] [DecidableEq α] : DecidableEq (Except ε α)
  | .ok a, .ok b => decidable_of_iff (a = b) ⟨fun h => congrArg _ h, fun h => Except.ok.inj h⟩
  | .error a, .error b =>
    decidable_of_iff (a = b) ⟨fun h => congrArg _ h, fun h => Except.error.inj h⟩
  | .ok _, .error _ => isFalse fun h => Except.noConfusion h
  | .error _, .ok _ => isFalse fun h => Except.noConfusion h

/-- A coordinate `std::pair<int,int>`: `(row, col)`. -/
abbrev Pos := Int × Int

/-- The grid `std::vector<std::vector<char>>`. -/
abbrev Grid := List (List Char)

/-- The ways the model of the scan can stop without a result. -/
inductive ScanError where
  | outOfBounds
  | outOfFuel
  deriving DecidableEq, Repr

/-- The element access `grid[r][c]`; `none` when an index is outside its vector. -/
def cellAt (grid : Grid) (p : Pos) : Option Char :=
  if p.1 < 0 ∨ p.2 < 0 then none
  else
    match grid[p.1.toNat]? with
    | none => none
    | some row => row[p.2.toNat]?

/-- The value of `grid[0].size()` (taken as `0` on a grid without rows, where the source
never evaluates it). -/
def width (grid : Grid) : Nat := (grid.headD []).length

/-- The four neighbours of a cell, in the iteration order of the `std::set` named
`neighbors` in the scan (lexicographic order of pairs). -/
def neighbors (p : Pos) : List Pos :=
  [(p.1 - 1, p.2), (p.1, p.2 - 1), (p.1, p.2 + 1), (p.1 + 1, p.2)]

/-- The neighbours in the order of the initializer list of `calculatePerimeter`. -/
def perimeterNeighbors (p : Pos) : List Pos :=
  [(p.1 + 1, p.2), (p.1 - 1, p.2), (p.1, p.2 - 1), (p.1, p.2 + 1)]

/-- The function `calculatePerimeter`: every cell adds 4 and every neighbour found in
the region takes 1 away. -/
def calculatePerimeter (region : Finset Pos) : Int :=
  ∑ p ∈ region,
    (perimeterNeighbors p).foldl (fun acc n => if n ∈ region then acc - 1 else acc) 4

/-- The variables of the scan that live across iterations of the `while` loop. -/
structure BfsState where
  region : Finset Pos
  visited : Finset Pos
  Q : List Pos

/-- The body of the `for` loop over `neighbors` (lines 92-106 of garden-groups.cpp). -/
def visitNeighbor (grid : Grid) (plant : Char) (s : BfsState) (n : Pos) :
    Except ScanError BfsState :=
  if n.1 < 0 ∨ n.2 < 0 ∨ (grid.length : Int) ≤ n.1 ∨ (width grid : Int) ≤ n.2 then
    .ok s
  else
    match cellAt grid n with
    | none => .error .outOfBounds
    | some ch =>
      if ch ≠ plant then .ok s
      else if n ∈ s.region then .ok s
      else .ok { region := insert n s.region, visited := insert n s.visited, Q := n :: s.Q }

/-- The `for` loop over the neighbours of the cell taken from the queue. -/
def visitNeighbors (grid : Grid) (plant : Char) :
    List Pos → BfsState → Except ScanError BfsState
  | [], s => .ok s
  | n :: ns, s =>
    match visitNeighbor grid plant s n with
    | .error e => .error e
    | .ok s1 => visitNeighbors grid plant ns s1

/-- The loop `while (!Q.empty())`: take the back of the queue, visit its neighbours. -/
def bfsLoop (grid : Grid) (plant : Char) : Nat → BfsState → Except ScanError BfsState
  | 0, s => if s.Q = [] then .ok s else .error .outOfFuel
  | fuel + 1, s =>
    match s.Q.getLast? with
    | none => .ok s
    | some cur =>
      match visitNeighbors grid plant (neighbors cur) { s with Q := s.Q.dropLast } with
      | .error e => .error e
      | .ok s1 => bfsLoop grid plant fuel s1

/-- The variables of the scan that live across iterations of the two `for` loops. -/
structure ScanState where
  allRegions : Finset (Finset Pos)
  visited : Finset Pos
  Q : List Pos

/-- The body of the inner `for` loop of the scan at position `(i, j)`
(lines 66-109 of garden-groups.cpp). -/
def scanCell (fuel : Nat) (grid : Grid) (s : ScanState) (p : Pos) :
    Except ScanError ScanState :=
  if p ∈ s.visited then .ok s
  else
    match cellAt grid p with
    | none => .error .outOfBounds
    | some plant =>
      match bfsLoop grid plant fuel
          { region := {p}, visited := insert p s.visited, Q := p :: s.Q } with
      | .error e => .error e
      | .ok b => .ok { allRegions := insert b.region s.allRegions, visited := b.visited, Q := b.Q }

/-- The positions `(i, j)` in the order the two `for` loops reach them: `i` over
`grid.size()`, `j` over `grid[i].size()`. -/
def scanOrder (grid : Grid) : List Pos :=
  (List.range grid.length).flatMap fun (i : Nat) =>
    (List.range (grid.getD i []).length).map fun (j : Nat) => ((i : Int), (j : Int))

/-- The two nested `for` loops over a list of positions. -/
def scanCells (fuel : Nat) (grid : Grid) : List Pos → ScanState → Except ScanError ScanState
  | [], s => .ok s
  | p :: ps, s =>
    match scanCell fuel grid s p with
    | .error e => .error e
    | .ok s1 => scanCells fuel grid ps s1

/-- The scan of `calculatePriceOfFences` (lines 62-111) with `fuel` iterations allowed
to each run of the `while` loop: the value of `allRegions` after the loops. -/
def scanWith (fuel : Nat) (grid : Grid) : Except ScanError (Finset (Finset Pos)) :=
  match scanCells fuel grid (scanOrder grid) { allRegions := ∅, visited := ∅, Q := [] } with
  | .error e => .error e
  | .ok s => .ok s.allRegions

/-- The scan with fuel `rows * cols + 1`. A run of the `while` loop takes from the queue
the cell it started from and cells inside `rows * cols`, each once, so this is enough on
every grid; more fuel does not change the result (`scanWith_fuel`). -/
def discoverRegions (grid : Grid) : Except ScanError (Finset (Finset Pos)) :=
  scanWith (grid.length * width grid + 1) grid

/-- The price loop of garden-groups.cpp (lines 112-126) over the regions found. The
`long long` total is an unbounded integer: on `n` cells it is below `4 * n * n`. -/
def priceOfRegions (metric : Finset Pos → Int) (regions : Finset (Finset Pos)) : Int :=
  ∑ reg ∈ regions, (reg.card : Int) * metric reg

/-- The value printed by `calculatePriceOfFences` of garden-groups.cpp. -/
def calculatePriceOfFences (grid : Grid) : Except ScanError Int :=
  match discoverRegions grid with
  | .error e => .error e
  | .ok regions => .ok (priceOfRegions calculatePerimeter regions)

/-- A position inside the grid: `0 ≤ row < grid.size()` and `0 ≤ col < grid[0].size()`. -/
def InGrid (grid : Grid) (p : Pos) : Prop :=
  0 ≤ p.1 ∧ p.1 < grid.length ∧ 0 ≤ p.2 ∧ p.2 < width grid

instance (grid : Grid) (p : Pos) : Decidable (InGrid grid p) := by
  unfold InGrid; infer_instance

/-- A non-empty rectangular grid: at least one row, all rows as long as the first. -/
def WellFormed (grid : Grid) : Prop :=
  grid ≠ [] ∧ ∀ row ∈ grid, row.length = width grid

instance (grid : Grid) : Decidable (WellFormed grid) := by
  unfold WellFormed; infer_instance

/-- 4-connected adjacency: the cells differ by one unit in exactly one axis. -/
def Adjacent (p q : Pos) : Prop :=
  (p.1 = q.1 ∧ (p.2 - q.2).natAbs = 1) ∨ (p.2 = q.2 ∧ (p.1 - q.1).natAbs = 1)

instance (p q : Pos) : Decidable (Adjacent p q) := by
  unfold Adjacent; infer_instance

/-- One step of a same-label path: two adjacent cells of the grid with equal labels. -/
def SameLabelStep (grid : Grid) (p q : Pos) : Prop :=
  InGrid grid p ∧ InGrid grid q ∧ Adjacent p q ∧ cellAt grid p = cellAt grid q

/-- A 4-connected same-label path between two cells of the grid. -/
def SameLabelPath (grid : Grid) (a b : Pos) : Prop :=
  Relation.ReflTransGen (SameLabelStep grid) a b

/-- A path of 4-adjacent cells that all lie in `region`. -/
def PathIn (region : Finset Pos) (a b : Pos) : Prop :=
  Relation.ReflTransGen (fun x y => x ∈ region ∧ y ∈ region ∧ Adjacent x y) a b

/-- All positions of the grid. -/
def cells (grid : Grid) : Finset Pos :=
  (Finset.range grid.length ×ˢ Finset.range (width grid)).image
    fun (ij : Nat × Nat) => ((ij.1 : Int), (ij.2 : Int))

/-- The invariant of the `while` loop of the scan started at `p0` with label `plant` and
visited set `V0`. Cells in `pending` are taken from the queue but not yet expanded. -/
structure BfsInv (grid : Grid) (plant : Char) (p0 : Pos) (V0 : Finset Pos)
    (pending : List Pos) (s : BfsState) : Prop where
  start_mem : p0 ∈ s.region
  inGrid : ∀ p ∈ s.region, InGrid grid p ∧ cellAt grid p = some plant
  path : ∀ p ∈ s.region, PathIn s.region p0 p
  queue : ∀ q ∈ s.Q, q ∈ s.region
  closed : ∀ p ∈ s.region, p ∉ s.Q → p ∉ pending →
    ∀ n, InGrid grid n → Adjacent p n → cellAt grid n = some plant → n ∈ s.region
  visited : s.visited = V0 ∪ s.region


/-- What the scan establishes for every set it puts in `allRegions`. -/
structure IsRegion (grid : Grid) (R : Finset Pos) : Prop where
  nonempty : R.Nonempty
  inGrid : ∀ p ∈ R, InGrid grid p
  label : ∃ ch, ∀ p ∈ R, cellAt grid p = some ch
  path : ∀ a ∈ R, ∀ b ∈ R, PathIn R a b
  closed : ∀ a ∈ R, ∀ b, InGrid grid b → Adjacent a b → cellAt grid b = cellAt grid a → b ∈ R

/-- The invariant of the two `for` loops of the scan. -/
structure ScanInv (grid : Grid) (s : ScanState) : Prop where
  queue : s.Q = []
  regions : ∀ R ∈ s.allRegions, IsRegion grid R
  visited : ∀ p, p ∈ s.visited ↔ ∃ R ∈ s.allRegions, p ∈ R

/-- A maximal same-label 4-connected region of the grid: a non-empty set of grid cells
that holds, with each of its cells, exactly the cells joined to it by a 4-connected
same-label path. -/
def IsMaximalRegion (grid : Grid) (R : Finset Pos) : Prop :=
  R.Nonempty ∧ (∀ a ∈ R, InGrid grid a) ∧ ∀ a ∈ R, ∀ b, b ∈ R ↔ SameLabelPath grid a b

/-- The grid of scenario B: rows `AAAA`, `BBCD`, `BBCC`, `EEEC`. -/
def scenarioB : Grid :=
  [['A', 'A', 'A', 'A'], ['B', 'B', 'C', 'D'], ['B', 'B', 'C', 'C'], ['E', 'E', 'E', 'C']]

/-- The grid of scenario A: one cell labelled `A`. -/
def scenarioA : Grid := [['A']]

/-- The four unit steps: down, up, left, right. -/
def directions : Finset Pos := {(1, 0), (-1, 0), (0, -1), (0, 1)}

/-- The unit boundary edges of a region: the pairs (cell, direction) whose neighbouring
cell in that direction is not in the region. -/
def boundaryEdges (region : Finset Pos) : Finset (Pos × Pos) :=
  (region ×ˢ directions).filter fun pd => (pd.1.1 + pd.2.1, pd.1.2 + pd.2.2) ∉ region

/-- A grid none of whose rows is shorter than the first one. Rows may be longer, and the
grid may have no row at all. -/
def FirstRowShortest (grid : Grid) : Prop :=
  ∀ row ∈ grid, width grid ≤ row.length

instance (grid : Grid) : Decidable (FirstRowShortest grid) := by
  unfold FirstRowShortest; infer_instance

/-- A grid with rows of unequal length: the second row is longer than the first. -/
def jaggedGrid : Grid := [['A'], ['A', 'B']]

/-- A grid with rows of unequal length on which the regions found overlap. -/
def jaggedGridOverlap : Grid := [['A'], ['A', 'A']]

/-- The pairs of 4-adjacent cells of a region, in both orders. -/
def adjacentOrdered (region : Finset Pos) : Finset (Pos × Pos) :=
  (region ×ˢ region).filter fun pq => Adjacent pq.1 pq.2

/-- The unordered pairs of 4-adjacent cells that both lie in the region: the edges
shared by two cells of the region. -/
def sharedEdges (region : Finset Pos) : Finset (Sym2 Pos) :=
  (adjacentOrdered region).image fun pq => s(pq.1, pq.2)

/-- What the scan is seen to do with the visited set and the queue: the coordinates in
the order in which they are put in `visited` and pushed on `Q` (the latest first; the two
calls always come together, lines 74-75 and 105-106), and the number of calls of
`Q.pop_back` (line 82). -/
structure Trace where
  pushed : List Pos
  pops : Nat

/-- The body of the `for` loop over `neighbors`, with the trace. -/
def visitNeighborT (grid : Grid) (plant : Char) (st : BfsState × Trace) (n : Pos) :
    Except ScanError (BfsState × Trace) :=
  if n.1 < 0 ∨ n.2 < 0 ∨ (grid.length : Int) ≤ n.1 ∨ (width grid : Int) ≤ n.2 then
    .ok st
  else
    match cellAt grid n with
    | none => .error .outOfBounds
    | some ch =>
      if ch ≠ plant then .ok st
      else if n ∈ st.1.region then .ok st
      else .ok ({ region := insert n st.1.region, visited := insert n st.1.visited,
                  Q := n :: st.1.Q },
                { pushed := n :: st.2.pushed, pops := st.2.pops })

/-- The `for` loop over the neighbours, with the trace. -/
def visitNeighborsT (grid : Grid) (plant : Char) :
    List Pos → BfsState × Trace → Except ScanError (BfsState × Trace)
  | [], st => .ok st
  | n :: ns, st =>
    match visitNeighborT grid plant st n with
    | .error e => .error e
    | .ok st1 => visitNeighborsT grid plant ns st1

/-- The loop `while (!Q.empty())`, with the trace. -/
def bfsLoopT (grid : Grid) (plant : Char) :
    Nat → BfsState × Trace → Except ScanError (BfsState × Trace)
  | 0, st => if st.1.Q = [] then .ok st else .error .outOfFuel
  | fuel + 1, st =>
    match st.1.Q.getLast? with
    | none => .ok st
    | some cur =>
      match visitNeighborsT grid plant (neighbors cur)
          ({ st.1 with Q := st.1.Q.dropLast }, { pushed := st.2.pushed, pops := st.2.pops + 1 }) with
      | .error e => .error e
      | .ok st1 => bfsLoopT grid plant fuel st1

/-- The body of the inner `for` loop of the scan, with the trace. -/
def scanCellT (fuel : Nat) (grid : Grid) (st : ScanState × Trace) (p : Pos) :
    Except ScanError (ScanState × Trace) :=
  if p ∈ st.1.visited then .ok st
  else
    match cellAt grid p with
    | none => .error .outOfBounds
    | some plant =>
      match bfsLoopT grid plant fuel
          ({ region := {p}, visited := insert p st.1.visited, Q := p :: st.1.Q },
           { pushed := p :: st.2.pushed, pops := st.2.pops }) with
      | .error e => .error e
      | .ok bt =>
        .ok ({ allRegions := insert bt.1.region st.1.allRegions, visited := bt.1.visited,
               Q := bt.1.Q }, bt.2)

/-- The two nested `for` loops over a list of positions, with the trace. -/
def scanCellsT (fuel : Nat) (grid : Grid) :
    List Pos → ScanState × Trace → Except ScanError (ScanState × Trace)
  | [], st => .ok st
  | p :: ps, st =>
    match scanCellT fuel grid st p with
    | .error e => .error e
    | .ok st1 => scanCellsT fuel grid ps st1

/-- The scan with its trace: the value of `allRegions` after the loops, the coordinates
put in `visited` and pushed on `Q`, and the number of pops. -/
def scanWithT (fuel : Nat) (grid : Grid) : Except ScanError (Finset (Finset Pos) × Trace) :=
  match scanCellsT fuel grid (scanOrder grid)
      ({ allRegions := ∅, visited := ∅, Q := [] }, { pushed := [], pops := 0 }) with
  | .error e => .error e
  | .ok st => .ok (st.1.allRegions, st.2)

/-- The link between two states of one run of the `while` loop and their traces: the
coordinates pushed in between are those added to the region, each once, and every push
is matched by a pop or by an element of the queue. -/
def TraceStep (s : BfsState) (t : Trace) (s1 : BfsState) (t1 : Trace) : Prop :=
  s.region ⊆ s1.region ∧
    (∃ new : List Pos, t1.pushed = new ++ t.pushed ∧ new.Nodup ∧
      ∀ p, p ∈ new ↔ p ∈ s1.region ∧ p ∉ s.region) ∧
    t1.pops + s1.Q.length + t.pushed.length = t.pops + s.Q.length + t1.pushed.length

/-- The invariant of the trace over the two `for` loops: no coordinate was pushed twice,
the coordinates pushed are the visited ones, and all of them were popped. -/
def TraceInv (s : ScanState) (t : Trace) : Prop :=
  t.pushed.Nodup ∧ (∀ p, p ∈ t.pushed ↔ p ∈ s.visited) ∧ t.pops = t.pushed.length

end GardenGroups

namespace GardenGroupsP2

open GardenGroups

/-- The spacing of the binary32 values around the magnitude `a`, in the unit of `a`: the
least power of two `q` with `a / q < 2 ^ 24` (binary32 keeps 24 significant bits). The
first argument bounds the number of halvings. -/
def spacing : Nat → Nat → Nat
  | 0, _ => 1
  | fuel + 1, a => if a < 2 ^ 24 then 1 else 2 * spacing fuel (a / 2)

/-- The conversion `double → float` of the value `n / 2` (result again doubled):
IEEE-754 binary32 rounding to nearest, ties to even. Below `2 ^ 24` the doubled value
has at most 24 bits and is kept as it is. -/
def toFloat (n : Int) : Int :=
  let a := n.natAbs
  let q := spacing a a
  let m := a / q
  let r := a % q
  let m1 := if 2 * r < q then m else if q < 2 * r then m + 1 else if m % 2 = 0 then m else m + 1
  Int.sign n * ((m1 * q : Nat) : Int)

/-- The conversion `double → int` of the value `n / 2`: truncation towards zero. -/
def toInt (n : Int) : Int := Int.tdiv n 2

/-- The four corner candidates of a cell, as doubled `float` values, in the order of
the initializer list of the first loop of `countSides`. -/
def cornersOf (p : Pos) : List (Int × Int) :=
  [(toFloat (2 * p.1 - 1), toFloat (2 * p.2 - 1)), (toFloat (2 * p.1 + 1), toFloat (2 * p.2 - 1)),
   (toFloat (2 * p.1 + 1), toFloat (2 * p.2 + 1)), (toFloat (2 * p.1 - 1), toFloat (2 * p.2 + 1))]

/-- The set `cornerCandidates` after the first loop of `countSides`. -/
def cornerCandidates (region : Finset Pos) : Finset (Int × Int) :=
  region.biUnion fun p => (cornersOf p).toFinset

/-- The four squares around a corner candidate (given as doubled `float` values), in
the order of the initializer list of the second loop of `countSides`. -/
def squaresAround (k : Int × Int) : List Pos :=
  [(toInt (k.1 - 1), toInt (k.2 - 1)), (toInt (k.1 + 1), toInt (k.2 - 1)),
   (toInt (k.1 + 1), toInt (k.2 + 1)), (toInt (k.1 - 1), toInt (k.2 + 1))]

/-- The vector `config` of a corner candidate: 1 for a square of the region, else 0. -/
def config (region : Finset Pos) (k : Int × Int) : List Nat :=
  (squaresAround k).map fun sq => if sq ∈ region then 1 else 0

/-- What one corner candidate adds to `corners` (lines 63-77 of garden-groups_p2.cpp). -/
def cornerIncrement (cfg : List Nat) : Int :=
  if cfg.sum = 1 then 1
  else if cfg = [1, 0, 1, 0] ∨ cfg = [0, 1, 0, 1] then 2
  else if cfg.sum = 3 then 1
  else 0

/-- The function `countSides`. -/
def countSides (region : Finset Pos) : Int :=
  ∑ k ∈ cornerCandidates region, cornerIncrement (config region k)

/-- The value printed by `calculatePriceOfFences` of garden-groups_p2.cpp, whose scan
(lines 107-156) is the one of garden-groups.cpp (lines 62-111) word for word. -/
def calculatePriceOfFences (grid : Grid) : Except ScanError Int :=
  match discoverRegions grid with
  | .error e => .error e
  | .ok regions => .ok (priceOfRegions countSides regions)

/-- The region labelled `A` of scenario B. -/
def regionA : Finset Pos := {(0, 0), (0, 1), (0, 2), (0, 3)}

/-- The region labelled `B` of scenario B. -/
def regionB : Finset Pos := {(1, 0), (1, 1), (2, 0), (2, 1)}

/-- The region labelled `C` of scenario B. -/
def regionC : Finset Pos := {(1, 2), (2, 2), (2, 3), (3, 3)}

/-- The region labelled `D` of scenario B. -/
def regionD : Finset Pos := {(1, 3)}

/-- The region labelled `E` of scenario B. -/
def regionE : Finset Pos := {(3, 0), (3, 1), (3, 2)}

/-- The corner points of the cells of a region as lattice points: the cell `(x, y)` has
the corners `(x, y)`, `(x + 1, y)`, `(x + 1, y + 1)` and `(x, y + 1)`; the lattice point
`(i, j)` stands for the half-integer point `(i - 0.5, j - 0.5)`. -/
def cornerPoints (region : Finset Pos) : Finset Pos :=
  region.biUnion fun p => {(p.1, p.2), (p.1 + 1, p.2), (p.1 + 1, p.2 + 1), (p.1, p.2 + 1)}

/-- The four cells around a lattice point. -/
def cellsAround (k : Pos) : List Pos :=
  [(k.1 - 1, k.2 - 1), (k.1, k.2 - 1), (k.1, k.2), (k.1 - 1, k.2)]

/-- The weight of a corner point, decided by which of the four cells around it are
members of the region: 1 for exactly one member, 1 for exactly three, 2 for exactly two
that are diagonally opposite (not adjacent), 0 otherwise. -/
def cornerWeight (region : Finset Pos) (k : Pos) : Int :=
  let members := (cellsAround k).filter (· ∈ region)
  if members.length = 1 then 1
  else if members.length = 3 then 1
  else if members.length = 2 ∧ ∀ a ∈ members, ∀ b ∈ members, ¬ Adjacent a b then 2
  else 0

/-- The sum of the corner weights over the distinct corner points of a region. -/
def cornerSum (region : Finset Pos) : Int :=
  ∑ k ∈ cornerPoints region, cornerWeight region k

/-- A region whose coordinates are below `2 ^ 23` in absolute value, so that every
corner `x ± 0.5` of its cells is a binary32 value. -/
def Small (region : Finset Pos) : Prop :=
  ∀ p ∈ region, p.1.natAbs < 2 ^ 23 ∧ p.2.natAbs < 2 ^ 23

instance (region : Finset Pos) : Decidable (Small region) := by
  unfold Small; infer_instance

/-- The cell `p` is in the region and has a unit boundary edge facing direction `d`: its
neighbour in direction `d` is not in the region. -/
def HasEdge (region : Finset Pos) (p d : Pos) : Prop :=
  p ∈ region ∧ (p.1 + d.1, p.2 + d.2) ∉ region

instance (region : Finset Pos) (p d : Pos) : Decidable (HasEdge region p d) := by
  unfold HasEdge; infer_instance

/-- The step between consecutive cells whose edges facing `d` are collinear: along the
row for edges facing up or down, along the column for edges facing left or right. -/
def along (d : Pos) : Pos := ((d.2.natAbs : Int), (d.1.natAbs : Int))

/-- The cell `i` steps from `p` along the line of the edges facing `d`. -/
def cellAlong (p d : Pos) (i : Int) : Pos :=
  (p.1 + i * (along d).1, p.2 + i * (along d).2)

/-- A maximal straight boundary segment: the `n + 1` consecutive cells starting at `p`
all have a boundary edge facing `d`, and the run cannot be extended at either end. -/
def IsSegment (region : Finset Pos) (p d : Pos) (n : Nat) : Prop :=
  (∀ i ∈ List.range (n + 1), HasEdge region (cellAlong p d i) d) ∧
    ¬ HasEdge region (cellAlong p d (-1)) d ∧ ¬ HasEdge region (cellAlong p d (n + 1)) d

instance (region : Finset Pos) (p d : Pos) (n : Nat) : Decidable (IsSegment region p d n) := by
  unfold IsSegment; infer_instance

/-- The maximal straight boundary segments of a region, each given by its first cell,
the direction its edges face, and its number of edges less one. -/
def segments (region : Finset Pos) : Finset (Pos × Pos × Nat) :=
  (region ×ˢ directions ×ˢ Finset.range region.card).filter
    fun s => IsSegment region s.1 s.2.1 s.2.2

/-- The number of maximal straight boundary segments of a region. -/
def sideSegments (region : Finset Pos) : Int := (segments region).card

/-- The cell `p` begins a run of boundary edges facing `d`: it has such an edge and the
cell before it on the line has none. -/
def IsStart (region : Finset Pos) (p d : Pos) : Prop :=
  HasEdge region p d ∧ ¬ HasEdge region (cellAlong p d (-1)) d

instance (region : Finset Pos) (p d : Pos) : Decidable (IsStart region p d) := by
  unfold IsStart; infer_instance

/-- The cell `p` ends a run of boundary edges facing `d`: it has such an edge and the
cell after it on the line has none. -/
def IsEnd (region : Finset Pos) (p d : Pos) : Prop :=
  HasEdge region p d ∧ ¬ HasEdge region (cellAlong p d 1) d

instance (region : Finset Pos) (p d : Pos) : Decidable (IsEnd region p d) := by
  unfold IsEnd; infer_instance

/-- The plus-shaped region with centre `(r, c)`. -/
def plusRegion (r c : Int) : Finset Pos :=
  {(r, c), (r - 1, c), (r + 1, c), (r, c - 1), (r, c + 1)}

/-- The region moved by the offset `t`. -/
def shift (t : Pos) (region : Finset Pos) : Finset Pos :=
  region.image fun p => (p.1 + t.1, p.2 + t.2)

end GardenGroupsP2

namespace HoofIt

open GardenGroups (Pos neighbors Adjacent)

/-- The grid `std::vector<std::vector<int>>` of heights. -/
abbrev HGrid := List (List Int)

/-- The ways the model of hoof-it.cpp can stop without a result: an index outside a
vector (undefined behaviour in the source), `std::map::at` on a missing key (an uncaught
`std::out_of_range`), an `int` addition whose sum is outside the range of `int`
(undefined behaviour in the source), or the fuel of the `while` loop used up. -/
inductive HoofError where
  | outOfBounds
  | keyMissing
  | overflow
  | outOfFuel
  deriving DecidableEq, Repr

/-- The element access `grid[r][c]`; `none` when an index is outside its vector. -/
def heightAt (grid : HGrid) (p : Pos) : Option Int :=
  if p.1 < 0 ∨ p.2 < 0 then none
  else
    match grid[p.1.toNat]? with
    | none => none
    | some row => row[p.2.toNat]?

/-- The value of `grid[0].size()`. -/
def cols (grid : HGrid) : Nat := (grid.headD []).length

/-- The variables of `calculateScoreForTrailhead` that live across iterations. -/
structure ScoreState where
  Q : List Pos
  visited : Finset Pos
  hillTops : Int

/-- The body of the `for` loop over `neighbors` in `calculateScoreForTrailhead`
(lines 86-100 of hoof-it.cpp). -/
def scoreNeighbor (grid : HGrid) (cur : Pos) (s : ScoreState) (n : Pos) :
    Except HoofError ScoreState :=
  if n.1 < 0 ∨ n.2 < 0 ∨ (grid.length : Int) ≤ n.1 ∨ (cols grid : Int) ≤ n.2 then .ok s
  else
    match heightAt grid n, heightAt grid cur with
    | some hn, some hc =>
      if hn ≠ hc + 1 then .ok s
      else if n ∈ s.visited then .ok s
      else if hn = 9 then
        .ok { s with visited := insert n s.visited, hillTops := s.hillTops + 1 }
      else .ok { s with visited := insert n s.visited, Q := n :: s.Q }
    | _, _ => .error .outOfBounds

/-- The `for` loop over the neighbours in `calculateScoreForTrailhead`. -/
def scoreNeighbors (grid : HGrid) (cur : Pos) :
    List Pos → ScoreState → Except HoofError ScoreState
  | [], s => .ok s
  | n :: ns, s =>
    match scoreNeighbor grid cur s n with
    | .error e => .error e
    | .ok s1 => scoreNeighbors grid cur ns s1

/-- The `while` loop of `calculateScoreForTrailhead`. -/
def scoreLoop (grid : HGrid) : Nat → ScoreState → Except HoofError ScoreState
  | 0, s => if s.Q = [] then .ok s else .error .outOfFuel
  | fuel + 1, s =>
    match s.Q.getLast? with
    | none => .ok s
    | some cur =>
      match scoreNeighbors grid cur (neighbors cur) { s with Q := s.Q.dropLast } with
      | .error e => .error e
      | .ok s1 => scoreLoop grid fuel s1

/-- The function `calculateScoreForTrailhead`, with fuel `rows * cols + 1` for its `while`
loop. The `int` counter is an unbounded integer; it stays below `rows * cols`. -/
def calculateScoreForTrailhead (grid : HGrid) (trailhead : Pos) : Except HoofError Int :=
  match scoreLoop grid (grid.length * cols grid + 1)
      { Q := [trailhead], visited := {trailhead}, hillTops := 0 } with
  | .error e => .error e
  | .ok s => .ok s.hillTops

/-- The variables of `calculateRatingForTrailhead` that live across iterations; the
`std::map` named `visited` is a partial function. -/
structure RatingState where
  Q : List Pos
  visited : Pos → Option Int
  numberOfTrails : Int

/-- The addition of two `int` values, as in `numberOfTrails += ...` and
`visited.at(...) += ...`: a sum outside the range of `int` has no defined result. -/
def addInt (a b : Int) : Except HoofError Int :=
  if -2 ^ 31 ≤ a + b ∧ a + b < 2 ^ 31 then .ok (a + b) else .error .overflow

/-- The call `visited.at(key)`. -/
def mapAt (visited : Pos → Option Int) (key : Pos) : Except HoofError Int :=
  match visited key with
  | none => .error .keyMissing
  | some v => .ok v

/-- The map with `value` stored at `key`. -/
def mapSet (visited : Pos → Option Int) (key : Pos) (value : Int) : Pos → Option Int :=
  fun p => if p = key then some value else visited p

/-- The body of the `for` loop over `neighbors` in `calculateRatingForTrailhead`
(lines 143-157 of hoof-it.cpp). -/
def ratingNeighbor (grid : HGrid) (cur : Pos) (s : RatingState) (n : Pos) :
    Except HoofError RatingState :=
  if n.1 < 0 ∨ n.2 < 0 ∨ (grid.length : Int) ≤ n.1 ∨ (cols grid : Int) ≤ n.2 then .ok s
  else
    match heightAt grid n, heightAt grid cur with
    | some hn, some hc =>
      if hn ≠ hc + 1 then .ok s
      else
        match s.visited n with
        | some vn =>
          match mapAt s.visited cur with
          | .error e => .error e
          | .ok vc =>
            match addInt vn vc with
            | .error e => .error e
            | .ok v => .ok { s with visited := mapSet s.visited n v }
        | none =>
          match mapAt s.visited cur with
          | .error e => .error e
          | .ok vc => .ok { s with visited := mapSet s.visited n vc, Q := n :: s.Q }
    | _, _ => .error .outOfBounds

/-- The `for` loop over the neighbours in `calculateRatingForTrailhead`. -/
def ratingNeighbors (grid : HGrid) (cur : Pos) :
    List Pos → RatingState → Except HoofError RatingState
  | [], s => .ok s
  | n :: ns, s =>
    match ratingNeighbor grid cur s n with
    | .error e => .error e
    | .ok s1 => ratingNeighbors grid cur ns s1

/-- The part of the `while` loop body of `calculateRatingForTrailhead` before the `for`
loop (lines 128-134): the cell is taken from the queue by the caller, and a cell of
height 9 adds its count to `numberOfTrails`. -/
def ratingArrive (grid : HGrid) (cur : Pos) (s : RatingState) : Except HoofError RatingState :=
  match heightAt grid cur with
  | none => .error .outOfBounds
  | some hc =>
    if hc = 9 then
      match mapAt s.visited cur with
      | .error e => .error e
      | .ok vc =>
        match addInt s.numberOfTrails vc with
        | .error e => .error e
        | .ok v => .ok { s with numberOfTrails := v }
    else .ok s

/-- The `while` loop of `calculateRatingForTrailhead`. -/
def ratingLoop (grid : HGrid) : Nat → RatingState → Except HoofError RatingState
  | 0, s => if s.Q = [] then .ok s else .error .outOfFuel
  | fuel + 1, s =>
    match s.Q.getLast? with
    | none => .ok s
    | some cur =>
      match ratingArrive grid cur { s with Q := s.Q.dropLast } with
      | .error e => .error e
      | .ok s1 =>
        match ratingNeighbors grid cur (neighbors cur) s1 with
        | .error e => .error e
        | .ok s2 => ratingLoop grid fuel s2

/-- The function `calculateRatingForTrailhead`, with fuel `rows * cols + 1` for its
`while` loop. The counts of the map and `numberOfTrails` are `int` values: every addition
goes through `addInt`. -/
def calculateRatingForTrailhead (grid : HGrid) (trailhead : Pos) : Except HoofError Int :=
  match ratingLoop grid (grid.length * cols grid + 1)
      { Q := [trailhead], visited := mapSet (fun _ => none) trailhead 1, numberOfTrails := 0 } with
  | .error e => .error e
  | .ok s => .ok s.numberOfTrails

/-- A small map: the larger example of the puzzle text. -/
def exampleMap : HGrid :=
  [[8, 9, 0, 1, 0, 1, 2, 3], [7, 8, 1, 2, 1, 8, 7, 4], [8, 7, 4, 3, 0, 9, 6, 5],
   [9, 6, 5, 4, 9, 8, 7, 4], [4, 5, 6, 7, 8, 9, 0, 3], [3, 2, 0, 1, 9, 0, 1, 2],
   [0, 1, 3, 2, 9, 8, 0, 1], [1, 0, 4, 5, 6, 7, 3, 2]]

/-- A position inside the grid: `0 ≤ row < grid.size()` and `0 ≤ col < grid[0].size()`. -/
def Inside (grid : HGrid) (p : Pos) : Prop :=
  0 ≤ p.1 ∧ p.1 < grid.length ∧ 0 ≤ p.2 ∧ p.2 < cols grid

instance (grid : HGrid) (p : Pos) : Decidable (Inside grid p) := by
  unfold Inside; infer_instance

/-- A rectangular grid: all rows as long as the first. -/
def Rectangular (grid : HGrid) : Prop :=
  ∀ row ∈ grid, row.length = cols grid

instance (grid : HGrid) : Decidable (Rectangular grid) := by
  unfold Rectangular; infer_instance

/-- One step of a hiking trail: between 4-adjacent cells of the grid, the height
increasing by exactly 1. -/
def Step (grid : HGrid) (a b : Pos) : Prop :=
  Inside grid a ∧ Inside grid b ∧ Adjacent a b ∧ heightAt grid a ≠ none ∧
    heightAt grid b = (heightAt grid a).map (· + 1)

instance (grid : HGrid) (a b : Pos) : Decidable (Step grid a b) := by
  unfold Step; infer_instance

/-- The cell `b` is reachable from `a` by steps of a hiking trail. -/
def Reach (grid : HGrid) (a b : Pos) : Prop :=
  Relation.ReflTransGen (Step grid) a b

/-- A hiking trail from `start`: a list of cells that begins with `start`, moves by steps
of a hiking trail, and ends on a cell of height 9. -/
def IsTrail (grid : HGrid) (start : Pos) (l : List Pos) : Prop :=
  l.head? = some start ∧ List.Chain' (Step grid) l ∧
    ∃ q, l.getLast? = some q ∧ heightAt grid q = some 9

/-- All positions of the grid. -/
def cells (grid : HGrid) : Finset Pos :=
  (Finset.range grid.length ×ˢ Finset.range (cols grid)).image
    fun (ij : Nat × Nat) => ((ij.1 : Int), (ij.2 : Int))

/-- The invariant of the `while` loop of `calculateScoreForTrailhead`. Cells in `pending`
are taken from the queue but not yet expanded. -/
structure ScoreInv (grid : HGrid) (start : Pos) (pending : List Pos) (s : ScoreState) :
    Prop where
  start_mem : start ∈ s.visited
  inside : ∀ v ∈ s.visited, Inside grid v
  reach : ∀ v ∈ s.visited, Reach grid start v
  queue : ∀ q ∈ s.Q, q ∈ s.visited ∧ heightAt grid q ≠ some 9
  closed : ∀ v ∈ s.visited, v ∉ s.Q → v ∉ pending → heightAt grid v ≠ some 9 →
    ∀ n, Step grid v n → n ∈ s.visited
  tops : s.hillTops = ((s.visited.filter fun v => heightAt grid v = some 9).card : Int)

/-- The cells one step of a hiking trail away from `a`. -/
def stepsFrom (grid : HGrid) (a : Pos) : List Pos :=
  (neighbors a).filter fun n => Step grid a n

/-- The lists of cells that begin with `q` and make exactly `n` steps of a hiking trail. -/
def pathsFrom (grid : HGrid) : Nat → Pos → Finset (List Pos)
  | 0, q => {[q]}
  | n + 1, q =>
    (stepsFrom grid q).toFinset.biUnion fun m => (pathsFrom grid n m).image (q :: ·)

/-- The hiking trails from `q`: from height `h ≤ 9` they make exactly `9 - h` steps. -/
def trails (grid : HGrid) (q : Pos) : Finset (List Pos) :=
  match heightAt grid q with
  | some h => if h ≤ 9 then pathsFrom grid (9 - h).toNat q else ∅
  | none => ∅

/-- The number of hiking trails from `q`. -/
def trailCount (grid : HGrid) (q : Pos) : Int := (trails grid q).card

/-- The height of a cell, 0 outside the grid. -/
def hgt (grid : HGrid) (p : Pos) : Int := (heightAt grid p).getD 0

/-- The count stored for a cell in the map `visited`, 0 for a missing key. -/
def countOf (s : RatingState) (p : Pos) : Int := (s.visited p).getD 0

/-- The invariant of the loops of `calculateRatingForTrailhead`: `keys` is the set of
keys of the map, the queue holds distinct cells of heights `level` and `level + 1`, the
lower ones nearer its back, every key outside the queue has height at most `level`, and
`numberOfTrails`, the counts of the queued cells weighted by their numbers of trails,
and the share `pending` of the cell being expanded add up to the answer. -/
structure RatingInv (grid : HGrid) (start : Pos) (keys : Finset Pos) (level pending : Int)
    (s : RatingState) : Prop where
  key : ∀ p, s.visited p ≠ none ↔ p ∈ keys
  inside : ∀ p ∈ keys, Inside grid p
  nodup : s.Q.Nodup
  queue : ∀ q ∈ s.Q, q ∈ keys
  low : ∀ q ∈ s.Q, level ≤ hgt grid q ∧ hgt grid q ≤ level + 1
  sorted : s.Q.Pairwise fun a b => hgt grid b ≤ hgt grid a
  popped : ∀ v ∈ keys, v ∉ s.Q → hgt grid v ≤ level
  flow : s.numberOfTrails + (s.Q.map fun q => countOf s q * trailCount grid q).sum + pending =
    trailCount grid start

/-- The weight of a cell in the bound of the counts: `4 ^ (9 - height)`, at least the
number of trails from the cell when no height of the grid is above 9. -/
def weight (grid : HGrid) (p : Pos) : Int := 4 ^ (9 - hgt grid p).toNat

/-- The bound of the loops of `calculateRatingForTrailhead`: the counts and
`numberOfTrails` are not negative, and `numberOfTrails`, the counts of the queued cells
multiplied by their weights, and the share `pending` of the cell being expanded stay
below `total`. -/
def Bounded (grid : HGrid) (total pending : Int) (s : RatingState) : Prop :=
  0 ≤ s.numberOfTrails ∧ (∀ p, 0 ≤ countOf s p) ∧
    s.numberOfTrails + (s.Q.map fun q => countOf s q * weight grid q).sum + pending ≤ total

/-- A grid as `main` builds it: every height is a digit, or `-1` for another character. -/
def DigitGrid (grid : HGrid) : Prop :=
  ∀ row ∈ grid, ∀ x ∈ row, -1 ≤ x ∧ x ≤ 9

instance (grid : HGrid) : Decidable (DigitGrid grid) := by
  unfold DigitGrid; infer_instance

end HoofIt

namespace BridgeRepair

/-- The function `removeLastElement`: the vector without its last element (an empty
vector stays empty). -/
def removeLastElement (vec : List Int) : List Int := vec.dropLast

/-- The function `checkIfEquationCanBeTrue` of bridge-repair.cpp with `fuel` nested calls
allowed. The `long long` and `int` values are unbounded integers (the function only
divides and subtracts); `/` and `%` truncate as in C++. The result is `none` when the
source has undefined behaviour (`listOfNumbers[size() - 1]` on an empty vector, `%` by
zero) or when the fuel is used up. -/
def check : Nat → Int → List Int → Option Bool
  | 0, _, _ => none
  | fuel + 1, testValue, listOfNumbers =>
    if listOfNumbers.length = 1 then
      match listOfNumbers[0]? with
      | some first => some (decide (testValue = first))
      | none => none
    else
      match listOfNumbers.getLast? with
      | none => none
      | some last =>
        if last = 0 then none
        else
          let byDivision :=
            if testValue.tmod last = 0 then
              check fuel (testValue.tdiv last) (removeLastElement listOfNumbers)
            else some false
          match byDivision with
          | none => none
          | some true => some true
          | some false =>
            if testValue > last then
              check fuel (testValue - last) (removeLastElement listOfNumbers)
            else some false

/-- The function `checkIfEquationCanBeTrue`: one call per element of the vector. -/
def checkIfEquationCanBeTrue (testValue : Int) (listOfNumbers : List Int) : Option Bool :=
  check listOfNumbers.length testValue listOfNumbers

/-- The two operators that can stand between consecutive numbers. -/
inductive Op where
  | add
  | mul
  deriving DecidableEq, Repr

/-- The value of `acc op y`. -/
def applyOp (op : Op) (acc y : Int) : Int :=
  match op with
  | .add => acc + y
  | .mul => acc * y

/-- The value of the numbers with the operators `ops` between consecutive numbers,
evaluated strictly left to right; `none` unless there is exactly one operator for each
gap. -/
def evalLeft : List Int → List Op → Option Int
  | [], _ => none
  | first :: others, ops =>
    if ops.length = others.length then
      some ((ops.zip others).foldl (fun acc oy => applyOp oy.1 acc oy.2) first)
    else none

/-- Some choice of operators makes the numbers evaluate to `value`. -/
def CanEvaluateTo (numbers : List Int) (value : Int) : Prop :=
  ∃ ops, evalLeft numbers ops = some value

end BridgeRepair

namespace GuardGallivant

open GardenGroups (Pos Grid cellAt width InGrid WellFormed)

/-- The enum `Direction` of guard-gallivant_p2.cpp. -/
inductive Direction where
  | UP
  | RIGHT
  | DOWN
  | LEFT
  deriving DecidableEq, Repr

/-- The ways the model of `navigateGrid` can stop without a result: an index outside the
grid or a start position that was never assigned (undefined behaviour in the source), or
the fuel of the `while (true)` loop used up. -/
inductive NavError where
  | outOfBounds
  | noStart
  | outOfFuel
  deriving DecidableEq, Repr

/-- The function `turnRight`: `(dir + 1) % 4`. -/
def turnRight : Direction → Direction
  | .UP => .RIGHT
  | .RIGHT => .DOWN
  | .DOWN => .LEFT
  | .LEFT => .UP

/-- The function `moveForward`. -/
def moveForward (pos : Pos) : Direction → Pos
  | .UP => (pos.1 - 1, pos.2)
  | .RIGHT => (pos.1, pos.2 + 1)
  | .DOWN => (pos.1 + 1, pos.2)
  | .LEFT => (pos.1, pos.2 - 1)

/-- The function `findStartPosition`: every row that holds a `^` assigns the position of
its first `^` (the `break` leaves the inner loop only); `none` stands for the variable
`pos` never assigned. -/
def findStartPosition (grid : Grid) : Option Pos :=
  (List.range grid.length).foldl
    (fun pos (i : Nat) =>
      let row := grid.getD i []
      if row.indexOf '^' < row.length then some ((i : Int), ((row.indexOf '^' : Nat) : Int))
      else pos)
    none

/-- The assignment `grid[p.x][p.y] = c`. -/
def setCell (grid : Grid) (p : Pos) (c : Char) : Grid :=
  grid.set p.1.toNat ((grid.getD p.1.toNat []).set p.2.toNat c)

/-- The variables of `navigateGrid` that live across iterations of the loop. -/
structure NavState where
  pos : Pos
  dir : Direction
  visitedPositions : Finset Pos
  visitedStates : Finset (Pos × Direction)

/-- The loop `while (true)` of `navigateGrid` (lines 159-188), returning the pair the
function returns. -/
def navLoop (grid : Grid) : Nat → NavState → Except NavError (Nat × Bool)
  | 0, _ => .error .outOfFuel
  | fuel + 1, s =>
    let nextPos := moveForward s.pos s.dir
    if nextPos.1 < 0 ∨ (grid.length : Int) ≤ nextPos.1 ∨ nextPos.2 < 0 ∨
        (width grid : Int) ≤ nextPos.2 then
      .ok (s.visitedPositions.card, false)
    else
      match cellAt grid nextPos with
      | none => .error .outOfBounds
      | some ch =>
        let s1 : NavState :=
          if ch = '#' then { s with dir := turnRight s.dir }
          else { s with pos := nextPos, visitedPositions := insert nextPos s.visitedPositions }
        if (s1.pos, s1.dir) ∈ s1.visitedStates then .ok (s1.visitedPositions.card, true)
        else navLoop grid fuel { s1 with visitedStates := insert (s1.pos, s1.dir) s1.visitedStates }

/-- The function `navigateGrid` of guard-gallivant_p2.cpp, with fuel `4 * rows * cols + 1`
for its loop: the number of distinct positions and whether a loop was detected. -/
def navigateGrid (grid : Grid) : Except NavError (Nat × Bool) :=
  match findStartPosition grid with
  | none => .error .noStart
  | some start =>
    match cellAt grid start with
    | none => .error .outOfBounds
    | some _ =>
      navLoop (setCell grid start '.') (4 * (grid.length * width grid) + 1)
        { pos := start, dir := .UP, visitedPositions := {start},
          visitedStates := {(start, .UP)} }

/-- One move of the guard: a step forward, or a turn to the right in place when the next
cell is `#`; `none` when the next cell is outside the grid. -/
def guardStep (grid : Grid) (st : Pos × Direction) : Option (Pos × Direction) :=
  if InGrid grid (moveForward st.1 st.2) then
    if cellAt grid (moveForward st.1 st.2) = some '#' then some (st.1, turnRight st.2)
    else some (moveForward st.1 st.2, st.2)
  else none

/-- The guard's walk: its position and direction after `n` moves from `start` facing up,
`none` once it has left the grid. -/
def walk (grid : Grid) (start : Pos) : Nat → Option (Pos × Direction)
  | 0 => some (start, .UP)
  | n + 1 => (walk grid start n).bind (guardStep grid)

/-- The map of the puzzle text. -/
def exampleLab : Grid :=
  ["....#.....".toList, ".........#".toList, "..........".toList, "..#.......".toList,
   ".......#..".toList, "..........".toList, ".#..^.....".toList, "........#.".toList,
   "#.........".toList, "......#...".toList]

/-- The map of the puzzle text with one more obstruction, left of the start. -/
def exampleLabLoop : Grid :=
  ["....#.....".toList, ".........#".toList, "..........".toList, "..#.......".toList,
   ".......#..".toList, "..........".toList, ".#.#^.....".toList, "........#.".toList,
   "#.........".toList, "......#...".toList]

/-- A map on which the guard is shut in between four obstructions. -/
def closedLab : Grid := [['.', '#', '.'], ['#', '^', '#'], ['.', '#', '.']]

/-- All pairs of a position of the grid and a direction. -/
def allStates (grid : Grid) : Finset (Pos × Direction) :=
  GardenGroups.cells grid ×ˢ {Direction.UP, Direction.RIGHT, Direction.DOWN, Direction.LEFT}

/-- The invariant of the loop of `navigateGrid` after `k` moves: the guard is where the
walk is, `visitedStates` holds the states of the walk so far, and no state occurred
twice. -/
structure NavInv (grid : Grid) (start : Pos) (k : Nat) (s : NavState) : Prop where
  cur : walk grid start k = some (s.pos, s.dir)
  seen : ∀ st, st ∈ s.visitedStates ↔ ∃ i, i ≤ k ∧ walk grid start i = some st
  distinct : ∀ i j, i ≤ k → j ≤ k → walk grid start i = walk grid start j → i = j

end GuardGallivant

namespace PrintQueue

/-- A rule `x|y` of the input (`struct Pair`). -/
structure Pair where
  x : Int
  y : Int
  deriving DecidableEq, Repr

/-- The function `find_number_in_vector`: `std::find` stops at the first element equal to
`number`, or at the end of the vector; the result is the distance from the start, or `-1`
at the end. -/
def find_number_in_vector (vector : List Int) (number : Int) : Int :=
  let it := vector.indexOf number
  if it ≠ vector.length then (it : Int) else -1

/-- The function `validate_update_based_on_pairs`: the loop over the rules returns 0 at the
first rule whose test holds; after the loop the element `update[update.size() / 2]` is
returned, which is outside the vector when the update is empty (`none`). -/
def validate_update_based_on_pairs : List Pair → List Int → Option Int
  | [], update => update[update.length / 2]?
  | pair :: pairs, update =>
    let indexOfX := find_number_in_vector update pair.x
    let indexOfY := find_number_in_vector update pair.y
    if indexOfX > indexOfY ∧ indexOfY ≠ -1 then some 0
    else validate_update_based_on_pairs pairs update

/-- The first occurrence of `a` in `l` is at index `i`. -/
def FirstAt (l : List Int) (a : Int) (i : Nat) : Prop :=
  l[i]? = some a ∧ ∀ j, j < i → l[j]? ≠ some a

/-- The rule `pair` is broken by the update: both numbers occur and the first occurrence
of `pair.x` is after the first occurrence of `pair.y`. -/
def Broken (update : List Int) (pair : Pair) : Prop :=
  ∃ i j, FirstAt update pair.x i ∧ FirstAt update pair.y j ∧ j < i

end PrintQueue

namespace CeresSearch

/-- The grid `std::vector<std::vector<char>>`. -/
abbrev Grid := List (List Char)

/-- The element access `grid[i][j]` with `int` indices; `none` when an index is outside
its vector. -/
def at2 (grid : Grid) (i j : Int) : Option Char :=
  if i < 0 ∨ j < 0 then none
  else
    match grid[i.toNat]? with
    | none => none
    | some row => row[j.toNat]?

/-- The operator `&&` on operands that may read outside the grid: the right operand is
evaluated only when the left one is true. -/
def andThen (x y : Option Bool) : Option Bool :=
  match x with
  | none => none
  | some false => some false
  | some true => y

/-- The operator `||`: the right operand is evaluated only when the left one is false. -/
def orElse (x y : Option Bool) : Option Bool :=
  match x with
  | none => none
  | some true => some true
  | some false => y

/-- The comparison `grid[i][j] == ch`. -/
def eqAt (grid : Grid) (i j : Int) (ch : Char) : Option Bool :=
  (at2 grid i j).map fun c => decide (c = ch)

/-- One line of the condition: the four diagonal neighbours of `(i, j)` compared with
`a` (upper left), `b` (upper right), `c` (lower left), `d` (lower right). -/
def corners (grid : Grid) (i j : Int) (a b c d : Char) : Option Bool :=
  andThen (eqAt grid (i - 1) (j - 1) a) (andThen (eqAt grid (i - 1) (j + 1) b)
    (andThen (eqAt grid (i + 1) (j - 1) c) (eqAt grid (i + 1) (j + 1) d)))

/-- The condition of the `if` in `find_x_shape_centers` (lines 100-104). -/
def isXCenter (grid : Grid) (i j : Int) : Option Bool :=
  andThen (eqAt grid i j 'A')
    (orElse (corners grid i j 'M' 'M' 'S' 'S') (orElse (corners grid i j 'M' 'S' 'M' 'S')
      (orElse (corners grid i j 'S' 'S' 'M' 'M') (corners grid i j 'S' 'M' 'S' 'M'))))

/-- The inner loop `for (int j = 1; j < cols - 1; ++j)` of row `i`, over the values of `j`
in a list. -/
def scanRow (grid : Grid) (i : Int) : List Int → List (Int × Int) → Option (List (Int × Int))
  | [], centers => some centers
  | j :: js, centers =>
    match isXCenter grid i j with
    | none => none
    | some true => scanRow grid i js (centers ++ [(i, j)])
    | some false => scanRow grid i js centers

/-- The outer loop `for (int i = 1; i < rows - 1; ++i)`, over the values of `i` in a list. -/
def scanRows (grid : Grid) (js : List Int) :
    List Int → List (Int × Int) → Option (List (Int × Int))
  | [], centers => some centers
  | i :: is, centers =>
    match scanRow grid i js centers with
    | none => none
    | some centers1 => scanRows grid js is centers1

/-- The values `1, 2, ..., n - 2` of a loop `for (int k = 1; k < n - 1; ++k)`. -/
def interior (n : Nat) : List Int :=
  (List.range (n - 2)).map fun (k : Nat) => (k : Int) + 1

/-- The function `find_x_shape_centers`. `grid[0]` does not exist on a grid without rows
(`none`). -/
def find_x_shape_centers (grid : Grid) : Option (List (Int × Int)) :=
  match grid with
  | [] => none
  | row0 :: _ => scanRows grid (interior row0.length) (interior grid.length) []

/-- A non-empty rectangular grid. -/
def Rectangular (grid : Grid) : Prop :=
  grid ≠ [] ∧ ∀ row ∈ grid, row.length = (grid.headD []).length

instance (grid : Grid) : Decidable (Rectangular grid) := by
  unfold Rectangular; infer_instance

/-- The two cells are `M` and `S` in some order. -/
def IsMS (a b : Option Char) : Prop :=
  (a = some 'M' ∧ b = some 'S') ∨ (a = some 'S' ∧ b = some 'M')

instance (a b : Option Char) : Decidable (IsMS a b) := by
  unfold IsMS; infer_instance

/-- An interior position holding `A` through which both diagonals read `MAS` or `SAM`. -/
def IsXShape (grid : Grid) (p : Int × Int) : Prop :=
  1 ≤ p.1 ∧ p.1 + 1 < grid.length ∧ 1 ≤ p.2 ∧ p.2 + 1 < (grid.headD []).length ∧
    at2 grid p.1 p.2 = some 'A' ∧
    IsMS (at2 grid (p.1 - 1) (p.2 - 1)) (at2 grid (p.1 + 1) (p.2 + 1)) ∧
    IsMS (at2 grid (p.1 - 1) (p.2 + 1)) (at2 grid (p.1 + 1) (p.2 - 1))

instance (grid : Grid) (p : Int × Int) : Decidable (IsXShape grid p) := by
  unfold IsXShape; infer_instance

/-- Row-major order of positions: earlier row, or same row and earlier column. -/
def RowMajorLt (p q : Int × Int) : Prop :=
  p.1 < q.1 ∨ (p.1 = q.1 ∧ p.2 < q.2)

instance (p q : Int × Int) : Decidable (RowMajorLt p q) := by
  unfold RowMajorLt; infer_instance

/-- The example of the puzzle text. -/
def exampleGrid : Grid :=
  [".M.S......".toList, "..A..MSMS.".toList, ".M.S.MAA..".toList, "..A.ASMSM.".toList,
   ".M.S.M....".toList, "..........".toList, "S.S.S.S.S.".toList, ".A.A.A.A..".toList,
   "M.M.M.M.M.".toList, "..........".toList]

end CeresSearch

namespace PlutonianPebbles

/-- The conversion of a `long long` value to `int`: the value is reduced modulo `2 ^ 32`
into the range of `int`. -/
def toInt32 (x : Int) : Int := (x + 2 ^ 31) % 2 ^ 32 - 2 ^ 31

/-- The initialisation `int divisor = std::pow(10, splitPoint)`. For a negative exponent
the power is below 1 and its conversion to `int` is 0; for the exponents from 0 to 9 the
power is an integer that a `double` and an `int` hold exactly; from 10 on the power is
outside `int` and the conversion is undefined (`none`). -/
def powToInt (splitPoint : Int) : Option Int :=
  if splitPoint < 0 then some 0
  else if (10 : Int) ^ splitPoint.toNat < 2 ^ 31 then some (10 ^ splitPoint.toNat)
  else none

/-- The function `splitNumber` of plutonian-pebbles.cpp and plutonian-pebbles_p2.cpp.
The value of the expression `std::log10(num) + 1` converted to `int` comes from the
floating-point library and is the parameter `log10Plus1` of the model. The result is
`none` where the source is undefined: the conversion of the power and a divisor 0. -/
def splitNumber (log10Plus1 : Int → Int) (num : Int) : Option (Int × Int) :=
  if num = 0 then some (0, 0)
  else
    let numDigits := log10Plus1 num
    let splitPoint := Int.tdiv numDigits 2
    match powToInt splitPoint with
    | none => none
    | some divisor =>
      if divisor = 0 then none
      else
        let rightPart := toInt32 (Int.tmod num divisor)
        let leftPart := toInt32 (Int.tdiv num divisor)
        some (leftPart, rightPart)

/-- The number of decimal digits of a number, counted exactly. -/
def exactDigits (num : Int) : Nat := (Nat.digits 10 num.toNat).length

end PlutonianPebbles

namespace ClawContraption

/-- The conversion of a `long long` value to `int` (`ax = numList[0]`): the value is
reduced modulo `2 ^ 32` into the range of `int`. -/
def toInt32 (x : Int) : Int := (x + 2 ^ 31) % 2 ^ 32 - 2 ^ 31

/-- The result of an `int` operation: undefined (`none`) outside the range of `int`. -/
def int32 (x : Int) : Option Int :=
  if -2 ^ 31 ≤ x ∧ x < 2 ^ 31 then some x else none

/-- The result of a `long long` operation: undefined (`none`) outside its range. -/
def int64 (x : Int) : Option Int :=
  if -2 ^ 63 ≤ x ∧ x < 2 ^ 63 then some x else none

/-- The division `/` of `long long` values: truncated, undefined for the divisor 0 and
for a quotient outside the range. -/
def divLL (a b : Int) : Option Int :=
  if b = 0 then none else int64 (a.tdiv b)

/-- The constant `LLONG_MAX`. -/
def LLONG_MAX : Int := 2 ^ 63 - 1

/-- The variables `ax, ay, bx, by, px, py` of one machine. -/
structure Machine where
  ax : Int
  ay : Int
  bx : Int
  by_ : Int
  px : Int
  py : Int
  deriving DecidableEq, Repr

/-- The element `numList[k]`, a `long long` value; undefined (`none`) when the vector has
no such element. -/
def entry (numList : List Int) (k : Nat) : Option Int :=
  match numList[k]? with
  | none => none
  | some v => int64 v

/-- The six assignments from `numList` (lines 26-31 and 66-71): the button values are
stored in `int` variables, the prize in `long long` variables moved by `prizeIncrease`. -/
def readMachine (prizeIncrease : Int) (numList : List Int) : Option Machine := do
  let n0 ← entry numList 0
  let n1 ← entry numList 1
  let n2 ← entry numList 2
  let n3 ← entry numList 3
  let n4 ← entry numList 4
  let n5 ← entry numList 5
  let px ← int64 (n4 + prizeIncrease)
  let py ← int64 (n5 + prizeIncrease)
  pure ⟨toInt32 n0, toInt32 n1, toInt32 n2, toInt32 n3, px, py⟩

/-- The `int` expression `a * i + b * j`. -/
def linInt (a i b j : Int) : Option Int := do
  let t1 ← int32 (a * i)
  let t2 ← int32 (b * j)
  int32 (t1 + t2)

/-- The condition `ax * i + bx * j == px && ay * i + by * j == py` (line 36); the second
comparison is evaluated only when the first one holds. -/
def hits (m : Machine) (i j : Int) : Option Bool :=
  match linInt m.ax i m.bx j with
  | none => none
  | some s =>
    if s ≠ m.px then some false
    else
      match linInt m.ay i m.by_ j with
      | none => none
      | some t => some (decide (t = m.py))

/-- The loop over `j` (lines 34-40) for the values of `j` in a list. -/
def innerLoop (m : Machine) (i : Int) : List Int → Int → Option Int
  | [], minTokens => some minTokens
  | j :: js, minTokens =>
    match hits m i j with
    | none => none
    | some true => innerLoop m i js (min minTokens (i * 3 + j))
    | some false => innerLoop m i js minTokens

/-- The loop over `i` (lines 32-41) for the values of `i` in a list. -/
def outerLoop (m : Machine) (js : List Int) : List Int → Int → Option Int
  | [], minTokens => some minTokens
  | i :: is, minTokens =>
    match innerLoop m i js minTokens with
    | none => none
    | some minTokens1 => outerLoop m js is minTokens1

/-- The values `0, 1, ..., 100` of the two loop variables. -/
def presses : List Int := (List.range 101).map fun (k : Nat) => (k : Int)

/-- What one pass of the loop over the machines adds to `minTokensSum` (lines 25-45). -/
def machineTokens (numList : List Int) : Option Int :=
  match readMachine 0 numList with
  | none => none
  | some m =>
    match outerLoop m presses presses LLONG_MAX with
    | none => none
    | some minTokens => if minTokens ≠ LLONG_MAX then some minTokens else some 0

/-- The function `calculateMinNumberOfTokens`. The running total `minTokensSum` is an
unbounded integer: a machine adds at most 400 to it. -/
def calculateMinNumberOfTokens : List (List Int) → Option Int
  | [] => some 0
  | numList :: rest =>
    match machineTokens numList with
    | none => none
    | some t =>
      match calculateMinNumberOfTokens rest with
      | none => none
      | some total => some (t + total)

/-- The initialisation `long long determinant = ax * by - ay * bx`, computed in `int`. -/
def determinantOf (m : Machine) : Option Int :=
  match int32 (m.ax * m.by_) with
  | none => none
  | some d1 =>
    match int32 (m.ay * m.bx) with
    | none => none
    | some d2 => int32 (d1 - d2)

/-- The `long long` expression `px * by - py * bx`. -/
def numeratorOf (m : Machine) : Option Int :=
  match int64 (m.px * m.by_) with
  | none => none
  | some n1 =>
    match int64 (m.py * m.bx) with
    | none => none
    | some n2 => int64 (n1 - n2)

/-- The `long long` expression `px - ax * countOfAPresses`. -/
def restOf (m : Machine) (countOfAPresses : Int) : Option Int :=
  match int64 (m.ax * countOfAPresses) with
  | none => none
  | some t => int64 (m.px - t)

/-- The `long long` expression `countOfAPresses * 3 + countOfBPresses`. -/
def tokensOf (countOfAPresses countOfBPresses : Int) : Option Int :=
  match int64 (countOfAPresses * 3) with
  | none => none
  | some a3 => int64 (a3 + countOfBPresses)

/-- The body of `if (determinant != 0)` (lines 77-86): the two divisions, then the test
of the two remainders, which are defined when the divisions are. -/
def solveMachine (m : Machine) (determinant : Int) : Option Int :=
  match numeratorOf m with
  | none => none
  | some n =>
    match divLL n determinant with
    | none => none
    | some countOfAPresses =>
      match restOf m countOfAPresses with
      | none => none
      | some r =>
        match divLL r m.bx with
        | none => none
        | some countOfBPresses =>
          if n.tmod determinant = 0 ∧ r.tmod m.bx = 0 then
            tokensOf countOfAPresses countOfBPresses
          else some 0

/-- What one pass of the loop of `calculateMinNumberOfTokensOptimized` adds to
`minTokensSum` (lines 66-87), for a value of the local constant `prizeIncrease`. -/
def machineTokensOptimized (prizeIncrease : Int) (numList : List Int) : Option Int :=
  match readMachine prizeIncrease numList with
  | none => none
  | some m =>
    match determinantOf m with
    | none => none
    | some determinant => if determinant ≠ 0 then solveMachine m determinant else some 0

/-- The function `calculateMinNumberOfTokensOptimized` for a value of its local constant
`prizeIncrease`; the source has `prizeIncrease = 10000000000000`. The running total is
an unbounded integer. -/
def calculateMinNumberOfTokensOptimized (prizeIncrease : Int) : List (List Int) → Option Int
  | [] => some 0
  | numList :: rest =>
    match machineTokensOptimized prizeIncrease numList with
    | none => none
    | some t =>
      match calculateMinNumberOfTokensOptimized prizeIncrease rest with
      | none => none
      | some total => some (t + total)

/-- The pairs `(i, j)` with `0 ≤ i ≤ 100` and `0 ≤ j ≤ 100` that solve
`ax * i + bx * j = px` and `ay * i + by * j = py` for the six numbers of a machine. -/
@[irreducible] def solutions (numList : List Int) : Finset (Int × Int) :=
  ((Finset.range 101 ×ˢ Finset.range 101).image
    fun (ij : Nat × Nat) => ((ij.1 : Int), (ij.2 : Int))).filter fun ij =>
      numList.getD 0 0 * ij.1 + numList.getD 2 0 * ij.2 = numList.getD 4 0 ∧
      numList.getD 1 0 * ij.1 + numList.getD 3 0 * ij.2 = numList.getD 5 0

/-- The minimum of `3 * i + j` over the solutions of a machine, 0 without a solution. -/
def fewestTokens (numList : List Int) : Int :=
  if h : (solutions numList).Nonempty then
    ((solutions numList).image fun ij => 3 * ij.1 + ij.2).min' (h.image _)
  else 0

/-- The pair `(i, j)` solves the two equations of the machine. -/
def Hit (m : Machine) (i j : Int) : Prop :=
  m.ax * i + m.bx * j = m.px ∧ m.ay * i + m.by_ * j = m.py

/-- The button values of the machine are small enough for the `int` arithmetic of the
loops: at most `10 ^ 7` in absolute value. -/
def SmallButtons (m : Machine) : Prop :=
  m.ax.natAbs ≤ 10000000 ∧ m.ay.natAbs ≤ 10000000 ∧ m.bx.natAbs ≤ 10000000 ∧
    m.by_.natAbs ≤ 10000000

instance (m : Machine) : Decidable (SmallButtons m) := by
  unfold SmallButtons; infer_instance

/-- Six numbers of a machine whose button values are at most `10 ^ 7` in absolute value
and whose prize values are `long long` values. -/
def SmallMachine (numList : List Int) : Prop :=
  ∃ ax ay bx by_ px py, numList = [ax, ay, bx, by_, px, py] ∧
    SmallButtons ⟨ax, ay, bx, by_, px, py⟩ ∧ px.natAbs < 2 ^ 63 ∧ py.natAbs < 2 ^ 63

/-- Six numbers of a machine on which the two functions can be compared: button values
up to 30000 and prize values up to `10 ^ 9` in absolute value, a second button that moves
along X when the determinant is not 0, and no integer solution of the two equations
outside `0 ≤ i, j ≤ 100`. -/
def Tame (numList : List Int) : Prop :=
  ∃ ax ay bx by_ px py, numList = [ax, ay, bx, by_, px, py] ∧
    ax.natAbs ≤ 30000 ∧ ay.natAbs ≤ 30000 ∧ bx.natAbs ≤ 30000 ∧ by_.natAbs ≤ 30000 ∧
    px.natAbs ≤ 1000000000 ∧ py.natAbs ≤ 1000000000 ∧
    (ax * by_ - ay * bx ≠ 0 → bx ≠ 0) ∧
    ∀ i j : Int, ax * i + bx * j = px → ay * i + by_ * j = py →
      0 ≤ i ∧ i ≤ 100 ∧ 0 ≤ j ∧ j ≤ 100

/-- A machine whose only solution needs 200 presses of the first button. -/
def farMachine : List Int := [1, 1, 1, 2, 200, 200]

/-- A machine with determinant 0 and three solutions. -/
def flatMachine : List Int := [1, 1, 1, 1, 2, 2]

/-- A machine whose second button does not move along X. -/
def axisMachine : List Int := [1, 0, 0, 1, 2, 2]

/-- The second machine of the puzzle text, which has no solution. -/
def exampleMachine2 : List Int := [26, 66, 67, 21, 12748, 12176]

/-- The first machine of the puzzle text. -/
def exampleMachine : List Int := [94, 34, 22, 67, 8400, 5400]

/-- The first machine of the puzzle text with `2 ^ 32` added to its first number. -/
def wideMachine : List Int := [4294967390, 34, 22, 67, 8400, 5400]

end ClawContraption

namespace DiskFragmenterP2

/-- A file or a free block: `(position, length)`, a `std::pair<int, int>`. The values
are natural numbers: on a disk map of digits they stay below `9 * diskMap.size()`, far
from the range where `int` and `size_t` differ. -/
abbrev Block := Nat × Nat

/-- The pair `expandedMapView`: the `std::map` from file index to file, whose keys are
`0, 1, ..., size - 1`, is the list of its values in key order; the vector of free blocks
is a list. -/
structure View where
  files : List Block
  free : List Block
  deriving DecidableEq, Repr

/-- The loop of `expandMapView` (lines 40-61) from index `i` on; `none` is the call of
`std::exit` for a file of size 0. A new key `fileIndex` is the number of files so far. -/
def expandLoop : List Nat → Nat → List Block → List Block → Nat → Option View
  | [], _, files, free, _ => some ⟨files, free⟩
  | fileLenght :: rest, i, files, free, filePosition =>
    if i = 0 ∨ i % 2 = 0 then
      if fileLenght = 0 then none
      else expandLoop rest (i + 1) (files ++ [(filePosition, fileLenght)]) free
        (filePosition + fileLenght)
    else
      if fileLenght ≠ 0 then
        expandLoop rest (i + 1) files (free ++ [(filePosition, fileLenght)])
          (filePosition + fileLenght)
      else expandLoop rest (i + 1) files free (filePosition + fileLenght)

/-- The function `expandMapView` on a disk map of digit values. -/
def expandMapView (diskMap : List Nat) : Option View :=
  expandLoop diskMap 0 [] [] 0

/-- The `for` loop over the free blocks (lines 102-128) for one file, from the block at
the head of the list on. The result is the new position of the file, if it moves, and the
free blocks from that block on after the loop: a block at or behind the file ends the
loop and is popped together with all blocks behind it; a block that can hold the file is
erased or cut at its front. -/
def moveFile (filePosition fileLenght : Nat) : List Block → Option Nat × List Block
  | [] => (none, [])
  | (freeBlStart, freeBlLenght) :: rest =>
    if freeBlStart ≥ filePosition then (none, [])
    else if fileLenght ≤ freeBlLenght then
      (some freeBlStart,
        if fileLenght = freeBlLenght then rest
        else (freeBlStart + fileLenght, freeBlLenght - fileLenght) :: rest)
    else
      let r := moveFile filePosition fileLenght rest
      (r.1, (freeBlStart, freeBlLenght) :: r.2)

/-- The loop `while (fileIndex > 0)` (lines 94-129); `none` is the exception of
`std::map::at` for a key that the map does not have. -/
def fragmentLoop : Nat → View → Option View
  | 0, v => some v
  | fileIndex + 1, v =>
    match v.files[fileIndex]? with
    | none => none
    | some (filePosition, fileLenght) =>
      match moveFile filePosition fileLenght v.free with
      | (none, free1) => fragmentLoop fileIndex ⟨v.files, free1⟩
      | (some freeBlStart, free1) =>
        fragmentLoop fileIndex ⟨v.files.set fileIndex (freeBlStart, fileLenght), free1⟩

/-- The checksum loop (lines 131-137): the sum of `fileIndex * i` over the positions `i`
of every file. -/
def checksum (files : List Block) : Nat :=
  ((List.range files.length).map fun fileIndex =>
    ((List.range (files.getD fileIndex (0, 0)).2).map fun k =>
      fileIndex * ((files.getD fileIndex (0, 0)).1 + k)).sum).sum

/-- The function `fragmentMemory`: the checksum it returns and the value it leaves in
`expandedMapView`. -/
def fragmentMemory (v : View) : Option (Nat × View) :=
  match fragmentLoop v.files.length v with
  | none => none
  | some v1 => some (checksum v1.files, v1)

/-- The free block `b` lies before the position of the file and can hold it. -/
def Fits (filePosition fileLenght : Nat) (b : Block) : Prop :=
  b.1 < filePosition ∧ fileLenght ≤ b.2

instance (filePosition fileLenght : Nat) (b : Block) :
    Decidable (Fits filePosition fileLenght b) := by
  unfold Fits; infer_instance

/-- The earliest free block that can take the file: among the free blocks that lie
before the file and are long enough, the one with the lowest position. -/
def earliestFit (filePosition fileLenght : Nat) (free : List Block) : Option Block :=
  (free.filter fun b => decide (Fits filePosition fileLenght b)).argmin Prod.fst

/-- The free blocks after a file of length `fileLenght` is put at the start of `b`:
the block is removed when the file fills it and shrunk otherwise. -/
def useBlock (fileLenght : Nat) (b : Block) (free : List Block) : List Block :=
  if fileLenght = b.2 then free.erase b
  else free.map fun c => if c = b then (b.1 + fileLenght, b.2 - fileLenght) else c

/-- The compaction as the description states it, for the files with an id below
`fileIndex`, from the highest id to the lowest: a file moves to the start of the earliest
free block that lies before it and can hold it, and that block is shrunk or removed; a
file without such a block stays; lengths do not change. -/
def compactFiles : Nat → List Block → List Block → List Block
  | 0, files, _ => files
  | fileIndex + 1, files, free =>
    match files[fileIndex]? with
    | none => files
    | some (filePosition, fileLenght) =>
      match earliestFit filePosition fileLenght free with
      | none => compactFiles fileIndex files free
      | some b =>
        compactFiles fileIndex (files.set fileIndex (b.1, fileLenght))
          (useBlock fileLenght b free)

/-- Free blocks in increasing order that do not overlap, do not start before `lo` and are
not empty. -/
def SortedFrom : Nat → List Block → Prop
  | _, [] => True
  | lo, (s, l) :: rest => lo ≤ s ∧ 0 < l ∧ SortedFrom (s + l) rest

instance decSortedFrom : (lo : Nat) → (free : List Block) → Decidable (SortedFrom lo free)
  | _, [] => isTrue trivial
  | lo, (s, l) :: rest =>
    have := decSortedFrom (s + l) rest
    inferInstanceAs (Decidable (lo ≤ s ∧ 0 < l ∧ SortedFrom (s + l) rest))

/-- A view as `expandMapView` produces it: the positions of the files do not decrease
with the id, and the free blocks are in increasing order, disjoint and not empty. -/
def WellFormedView (v : View) : Prop :=
  v.files.Pairwise (fun a b => a.1 ≤ b.1) ∧ SortedFrom 0 v.free

instance (v : View) : Decidable (WellFormedView v) := by
  unfold WellFormedView; infer_instance

/-- The disk map `2333133121414131402` of the puzzle text. -/
def exampleDiskMap : List Nat := [2, 3, 3, 3, 1, 3, 3, 1, 2, 1, 4, 1, 4, 1, 3, 1, 4, 0, 2]

/-- The view that `expandMapView` makes of the example. -/
def exampleView : View :=
  ⟨[(0, 2), (5, 3), (11, 1), (15, 3), (19, 2), (22, 4), (27, 4), (32, 3), (36, 4), (40, 2)],
    [(2, 3), (8, 3), (12, 3), (18, 1), (21, 1), (26, 1), (31, 1), (35, 1)]⟩

end DiskFragmenterP2

namespace PlutonianPebbles

/-- The result of a `long long` operation: undefined (`none`) outside its range. -/
def int64 (x : Int) : Option Int :=
  if -2 ^ 63 ≤ x ∧ x < 2 ^ 63 then some x else none

/-- The spacing of the binary64 values around the magnitude `a`: the least power of two
`q` with `a / q < 2 ^ 53` (binary64 keeps 53 significant bits). The first argument bounds
the number of halvings. -/
def spacing64 : Nat → Nat → Nat
  | 0, _ => 1
  | fuel + 1, a => if a < 2 ^ 53 then 1 else 2 * spacing64 fuel (a / 2)

/-- The conversion `long long → double` of the argument of `std::log10`: IEEE-754
binary64 rounding to nearest, ties to even. Below `2 ^ 53` the value is kept. -/
def toDouble (n : Int) : Int :=
  let a := n.natAbs
  let q := spacing64 64 a
  let m := a / q
  let r := a % q
  let m1 := if 2 * r < q then m else if q < 2 * r then m + 1 else if m % 2 = 0 then m else m + 1
  Int.sign n * ((m1 * q : Nat) : Int)

/-- The global `cache`, a `std::unordered_map` from `(stone, numberOfBlinks)` to the
number of stones. -/
abbrev Cache := Int × Nat → Option Int

/-- The cache without entries. -/
def emptyCache : Cache := fun _ => none

/-- The assignment `cache[key] = value`. -/
def setEntry (cache : Cache) (key : Int × Nat) (value : Int) : Cache :=
  fun k => if k = key then some value else cache k

/-- The function `processStoneAfterBlinks` of plutonian-pebbles_p2.cpp, with the cache as
an argument and a result. `numberOfBlinks` is a natural number (the source counts it
down to 0). `log10Plus1` is the value of `std::log10(stone) + 1` converted to an integer
type, as in `splitNumber`. The result is `none` where the source is undefined: in
`splitNumber`, and for a product or a sum outside `long long`. The two calls of the sum
are made from left to right. -/
def processStoneAfterBlinks (log10Plus1 : Int → Int) :
    Int → Nat → Cache → Option (Int × Cache)
  | stone, 0, cache =>
    match cache (stone, 0) with
    | some v => some (v, cache)
    | none => some (1, cache)
  | stone, numberOfBlinks + 1, cache =>
    match cache (stone, numberOfBlinks + 1) with
    | some v => some (v, cache)
    | none =>
      if stone = 0 then
        match processStoneAfterBlinks log10Plus1 1 numberOfBlinks cache with
        | none => none
        | some (r, c1) => some (r, setEntry c1 (stone, numberOfBlinks + 1) r)
      else if (log10Plus1 stone).tmod 2 = 0 then
        match splitNumber log10Plus1 stone with
        | none => none
        | some (first, second) =>
          match processStoneAfterBlinks log10Plus1 first numberOfBlinks cache with
          | none => none
          | some (r1, c1) =>
            match processStoneAfterBlinks log10Plus1 second numberOfBlinks c1 with
            | none => none
            | some (r2, c2) =>
              match int64 (r1 + r2) with
              | none => none
              | some r => some (r, setEntry c2 (stone, numberOfBlinks + 1) r)
      else
        match int64 (stone * 2024) with
        | none => none
        | some next =>
          match processStoneAfterBlinks log10Plus1 next numberOfBlinks cache with
          | none => none
          | some (r, c1) => some (r, setEntry c1 (stone, numberOfBlinks + 1) r)

/-- One blink on one stone: 0 becomes 1, a stone with an even number of digits splits
into its left and right halves, any other stone is multiplied by 2024. -/
def blink (s : Nat) : List Nat :=
  if s = 0 then [1]
  else if exactDigits s % 2 = 0 then
    [s / 10 ^ (exactDigits s / 2), s % 10 ^ (exactDigits s / 2)]
  else [s * 2024]

/-- The number of stones that the stone `s` becomes after `k` blinks. -/
def count (s : Nat) : Nat → Nat
  | 0 => 1
  | k + 1 => ((blink s).map fun x => count x k).sum

/-- Every entry of the cache holds the number of stones of its key. -/
def ValidCache (cache : Cache) : Prop :=
  ∀ (s : Int) (j : Nat) (v : Int), cache (s, j) = some v → 0 ≤ s ∧ v = (count s.toNat j : Int)

/-- The `k` blinks of the stone `s` stay inside the arithmetic of the source: the stones
and the counts are `long long` values, and the digit count of the source is the exact
one on every stone it is taken of. -/
def Safe (log10Plus1 : Int → Int) : Nat → Nat → Prop
  | _, 0 => True
  | s, k + 1 =>
    s < 2 ^ 63 ∧ count s (k + 1) < 2 ^ 63 ∧ (s ≠ 0 → log10Plus1 s = exactDigits s) ∧
      ∀ x ∈ blink s, x < 2 ^ 63 ∧ Safe log10Plus1 x k

end PlutonianPebbles

namespace DiskFragmenter

/-- The ways the model of `fragmentMemory` can stop without a result: an element access
outside the storage of the vector (`back()` on an empty vector), an `int` addition
outside the range of `int`, and the end of the fuel of the model. -/
inductive FragmentError where
  | outOfBounds
  | overflow
  | outOfFuel
  deriving DecidableEq, Repr

/-- A `std::vector<long long>` as the program has it in memory: the elements of its
storage, and the number `size` of them that belong to the vector. `pop_back` lowers
`size` by one and leaves the element in the storage, and `operator[]` does not compare
its index with `size`: it gives the element of the storage. -/
structure Vec where
  data : List Int
  size : Nat
  deriving DecidableEq, Repr

/-- The loop of `expandMapView` (lines 43-60) from index `i` on: an entry at an even
index pushes `idNumber` that many times and increments `idNumber`, an entry at an odd
index pushes `-1` that many times. -/
def expandLoop : List Nat → Nat → Nat → List Int → List Int
  | [], _, _, expandedDiskMap => expandedDiskMap
  | blocks :: rest, i, idNumber, expandedDiskMap =>
    if i = 0 ∨ i % 2 = 0 then
      expandLoop rest (i + 1) (idNumber + 1)
        (expandedDiskMap ++ List.replicate blocks (idNumber : Int))
    else
      expandLoop rest (i + 1) idNumber (expandedDiskMap ++ List.replicate blocks (-1))

/-- The function `expandMapView` of disk-fragmenter.cpp on a disk map of digit values. -/
def expandMapView (diskMap : List Nat) : List Int :=
  expandLoop diskMap 0 0 []

/-- The conversion of a value to `int`: the value is reduced modulo `2 ^ 32` into the
range of `int`. -/
def toInt32 (x : Int) : Int := (x + 2 ^ 31) % 2 ^ 32 - 2 ^ 31

/-- The conversion of a value to `long long`: the value is reduced modulo `2 ^ 64` into
the range of `long long`. -/
def toInt64 (x : Int) : Int := (x + 2 ^ 63) % 2 ^ 64 - 2 ^ 63

/-- The test `(lastIndexBeforePop + 1) == expandedMapView.size()` (line 84), where
`int lastIndexBeforePop = i - 1` (line 80): the difference is converted to `int`, the
sum is an `int` (`none` when it is outside the range), and the comparison converts it to
`size_t`. -/
def breakTest (i size : Nat) : Option Bool :=
  let lastIndexBeforePop := toInt32 ((i : Int) - 1)
  if lastIndexBeforePop + 1 < 2 ^ 31 then
    some (decide ((lastIndexBeforePop + 1) % 2 ^ 64 = (size : Int)))
  else none

/-- The loop `while (expandedMapView[i] == -1)` (lines 81-87). The condition reads the
element `i` of the storage; after a `pop_back` that leaves `size() == i` this is the
element that was popped. The body assigns `back()`, the element `size - 1` of the
storage, to the element `i`, ends the loop when the test of line 84 holds, and pops
otherwise. The first argument bounds the number of rounds. -/
def fillLoop : Nat → Vec → Nat → Except FragmentError Vec
  | 0, _, _ => .error .outOfFuel
  | fuel + 1, v, i =>
    match v.data[i]? with
    | none => .error .outOfBounds
    | some x =>
      if x = -1 then
        if v.size = 0 then .error .outOfBounds
        else
          match v.data[v.size - 1]? with
          | none => .error .outOfBounds
          | some last =>
            match breakTest i v.size with
            | none => .error .overflow
            | some true => .ok ⟨v.data.set i last, v.size⟩
            | some false => fillLoop fuel ⟨v.data.set i last, v.size - 1⟩ i
      else .ok v

/-- The first `for` loop of `fragmentMemory` (lines 76-89) from index `i` on. The first
argument bounds the number of rounds. -/
def fragmentLoop : Nat → Vec → Nat → Except FragmentError Vec
  | 0, _, _ => .error .outOfFuel
  | fuel + 1, v, i =>
    if i < v.size then
      match v.data[i]? with
      | none => .error .outOfBounds
      | some x =>
        if x = -1 then
          match fillLoop (v.size + 1) v i with
          | .error e => .error e
          | .ok v1 => fragmentLoop fuel v1 (i + 1)
        else fragmentLoop fuel v (i + 1)
    else .ok v

/-- The second `for` loop of `fragmentMemory` (lines 91-95) from index `i` on, without
the output. The product `i * expandedMapView[i]` and the sum are taken in
`unsigned long long`, modulo `2 ^ 64`, and the sum is converted to `long long`. -/
def checksumLoop : List Int → Nat → Int → Int
  | [], _, checksum => checksum
  | x :: rest, i, checksum => checksumLoop rest (i + 1) (toInt64 (checksum + (i : Int) * x))

/-- The function `fragmentMemory` of disk-fragmenter.cpp: the elements of the vector
after the call, and the checksum that is returned. At the call the storage holds the
elements of the vector and nothing else. -/
def fragmentMemory (expandedMapView : List Int) :
    Except FragmentError (List Int × Int) :=
  match fragmentLoop (expandedMapView.length + 1)
      ⟨expandedMapView, expandedMapView.length⟩ 0 with
  | .error e => .error e
  | .ok v => .ok (v.data.take v.size, checksumLoop (v.data.take v.size) 0 0)

end DiskFragmenter

/-! ## Theorems -/

namespace GardenGroups

theorem adjacent_iff_mem_neighbors (p q : Pos) : Adjacent p q ↔ q ∈ neighbors p := by
  obtain ⟨p1, p2⟩ := p
  obtain ⟨q1, q2⟩ := q
  simp only [Adjacent, neighbors, List.mem_cons, Prod.mk.injEq, List.mem_singleton,
    List.mem_nil_iff, or_false]
  omega

theorem adjacent_symm {p q : Pos} (h : Adjacent p q) : Adjacent q p := by
  unfold Adjacent at *
  omega

theorem mem_cells {grid : Grid} {p : Pos} : p ∈ cells grid ↔ InGrid grid p := by
  obtain ⟨p1, p2⟩ := p
  simp only [cells, Finset.mem_image, Finset.mem_product, Finset.mem_range, Prod.mk.injEq,
    Prod.exists, InGrid]
  constructor
  · rintro ⟨a, b, ⟨ha, hb⟩, rfl, rfl⟩
    omega
  · rintro ⟨h1, h2, h3, h4⟩
    exact ⟨p1.toNat, p2.toNat, ⟨by omega, by omega⟩, by omega, by omega⟩

theorem card_cells (grid : Grid) : (cells grid).card = grid.length * width grid := by
  unfold cells
  rw [Finset.card_image_of_injective, Finset.card_product, Finset.card_range, Finset.card_range]
  rintro ⟨a, b⟩ ⟨c, d⟩ h
  simp only [Prod.mk.injEq, Nat.cast_inj] at h
  simp [h.1, h.2]

theorem cellAt_of_inGrid {grid : Grid} (hwf : WellFormed grid) {p : Pos} (hp : InGrid grid p) :
    ∃ ch, cellAt grid p = some ch := by
  obtain ⟨h1, h2, h3, h4⟩ := hp
  have hlt : p.1.toNat < grid.length := by omega
  have hrow : (grid[p.1.toNat]).length = width grid := hwf.2 _ (List.getElem_mem _)
  have hlt2 : p.2.toNat < (grid[p.1.toNat]).length := by omega
  refine ⟨(grid[p.1.toNat])[p.2.toNat], ?_⟩
  unfold cellAt
  rw [if_neg (by omega), List.getElem?_eq_getElem hlt]
  simp only
  exact List.getElem?_eq_getElem hlt2

theorem pathIn_mono {R S : Finset Pos} (h : R ⊆ S) {a b : Pos} (hab : PathIn R a b) :
    PathIn S a b :=
  Relation.ReflTransGen.mono (fun _ _ hxy => ⟨h hxy.1, h hxy.2.1, hxy.2.2⟩) hab

theorem visitNeighbor_spec {grid : Grid} (hwf : WellFormed grid) {plant : Char} {p0 : Pos}
    {V0 : Finset Pos} {cur : Pos} {s : BfsState} (hinv : BfsInv grid plant p0 V0 [cur] s)
    (hcur : cur ∈ s.region) {n : Pos} (hadj : Adjacent cur n) :
    ∃ s1, visitNeighbor grid plant s n = .ok s1 ∧ BfsInv grid plant p0 V0 [cur] s1 ∧
      s.region ⊆ s1.region ∧
      (InGrid grid n → cellAt grid n = some plant → n ∈ s1.region) ∧
      s1.Q.length + s.region.card = s.Q.length + s1.region.card := by
  unfold visitNeighbor
  by_cases hout : n.1 < 0 ∨ n.2 < 0 ∨ (grid.length : Int) ≤ n.1 ∨ (width grid : Int) ≤ n.2
  · rw [if_pos hout]
    refine ⟨s, rfl, hinv, Finset.Subset.refl _, ?_, rfl⟩
    intro hin
    unfold InGrid at hin
    omega
  · rw [if_neg hout]
    have hin : InGrid grid n := by
      unfold InGrid
      omega
    obtain ⟨ch, hch⟩ := cellAt_of_inGrid hwf hin
    rw [hch]
    simp only
    by_cases hne : ch ≠ plant
    · rw [if_pos hne]
      refine ⟨s, rfl, hinv, Finset.Subset.refl _, ?_, rfl⟩
      intro _ h
      exact absurd (Option.some.inj h) hne
    · rw [if_neg hne]
      have hch2 : ch = plant := not_not.mp hne
      subst hch2
      by_cases hmem : n ∈ s.region
      · rw [if_pos hmem]
        exact ⟨s, rfl, hinv, Finset.Subset.refl _, fun _ _ => hmem, rfl⟩
      · rw [if_neg hmem]
        refine ⟨_, rfl, ?_, Finset.subset_insert _ _, fun _ _ => Finset.mem_insert_self _ _, ?_⟩
        · constructor
          · exact Finset.mem_insert_of_mem hinv.start_mem
          · intro p hp
            rcases Finset.mem_insert.mp hp with rfl | hp
            · exact ⟨hin, hch⟩
            · exact hinv.inGrid p hp
          · intro p hp
            rcases Finset.mem_insert.mp hp with rfl | hp
            · exact Relation.ReflTransGen.tail
                (pathIn_mono (Finset.subset_insert _ _) (hinv.path cur hcur))
                ⟨Finset.mem_insert_of_mem hcur, Finset.mem_insert_self _ _, hadj⟩
            · exact pathIn_mono (Finset.subset_insert _ _) (hinv.path p hp)
          · intro q hq
            rcases List.mem_cons.mp hq with rfl | hq
            · exact Finset.mem_insert_self _ _
            · exact Finset.mem_insert_of_mem (hinv.queue q hq)
          · intro p hp hpQ hpc m hm hpm hlab
            have hpn : p ≠ n := fun h => hpQ (h ▸ List.mem_cons_self _ _)
            have hp2 : p ∈ s.region := (Finset.mem_insert.mp hp).resolve_left hpn
            have hpQ2 : p ∉ s.Q := fun h => hpQ (List.mem_cons_of_mem _ h)
            exact Finset.mem_insert_of_mem (hinv.closed p hp2 hpQ2 hpc m hm hpm hlab)
          · show insert n s.visited = V0 ∪ insert n s.region
            rw [hinv.visited, Finset.union_insert]
        · show (n :: s.Q).length + s.region.card = s.Q.length + (insert n s.region).card
          rw [Finset.card_insert_of_not_mem hmem, List.length_cons]
          omega

theorem visitNeighbors_spec {grid : Grid} (hwf : WellFormed grid) {plant : Char} {p0 : Pos}
    {V0 : Finset Pos} {cur : Pos} (ns : List Pos) (hns : ∀ n ∈ ns, Adjacent cur n) :
    ∀ s : BfsState, BfsInv grid plant p0 V0 [cur] s → cur ∈ s.region →
    ∃ s1, visitNeighbors grid plant ns s = .ok s1 ∧ BfsInv grid plant p0 V0 [cur] s1 ∧
      s.region ⊆ s1.region ∧
      (∀ n ∈ ns, InGrid grid n → cellAt grid n = some plant → n ∈ s1.region) ∧
      s1.Q.length + s.region.card = s.Q.length + s1.region.card := by
  induction ns with
  | nil =>
    intro s hinv _
    exact ⟨s, rfl, hinv, Finset.Subset.refl _, fun n hn => absurd hn (List.not_mem_nil n), rfl⟩
  | cons n ns ih =>
    intro s hinv hcur
    obtain ⟨s1, h1, hinv1, hsub1, hn1, hlen1⟩ :=
      visitNeighbor_spec hwf hinv hcur (hns n (List.mem_cons_self _ _))
    obtain ⟨s2, h2, hinv2, hsub2, hn2, hlen2⟩ :=
      ih (fun m hm => hns m (List.mem_cons_of_mem _ hm)) s1 hinv1 (hsub1 hcur)
    refine ⟨s2, ?_, hinv2, hsub1.trans hsub2, ?_, by omega⟩
    · simp only [visitNeighbors, h1]
      exact h2
    · intro m hm hin hlab
      rcases List.mem_cons.mp hm with rfl | hm
      · exact hsub2 (hn1 hin hlab)
      · exact hn2 m hm hin hlab

theorem bfsLoop_spec {grid : Grid} (hwf : WellFormed grid) {plant : Char} {p0 : Pos}
    {V0 : Finset Pos} :
    ∀ (fuel : Nat) (s : BfsState), BfsInv grid plant p0 V0 [] s →
      s.Q.length + grid.length * width grid ≤ fuel + s.region.card →
      ∃ s1, bfsLoop grid plant fuel s = .ok s1 ∧ BfsInv grid plant p0 V0 [] s1 ∧ s1.Q = [] := by
  intro fuel
  induction fuel with
  | zero =>
    intro s hinv hfuel
    have hcard : s.region.card ≤ grid.length * width grid := by
      rw [← card_cells]
      exact Finset.card_le_card fun p hp => mem_cells.mpr (hinv.inGrid p hp).1
    have hQ : s.Q = [] := List.length_eq_zero.mp (by omega)
    exact ⟨s, by simp [bfsLoop, hQ], hinv, hQ⟩
  | succ fuel ih =>
    intro s hinv hfuel
    rcases List.eq_nil_or_concat s.Q with hQ | ⟨Q1, cur, hQ⟩
    · exact ⟨s, by simp [bfsLoop, hQ], hinv, hQ⟩
    · have hlast : s.Q.getLast? = some cur := by rw [hQ]; simp
      have hdrop : s.Q.dropLast = Q1 := by rw [hQ]; simp
      have hcur : cur ∈ s.region := hinv.queue cur (by rw [hQ]; simp)
      have hmid : BfsInv grid plant p0 V0 [cur] { s with Q := Q1 } := by
        constructor
        · exact hinv.start_mem
        · exact hinv.inGrid
        · exact hinv.path
        · intro q hq
          exact hinv.queue q (by rw [hQ]; simp [hq])
        · intro p hp hpQ hpc
          refine hinv.closed p hp ?_ (List.not_mem_nil p)
          rw [hQ]
          simp only [List.concat_eq_append, List.mem_append, List.mem_singleton, not_or]
          exact ⟨hpQ, fun h => hpc (by simp [h])⟩
        · exact hinv.visited
      obtain ⟨s1, h1, hinv1, hsub1, hn1, hlen1⟩ :=
        visitNeighbors_spec hwf (neighbors cur)
          (fun n hn => (adjacent_iff_mem_neighbors cur n).mpr hn) _ hmid hcur
      have hinv1' : BfsInv grid plant p0 V0 [] s1 := by
        constructor
        · exact hinv1.start_mem
        · exact hinv1.inGrid
        · exact hinv1.path
        · exact hinv1.queue
        · intro p hp hpQ _ n hn hadj hlab
          by_cases hpc : p = cur
          · subst hpc
            exact hn1 n ((adjacent_iff_mem_neighbors p n).mp hadj) hn hlab
          · exact hinv1.closed p hp hpQ (by simpa using hpc) n hn hadj hlab
        · exact hinv1.visited
      have hlenQ : s.Q.length = Q1.length + 1 := by rw [hQ]; simp
      have hlen1' : s1.Q.length + s.region.card = Q1.length + s1.region.card := hlen1
      obtain ⟨s2, h2, hinv2, hQ2⟩ := ih s1 hinv1' (by omega)
      refine ⟨s2, ?_, hinv2, hQ2⟩
      simp only [bfsLoop, hlast, hdrop, h1]
      exact h2

theorem pathIn_symm {R : Finset Pos} {a b : Pos} (h : PathIn R a b) : PathIn R b a := by
  induction h with
  | refl => exact Relation.ReflTransGen.refl
  | tail _ hbc ih =>
    exact Relation.ReflTransGen.head ⟨hbc.2.1, hbc.1, adjacent_symm hbc.2.2⟩ ih

theorem isRegion_of_bfs {grid : Grid} {plant : Char} {p0 : Pos} {V0 : Finset Pos}
    {s : BfsState} (hinv : BfsInv grid plant p0 V0 [] s) (hQ : s.Q = []) :
    IsRegion grid s.region := by
  constructor
  · exact ⟨p0, hinv.start_mem⟩
  · exact fun p hp => (hinv.inGrid p hp).1
  · exact ⟨plant, fun p hp => (hinv.inGrid p hp).2⟩
  · intro a ha b hb
    exact Relation.ReflTransGen.trans (pathIn_symm (hinv.path a ha)) (hinv.path b hb)
  · intro a ha b hb hadj hlab
    refine hinv.closed a ha (by simp [hQ]) (List.not_mem_nil a) b hb hadj ?_
    rw [hlab]
    exact (hinv.inGrid a ha).2

theorem scanCell_spec {grid : Grid} (hwf : WellFormed grid) {fuel : Nat}
    (hfuel : grid.length * width grid ≤ fuel) {s : ScanState} (hinv : ScanInv grid s)
    {p : Pos} (hp : InGrid grid p) :
    ∃ s1, scanCell fuel grid s p = .ok s1 ∧ ScanInv grid s1 ∧ s.visited ⊆ s1.visited ∧
      p ∈ s1.visited := by
  unfold scanCell
  by_cases hv : p ∈ s.visited
  · rw [if_pos hv]
    exact ⟨s, rfl, hinv, Finset.Subset.refl _, hv⟩
  · rw [if_neg hv]
    obtain ⟨plant, hplant⟩ := cellAt_of_inGrid hwf hp
    rw [hplant]
    simp only
    have hinit : BfsInv grid plant p s.visited []
        { region := {p}, visited := insert p s.visited, Q := p :: s.Q } := by
      constructor
      · exact Finset.mem_singleton_self p
      · intro q hq
        rw [Finset.mem_singleton.mp hq]
        exact ⟨hp, hplant⟩
      · intro q hq
        rw [Finset.mem_singleton.mp hq]
        exact Relation.ReflTransGen.refl
      · intro q hq
        rw [hinv.queue] at hq
        simpa using hq
      · intro q hq hqQ
        rw [Finset.mem_singleton.mp hq] at hqQ
        exact absurd (List.mem_cons_self _ _) hqQ
      · show insert p s.visited = s.visited ∪ {p}
        rw [Finset.union_comm, Finset.insert_eq]
    obtain ⟨b, hb, hinvb, hQb⟩ := bfsLoop_spec hwf fuel _ hinit (by
      show (p :: s.Q).length + grid.length * width grid ≤ fuel + ({p} : Finset Pos).card
      rw [hinv.queue, Finset.card_singleton]
      simp only [List.length_singleton]
      omega)
    rw [hb]
    simp only
    refine ⟨_, rfl, ?_, ?_, ?_⟩
    · constructor
      · exact hQb
      · intro R hR
        rcases Finset.mem_insert.mp hR with rfl | hR
        · exact isRegion_of_bfs hinvb hQb
        · exact hinv.regions R hR
      · intro q
        show q ∈ b.visited ↔ ∃ R ∈ insert b.region s.allRegions, q ∈ R
        rw [hinvb.visited, Finset.mem_union, hinv.visited q]
        constructor
        · rintro (⟨R, hR, hq⟩ | hq)
          · exact ⟨R, Finset.mem_insert_of_mem hR, hq⟩
          · exact ⟨b.region, Finset.mem_insert_self _ _, hq⟩
        · rintro ⟨R, hR, hq⟩
          rcases Finset.mem_insert.mp hR with rfl | hR
          · exact Or.inr hq
          · exact Or.inl ⟨R, hR, hq⟩
    · show s.visited ⊆ b.visited
      rw [hinvb.visited]
      exact Finset.subset_union_left
    · show p ∈ b.visited
      rw [hinvb.visited]
      exact Finset.mem_union_right _ hinvb.start_mem

theorem scanCells_spec {grid : Grid} (hwf : WellFormed grid) {fuel : Nat}
    (hfuel : grid.length * width grid ≤ fuel) (ps : List Pos) (hps : ∀ p ∈ ps, InGrid grid p) :
    ∀ s : ScanState, ScanInv grid s →
    ∃ s1, scanCells fuel grid ps s = .ok s1 ∧ ScanInv grid s1 ∧ s.visited ⊆ s1.visited ∧
      ∀ p ∈ ps, p ∈ s1.visited := by
  induction ps with
  | nil =>
    intro s hinv
    exact ⟨s, rfl, hinv, Finset.Subset.refl _, fun p hp => absurd hp (List.not_mem_nil p)⟩
  | cons p ps ih =>
    intro s hinv
    obtain ⟨s1, h1, hinv1, hsub1, hp1⟩ :=
      scanCell_spec hwf hfuel hinv (hps p (List.mem_cons_self _ _))
    obtain ⟨s2, h2, hinv2, hsub2, hall⟩ :=
      ih (fun q hq => hps q (List.mem_cons_of_mem _ hq)) s1 hinv1
    refine ⟨s2, ?_, hinv2, hsub1.trans hsub2, ?_⟩
    · simp only [scanCells, h1]
      exact h2
    · intro q hq
      rcases List.mem_cons.mp hq with rfl | hq
      · exact hsub2 hp1
      · exact hall q hq

theorem mem_scanOrder {grid : Grid} (hwf : WellFormed grid) (p : Pos) :
    p ∈ scanOrder grid ↔ InGrid grid p := by
  obtain ⟨p1, p2⟩ := p
  simp only [scanOrder, List.mem_flatMap, List.mem_range, List.mem_map, Prod.mk.injEq, InGrid]
  constructor
  · rintro ⟨i, hi, j, hj, rfl, rfl⟩
    have hrow : (grid.getD i []).length = width grid := by
      rw [List.getD_eq_getElem _ _ hi]
      exact hwf.2 _ (List.getElem_mem _)
    omega
  · rintro ⟨h1, h2, h3, h4⟩
    have hi : p1.toNat < grid.length := by omega
    have hrow : (grid.getD p1.toNat []).length = width grid := by
      rw [List.getD_eq_getElem _ _ hi]
      exact hwf.2 _ (List.getElem_mem _)
    exact ⟨p1.toNat, hi, p2.toNat, by omega, by omega, by omega⟩

/-- The scan on a non-empty rectangular grid: with fuel `rows * cols` or more it returns
a set of regions that covers the grid. -/
theorem scanWith_spec {grid : Grid} (hwf : WellFormed grid) {fuel : Nat}
    (hfuel : grid.length * width grid ≤ fuel) :
    ∃ regs, scanWith fuel grid = .ok regs ∧ (∀ R ∈ regs, IsRegion grid R) ∧
      ∀ p, InGrid grid p → ∃ R ∈ regs, p ∈ R := by
  have hinit : ScanInv grid { allRegions := ∅, visited := ∅, Q := [] } := by
    constructor
    · rfl
    · intro R hR
      exact absurd hR (Finset.not_mem_empty R)
    · intro p
      simp
  obtain ⟨s1, h1, hinv1, _, hall⟩ :=
    scanCells_spec hwf hfuel (scanOrder grid) (fun p hp => (mem_scanOrder hwf p).mp hp) _ hinit
  refine ⟨s1.allRegions, ?_, hinv1.regions, ?_⟩
  · simp only [scanWith, h1]
  · intro p hp
    exact (hinv1.visited p).mp (hall p ((mem_scanOrder hwf p).mpr hp))

theorem discoverRegions_spec {grid : Grid} (hwf : WellFormed grid) :
    ∃ regs, discoverRegions grid = .ok regs ∧ (∀ R ∈ regs, IsRegion grid R) ∧
      ∀ p, InGrid grid p → ∃ R ∈ regs, p ∈ R :=
  scanWith_spec hwf (Nat.le_succ _)

theorem bfsLoop_mono {grid : Grid} {plant : Char} :
    ∀ (fuel : Nat) (s s1 : BfsState), bfsLoop grid plant fuel s = .ok s1 →
      ∀ fuel1, fuel ≤ fuel1 → bfsLoop grid plant fuel1 s = .ok s1 := by
  intro fuel
  induction fuel with
  | zero =>
    intro s s1 h fuel1 _
    have hQ : s.Q = [] := by
      by_contra hne
      simp [bfsLoop, hne] at h
    cases fuel1 with
    | zero => exact h
    | succ k =>
      simp only [bfsLoop, hQ, if_true] at h
      simp only [bfsLoop, hQ, List.getLast?_nil]
      exact h
  | succ fuel ih =>
    intro s s1 h fuel1 hle
    obtain ⟨k, rfl⟩ : ∃ k, fuel1 = k + 1 := ⟨fuel1 - 1, by omega⟩
    unfold bfsLoop at h ⊢
    cases hlast : s.Q.getLast? with
    | none =>
      rw [hlast] at h
      exact h
    | some cur =>
      rw [hlast] at h
      simp only at h ⊢
      cases hv : visitNeighbors grid plant (neighbors cur) { s with Q := s.Q.dropLast } with
      | error e =>
        rw [hv] at h
        exact absurd h (by simp)
      | ok s2 =>
        rw [hv] at h
        exact ih s2 s1 h k (by omega)

theorem scanCell_mono {grid : Grid} {fuel fuel1 : Nat} (hle : fuel ≤ fuel1) {s s1 : ScanState}
    {p : Pos} (h : scanCell fuel grid s p = .ok s1) : scanCell fuel1 grid s p = .ok s1 := by
  unfold scanCell at h ⊢
  by_cases hv : p ∈ s.visited
  · rw [if_pos hv] at h ⊢
    exact h
  · rw [if_neg hv] at h ⊢
    cases hc : cellAt grid p with
    | none =>
      rw [hc] at h
      exact absurd h (by simp)
    | some plant =>
      rw [hc] at h
      simp only at h ⊢
      cases hb : bfsLoop grid plant fuel
          { region := {p}, visited := insert p s.visited, Q := p :: s.Q } with
      | error e =>
        rw [hb] at h
        exact absurd h (by simp)
      | ok b =>
        rw [hb] at h
        rw [bfsLoop_mono fuel _ b hb fuel1 hle]
        exact h

theorem scanCells_mono {grid : Grid} {fuel fuel1 : Nat} (hle : fuel ≤ fuel1) (ps : List Pos) :
    ∀ s s1 : ScanState, scanCells fuel grid ps s = .ok s1 →
      scanCells fuel1 grid ps s = .ok s1 := by
  induction ps with
  | nil =>
    intro s s1 h
    exact h
  | cons p ps ih =>
    intro s s1 h
    unfold scanCells at h ⊢
    cases hc : scanCell fuel grid s p with
    | error e =>
      rw [hc] at h
      exact absurd h (by simp)
    | ok s2 =>
      rw [hc] at h
      rw [scanCell_mono hle hc]
      exact ih s2 s1 h

theorem scanWith_mono {grid : Grid} {fuel fuel1 : Nat} (hle : fuel ≤ fuel1)
    {regs : Finset (Finset Pos)} (h : scanWith fuel grid = .ok regs) :
    scanWith fuel1 grid = .ok regs := by
  unfold scanWith at h ⊢
  cases hc : scanCells fuel grid (scanOrder grid) { allRegions := ∅, visited := ∅, Q := [] } with
  | error e =>
    rw [hc] at h
    exact absurd h (by simp)
  | ok s1 =>
    rw [hc] at h
    rw [scanCells_mono hle _ _ _ hc]
    exact h

/-- From `rows * cols` on, the fuel does not change what the scan returns. -/
theorem scanWith_fuel {grid : Grid} (hwf : WellFormed grid) {fuel : Nat}
    (hfuel : grid.length * width grid ≤ fuel) : scanWith fuel grid = discoverRegions grid := by
  obtain ⟨regs, hregs, _⟩ := scanWith_spec hwf (Nat.le_refl (grid.length * width grid))
  rw [scanWith_mono hfuel hregs]
  exact (scanWith_mono (Nat.le_succ _) hregs).symm

theorem isRegion_label {grid : Grid} {R : Finset Pos} (hR : IsRegion grid R) {a b : Pos}
    (ha : a ∈ R) (hb : b ∈ R) : cellAt grid a = cellAt grid b := by
  obtain ⟨ch, hch⟩ := hR.label
  rw [hch a ha, hch b hb]

theorem isRegion_sameLabelPath {grid : Grid} {R : Finset Pos} (hR : IsRegion grid R) {a b : Pos}
    (ha : a ∈ R) (hab : SameLabelPath grid a b) : b ∈ R := by
  induction hab with
  | refl => exact ha
  | tail _ hxy ih => exact hR.closed _ ih _ hxy.2.1 hxy.2.2.1 hxy.2.2.2.symm

theorem sameLabelPath_of_pathIn {grid : Grid} {R : Finset Pos} (hR : IsRegion grid R) {a b : Pos}
    (hab : PathIn R a b) : SameLabelPath grid a b := by
  induction hab with
  | refl => exact Relation.ReflTransGen.refl
  | tail _ hxy ih =>
    exact Relation.ReflTransGen.tail ih
      ⟨hR.inGrid _ hxy.1, hR.inGrid _ hxy.2.1, hxy.2.2, isRegion_label hR hxy.1 hxy.2.1⟩

theorem isRegion_eq_of_mem {grid : Grid} {R S : Finset Pos} (hR : IsRegion grid R)
    (hS : IsRegion grid S) {p : Pos} (hpR : p ∈ R) (hpS : p ∈ S) : R = S := by
  apply Finset.Subset.antisymm
  · intro q hq
    exact isRegion_sameLabelPath hS hpS (sameLabelPath_of_pathIn hR (hR.path p hpR q hq))
  · intro q hq
    exact isRegion_sameLabelPath hR hpR (sameLabelPath_of_pathIn hS (hS.path p hpS q hq))

theorem isMaximalRegion_of_isRegion {grid : Grid} {R : Finset Pos} (hR : IsRegion grid R) :
    IsMaximalRegion grid R :=
  ⟨hR.nonempty, hR.inGrid, fun a ha b =>
    ⟨fun hb => sameLabelPath_of_pathIn hR (hR.path a ha b hb),
      fun hab => isRegion_sameLabelPath hR ha hab⟩⟩

/-- C1: on every non-empty rectangular grid the scan returns, and the sets collected in
`allRegions` partition the grid coordinates: every position of the grid lies in some
region, every member of a region is a position of the grid, two different regions are
disjoint, and no region is empty. -/
theorem regions_partition (grid : Grid) (hwf : WellFormed grid) :
    ∃ regs, discoverRegions grid = .ok regs ∧
      (∀ p, InGrid grid p → ∃ R ∈ regs, p ∈ R) ∧
      (∀ R ∈ regs, ∀ p ∈ R, InGrid grid p) ∧
      (∀ R ∈ regs, ∀ S ∈ regs, R ≠ S → Disjoint R S) ∧
      ∅ ∉ regs := by
  obtain ⟨regs, hregs, hreg, hcover⟩ := discoverRegions_spec hwf
  refine ⟨regs, hregs, hcover, fun R hR => (hreg R hR).inGrid, ?_, ?_⟩
  · intro R hR S hS hne
    rw [Finset.disjoint_left]
    intro p hpR hpS
    exact hne (isRegion_eq_of_mem (hreg R hR) (hreg S hS) hpR hpS)
  · intro h
    exact Finset.not_nonempty_empty (hreg ∅ h).nonempty

theorem regions_partition_witness :
    WellFormed scenarioB ∧
    ∃ regs, discoverRegions scenarioB = .ok regs ∧
      (∀ p, InGrid scenarioB p → ∃ R ∈ regs, p ∈ R) ∧
      (∀ R ∈ regs, ∀ p ∈ R, InGrid scenarioB p) ∧
      (∀ R ∈ regs, ∀ S ∈ regs, R ≠ S → Disjoint R S) ∧
      ∅ ∉ regs :=
  ⟨by decide, regions_partition scenarioB (by decide)⟩

/-- C2: on every non-empty rectangular grid, all cells of a region found by the scan
carry one label, and any two cells of the region are joined by a path of 4-adjacent
cells that all lie in the region. -/
theorem regions_connected (grid : Grid) (hwf : WellFormed grid) :
    ∃ regs, discoverRegions grid = .ok regs ∧
      ∀ R ∈ regs, (∃ ch, ∀ p ∈ R, cellAt grid p = some ch) ∧
        ∀ a ∈ R, ∀ b ∈ R, PathIn R a b := by
  obtain ⟨regs, hregs, hreg, _⟩ := discoverRegions_spec hwf
  exact ⟨regs, hregs, fun R hR => ⟨(hreg R hR).label, (hreg R hR).path⟩⟩

theorem regions_connected_witness :
    WellFormed scenarioB ∧
    ∃ regs, discoverRegions scenarioB = .ok regs ∧
      ∀ R ∈ regs, (∃ ch, ∀ p ∈ R, cellAt scenarioB p = some ch) ∧
        ∀ a ∈ R, ∀ b ∈ R, PathIn R a b :=
  ⟨by decide, regions_connected scenarioB (by decide)⟩

/-- C3: on every non-empty rectangular grid the regions found by the scan are maximal:
two cells of the grid that are 4-adjacent and carry the same label lie together in one
of the regions found, every region that holds one of them holds the other, and no
4-connected same-label path joins cells of two different regions. -/
theorem regions_maximal (grid : Grid) (hwf : WellFormed grid) :
    ∃ regs, discoverRegions grid = .ok regs ∧
      (∀ a b, InGrid grid a → InGrid grid b → Adjacent a b → cellAt grid a = cellAt grid b →
        ∃ R ∈ regs, a ∈ R ∧ b ∈ R) ∧
      (∀ a b, InGrid grid a → InGrid grid b → Adjacent a b → cellAt grid a = cellAt grid b →
        ∀ R ∈ regs, a ∈ R → b ∈ R) ∧
      (∀ R ∈ regs, ∀ S ∈ regs, R ≠ S → ∀ a ∈ R, ∀ b ∈ S, ¬ SameLabelPath grid a b) := by
  obtain ⟨regs, hregs, hreg, hcover⟩ := discoverRegions_spec hwf
  refine ⟨regs, hregs, ?_, ?_, ?_⟩
  · intro a b ha hb hadj hlab
    obtain ⟨R, hR, haR⟩ := hcover a ha
    exact ⟨R, hR, haR, (hreg R hR).closed a haR b hb hadj hlab.symm⟩
  · intro a b _ hb hadj hlab R hR ha
    exact (hreg R hR).closed a ha b hb hadj hlab.symm
  · intro R hR S hS hne a ha b hb hpath
    exact hne (isRegion_eq_of_mem (hreg R hR) (hreg S hS)
      (isRegion_sameLabelPath (hreg R hR) ha hpath) hb)

theorem regions_maximal_witness :
    WellFormed scenarioB ∧
    ∃ regs, discoverRegions scenarioB = .ok regs ∧
      (∀ a b, InGrid scenarioB a → InGrid scenarioB b → Adjacent a b →
        cellAt scenarioB a = cellAt scenarioB b → ∃ R ∈ regs, a ∈ R ∧ b ∈ R) ∧
      (∀ a b, InGrid scenarioB a → InGrid scenarioB b → Adjacent a b →
        cellAt scenarioB a = cellAt scenarioB b → ∀ R ∈ regs, a ∈ R → b ∈ R) ∧
      (∀ R ∈ regs, ∀ S ∈ regs, R ≠ S → ∀ a ∈ R, ∀ b ∈ S, ¬ SameLabelPath scenarioB a b) :=
  ⟨by decide, regions_maximal scenarioB (by decide)⟩

end GardenGroups

namespace GardenGroupsP2

open GardenGroups

/-- C7: on every non-empty rectangular grid both programs return a price, and it is the
sum, over the maximal same-label 4-connected regions of the grid (each once), of area
times `calculatePerimeter` in garden-groups.cpp and of area times `countSides` in
garden-groups_p2.cpp. -/
theorem price_eq_sum_over_regions (grid : Grid) (hwf : WellFormed grid) :
    ∃ regs : Finset (Finset Pos), (∀ R, R ∈ regs ↔ IsMaximalRegion grid R) ∧
      GardenGroups.calculatePriceOfFences grid =
        .ok (∑ R ∈ regs, (R.card : Int) * calculatePerimeter R) ∧
      GardenGroupsP2.calculatePriceOfFences grid =
        .ok (∑ R ∈ regs, (R.card : Int) * countSides R) := by
  obtain ⟨regs, hregs, hreg, hcover⟩ := discoverRegions_spec hwf
  refine ⟨regs, ?_, ?_, ?_⟩
  · intro R
    constructor
    · exact fun hR => isMaximalRegion_of_isRegion (hreg R hR)
    · rintro ⟨⟨a, ha⟩, hin, hmax⟩
      obtain ⟨S, hS, haS⟩ := hcover a (hin a ha)
      have hSmax := (isMaximalRegion_of_isRegion (hreg S hS)).2.2 a haS
      have hRS : R = S := by
        ext b
        rw [hmax a ha b, hSmax b]
      rw [hRS]
      exact hS
  · simp only [GardenGroups.calculatePriceOfFences, hregs, priceOfRegions]
  · simp only [GardenGroupsP2.calculatePriceOfFences, hregs, priceOfRegions]

theorem price_eq_sum_over_regions_witness :
    WellFormed scenarioB ∧
    ∃ regs : Finset (Finset Pos), (∀ R, R ∈ regs ↔ IsMaximalRegion scenarioB R) ∧
      GardenGroups.calculatePriceOfFences scenarioB =
        .ok (∑ R ∈ regs, (R.card : Int) * calculatePerimeter R) ∧
      GardenGroupsP2.calculatePriceOfFences scenarioB =
        .ok (∑ R ∈ regs, (R.card : Int) * countSides R) :=
  ⟨by decide, price_eq_sum_over_regions scenarioB (by decide)⟩

end GardenGroupsP2

namespace GardenGroups

theorem perimeter_cell (region : Finset Pos) (p : Pos) :
    (perimeterNeighbors p).foldl (fun acc n => if n ∈ region then acc - 1 else acc) (4 : Int) =
      4 - ((neighbors p).countP (· ∈ region) : Int) := by
  simp only [perimeterNeighbors, neighbors, List.foldl, List.countP_cons, List.countP_nil,
    decide_eq_true_eq]
  split_ifs <;> simp

theorem boundary_cell (region : Finset Pos) (p : Pos) :
    (∑ d ∈ directions, if (p.1 + d.1, p.2 + d.2) ∉ region then (1 : Int) else 0) =
      4 - ((neighbors p).countP (· ∈ region) : Int) := by
  have h1 : ((1 : Int), (0 : Int)) ∉ ({(-1, 0), (0, -1), (0, 1)} : Finset Pos) := by decide
  have h2 : ((-1 : Int), (0 : Int)) ∉ ({(0, -1), (0, 1)} : Finset Pos) := by decide
  have h3 : ((0 : Int), (-1 : Int)) ∉ ({(0, 1)} : Finset Pos) := by decide
  simp only [directions, Finset.sum_insert h1, Finset.sum_insert h2, Finset.sum_insert h3,
    Finset.sum_singleton, neighbors, List.countP_cons, List.countP_nil, decide_eq_true_eq,
    add_zero, Int.add_neg_one, ← sub_eq_add_neg]
  split_ifs <;> simp

/-- C4: `calculatePerimeter` is the sum over the cells of the region of 4 minus the
number of the cell's four neighbours that are in the region, which is the number of
pairs (cell, direction) whose neighbouring cell is not in the region. -/
theorem calculatePerimeter_eq (region : Finset Pos) :
    calculatePerimeter region =
        ∑ p ∈ region, (4 - ((neighbors p).countP (· ∈ region) : Int)) ∧
      calculatePerimeter region = ((boundaryEdges region).card : Int) := by
  have hfirst : calculatePerimeter region =
      ∑ p ∈ region, (4 - ((neighbors p).countP (· ∈ region) : Int)) :=
    Finset.sum_congr rfl fun p _ => perimeter_cell region p
  refine ⟨hfirst, ?_⟩
  rw [hfirst, boundaryEdges, Finset.card_filter, Nat.cast_sum, Finset.sum_product]
  refine Finset.sum_congr rfl fun p _ => ?_
  rw [← boundary_cell region p]
  refine Finset.sum_congr rfl fun d _ => ?_
  split_ifs <;> simp

end GardenGroups

namespace GardenGroupsP2

open GardenGroups

set_option maxRecDepth 100000 in
/-- C8: on the grid `AAAA`, `BBCD`, `BBCC`, `EEEC` the scan finds exactly the five
regions of the labels A, B, C, D, E, with (area, perimeter, sides) equal to (4, 10, 4),
(4, 8, 4), (4, 10, 8), (1, 4, 4), (3, 8, 4), and the area times perimeter price is 140. -/
theorem scenarioB_regions :
    discoverRegions scenarioB = .ok {regionA, regionB, regionC, regionD, regionE} ∧
      ({regionA, regionB, regionC, regionD, regionE} : Finset (Finset Pos)).card = 5 ∧
      (∀ p ∈ regionA, cellAt scenarioB p = some 'A') ∧
      (∀ p ∈ regionB, cellAt scenarioB p = some 'B') ∧
      (∀ p ∈ regionC, cellAt scenarioB p = some 'C') ∧
      (∀ p ∈ regionD, cellAt scenarioB p = some 'D') ∧
      (∀ p ∈ regionE, cellAt scenarioB p = some 'E') ∧
      (regionA.card, calculatePerimeter regionA, countSides regionA) = (4, 10, 4) ∧
      (regionB.card, calculatePerimeter regionB, countSides regionB) = (4, 8, 4) ∧
      (regionC.card, calculatePerimeter regionC, countSides regionC) = (4, 10, 8) ∧
      (regionD.card, calculatePerimeter regionD, countSides regionD) = (1, 4, 4) ∧
      (regionE.card, calculatePerimeter regionE, countSides regionE) = (3, 8, 4) ∧
      GardenGroups.calculatePriceOfFences scenarioB = .ok 140 := by
  decide

set_option maxRecDepth 100000 in
/-- C10: on the 1x1 grid with the label `A` the scan finds exactly one region, the cell
(0, 0), with area 1, perimeter 4 and 4 sides. -/
theorem scenarioA_region :
    discoverRegions scenarioA = .ok {{(0, 0)}} ∧
      ({{(0, 0)}} : Finset (Finset Pos)).card = 1 ∧
      ({(0, 0)} : Finset Pos).card = 1 ∧
      calculatePerimeter {(0, 0)} = 4 ∧
      countSides {(0, 0)} = 4 := by
  decide

theorem spacing_of_lt (fuel a : Nat) (h : a < 2 ^ 24) : spacing fuel a = 1 := by
  cases fuel with
  | zero => rfl
  | succ k =>
    unfold spacing
    rw [if_pos h]

theorem toFloat_of_lt {n : Int} (h : n.natAbs < 2 ^ 24) : toFloat n = n := by
  unfold toFloat
  simp only [spacing_of_lt _ _ h, Nat.div_one, Nat.mod_one, Nat.mul_zero, Nat.lt_one_iff,
    if_true, Nat.mul_one]
  exact Int.sign_mul_natAbs n

theorem toInt_double (x : Int) : toInt (2 * x) = x := by
  unfold toInt
  exact Int.mul_tdiv_cancel_left x (by decide)

theorem cornersOf_small {p : Pos} (h : p.1.natAbs < 2 ^ 23 ∧ p.2.natAbs < 2 ^ 23) :
    cornersOf p = [(2 * p.1 - 1, 2 * p.2 - 1), (2 * p.1 + 1, 2 * p.2 - 1),
      (2 * p.1 + 1, 2 * p.2 + 1), (2 * p.1 - 1, 2 * p.2 + 1)] := by
  unfold cornersOf
  rw [toFloat_of_lt (n := 2 * p.1 - 1) (by omega), toFloat_of_lt (n := 2 * p.1 + 1) (by omega),
    toFloat_of_lt (n := 2 * p.2 - 1) (by omega), toFloat_of_lt (n := 2 * p.2 + 1) (by omega)]

theorem squaresAround_lattice (k : Pos) :
    squaresAround (2 * k.1 - 1, 2 * k.2 - 1) = cellsAround k := by
  have h1 : 2 * k.1 - 1 - 1 = 2 * (k.1 - 1) := by ring
  have h2 : 2 * k.2 - 1 - 1 = 2 * (k.2 - 1) := by ring
  have h3 : 2 * k.1 - 1 + 1 = 2 * k.1 := by ring
  have h4 : 2 * k.2 - 1 + 1 = 2 * k.2 := by ring
  simp only [squaresAround, cellsAround, h1, h2, h3, h4, toInt_double]

theorem cornerCandidates_small {region : Finset Pos} (h : Small region) :
    cornerCandidates region =
      (cornerPoints region).image fun k => (2 * k.1 - 1, 2 * k.2 - 1) := by
  ext c
  simp only [cornerCandidates, cornerPoints, Finset.mem_biUnion, List.mem_toFinset,
    Finset.mem_image, Finset.mem_insert, Finset.mem_singleton]
  constructor
  · rintro ⟨p, hp, hc⟩
    rw [cornersOf_small (h p hp)] at hc
    simp only [List.mem_cons, List.mem_singleton, List.mem_nil_iff, or_false] at hc
    rcases hc with rfl | rfl | rfl | rfl
    · exact ⟨(p.1, p.2), ⟨p, hp, Or.inl rfl⟩, rfl⟩
    · exact ⟨(p.1 + 1, p.2), ⟨p, hp, Or.inr (Or.inl rfl)⟩, by simp; ring⟩
    · exact ⟨(p.1 + 1, p.2 + 1), ⟨p, hp, Or.inr (Or.inr (Or.inl rfl))⟩, by simp; constructor <;> ring⟩
    · exact ⟨(p.1, p.2 + 1), ⟨p, hp, Or.inr (Or.inr (Or.inr rfl))⟩, by simp; ring⟩
  · rintro ⟨k, ⟨p, hp, hk⟩, rfl⟩
    refine ⟨p, hp, ?_⟩
    rw [cornersOf_small (h p hp)]
    simp only [List.mem_cons, List.mem_singleton, List.mem_nil_iff, or_false]
    rcases hk with rfl | rfl | rfl | rfl
    · exact Or.inl rfl
    · exact Or.inr (Or.inl (by simp; ring))
    · exact Or.inr (Or.inr (Or.inl (by simp; constructor <;> ring)))
    · exact Or.inr (Or.inr (Or.inr (by simp; ring)))

theorem cornerIncrement_lattice (region : Finset Pos) (k : Pos) :
    cornerIncrement (config region (2 * k.1 - 1, 2 * k.2 - 1)) = cornerWeight region k := by
  unfold config cornerWeight
  rw [squaresAround_lattice]
  by_cases h1 : (k.1 - 1, k.2 - 1) ∈ region <;> by_cases h2 : (k.1, k.2 - 1) ∈ region <;>
    by_cases h3 : (k.1, k.2) ∈ region <;> by_cases h4 : (k.1 - 1, k.2) ∈ region <;>
    simp [cellsAround, cornerIncrement, List.filter, h1, h2, h3, h4, Adjacent]
  all_goals exact (if_pos ⟨by omega, by omega⟩).symm

/-- With all coordinates below `2 ^ 23` in absolute value, `countSides` is the sum of the
corner weights over the distinct corner points. -/
theorem countSides_eq_cornerSum_of_small {region : Finset Pos} (h : Small region) :
    countSides region = cornerSum region := by
  unfold countSides cornerSum
  rw [cornerCandidates_small h, Finset.sum_image]
  · exact Finset.sum_congr rfl fun k _ => cornerIncrement_lattice region k
  · intro a _ b _ hab
    simp only [Prod.mk.injEq] at hab
    exact Prod.ext (by omega) (by omega)

/-- Around a lattice point the corner weight counts the runs of boundary edges that begin
there when the boundary is walked with the region on the right-hand side. -/
theorem cornerWeight_eq_starts (region : Finset Pos) (k : Pos) :
    cornerWeight region k =
      (if IsStart region (k.1, k.2) (-1, 0) then 1 else 0) +
      (if IsStart region (k.1, k.2 - 1) (0, 1) then 1 else 0) +
      (if IsEnd region (k.1 - 1, k.2 - 1) (1, 0) then 1 else 0) +
      (if IsEnd region (k.1 - 1, k.2) (0, -1) then 1 else 0) := by
  have e1 : k.1 + -1 = k.1 - 1 := by ring
  have e2 : k.2 + -1 = k.2 - 1 := by ring
  have e3 : k.1 - 1 + 1 = k.1 := by ring
  have e4 : k.2 - 1 + 1 = k.2 := by ring
  unfold cornerWeight
  by_cases h1 : (k.1 - 1, k.2 - 1) ∈ region <;> by_cases h2 : (k.1, k.2 - 1) ∈ region <;>
    by_cases h3 : (k.1, k.2) ∈ region <;> by_cases h4 : (k.1 - 1, k.2) ∈ region <;>
    simp [cellsAround, List.filter, h1, h2, h3, h4, Adjacent, IsStart, IsEnd, HasEdge,
      cellAlong, along, e1, e2, e3, e4]
  all_goals exact ⟨by omega, by omega⟩

/-- Moving a sum over the region to a sum over its corner points, along one of the four
offsets between a cell and its corners. -/
theorem sum_over_corners (region : Finset Pos) (f : Pos → Int) (t : Pos)
    (ht : ∀ p ∈ region, (p.1 + t.1, p.2 + t.2) ∈ cornerPoints region)
    (hf : ∀ p, p ∉ region → f p = 0) :
    ∑ k ∈ cornerPoints region, f (k.1 - t.1, k.2 - t.2) = ∑ p ∈ region, f p := by
  have himg : ∑ k ∈ region.image (fun p : Pos => (p.1 + t.1, p.2 + t.2)),
      f (k.1 - t.1, k.2 - t.2) = ∑ p ∈ region, f p := by
    rw [Finset.sum_image]
    · refine Finset.sum_congr rfl fun p _ => ?_
      simp
    · intro a _ b _ hab
      simp only [Prod.mk.injEq] at hab
      exact Prod.ext (by omega) (by omega)
  rw [← himg]
  symm
  apply Finset.sum_subset
  · intro k hk
    obtain ⟨p, hp, rfl⟩ := Finset.mem_image.mp hk
    exact ht p hp
  · intro k _ hk
    apply hf
    intro hmem
    apply hk
    refine Finset.mem_image.mpr ⟨_, hmem, ?_⟩
    simp

theorem mem_cornerPoints {region : Finset Pos} {k : Pos} :
    k ∈ cornerPoints region ↔ ∃ p ∈ region,
      k = (p.1, p.2) ∨ k = (p.1 + 1, p.2) ∨ k = (p.1 + 1, p.2 + 1) ∨ k = (p.1, p.2 + 1) := by
  simp [cornerPoints]

theorem not_isStart_of_not_mem {region : Finset Pos} {p d : Pos} (h : p ∉ region) :
    ¬ IsStart region p d := fun hs => h hs.1.1

theorem not_isEnd_of_not_mem {region : Finset Pos} {p d : Pos} (h : p ∉ region) :
    ¬ IsEnd region p d := fun hs => h hs.1.1

/-- The corner sum counts the runs of boundary edges by the cell where each begins when
the boundary is walked with the region on the right-hand side. -/
theorem cornerSum_eq_starts (region : Finset Pos) :
    cornerSum region =
      (∑ p ∈ region, if IsStart region p (-1, 0) then (1 : Int) else 0) +
      (∑ p ∈ region, if IsStart region p (0, 1) then (1 : Int) else 0) +
      (∑ p ∈ region, if IsEnd region p (1, 0) then (1 : Int) else 0) +
      (∑ p ∈ region, if IsEnd region p (0, -1) then (1 : Int) else 0) := by
  unfold cornerSum
  rw [Finset.sum_congr rfl fun k _ => cornerWeight_eq_starts region k]
  rw [Finset.sum_add_distrib, Finset.sum_add_distrib, Finset.sum_add_distrib]
  have h1 := sum_over_corners region (fun p => if IsStart region p (-1, 0) then (1 : Int) else 0)
    (0, 0) (fun p hp => mem_cornerPoints.mpr ⟨p, hp, Or.inl (by simp)⟩)
    (fun p hp => if_neg (not_isStart_of_not_mem hp))
  have h2 := sum_over_corners region (fun p => if IsStart region p (0, 1) then (1 : Int) else 0)
    (0, 1) (fun p hp => mem_cornerPoints.mpr ⟨p, hp, Or.inr (Or.inr (Or.inr (by simp)))⟩)
    (fun p hp => if_neg (not_isStart_of_not_mem hp))
  have h3 := sum_over_corners region (fun p => if IsEnd region p (1, 0) then (1 : Int) else 0)
    (1, 1) (fun p hp => mem_cornerPoints.mpr ⟨p, hp, Or.inr (Or.inr (Or.inl rfl))⟩)
    (fun p hp => if_neg (not_isEnd_of_not_mem hp))
  have h4 := sum_over_corners region (fun p => if IsEnd region p (0, -1) then (1 : Int) else 0)
    (1, 0) (fun p hp => mem_cornerPoints.mpr ⟨p, hp, Or.inr (Or.inl (by simp))⟩)
    (fun p hp => if_neg (not_isEnd_of_not_mem hp))
  simp only [sub_zero] at h1 h2 h3 h4
  rw [← h1, ← h2, ← h3, ← h4]

theorem cellAlong_cellAlong (p d : Pos) (i j : Int) :
    cellAlong (cellAlong p d i) d j = cellAlong p d (i + j) := by
  simp only [cellAlong]
  exact Prod.ext (by ring) (by ring)

theorem cellAlong_zero (p d : Pos) : cellAlong p d 0 = p := by
  simp [cellAlong]

theorem cellAlong_injective {p d : Pos} (hd : d ∈ directions) {i j : Int}
    (h : cellAlong p d i = cellAlong p d j) : i = j := by
  simp only [directions, Finset.mem_insert, Finset.mem_singleton] at hd
  rcases hd with rfl | rfl | rfl | rfl <;>
    simp [cellAlong, along] at h <;> exact h

/-- In every direction as many runs of boundary edges begin as end. -/
theorem card_starts_eq_card_ends (region : Finset Pos) (d : Pos) :
    (region.filter fun p => IsStart region p d).card =
      (region.filter fun p => IsEnd region p d).card := by
  have hs : (region.filter fun p => IsStart region p d) =
      ((region.filter fun p => HasEdge region p d).filter
        fun p => ¬ HasEdge region (cellAlong p d (-1)) d) := by
    rw [Finset.filter_filter]
    rfl
  have he : (region.filter fun p => IsEnd region p d) =
      ((region.filter fun p => HasEdge region p d).filter
        fun p => ¬ HasEdge region (cellAlong p d 1) d) := by
    rw [Finset.filter_filter]
    rfl
  have h1 := Finset.filter_card_add_filter_neg_card_eq_card
    (s := region.filter fun p => HasEdge region p d)
    (fun p => HasEdge region (cellAlong p d (-1)) d)
  have h2 := Finset.filter_card_add_filter_neg_card_eq_card
    (s := region.filter fun p => HasEdge region p d)
    (fun p => HasEdge region (cellAlong p d 1) d)
  have h3 : ((region.filter fun p => HasEdge region p d).filter
        fun p => HasEdge region (cellAlong p d (-1)) d).card =
      ((region.filter fun p => HasEdge region p d).filter
        fun p => HasEdge region (cellAlong p d 1) d).card := by
    apply Finset.card_bij (fun p _ => cellAlong p d (-1))
    · intro p hp
      simp only [Finset.mem_filter] at hp ⊢
      refine ⟨⟨hp.2.1, hp.2⟩, ?_⟩
      rw [cellAlong_cellAlong]
      simpa [cellAlong_zero] using hp.1.2
    · intro p _ q _ hpq
      have := congrArg (fun x => cellAlong x d 1) hpq
      simpa [cellAlong_cellAlong, cellAlong_zero] using this
    · intro q hq
      simp only [Finset.mem_filter] at hq
      refine ⟨cellAlong q d 1, ?_, ?_⟩
      · simp only [Finset.mem_filter]
        refine ⟨⟨hq.2.1, hq.2⟩, ?_⟩
        rw [cellAlong_cellAlong]
        simpa [cellAlong_zero] using hq.1.2
      · rw [cellAlong_cellAlong]
        simp [cellAlong_zero]
  rw [hs, he]
  omega

theorem exists_run_end {region : Finset Pos} {p d : Pos} (hd : d ∈ directions)
    (hp : HasEdge region p d) :
    ∃ n, n < region.card ∧ (∀ i ∈ List.range (n + 1), HasEdge region (cellAlong p d i) d) ∧
      ¬ HasEdge region (cellAlong p d (n + 1)) d := by
  have hex : ∃ m, m < region.card ∧ ¬ HasEdge region (cellAlong p d ((m : Int) + 1)) d := by
    by_contra hno
    push_neg at hno
    have hsub : (Finset.range (region.card + 1)).image (fun i : Nat => cellAlong p d i) ⊆
        region := by
      intro q hq
      obtain ⟨i, hi, rfl⟩ := Finset.mem_image.mp hq
      cases i with
      | zero =>
        simpa [cellAlong_zero] using hp.1
      | succ m =>
        have := (hno m (by simpa using hi)).1
        simpa using this
    have hcard := Finset.card_le_card hsub
    rw [Finset.card_image_of_injective, Finset.card_range] at hcard
    · omega
    · intro i j hij
      exact_mod_cast cellAlong_injective hd hij
  classical
  have hex2 : ∃ m : Nat, ¬ HasEdge region (cellAlong p d ((m : Int) + 1)) d :=
    hex.imp fun m hm => hm.2
  obtain ⟨m, hm, hm2⟩ := hex
  refine ⟨Nat.find hex2, lt_of_le_of_lt (Nat.find_min' hex2 hm2) hm, ?_, Nat.find_spec hex2⟩
  intro i hi
  cases i with
  | zero => simpa [cellAlong_zero] using hp
  | succ j =>
    have hj : j < Nat.find hex2 := by
      have := List.mem_range.mp hi
      omega
    have := Nat.find_min hex2 hj
    simpa using this

theorem isStart_of_isSegment {region : Finset Pos} {p d : Pos} {n : Nat}
    (h : IsSegment region p d n) : IsStart region p d := by
  refine ⟨?_, h.2.1⟩
  have := h.1 0 (List.mem_range.mpr (Nat.succ_pos n))
  simpa [cellAlong_zero] using this

theorem isSegment_unique {region : Finset Pos} {p d : Pos} {n m : Nat}
    (hn : IsSegment region p d n) (hm : IsSegment region p d m) : n = m := by
  rcases Nat.lt_trichotomy n m with h | h | h
  · exfalso
    apply hn.2.2
    have := hm.1 (n + 1) (List.mem_range.mpr (by omega))
    simpa using this
  · exact h
  · exfalso
    apply hm.2.2
    have := hn.1 (m + 1) (List.mem_range.mpr (by omega))
    simpa using this

/-- Every maximal run of boundary edges is named by the cell and direction where it
begins: the segments are as many as the beginnings of runs. -/
theorem card_segments (region : Finset Pos) :
    (segments region).card =
      ((region ×ˢ directions).filter fun pd => IsStart region pd.1 pd.2).card := by
  apply Finset.card_bij (fun s _ => (s.1, s.2.1))
  · intro s hs
    simp only [segments, Finset.mem_filter, Finset.mem_product] at hs ⊢
    exact ⟨⟨hs.1.1, hs.1.2.1⟩, isStart_of_isSegment hs.2⟩
  · intro s hs t ht hst
    simp only [segments, Finset.mem_filter] at hs ht
    simp only [Prod.mk.injEq] at hst
    obtain ⟨p, d, n⟩ := s
    obtain ⟨q, e, m⟩ := t
    simp only at hst hs ht
    obtain ⟨rfl, rfl⟩ := hst
    rw [isSegment_unique hs.2 ht.2]
  · intro pd hpd
    simp only [Finset.mem_filter, Finset.mem_product] at hpd
    obtain ⟨n, hn, hrun, hstop⟩ := exists_run_end hpd.1.2 hpd.2.1
    refine ⟨(pd.1, pd.2, n), ?_, rfl⟩
    simp only [segments, Finset.mem_filter, Finset.mem_product, Finset.mem_range]
    exact ⟨⟨hpd.1.1, hpd.1.2, hn⟩, hrun, hpd.2.2, hstop⟩

theorem card_starts_by_direction (region : Finset Pos) :
    (((region ×ˢ directions).filter fun pd => IsStart region pd.1 pd.2).card : Int) =
      (∑ p ∈ region, if IsStart region p (-1, 0) then (1 : Int) else 0) +
      (∑ p ∈ region, if IsStart region p (0, 1) then (1 : Int) else 0) +
      (∑ p ∈ region, if IsStart region p (1, 0) then (1 : Int) else 0) +
      (∑ p ∈ region, if IsStart region p (0, -1) then (1 : Int) else 0) := by
  have h1 : ((1 : Int), (0 : Int)) ∉ ({(-1, 0), (0, -1), (0, 1)} : Finset Pos) := by decide
  have h2 : ((-1 : Int), (0 : Int)) ∉ ({(0, -1), (0, 1)} : Finset Pos) := by decide
  have h3 : ((0 : Int), (-1 : Int)) ∉ ({(0, 1)} : Finset Pos) := by decide
  rw [Finset.card_filter, Nat.cast_sum, Finset.sum_product, Finset.sum_comm]
  simp only [directions, Finset.sum_insert h1, Finset.sum_insert h2, Finset.sum_insert h3,
    Finset.sum_singleton, Nat.cast_ite, Nat.cast_one, Nat.cast_zero]
  ring

/-- The corner sum of a region is the number of its maximal straight boundary segments. -/
theorem cornerSum_eq_sideSegments (region : Finset Pos) :
    cornerSum region = sideSegments region := by
  have hdown := card_starts_eq_card_ends region (1, 0)
  have hleft := card_starts_eq_card_ends region (0, -1)
  rw [cornerSum_eq_starts, sideSegments, card_segments, card_starts_by_direction]
  simp only [Finset.sum_boole]
  rw [hdown, hleft]

/-- With all coordinates below `2 ^ 23` in absolute value, `countSides` is the number of
maximal straight boundary segments of the region. -/
theorem countSides_eq_sideSegments_of_small {region : Finset Pos} (h : Small region) :
    countSides region = sideSegments region := by
  rw [countSides_eq_cornerSum_of_small h, cornerSum_eq_sideSegments]

theorem mem_shift {t : Pos} {region : Finset Pos} {q : Pos} :
    q ∈ shift t region ↔ (q.1 - t.1, q.2 - t.2) ∈ region := by
  simp only [shift, Finset.mem_image]
  constructor
  · rintro ⟨p, hp, rfl⟩
    simpa using hp
  · intro h
    exact ⟨_, h, by simp⟩

theorem mem_shift_add {t : Pos} {region : Finset Pos} {a b : Int} :
    (a + t.1, b + t.2) ∈ shift t region ↔ (a, b) ∈ region := by
  rw [mem_shift]
  simp

theorem shift_injective (t : Pos) :
    Function.Injective fun p : Pos => (p.1 + t.1, p.2 + t.2) := by
  intro a b hab
  simp only [Prod.mk.injEq] at hab
  exact Prod.ext (by omega) (by omega)

theorem card_shift (t : Pos) (region : Finset Pos) : (shift t region).card = region.card :=
  Finset.card_image_of_injective _ (shift_injective t)

theorem calculatePerimeter_shift (t : Pos) (region : Finset Pos) :
    calculatePerimeter (shift t region) = calculatePerimeter region := by
  unfold calculatePerimeter
  refine (Finset.sum_image fun a _ b _ h => shift_injective t h).trans ?_
  refine Finset.sum_congr rfl fun p _ => ?_
  have e1 : p.1 + t.1 + 1 = p.1 + 1 + t.1 := by ring
  have e2 : p.1 + t.1 - 1 = p.1 - 1 + t.1 := by ring
  have e3 : p.2 + t.2 - 1 = p.2 - 1 + t.2 := by ring
  have e4 : p.2 + t.2 + 1 = p.2 + 1 + t.2 := by ring
  simp only [perimeterNeighbors, e1, e2, e3, e4, List.foldl, mem_shift_add]

theorem cornerPoints_shift (t : Pos) (region : Finset Pos) :
    cornerPoints (shift t region) = shift t (cornerPoints region) := by
  ext k
  rw [mem_shift, mem_cornerPoints, mem_cornerPoints]
  constructor
  · rintro ⟨q, hq, hk⟩
    refine ⟨_, mem_shift.mp hq, ?_⟩
    simp only [Prod.ext_iff] at hk ⊢
    omega
  · rintro ⟨p, hp, hk⟩
    refine ⟨(p.1 + t.1, p.2 + t.2), mem_shift_add.mpr hp, ?_⟩
    simp only [Prod.ext_iff] at hk ⊢
    omega

theorem cornerWeight_shift (t : Pos) (region : Finset Pos) (k : Pos) :
    cornerWeight (shift t region) (k.1 + t.1, k.2 + t.2) = cornerWeight region k := by
  rw [← cornerIncrement_lattice, ← cornerIncrement_lattice]
  congr 1
  unfold config
  rw [squaresAround_lattice, squaresAround_lattice]
  have e1 : k.1 + t.1 - 1 = k.1 - 1 + t.1 := by ring
  have e2 : k.2 + t.2 - 1 = k.2 - 1 + t.2 := by ring
  simp only [cellsAround, e1, e2, List.map, mem_shift_add]

theorem cornerSum_shift (t : Pos) (region : Finset Pos) :
    cornerSum (shift t region) = cornerSum region := by
  unfold cornerSum
  rw [cornerPoints_shift]
  refine (Finset.sum_image fun a _ b _ h => shift_injective t h).trans ?_
  exact Finset.sum_congr rfl fun k _ => cornerWeight_shift t region k

theorem plusRegion_eq_shift (r c : Int) : plusRegion r c = shift (r, c) (plusRegion 0 0) := by
  ext q
  rw [mem_shift]
  simp only [plusRegion, Finset.mem_insert, Finset.mem_singleton, Prod.ext_iff]
  omega

theorem small_plusRegion {r c : Int} (hr : r.natAbs + 1 < 2 ^ 23) (hc : c.natAbs + 1 < 2 ^ 23) :
    Small (plusRegion r c) := by
  intro p hp
  simp only [plusRegion, Finset.mem_insert, Finset.mem_singleton, Prod.ext_iff] at hp
  omega

/-- The plus-shaped region of scenario C has area 5 and perimeter 12 at every centre, and
12 sides at every centre whose coordinates are below `2 ^ 23 - 1` in absolute value. -/
theorem plusRegion_metrics (r c : Int) :
    (plusRegion r c).card = 5 ∧ calculatePerimeter (plusRegion r c) = 12 ∧
      (r.natAbs + 1 < 2 ^ 23 → c.natAbs + 1 < 2 ^ 23 → countSides (plusRegion r c) = 12) := by
  refine ⟨?_, ?_, ?_⟩
  · rw [plusRegion_eq_shift, card_shift]
    decide
  · rw [plusRegion_eq_shift, calculatePerimeter_shift]
    decide
  · intro hr hc
    rw [countSides_eq_cornerSum_of_small (small_plusRegion hr hc), plusRegion_eq_shift,
      cornerSum_shift]
    decide

/-- C5 at a large coordinate: for the one-cell region at column `2 ^ 24` the corners
`2 ^ 24 - 0.5` and `2 ^ 24 + 0.5` both become the `float` `2 ^ 24`, the set
`cornerCandidates` holds two points instead of four, and `countSides` returns 2, while
the sum of the corner weights over the four corner points is 4. The same happens at
column `2 ^ 25`, where no rounding tie is involved. -/
theorem countSides_single_cell_far :
    cornerCandidates {(0, 16777216)} = {(-1, 33554432), (1, 33554432)} ∧
      countSides {(0, 16777216)} = 2 ∧ cornerSum {(0, 16777216)} = 4 ∧
      countSides {(0, 33554432)} = 2 ∧ cornerSum {(0, 33554432)} = 4 := by
  decide

/-- C6 at a large coordinate: the two-cell bar at columns `2 ^ 23` and `2 ^ 23 + 1` has
4 maximal straight boundary segments, and `countSides` returns 6. -/
theorem countSides_bar_far :
    sideSegments {(0, 8388608), (0, 8388609)} = 4 ∧
      countSides {(0, 8388608), (0, 8388609)} = 6 := by
  decide

/-- C9 at a large coordinate: the plus-shaped region with centre `(1, 2 ^ 24)` has area 5
and perimeter 12, and `countSides` returns 6 instead of 12. -/
theorem countSides_plus_far :
    (plusRegion 1 16777216).card = 5 ∧ calculatePerimeter (plusRegion 1 16777216) = 12 ∧
      countSides (plusRegion 1 16777216) = 6 := by
  decide

theorem countSides_eq_cornerSum_of_small_witness :
    Small regionC ∧ countSides regionC = cornerSum regionC :=
  ⟨by decide, countSides_eq_cornerSum_of_small (by decide)⟩

theorem countSides_eq_sideSegments_of_small_witness :
    Small regionC ∧ countSides regionC = sideSegments regionC :=
  ⟨by decide, countSides_eq_sideSegments_of_small (by decide)⟩

end GardenGroupsP2

namespace GardenGroups

/-- On the line through `a` in direction `d` the last cell of the region has a boundary
edge facing `d`. -/
theorem exists_edge_on_line {region : Finset Pos} {d : Pos} (hd : d ∈ directions) {a : Pos}
    (ha : a ∈ region) :
    ∃ p ∈ region, (p.1 + d.1, p.2 + d.2) ∉ region ∧
      d.2 * (p.1 - a.1) = d.1 * (p.2 - a.2) := by
  have hne : (region.filter fun p => d.2 * (p.1 - a.1) = d.1 * (p.2 - a.2)).Nonempty :=
    ⟨a, Finset.mem_filter.mpr ⟨ha, by simp⟩⟩
  obtain ⟨p, hp, hmax⟩ := Finset.exists_max_image _ (fun p : Pos => p.1 * d.1 + p.2 * d.2) hne
  rw [Finset.mem_filter] at hp
  refine ⟨p, hp.1, ?_, hp.2⟩
  intro hq
  have hline := hp.2
  simp only [directions, Finset.mem_insert, Finset.mem_singleton] at hd
  rcases hd with rfl | rfl | rfl | rfl
  all_goals
    have h := hmax _ (Finset.mem_filter.mpr ⟨hq, by simp only at hline ⊢; omega⟩)
    simp only at h
    omega

/-- The boundary edges counted direction by direction. -/
theorem card_boundaryEdges (region : Finset Pos) :
    (boundaryEdges region).card =
      (region.filter fun p => (p.1 + 1, p.2 + 0) ∉ region).card +
      (region.filter fun p => (p.1 + -1, p.2 + 0) ∉ region).card +
      (region.filter fun p => (p.1 + 0, p.2 + -1) ∉ region).card +
      (region.filter fun p => (p.1 + 0, p.2 + 1) ∉ region).card := by
  have h1 : ((1 : Int), (0 : Int)) ∉ ({(-1, 0), (0, -1), (0, 1)} : Finset Pos) := by decide
  have h2 : ((-1 : Int), (0 : Int)) ∉ ({(0, -1), (0, 1)} : Finset Pos) := by decide
  have h3 : ((0 : Int), (-1 : Int)) ∉ ({(0, 1)} : Finset Pos) := by decide
  rw [boundaryEdges, Finset.card_filter, Finset.sum_product, Finset.sum_comm]
  simp only [directions, Finset.sum_insert h1, Finset.sum_insert h2, Finset.sum_insert h3,
    Finset.sum_singleton, ← Finset.card_filter]
  ring

theorem card_edgeCells_pos {region : Finset Pos} (hne : region.Nonempty) {d : Pos}
    (hd : d ∈ directions) :
    1 ≤ (region.filter fun p => (p.1 + d.1, p.2 + d.2) ∉ region).card := by
  obtain ⟨a, ha⟩ := hne
  obtain ⟨p, hp, hout, _⟩ := exists_edge_on_line hd ha
  exact Finset.card_pos.mpr ⟨p, Finset.mem_filter.mpr ⟨hp, hout⟩⟩

theorem card_edgeCells_two {region : Finset Pos} {d : Pos} (hd : d ∈ directions) {a b : Pos}
    (ha : a ∈ region) (hb : b ∈ region) (hab : d.2 * (b.1 - a.1) ≠ d.1 * (b.2 - a.2)) :
    2 ≤ (region.filter fun p => (p.1 + d.1, p.2 + d.2) ∉ region).card := by
  obtain ⟨p, hp, hpout, hpl⟩ := exists_edge_on_line hd ha
  obtain ⟨q, hq, hqout, hql⟩ := exists_edge_on_line hd hb
  have hpq : p ≠ q := by
    rintro rfl
    apply hab
    simp only [directions, Finset.mem_insert, Finset.mem_singleton] at hd
    rcases hd with rfl | rfl | rfl | rfl <;> simp only at hpl hql ⊢ <;> omega
  have hsub : ({p, q} : Finset Pos) ⊆
      region.filter fun p => (p.1 + d.1, p.2 + d.2) ∉ region := by
    intro x hx
    rcases Finset.mem_insert.mp hx with rfl | hx
    · exact Finset.mem_filter.mpr ⟨hp, hpout⟩
    · rw [Finset.mem_singleton.mp hx]
      exact Finset.mem_filter.mpr ⟨hq, hqout⟩
  have := Finset.card_le_card hsub
  rwa [Finset.card_pair hpq] at this

theorem calculatePerimeter_eq_sum (region : Finset Pos) :
    calculatePerimeter region =
      ∑ p ∈ region, (4 - ((neighbors p).countP (· ∈ region) : Int)) :=
  Finset.sum_congr rfl fun p _ => perimeter_cell region p

theorem calculatePerimeter_eq_card (region : Finset Pos) :
    calculatePerimeter region = ((boundaryEdges region).card : Int) := by
  rw [calculatePerimeter_eq_sum, boundaryEdges, Finset.card_filter, Nat.cast_sum,
    Finset.sum_product]
  refine Finset.sum_congr rfl fun p _ => ?_
  rw [← boundary_cell region p]
  refine Finset.sum_congr rfl fun d _ => ?_
  split_ifs <;> simp

theorem calculatePerimeter_le (region : Finset Pos) :
    calculatePerimeter region ≤ 4 * (region.card : Int) := by
  rw [calculatePerimeter_eq_sum]
  calc ∑ p ∈ region, (4 - ((neighbors p).countP (· ∈ region) : Int))
      ≤ ∑ _p ∈ region, (4 : Int) := Finset.sum_le_sum fun p _ => by omega
    _ = 4 * (region.card : Int) := by
      rw [Finset.sum_const, nsmul_eq_mul]
      ring

theorem four_le_calculatePerimeter {region : Finset Pos} (hne : region.Nonempty) :
    4 ≤ calculatePerimeter region := by
  rw [calculatePerimeter_eq_card, card_boundaryEdges]
  have h1 := card_edgeCells_pos hne (show ((1 : Int), (0 : Int)) ∈ directions by decide)
  have h2 := card_edgeCells_pos hne (show ((-1 : Int), (0 : Int)) ∈ directions by decide)
  have h3 := card_edgeCells_pos hne (show ((0 : Int), (-1 : Int)) ∈ directions by decide)
  have h4 := card_edgeCells_pos hne (show ((0 : Int), (1 : Int)) ∈ directions by decide)
  simp only at h1 h2 h3 h4
  omega

theorem calculatePerimeter_singleton (a : Pos) : calculatePerimeter {a} = 4 := by
  rw [calculatePerimeter_eq_sum, Finset.sum_singleton]
  have h : (neighbors a).countP (· ∈ ({a} : Finset Pos)) = 0 := by
    rw [List.countP_eq_zero]
    intro n hn
    simp only [neighbors, List.mem_cons, List.mem_singleton, List.mem_nil_iff, or_false] at hn
    simp only [Finset.mem_singleton, decide_eq_true_eq]
    rcases hn with rfl | rfl | rfl | rfl <;> simp [Prod.ext_iff]
  rw [h]
  rfl

theorem five_le_calculatePerimeter {region : Finset Pos} {a b : Pos} (ha : a ∈ region)
    (hb : b ∈ region) (hab : a ≠ b) : 5 ≤ calculatePerimeter region := by
  have hne : region.Nonempty := ⟨a, ha⟩
  rw [calculatePerimeter_eq_card, card_boundaryEdges]
  have h1 := card_edgeCells_pos hne (show ((1 : Int), (0 : Int)) ∈ directions by decide)
  have h2 := card_edgeCells_pos hne (show ((-1 : Int), (0 : Int)) ∈ directions by decide)
  have h3 := card_edgeCells_pos hne (show ((0 : Int), (-1 : Int)) ∈ directions by decide)
  have h4 := card_edgeCells_pos hne (show ((0 : Int), (1 : Int)) ∈ directions by decide)
  simp only at h1 h2 h3 h4
  by_cases hcol : a.2 = b.2
  · have hrow : a.1 ≠ b.1 := fun h => hab (Prod.ext h hcol)
    have h5 := card_edgeCells_two (show ((0 : Int), (-1 : Int)) ∈ directions by decide) ha hb
      (by simp only; omega)
    simp only at h5
    omega
  · have h5 := card_edgeCells_two (show ((-1 : Int), (0 : Int)) ∈ directions by decide) ha hb
      (by simp only; omega)
    simp only at h5
    omega

/-- C11: a non-empty region of area `n` has a perimeter between 4 and `4 * n`. -/
theorem perimeter_bounds (region : Finset Pos) (hne : region.Nonempty) :
    4 ≤ calculatePerimeter region ∧ calculatePerimeter region ≤ 4 * (region.card : Int) :=
  ⟨four_le_calculatePerimeter hne, calculatePerimeter_le region⟩

theorem perimeter_bounds_witness :
    (GardenGroupsP2.regionC).Nonempty ∧ 4 ≤ calculatePerimeter GardenGroupsP2.regionC ∧
      calculatePerimeter GardenGroupsP2.regionC ≤ 4 * (GardenGroupsP2.regionC.card : Int) :=
  ⟨by decide, perimeter_bounds GardenGroupsP2.regionC (by decide)⟩

/-- C12: the perimeter of a non-empty region is 4 if and only if the region has exactly
one cell. -/
theorem perimeter_eq_four_iff (region : Finset Pos) (hne : region.Nonempty) :
    calculatePerimeter region = 4 ↔ region.card = 1 := by
  constructor
  · intro h4
    by_contra hcard
    obtain ⟨a, ha⟩ := hne
    have hex : ∃ b ∈ region, b ≠ a := by
      by_contra hno
      push_neg at hno
      apply hcard
      rw [Finset.card_eq_one]
      exact ⟨a, Finset.eq_singleton_iff_unique_mem.mpr ⟨ha, hno⟩⟩
    obtain ⟨b, hb, hba⟩ := hex
    have := five_le_calculatePerimeter ha hb (Ne.symm hba)
    omega
  · intro hcard
    obtain ⟨a, rfl⟩ := Finset.card_eq_one.mp hcard
    exact calculatePerimeter_singleton a

theorem perimeter_eq_four_iff_witness :
    (GardenGroupsP2.regionD).Nonempty ∧
      (calculatePerimeter GardenGroupsP2.regionD = 4 ↔ GardenGroupsP2.regionD.card = 1) :=
  ⟨by decide, perimeter_eq_four_iff GardenGroupsP2.regionD (by decide)⟩

end GardenGroups

namespace GardenGroupsP2

open GardenGroups

/-- Around a lattice point as many horizontal runs begin as vertical runs end, when the
boundary is walked with the region on the right-hand side. -/
theorem horizontal_starts_eq_vertical_ends (region : Finset Pos) (k : Pos) :
    (if IsStart region (k.1, k.2) (-1, 0) then (1 : Int) else 0) +
      (if IsEnd region (k.1 - 1, k.2 - 1) (1, 0) then 1 else 0) =
    (if IsEnd region (k.1 - 1, k.2 - 1) (0, 1) then 1 else 0) +
      (if IsStart region (k.1, k.2) (0, -1) then 1 else 0) := by
  have e1 : k.1 + -1 = k.1 - 1 := by ring
  have e2 : k.2 + -1 = k.2 - 1 := by ring
  have e3 : k.1 - 1 + 1 = k.1 := by ring
  have e4 : k.2 - 1 + 1 = k.2 := by ring
  by_cases h1 : (k.1 - 1, k.2 - 1) ∈ region <;> by_cases h2 : (k.1, k.2 - 1) ∈ region <;>
    by_cases h3 : (k.1, k.2) ∈ region <;> by_cases h4 : (k.1 - 1, k.2) ∈ region <;>
    simp [h1, h2, h3, h4, IsStart, IsEnd, HasEdge, cellAlong, along, e1, e2, e3, e4]

theorem sum_isStart_eq_card (region : Finset Pos) (d : Pos) :
    (∑ p ∈ region, if IsStart region p d then (1 : Int) else 0) =
      ((region.filter fun p => IsStart region p d).card : Int) := by
  rw [Finset.sum_boole]

theorem sum_isEnd_eq_card (region : Finset Pos) (d : Pos) :
    (∑ p ∈ region, if IsEnd region p d then (1 : Int) else 0) =
      ((region.filter fun p => IsStart region p d).card : Int) := by
  rw [Finset.sum_boole, card_starts_eq_card_ends]

/-- The runs of edges facing up or down are as many as those facing left or right. -/
theorem horizontal_eq_vertical (region : Finset Pos) :
    (∑ p ∈ region, if IsStart region p (-1, 0) then (1 : Int) else 0) +
      (∑ p ∈ region, if IsStart region p (1, 0) then (1 : Int) else 0) =
    (∑ p ∈ region, if IsStart region p (0, 1) then (1 : Int) else 0) +
      (∑ p ∈ region, if IsStart region p (0, -1) then (1 : Int) else 0) := by
  have h1 := sum_over_corners region (fun p => if IsStart region p (-1, 0) then (1 : Int) else 0)
    (0, 0) (fun p hp => mem_cornerPoints.mpr ⟨p, hp, Or.inl (by simp)⟩)
    (fun p hp => if_neg (not_isStart_of_not_mem hp))
  have h2 := sum_over_corners region (fun p => if IsEnd region p (1, 0) then (1 : Int) else 0)
    (1, 1) (fun p hp => mem_cornerPoints.mpr ⟨p, hp, Or.inr (Or.inr (Or.inl rfl))⟩)
    (fun p hp => if_neg (not_isEnd_of_not_mem hp))
  have h3 := sum_over_corners region (fun p => if IsEnd region p (0, 1) then (1 : Int) else 0)
    (1, 1) (fun p hp => mem_cornerPoints.mpr ⟨p, hp, Or.inr (Or.inr (Or.inl rfl))⟩)
    (fun p hp => if_neg (not_isEnd_of_not_mem hp))
  have h4 := sum_over_corners region (fun p => if IsStart region p (0, -1) then (1 : Int) else 0)
    (0, 0) (fun p hp => mem_cornerPoints.mpr ⟨p, hp, Or.inl (by simp)⟩)
    (fun p hp => if_neg (not_isStart_of_not_mem hp))
  simp only [sub_zero] at h1 h2 h3 h4
  have hsum := Finset.sum_congr (rfl : cornerPoints region = cornerPoints region)
    fun k _ => horizontal_starts_eq_vertical_ends region k
  rw [Finset.sum_add_distrib, Finset.sum_add_distrib, h1, h2, h3, h4] at hsum
  rw [sum_isEnd_eq_card, ← sum_isStart_eq_card] at hsum
  rw [sum_isEnd_eq_card region (0, 1), ← sum_isStart_eq_card] at hsum
  exact hsum

/-- The number of maximal straight boundary segments of a region is even. -/
theorem even_sideSegments (region : Finset Pos) : Even (sideSegments region) := by
  have h := horizontal_eq_vertical region
  refine ⟨(∑ p ∈ region, if IsStart region p (-1, 0) then (1 : Int) else 0) +
      (∑ p ∈ region, if IsStart region p (1, 0) then (1 : Int) else 0), ?_⟩
  rw [sideSegments, card_segments, card_starts_by_direction]
  omega

theorem exists_isStart {region : Finset Pos} (hne : region.Nonempty) {d : Pos}
    (hd : d ∈ directions) : ∃ p ∈ region, IsStart region p d := by
  have hE : (region.filter fun p => HasEdge region p d).Nonempty := by
    obtain ⟨a, ha⟩ := hne
    obtain ⟨p, hp, hout, _⟩ := exists_edge_on_line hd ha
    exact ⟨p, Finset.mem_filter.mpr ⟨hp, hp, hout⟩⟩
  obtain ⟨p, hp, hmin⟩ := Finset.exists_min_image _
    (fun p : Pos => p.1 * (along d).1 + p.2 * (along d).2) hE
  rw [Finset.mem_filter] at hp
  refine ⟨p, hp.1, hp.2, ?_⟩
  intro hprev
  have h := hmin _ (Finset.mem_filter.mpr ⟨hprev.1, hprev⟩)
  simp only [directions, Finset.mem_insert, Finset.mem_singleton] at hd
  rcases hd with rfl | rfl | rfl | rfl <;> simp [cellAlong, along] at h

/-- A non-empty region has at least four maximal straight boundary segments. -/
theorem four_le_sideSegments {region : Finset Pos} (hne : region.Nonempty) :
    4 ≤ sideSegments region := by
  rw [sideSegments, card_segments, card_starts_by_direction]
  simp only [Finset.sum_boole]
  have key : ∀ d ∈ directions, 1 ≤ (region.filter fun p => IsStart region p d).card := by
    intro d hd
    obtain ⟨p, hp, hs⟩ := exists_isStart hne hd
    exact Finset.card_pos.mpr ⟨p, Finset.mem_filter.mpr ⟨hp, hs⟩⟩
  have h1 := key (-1, 0) (by decide)
  have h2 := key (0, 1) (by decide)
  have h3 := key (1, 0) (by decide)
  have h4 := key (0, -1) (by decide)
  omega

/-- With all coordinates below `2 ^ 23` in absolute value, `countSides` of a non-empty
region is at least 4 and even. -/
theorem countSides_of_small {region : Finset Pos} (h : Small region) :
    Even (countSides region) ∧ (region.Nonempty → 4 ≤ countSides region) := by
  rw [countSides_eq_sideSegments_of_small h]
  exact ⟨even_sideSegments region, four_le_sideSegments⟩

theorem countSides_of_small_witness :
    Small regionC ∧ Even (countSides regionC) ∧ (regionC.Nonempty → 4 ≤ countSides regionC) :=
  ⟨by decide, countSides_of_small (by decide)⟩

/-- C13 at a large coordinate: the one-cell region at column `2 ^ 24` is non-empty,
4-connected and has no hole, and `countSides` returns 2 for it, which is below 4. -/
theorem countSides_connected_far :
    ({(0, 16777216)} : Finset Pos).Nonempty ∧
      (∀ a ∈ ({(0, 16777216)} : Finset Pos), ∀ b ∈ ({(0, 16777216)} : Finset Pos),
        PathIn {(0, 16777216)} a b) ∧
      sideSegments {(0, 16777216)} = 4 ∧ countSides {(0, 16777216)} < 4 := by
  refine ⟨by decide, ?_, by decide, by decide⟩
  intro a ha b hb
  rw [Finset.mem_singleton.mp ha, Finset.mem_singleton.mp hb]
  exact Relation.ReflTransGen.refl

/-- C14 at a large coordinate: the L-shaped region of three cells at columns `2 ^ 23 - 1`
and `2 ^ 23` has 6 maximal straight boundary segments, and `countSides` returns the odd
number 5 for it. -/
theorem countSides_odd_far :
    sideSegments {(0, 8388607), (1, 8388607), (1, 8388608)} = 6 ∧
      countSides {(0, 8388607), (1, 8388607), (1, 8388608)} = 5 ∧
      ¬ Even (countSides {(0, 8388607), (1, 8388607), (1, 8388608)}) := by
  decide

end GardenGroupsP2

namespace GardenGroups

theorem cellAt_of_firstRowShortest {grid : Grid} (hg : FirstRowShortest grid) {p : Pos}
    (hp : InGrid grid p) : ∃ ch, cellAt grid p = some ch := by
  obtain ⟨h1, h2, h3, h4⟩ := hp
  have hlt : p.1.toNat < grid.length := by omega
  have hrow : width grid ≤ (grid[p.1.toNat]).length := hg _ (List.getElem_mem _)
  have hlt2 : p.2.toNat < (grid[p.1.toNat]).length := by omega
  refine ⟨(grid[p.1.toNat])[p.2.toNat], ?_⟩
  unfold cellAt
  rw [if_neg (by omega), List.getElem?_eq_getElem hlt]
  simp only
  exact List.getElem?_eq_getElem hlt2

theorem cellAt_of_mem_scanOrder {grid : Grid} {p : Pos} (hp : p ∈ scanOrder grid) :
    ∃ ch, cellAt grid p = some ch := by
  simp only [scanOrder, List.mem_flatMap, List.mem_range, List.mem_map] at hp
  obtain ⟨i, hi, j, hj, rfl⟩ := hp
  rw [List.getD_eq_getElem _ _ hi] at hj
  refine ⟨(grid[i])[j], ?_⟩
  unfold cellAt
  rw [if_neg (by simp)]
  simp only [Int.toNat_ofNat, List.getElem?_eq_getElem hi]
  exact List.getElem?_eq_getElem hj

theorem visitNeighbor_ok {grid : Grid} (hg : FirstRowShortest grid) (plant : Char) (p0 : Pos)
    (s : BfsState) (n : Pos) (hreg : ∀ q ∈ s.region, q = p0 ∨ InGrid grid q) :
    ∃ s1, visitNeighbor grid plant s n = .ok s1 ∧ (∀ q ∈ s1.region, q = p0 ∨ InGrid grid q) ∧
      s1.Q.length + s.region.card = s.Q.length + s1.region.card := by
  unfold visitNeighbor
  by_cases hout : n.1 < 0 ∨ n.2 < 0 ∨ (grid.length : Int) ≤ n.1 ∨ (width grid : Int) ≤ n.2
  · rw [if_pos hout]
    exact ⟨s, rfl, hreg, rfl⟩
  · rw [if_neg hout]
    have hin : InGrid grid n := by
      unfold InGrid
      omega
    obtain ⟨ch, hch⟩ := cellAt_of_firstRowShortest hg hin
    rw [hch]
    simp only
    by_cases hne : ch ≠ plant
    · rw [if_pos hne]
      exact ⟨s, rfl, hreg, rfl⟩
    · rw [if_neg hne]
      by_cases hmem : n ∈ s.region
      · rw [if_pos hmem]
        exact ⟨s, rfl, hreg, rfl⟩
      · rw [if_neg hmem]
        refine ⟨_, rfl, ?_, ?_⟩
        · intro q hq
          rcases Finset.mem_insert.mp hq with rfl | hq
          · exact Or.inr hin
          · exact hreg q hq
        · show (n :: s.Q).length + s.region.card = s.Q.length + (insert n s.region).card
          rw [Finset.card_insert_of_not_mem hmem, List.length_cons]
          omega

theorem visitNeighbors_ok {grid : Grid} (hg : FirstRowShortest grid) (plant : Char) (p0 : Pos)
    (ns : List Pos) :
    ∀ s : BfsState, (∀ q ∈ s.region, q = p0 ∨ InGrid grid q) →
    ∃ s1, visitNeighbors grid plant ns s = .ok s1 ∧
      (∀ q ∈ s1.region, q = p0 ∨ InGrid grid q) ∧
      s1.Q.length + s.region.card = s.Q.length + s1.region.card := by
  induction ns with
  | nil =>
    intro s hreg
    exact ⟨s, rfl, hreg, rfl⟩
  | cons n ns ih =>
    intro s hreg
    obtain ⟨s1, h1, hreg1, hlen1⟩ := visitNeighbor_ok hg plant p0 s n hreg
    obtain ⟨s2, h2, hreg2, hlen2⟩ := ih s1 hreg1
    refine ⟨s2, ?_, hreg2, by omega⟩
    simp only [visitNeighbors, h1]
    exact h2

theorem card_region_le {grid : Grid} {p0 : Pos} {region : Finset Pos}
    (hreg : ∀ q ∈ region, q = p0 ∨ InGrid grid q) :
    region.card ≤ grid.length * width grid + 1 := by
  have hsub : region ⊆ insert p0 (cells grid) := by
    intro q hq
    rcases hreg q hq with rfl | h
    · exact Finset.mem_insert_self _ _
    · exact Finset.mem_insert_of_mem (mem_cells.mpr h)
  calc region.card ≤ (insert p0 (cells grid)).card := Finset.card_le_card hsub
    _ ≤ (cells grid).card + 1 := Finset.card_insert_le _ _
    _ = grid.length * width grid + 1 := by rw [card_cells]

theorem bfsLoop_ok {grid : Grid} (hg : FirstRowShortest grid) (plant : Char) (p0 : Pos) :
    ∀ (fuel : Nat) (s : BfsState), (∀ q ∈ s.region, q = p0 ∨ InGrid grid q) →
      s.Q.length + (grid.length * width grid + 1) ≤ fuel + s.region.card →
      ∃ s1, bfsLoop grid plant fuel s = .ok s1 ∧ s1.Q = [] := by
  intro fuel
  induction fuel with
  | zero =>
    intro s hreg hfuel
    have hcard := card_region_le hreg
    have hQ : s.Q = [] := List.length_eq_zero.mp (by omega)
    exact ⟨s, by simp [bfsLoop, hQ], hQ⟩
  | succ fuel ih =>
    intro s hreg hfuel
    rcases List.eq_nil_or_concat s.Q with hQ | ⟨Q1, cur, hQ⟩
    · exact ⟨s, by simp [bfsLoop, hQ], hQ⟩
    · have hlast : s.Q.getLast? = some cur := by rw [hQ]; simp
      have hdrop : s.Q.dropLast = Q1 := by rw [hQ]; simp
      obtain ⟨s1, h1, hreg1, hlen1⟩ :=
        visitNeighbors_ok hg plant p0 (neighbors cur) { s with Q := Q1 } hreg
      have hlenQ : s.Q.length = Q1.length + 1 := by rw [hQ]; simp
      have hlen1' : s1.Q.length + s.region.card = Q1.length + s1.region.card := hlen1
      obtain ⟨s2, h2, hQ2⟩ := ih s1 hreg1 (by omega)
      refine ⟨s2, ?_, hQ2⟩
      simp only [bfsLoop, hlast, hdrop, h1]
      exact h2

theorem scanCells_ok {grid : Grid} (hg : FirstRowShortest grid) {fuel : Nat}
    (hfuel : grid.length * width grid + 1 ≤ fuel) (ps : List Pos)
    (hps : ∀ p ∈ ps, ∃ ch, cellAt grid p = some ch) :
    ∀ s : ScanState, s.Q = [] → ∃ s1, scanCells fuel grid ps s = .ok s1 ∧ s1.Q = [] := by
  induction ps with
  | nil =>
    intro s hQ
    exact ⟨s, rfl, hQ⟩
  | cons p ps ih =>
    intro s hQ
    have hcell : ∃ s1, scanCell fuel grid s p = .ok s1 ∧ s1.Q = [] := by
      unfold scanCell
      by_cases hv : p ∈ s.visited
      · rw [if_pos hv]
        exact ⟨s, rfl, hQ⟩
      · rw [if_neg hv]
        obtain ⟨plant, hplant⟩ := hps p (List.mem_cons_self _ _)
        rw [hplant]
        simp only
        obtain ⟨b, hb, hQb⟩ := bfsLoop_ok hg plant p fuel
          { region := {p}, visited := insert p s.visited, Q := p :: s.Q }
          (fun q hq => Or.inl (Finset.mem_singleton.mp hq))
          (by
            show (p :: s.Q).length + (grid.length * width grid + 1) ≤
              fuel + ({p} : Finset Pos).card
            rw [hQ, Finset.card_singleton]
            simp only [List.length_singleton]
            omega)
        rw [hb]
        exact ⟨_, rfl, hQb⟩
    obtain ⟨s1, h1, hQ1⟩ := hcell
    obtain ⟨s2, h2, hQ2⟩ := ih (fun q hq => hps q (List.mem_cons_of_mem _ hq)) s1 hQ1
    refine ⟨s2, ?_, hQ2⟩
    simp only [scanCells, h1]
    exact h2

/-- C15, as the code has it: there is no error path for malformed input. On every grid
none of whose rows is shorter than the first one, the empty grid and grids with rows of
unequal length included, the scan returns a set of regions and the program a price. -/
theorem scan_reports_no_error (grid : Grid) (hg : FirstRowShortest grid) :
    ∃ regs, discoverRegions grid = .ok regs ∧
      calculatePriceOfFences grid = .ok (priceOfRegions calculatePerimeter regs) := by
  obtain ⟨s1, h1, _⟩ := scanCells_ok hg (Nat.le_refl _) (scanOrder grid)
    (fun p hp => cellAt_of_mem_scanOrder hp) { allRegions := ∅, visited := ∅, Q := [] } rfl
  have hregs : discoverRegions grid = .ok s1.allRegions := by
    simp only [discoverRegions, scanWith, h1]
  exact ⟨s1.allRegions, hregs, by simp only [calculatePriceOfFences, hregs]⟩

theorem scan_reports_no_error_witness :
    FirstRowShortest jaggedGrid ∧
      ∃ regs, discoverRegions jaggedGrid = .ok regs ∧
        calculatePriceOfFences jaggedGrid = .ok (priceOfRegions calculatePerimeter regs) :=
  ⟨by decide, scan_reports_no_error jaggedGrid (by decide)⟩

set_option maxRecDepth 100000 in
/-- C15 fails on the code: the empty grid gives no regions and the price 0, and grids
with rows of unequal length give regions and a price, without any error; on the second
of them the regions even overlap. -/
theorem malformed_grid_accepted :
    ¬ WellFormed [] ∧ discoverRegions [] = .ok ∅ ∧ calculatePriceOfFences [] = .ok 0 ∧
      ¬ WellFormed jaggedGrid ∧
      discoverRegions jaggedGrid = .ok {{(0, 0), (1, 0)}, {(1, 1)}} ∧
      calculatePriceOfFences jaggedGrid = .ok 16 ∧
      ¬ WellFormed jaggedGridOverlap ∧
      discoverRegions jaggedGridOverlap = .ok {{(0, 0), (1, 0)}, {(0, 0), (1, 0), (1, 1)}} ∧
      calculatePriceOfFences jaggedGridOverlap = .ok 36 := by
  decide

end GardenGroups

namespace GardenGroups

/-- Two sets of regions that both cover the grid are equal. -/
theorem regions_unique {grid : Grid} {A B : Finset (Finset Pos)}
    (hA : ∀ R ∈ A, IsRegion grid R) (hAc : ∀ p, InGrid grid p → ∃ R ∈ A, p ∈ R)
    (hB : ∀ R ∈ B, IsRegion grid R) (hBc : ∀ p, InGrid grid p → ∃ R ∈ B, p ∈ R) : A = B := by
  have key : ∀ {X Y : Finset (Finset Pos)}, (∀ R ∈ X, IsRegion grid R) →
      (∀ R ∈ Y, IsRegion grid R) → (∀ p, InGrid grid p → ∃ R ∈ Y, p ∈ R) → X ⊆ Y := by
    intro X Y hX hY hYc R hR
    obtain ⟨a, ha⟩ := (hX R hR).nonempty
    obtain ⟨S, hS, haS⟩ := hYc a ((hX R hR).inGrid a ha)
    rw [isRegion_eq_of_mem (hX R hR) (hY S hS) ha haS]
    exact hS
  exact Finset.Subset.antisymm (key hA hB hBc) (key hB hA hAc)

/-- The scan over any list `ps` that holds exactly the positions of the grid, in any order
and with repetitions, finds the regions that `discoverRegions` finds. -/
theorem scanCells_any_order {grid : Grid} (hwf : WellFormed grid) {fuel : Nat}
    (hfuel : grid.length * width grid ≤ fuel) (ps : List Pos)
    (hps : ∀ p, p ∈ ps ↔ InGrid grid p) :
    ∃ s, scanCells fuel grid ps { allRegions := ∅, visited := ∅, Q := [] } = .ok s ∧
      discoverRegions grid = .ok s.allRegions := by
  have hinit : ScanInv grid { allRegions := ∅, visited := ∅, Q := [] } := by
    constructor
    · rfl
    · intro R hR
      exact absurd hR (Finset.not_mem_empty R)
    · intro p
      simp
  obtain ⟨s, hs, hinv, _, hall⟩ :=
    scanCells_spec hwf hfuel ps (fun p hp => (hps p).mp hp) _ hinit
  obtain ⟨regs, hregs, hreg, hcover⟩ := discoverRegions_spec hwf
  refine ⟨s, hs, ?_⟩
  rw [hregs]
  congr 1
  exact regions_unique hreg hcover hinv.regions
    fun p hp => (hinv.visited p).mp (hall p ((hps p).mpr hp))

/-- C16: two runs of the region scan on the same non-empty rectangular grid both return,
with the same set of regions and therefore the same price. The scan keeps no state
between runs, and the set of regions does not depend on the order in which the positions
are reached nor on the fuel of the model. -/
theorem scan_twice_same_regions (grid : Grid) (hwf : WellFormed grid)
    (ps1 ps2 : List Pos) (h1 : ∀ p, p ∈ ps1 ↔ InGrid grid p) (h2 : ∀ p, p ∈ ps2 ↔ InGrid grid p)
    (fuel1 fuel2 : Nat) (hf1 : grid.length * width grid ≤ fuel1)
    (hf2 : grid.length * width grid ≤ fuel2) :
    ∃ s1 s2,
      scanCells fuel1 grid ps1 { allRegions := ∅, visited := ∅, Q := [] } = .ok s1 ∧
      scanCells fuel2 grid ps2 { allRegions := ∅, visited := ∅, Q := [] } = .ok s2 ∧
      s1.allRegions = s2.allRegions ∧
      discoverRegions grid = .ok s1.allRegions ∧
      calculatePriceOfFences grid = .ok (priceOfRegions calculatePerimeter s2.allRegions) := by
  obtain ⟨s1, hs1, hd1⟩ := scanCells_any_order hwf hf1 ps1 h1
  obtain ⟨s2, hs2, hd2⟩ := scanCells_any_order hwf hf2 ps2 h2
  have heq : s1.allRegions = s2.allRegions := by
    rw [hd1] at hd2
    exact Except.ok.inj hd2
  refine ⟨s1, s2, hs1, hs2, heq, hd1, ?_⟩
  simp only [calculatePriceOfFences, hd2]

theorem scan_twice_same_regions_witness :
    WellFormed scenarioA ∧ (∀ p, p ∈ [((0 : Int), (0 : Int))] ↔ InGrid scenarioA p) ∧
      (∀ p, p ∈ [((0 : Int), (0 : Int)), (0, 0)] ↔ InGrid scenarioA p) ∧
      scenarioA.length * width scenarioA ≤ 1 ∧ scenarioA.length * width scenarioA ≤ 7 ∧
    ∃ s1 s2,
      scanCells 1 scenarioA [(0, 0)] { allRegions := ∅, visited := ∅, Q := [] } = .ok s1 ∧
      scanCells 7 scenarioA [(0, 0), (0, 0)] { allRegions := ∅, visited := ∅, Q := [] } =
        .ok s2 ∧
      s1.allRegions = s2.allRegions ∧
      discoverRegions scenarioA = .ok s1.allRegions ∧
      calculatePriceOfFences scenarioA =
        .ok (priceOfRegions calculatePerimeter s2.allRegions) :=
  have ha : ∀ p, p ∈ [((0 : Int), (0 : Int))] ↔ InGrid scenarioA p := by
    intro p
    rw [← mem_scanOrder (by decide)]
    rfl
  have hb : ∀ p, p ∈ [((0 : Int), (0 : Int)), (0, 0)] ↔ InGrid scenarioA p := by
    intro p
    rw [← ha p]
    simp
  ⟨by decide, ha, hb, by decide, by decide,
    scan_twice_same_regions scenarioA (by decide) [(0, 0)] [(0, 0), (0, 0)] ha hb 1 7
      (by decide) (by decide)⟩

end GardenGroups

namespace HoofIt

open GardenGroups (Pos neighbors Adjacent adjacent_iff_mem_neighbors)

theorem mem_mapCells {grid : HGrid} {p : Pos} : p ∈ cells grid ↔ Inside grid p := by
  obtain ⟨p1, p2⟩ := p
  simp only [cells, Finset.mem_image, Finset.mem_product, Finset.mem_range, Prod.mk.injEq,
    Prod.exists, Inside]
  constructor
  · rintro ⟨a, b, ⟨ha, hb⟩, rfl, rfl⟩
    omega
  · rintro ⟨h1, h2, h3, h4⟩
    exact ⟨p1.toNat, p2.toNat, ⟨by omega, by omega⟩, by omega, by omega⟩

theorem card_mapCells (grid : HGrid) : (cells grid).card = grid.length * cols grid := by
  unfold cells
  rw [Finset.card_image_of_injective, Finset.card_product, Finset.card_range, Finset.card_range]
  rintro ⟨a, b⟩ ⟨c, d⟩ h
  simp only [Prod.mk.injEq, Nat.cast_inj] at h
  simp [h.1, h.2]

theorem heightAt_of_inside {grid : HGrid} (hrect : Rectangular grid) {p : Pos}
    (hp : Inside grid p) : ∃ h, heightAt grid p = some h := by
  obtain ⟨h1, h2, h3, h4⟩ := hp
  have hlt : p.1.toNat < grid.length := by omega
  have hrow : (grid[p.1.toNat]).length = cols grid := hrect _ (List.getElem_mem _)
  have hlt2 : p.2.toNat < (grid[p.1.toNat]).length := by omega
  refine ⟨(grid[p.1.toNat])[p.2.toNat], ?_⟩
  unfold heightAt
  rw [if_neg (by omega), List.getElem?_eq_getElem hlt]
  simp only
  exact List.getElem?_eq_getElem hlt2

theorem card_le_of_inside {grid : HGrid} {V : Finset Pos} (h : ∀ v ∈ V, Inside grid v) :
    V.card ≤ grid.length * cols grid := by
  rw [← card_mapCells]
  exact Finset.card_le_card fun v hv => mem_mapCells.mpr (h v hv)

theorem scoreNeighbor_spec {grid : HGrid} (hrect : Rectangular grid) {start cur : Pos}
    {s : ScoreState} (hinv : ScoreInv grid start [cur] s) (hcur : cur ∈ s.visited) {n : Pos}
    (hadj : Adjacent cur n) :
    ∃ s1, scoreNeighbor grid cur s n = .ok s1 ∧ ScoreInv grid start [cur] s1 ∧
      s.visited ⊆ s1.visited ∧ (Step grid cur n → n ∈ s1.visited) ∧
      s1.Q.length + s.visited.card ≤ s.Q.length + s1.visited.card := by
  unfold scoreNeighbor
  by_cases hout : n.1 < 0 ∨ n.2 < 0 ∨ (grid.length : Int) ≤ n.1 ∨ (cols grid : Int) ≤ n.2
  · rw [if_pos hout]
    refine ⟨s, rfl, hinv, Finset.Subset.refl _, ?_, le_refl _⟩
    intro hstep
    have := hstep.2.1
    unfold Inside at this
    omega
  · rw [if_neg hout]
    have hin : Inside grid n := by
      unfold Inside
      omega
    obtain ⟨hn, hhn⟩ := heightAt_of_inside hrect hin
    obtain ⟨hc, hhc⟩ := heightAt_of_inside hrect (hinv.inside cur hcur)
    rw [hhn, hhc]
    simp only
    by_cases hne : hn ≠ hc + 1
    · rw [if_pos hne]
      refine ⟨s, rfl, hinv, Finset.Subset.refl _, ?_, le_refl _⟩
      intro hstep
      have h5 := hstep.2.2.2.2
      rw [hhn, hhc] at h5
      exact absurd (Option.some.inj h5) hne
    · rw [if_neg hne]
      have heq : hn = hc + 1 := not_not.mp hne
      by_cases hmem : n ∈ s.visited
      · rw [if_pos hmem]
        exact ⟨s, rfl, hinv, Finset.Subset.refl _, fun _ => hmem, le_refl _⟩
      · rw [if_neg hmem]
        have hstep : Step grid cur n :=
          ⟨hinv.inside cur hcur, hin, hadj, by rw [hhc]; simp, by rw [hhn, hhc, heq]; rfl⟩
        have hins : ∀ v ∈ insert n s.visited, Inside grid v := by
          intro v hv
          rcases Finset.mem_insert.mp hv with rfl | hv
          · exact hin
          · exact hinv.inside v hv
        have hreach : ∀ v ∈ insert n s.visited, Reach grid start v := by
          intro v hv
          rcases Finset.mem_insert.mp hv with rfl | hv
          · exact Relation.ReflTransGen.tail (hinv.reach cur hcur) hstep
          · exact hinv.reach v hv
        by_cases h9 : hn = 9
        · rw [if_pos h9]
          refine ⟨_, rfl, ?_, Finset.subset_insert _ _, fun _ => Finset.mem_insert_self _ _, ?_⟩
          · constructor
            · exact Finset.mem_insert_of_mem hinv.start_mem
            · exact hins
            · exact hreach
            · intro q hq
              exact ⟨Finset.mem_insert_of_mem (hinv.queue q hq).1, (hinv.queue q hq).2⟩
            · intro v hv hvQ hvp hv9 m hm
              rcases Finset.mem_insert.mp hv with rfl | hv
              · rw [hhn, h9] at hv9
                exact absurd rfl hv9
              · exact Finset.mem_insert_of_mem (hinv.closed v hv hvQ hvp hv9 m hm)
            · show s.hillTops + 1 = _
              rw [Finset.filter_insert, if_pos (by rw [hhn, h9]),
                Finset.card_insert_of_not_mem (fun h => hmem (Finset.mem_filter.mp h).1),
                hinv.tops]
              push_cast
              rfl
          · show s.Q.length + s.visited.card ≤ s.Q.length + (insert n s.visited).card
            rw [Finset.card_insert_of_not_mem hmem]
            omega
        · rw [if_neg h9]
          refine ⟨_, rfl, ?_, Finset.subset_insert _ _, fun _ => Finset.mem_insert_self _ _, ?_⟩
          · constructor
            · exact Finset.mem_insert_of_mem hinv.start_mem
            · exact hins
            · exact hreach
            · intro q hq
              rcases List.mem_cons.mp hq with rfl | hq
              · refine ⟨Finset.mem_insert_self _ _, ?_⟩
                rw [hhn]
                exact fun h => h9 (Option.some.inj h)
              · exact ⟨Finset.mem_insert_of_mem (hinv.queue q hq).1, (hinv.queue q hq).2⟩
            · intro v hv hvQ hvp hv9 m hm
              have hvn : v ≠ n := fun h => hvQ (h ▸ List.mem_cons_self _ _)
              have hv2 : v ∈ s.visited := (Finset.mem_insert.mp hv).resolve_left hvn
              have hvQ2 : v ∉ s.Q := fun h => hvQ (List.mem_cons_of_mem _ h)
              exact Finset.mem_insert_of_mem (hinv.closed v hv2 hvQ2 hvp hv9 m hm)
            · show s.hillTops = _
              rw [Finset.filter_insert, if_neg (by rw [hhn]; exact fun h => h9 (Option.some.inj h)),
                hinv.tops]
          · show (n :: s.Q).length + s.visited.card ≤ s.Q.length + (insert n s.visited).card
            rw [Finset.card_insert_of_not_mem hmem, List.length_cons]
            omega

theorem scoreNeighbors_spec {grid : HGrid} (hrect : Rectangular grid) {start cur : Pos}
    (ns : List Pos) (hns : ∀ n ∈ ns, Adjacent cur n) :
    ∀ s : ScoreState, ScoreInv grid start [cur] s → cur ∈ s.visited →
    ∃ s1, scoreNeighbors grid cur ns s = .ok s1 ∧ ScoreInv grid start [cur] s1 ∧
      s.visited ⊆ s1.visited ∧ (∀ n ∈ ns, Step grid cur n → n ∈ s1.visited) ∧
      s1.Q.length + s.visited.card ≤ s.Q.length + s1.visited.card := by
  induction ns with
  | nil =>
    intro s hinv _
    exact ⟨s, rfl, hinv, Finset.Subset.refl _, fun n hn => absurd hn (List.not_mem_nil n),
      le_refl _⟩
  | cons n ns ih =>
    intro s hinv hcur
    obtain ⟨s1, h1, hinv1, hsub1, hn1, hlen1⟩ :=
      scoreNeighbor_spec hrect hinv hcur (hns n (List.mem_cons_self _ _))
    obtain ⟨s2, h2, hinv2, hsub2, hn2, hlen2⟩ :=
      ih (fun m hm => hns m (List.mem_cons_of_mem _ hm)) s1 hinv1 (hsub1 hcur)
    refine ⟨s2, ?_, hinv2, hsub1.trans hsub2, ?_, by omega⟩
    · simp only [scoreNeighbors, h1]
      exact h2
    · intro m hm hstep
      rcases List.mem_cons.mp hm with rfl | hm
      · exact hsub2 (hn1 hstep)
      · exact hn2 m hm hstep

theorem scoreLoop_spec {grid : HGrid} (hrect : Rectangular grid) {start : Pos} :
    ∀ (fuel : Nat) (s : ScoreState), ScoreInv grid start [] s →
      s.Q.length + grid.length * cols grid ≤ fuel + s.visited.card →
      ∃ s1, scoreLoop grid fuel s = .ok s1 ∧ ScoreInv grid start [] s1 ∧ s1.Q = [] := by
  intro fuel
  induction fuel with
  | zero =>
    intro s hinv hfuel
    have hcard := card_le_of_inside hinv.inside
    have hQ : s.Q = [] := List.length_eq_zero.mp (by omega)
    exact ⟨s, by simp [scoreLoop, hQ], hinv, hQ⟩
  | succ fuel ih =>
    intro s hinv hfuel
    rcases List.eq_nil_or_concat s.Q with hQ | ⟨Q1, cur, hQ⟩
    · exact ⟨s, by simp [scoreLoop, hQ], hinv, hQ⟩
    · have hlast : s.Q.getLast? = some cur := by rw [hQ]; simp
      have hdrop : s.Q.dropLast = Q1 := by rw [hQ]; simp
      have hcur : cur ∈ s.visited := (hinv.queue cur (by rw [hQ]; simp)).1
      have hmid : ScoreInv grid start [cur] { s with Q := Q1 } := by
        constructor
        · exact hinv.start_mem
        · exact hinv.inside
        · exact hinv.reach
        · intro q hq
          exact hinv.queue q (by rw [hQ]; simp [hq])
        · intro v hv hvQ hvp
          refine hinv.closed v hv ?_ (List.not_mem_nil v)
          rw [hQ]
          simp only [List.concat_eq_append, List.mem_append, List.mem_singleton, not_or]
          exact ⟨hvQ, fun h => hvp (by simp [h])⟩
        · exact hinv.tops
      obtain ⟨s1, h1, hinv1, hsub1, hn1, hlen1⟩ :=
        scoreNeighbors_spec hrect (neighbors cur)
          (fun n hn => (adjacent_iff_mem_neighbors cur n).mpr hn) _ hmid hcur
      have hinv1' : ScoreInv grid start [] s1 := by
        constructor
        · exact hinv1.start_mem
        · exact hinv1.inside
        · exact hinv1.reach
        · exact hinv1.queue
        · intro v hv hvQ _ hv9 n hstep
          by_cases hvc : v = cur
          · subst hvc
            exact hn1 n ((adjacent_iff_mem_neighbors v n).mp hstep.2.2.1) hstep
          · exact hinv1.closed v hv hvQ (by simpa using hvc) hv9 n hstep
        · exact hinv1.tops
      have hlenQ : s.Q.length = Q1.length + 1 := by rw [hQ]; simp
      have hlen1' : s1.Q.length + s.visited.card ≤ Q1.length + s1.visited.card := hlen1
      obtain ⟨s2, h2, hinv2, hQ2⟩ := ih s1 hinv1' (by omega)
      refine ⟨s2, ?_, hinv2, hQ2⟩
      simp only [scoreLoop, hlast, hdrop, h1]
      exact h2

/-- C18: on a rectangular grid, for a trailhead of the grid with height 0,
`calculateScoreForTrailhead` returns the number of distinct cells of height 9 that are
reachable from the trailhead by steps between 4-adjacent cells, each raising the height
by exactly 1. -/
theorem score_eq_reachable_tops (grid : HGrid) (hrect : Rectangular grid) (trailhead : Pos)
    (hin : Inside grid trailhead) (h0 : heightAt grid trailhead = some 0) :
    ∃ tops : Finset Pos,
      (∀ q, q ∈ tops ↔ Reach grid trailhead q ∧ heightAt grid q = some 9) ∧
      calculateScoreForTrailhead grid trailhead = .ok (tops.card : Int) := by
  have hinit : ScoreInv grid trailhead []
      { Q := [trailhead], visited := {trailhead}, hillTops := 0 } := by
    constructor
    · exact Finset.mem_singleton_self _
    · intro v hv
      rw [Finset.mem_singleton.mp hv]
      exact hin
    · intro v hv
      rw [Finset.mem_singleton.mp hv]
      exact Relation.ReflTransGen.refl
    · intro q hq
      rw [List.mem_singleton.mp hq]
      exact ⟨Finset.mem_singleton_self _, by rw [h0]; decide⟩
    · intro v hv hvQ
      rw [Finset.mem_singleton.mp hv] at hvQ
      exact absurd (List.mem_singleton_self _) hvQ
    · show (0 : Int) = _
      rw [Finset.filter_singleton, if_neg (by rw [h0]; decide)]
      rfl
  obtain ⟨s, hs, hinv, hQ⟩ := scoreLoop_spec hrect (grid.length * cols grid + 1) _ hinit (by
    show [trailhead].length + grid.length * cols grid ≤
      grid.length * cols grid + 1 + ({trailhead} : Finset Pos).card
    rw [Finset.card_singleton, List.length_singleton]
    omega)
  refine ⟨s.visited.filter fun v => heightAt grid v = some 9, ?_, ?_⟩
  · intro q
    rw [Finset.mem_filter]
    constructor
    · exact fun h => ⟨hinv.reach q h.1, h.2⟩
    · rintro ⟨hreach, h9⟩
      refine ⟨?_, h9⟩
      have key : ∀ b, Reach grid trailhead b →
          ∀ hb, heightAt grid b = some hb → hb ≤ 9 → b ∈ s.visited := by
        intro b hb
        induction hb with
        | refl => exact fun _ _ _ => hinv.start_mem
        | @tail a b _ hstep ih =>
          intro hb hhb hle
          obtain ⟨ha, hha⟩ := heightAt_of_inside hrect hstep.1
          have h5 := hstep.2.2.2.2
          rw [hha, hhb] at h5
          have hab : hb = ha + 1 := Option.some.inj h5
          have ha_mem := ih ha hha (by omega)
          refine hinv.closed a ha_mem (by simp [hQ]) (List.not_mem_nil a) ?_ b hstep
          rw [hha]
          intro h
          have := Option.some.inj h
          omega
      exact key q hreach 9 h9 (le_refl _)
  · simp only [calculateScoreForTrailhead, hs, hinv.tops]

theorem score_eq_reachable_tops_witness :
    Rectangular exampleMap ∧ Inside exampleMap (0, 2) ∧ heightAt exampleMap (0, 2) = some 0 ∧
    ∃ tops : Finset Pos,
      (∀ q, q ∈ tops ↔ Reach exampleMap (0, 2) q ∧ heightAt exampleMap q = some 9) ∧
      calculateScoreForTrailhead exampleMap (0, 2) = .ok (tops.card : Int) :=
  ⟨by decide, by decide, by decide,
    score_eq_reachable_tops exampleMap (by decide) (0, 2) (by decide) (by decide)⟩

end HoofIt

namespace HoofIt

open GardenGroups (Pos neighbors Adjacent adjacent_iff_mem_neighbors)

theorem mem_stepsFrom {grid : HGrid} {a n : Pos} : n ∈ stepsFrom grid a ↔ Step grid a n := by
  simp only [stepsFrom, List.mem_filter, decide_eq_true_eq]
  constructor
  · exact fun h => h.2
  · exact fun h => ⟨(adjacent_iff_mem_neighbors a n).mp h.2.2.1, h⟩

theorem nodup_neighbors (a : Pos) : (neighbors a).Nodup := by
  simp only [neighbors, List.nodup_cons, List.mem_cons, List.mem_singleton, Prod.mk.injEq,
    List.not_mem_nil, not_false_eq_true, List.nodup_nil, and_true, not_or]
  omega

theorem nodup_stepsFrom (grid : HGrid) (a : Pos) : (stepsFrom grid a).Nodup :=
  (nodup_neighbors a).filter _

theorem mem_pathsFrom {grid : HGrid} :
    ∀ (n : Nat) (q : Pos) (l : List Pos),
      l ∈ pathsFrom grid n q ↔
        l.head? = some q ∧ List.Chain' (Step grid) l ∧ l.length = n + 1 := by
  intro n
  induction n with
  | zero =>
    intro q l
    simp only [pathsFrom, Finset.mem_singleton]
    constructor
    · rintro rfl
      simp
    · rintro ⟨hh, _, hlen⟩
      match l, hh, hlen with
      | [x], hh, _ =>
        simp only [List.head?_cons, Option.some.injEq] at hh
        rw [hh]
  | succ n ih =>
    intro q l
    simp only [pathsFrom, Finset.mem_biUnion, List.mem_toFinset, Finset.mem_image, mem_stepsFrom]
    constructor
    · rintro ⟨m, hstep, l1, hl1, rfl⟩
      obtain ⟨hh, hc, hlen⟩ := (ih m l1).mp hl1
      refine ⟨rfl, ?_, by simp [hlen]⟩
      match l1, hh, hc with
      | x :: rest, hh, hc =>
        simp only [List.head?_cons, Option.some.injEq] at hh
        subst hh
        exact List.Chain'.cons hstep hc
    · rintro ⟨hh, hc, hlen⟩
      match l, hh, hc, hlen with
      | x :: y :: rest, hh, hc, hlen =>
        simp only [List.head?_cons, Option.some.injEq] at hh
        subst hh
        rw [List.chain'_cons] at hc
        refine ⟨y, hc.1, y :: rest, (ih y (y :: rest)).mpr ⟨rfl, hc.2, ?_⟩, rfl⟩
        simpa using hlen

/-- Along steps of a hiking trail the height grows by one per step. -/
theorem height_of_chain {grid : HGrid} :
    ∀ (l : List Pos) (q e : Pos) (h : Int), l.head? = some q → List.Chain' (Step grid) l →
      l.getLast? = some e → heightAt grid q = some h →
      heightAt grid e = some (h + (l.length - 1 : Nat)) := by
  intro l
  induction l with
  | nil =>
    intro q e h hh
    simp at hh
  | cons x rest ih =>
    intro q e h hh hc hl hq
    simp only [List.head?_cons, Option.some.injEq] at hh
    subst hh
    cases rest with
    | nil =>
      simp only [List.getLast?_singleton, Option.some.injEq] at hl
      subst hl
      simpa using hq
    | cons y rest2 =>
      rw [List.chain'_cons] at hc
      have hstep := hc.1
      have hy : heightAt grid y = some (h + 1) := by
        have := hstep.2.2.2.2
        rw [hq] at this
        exact this
      have hl2 : (y :: rest2).getLast? = some e := by
        rw [List.getLast?_cons_cons] at hl
        exact hl
      have := ih y e (h + 1) rfl hc.2 hl2 hy
      rw [this]
      congr 1
      simp only [List.length_cons, Nat.add_sub_cancel]
      push_cast
      ring

theorem mem_trails {grid : HGrid} (hrect : Rectangular grid) {q : Pos} (hq : Inside grid q)
    (l : List Pos) : l ∈ trails grid q ↔ IsTrail grid q l := by
  obtain ⟨h, hh⟩ := heightAt_of_inside hrect hq
  unfold trails IsTrail
  rw [hh]
  simp only
  constructor
  · intro hl
    by_cases h9 : h ≤ 9
    · rw [if_pos h9, mem_pathsFrom] at hl
      obtain ⟨hhead, hc, hlen⟩ := hl
      refine ⟨hhead, hc, ?_⟩
      have hne : l ≠ [] := by
        intro h0
        rw [h0] at hlen
        simp at hlen
      refine ⟨l.getLast hne, List.getLast?_eq_getLast _ hne, ?_⟩
      rw [height_of_chain l q _ h hhead hc (List.getLast?_eq_getLast _ hne) hh, hlen]
      congr 1
      simp only [Nat.add_sub_cancel]
      omega
    · rw [if_neg h9] at hl
      exact absurd hl (Finset.not_mem_empty l)
  · rintro ⟨hhead, hc, e, he, he9⟩
    have := height_of_chain l q e h hhead hc he hh
    rw [he9] at this
    have h9 : (9 : Int) = h + (l.length - 1 : Nat) := Option.some.inj this
    have hne : l ≠ [] := by
      intro h0
      rw [h0] at hhead
      simp at hhead
    have hpos : 0 < l.length := List.length_pos.mpr hne
    rw [if_pos (by omega), mem_pathsFrom]
    exact ⟨hhead, hc, by omega⟩

end HoofIt

namespace HoofIt

open GardenGroups (Pos neighbors Adjacent adjacent_iff_mem_neighbors)

theorem card_pathsFrom_succ (grid : HGrid) (n : Nat) (q : Pos) :
    ((pathsFrom grid (n + 1) q).card : Int) =
      ((stepsFrom grid q).map fun m => ((pathsFrom grid n m).card : Int)).sum := by
  have hcard : (pathsFrom grid (n + 1) q).card =
      ∑ m ∈ (stepsFrom grid q).toFinset, (pathsFrom grid n m).card := by
    show ((stepsFrom grid q).toFinset.biUnion fun m =>
      (pathsFrom grid n m).image (q :: ·)).card = _
    rw [Finset.card_biUnion]
    · refine Finset.sum_congr rfl fun m _ => ?_
      exact Finset.card_image_of_injective (pathsFrom grid n m)
        fun a b h => List.tail_eq_of_cons_eq h
    · intro a _ b _ hab
      rw [Finset.disjoint_left]
      intro l hla hlb
      obtain ⟨la, hla1, rfl⟩ := Finset.mem_image.mp hla
      obtain ⟨lb, hlb1, heq⟩ := Finset.mem_image.mp hlb
      have hl : lb = la := List.tail_eq_of_cons_eq heq
      subst hl
      have h1 := ((mem_pathsFrom n a lb).mp hla1).1
      have h2 := ((mem_pathsFrom n b lb).mp hlb1).1
      rw [h1] at h2
      exact hab (Option.some.inj h2)
  rw [hcard, Nat.cast_sum, List.sum_toFinset _ (nodup_stepsFrom grid q)]

/-- The trails from a cell are the trivial one when its height is 9, and otherwise the
trails from the cells one step away. -/
theorem trailCount_eq {grid : HGrid} (hrect : Rectangular grid) {q : Pos} (hq : Inside grid q) :
    trailCount grid q = (if heightAt grid q = some 9 then 1 else 0) +
      ((stepsFrom grid q).map fun m => trailCount grid m).sum := by
  obtain ⟨h, hh⟩ := heightAt_of_inside hrect hq
  have hnext : ∀ m ∈ stepsFrom grid q, heightAt grid m = some (h + 1) := by
    intro m hm
    have := (mem_stepsFrom.mp hm).2.2.2.2
    rw [hh] at this
    exact this
  rcases lt_trichotomy h 9 with hlt | heq | hgt
  · have hk : (9 - h).toNat = (9 - (h + 1)).toNat + 1 := by omega
    have hsum : ((stepsFrom grid q).map fun m => trailCount grid m) =
        (stepsFrom grid q).map fun m => ((pathsFrom grid (9 - (h + 1)).toNat m).card : Int) := by
      apply List.map_congr_left
      intro m hm
      simp only [trailCount, trails, hnext m hm]
      rw [if_pos (by omega)]
    rw [hsum, ← card_pathsFrom_succ, ← hk]
    simp only [trailCount, trails, hh]
    rw [if_pos (by omega), if_neg (by simp; omega)]
    simp
  · subst heq
    have hsum : ((stepsFrom grid q).map fun m => trailCount grid m) =
        (stepsFrom grid q).map fun _ => (0 : Int) := by
      apply List.map_congr_left
      intro m hm
      simp only [trailCount, trails, hnext m hm]
      rw [if_neg (by omega)]
      simp
    rw [hsum]
    simp [trailCount, trails, hh, pathsFrom]
  · have hsum : ((stepsFrom grid q).map fun m => trailCount grid m) =
        (stepsFrom grid q).map fun _ => (0 : Int) := by
      apply List.map_congr_left
      intro m hm
      simp only [trailCount, trails, hnext m hm]
      rw [if_neg (by omega)]
      simp
    rw [hsum]
    simp only [trailCount, trails, hh]
    rw [if_neg (by omega), if_neg (by simp; omega)]
    simp

/-- Changing the weight of one element of a list without repetition changes the sum by
the difference. -/
theorem sum_map_update {l : List Pos} (hl : l.Nodup) {n : Pos} (hn : n ∈ l) (f g : Pos → Int)
    (a : Int) (hg : ∀ p, p ≠ n → g p = f p) (hgn : g n = f n + a) (w : Pos → Int) :
    (l.map fun q => g q * w q).sum = (l.map fun q => f q * w q).sum + a * w n := by
  induction l with
  | nil => exact absurd hn (List.not_mem_nil n)
  | cons x rest ih =>
    rw [List.nodup_cons] at hl
    simp only [List.map_cons, List.sum_cons]
    by_cases hx : x = n
    · subst hx
      have hrest : (rest.map fun q => g q * w q) = rest.map fun q => f q * w q := by
        apply List.map_congr_left
        intro p hp
        rw [hg p (fun h => hl.1 (h ▸ hp))]
      rw [hrest, hgn]
      ring
    · have hn2 : n ∈ rest := (List.mem_cons.mp hn).resolve_left (Ne.symm hx)
      rw [ih hl.2 hn2, hg x hx]
      ring

theorem sum_map_same {l : List Pos} {n : Pos} (hn : n ∉ l) (f g : Pos → Int)
    (hg : ∀ p, p ≠ n → g p = f p) (w : Pos → Int) :
    (l.map fun q => g q * w q).sum = (l.map fun q => f q * w q).sum := by
  congr 1
  apply List.map_congr_left
  intro p hp
  rw [hg p (fun h => hn (h ▸ hp))]

end HoofIt

namespace HoofIt

open GardenGroups (Pos neighbors Adjacent adjacent_iff_mem_neighbors)

theorem hgt_of_heightAt {grid : HGrid} {p : Pos} {h : Int} (hp : heightAt grid p = some h) :
    hgt grid p = h := by
  simp [hgt, hp]

theorem countOf_of_visited {s : RatingState} {p : Pos} {v : Int} (hp : s.visited p = some v) :
    countOf s p = v := by
  simp [countOf, hp]

theorem addInt_ok {a b v : Int} (h : addInt a b = .ok v) : v = a + b := by
  unfold addInt at h
  split_ifs at h
  cases h
  rfl

theorem addInt_error {a b : Int} {e : HoofError} (h : addInt a b = .error e) :
    e = .overflow := by
  unfold addInt at h
  split_ifs at h
  cases h
  rfl

/-- One neighbour in `calculateRatingForTrailhead`: unless an addition leaves `int`, the
invariant is kept, and the share of the expanded cell that belongs to this neighbour
moves into the queue. -/
theorem ratingNeighbor_spec {grid : HGrid} (hrect : Rectangular grid) {start cur : Pos}
    {keys : Finset Pos} {s : RatingState} {n : Pos} {rest : Int}
    (hadj : Adjacent cur n) (hcur : cur ∈ keys) (hcurQ : cur ∉ s.Q)
    (hinv : RatingInv grid start keys (hgt grid cur)
      (countOf s cur * ((if Step grid cur n then trailCount grid n else 0) + rest)) s) :
    ratingNeighbor grid cur s n = .error .overflow ∨
    ∃ s1 keys1, ratingNeighbor grid cur s n = .ok s1 ∧
      RatingInv grid start keys1 (hgt grid cur) (countOf s1 cur * rest) s1 ∧
      keys ⊆ keys1 ∧ cur ∉ s1.Q ∧
      s1.Q.length + keys.card = s.Q.length + keys1.card := by
  unfold ratingNeighbor
  by_cases hout : n.1 < 0 ∨ n.2 < 0 ∨ (grid.length : Int) ≤ n.1 ∨ (cols grid : Int) ≤ n.2
  · rw [if_pos hout]
    have hns : ¬ Step grid cur n := by
      intro hstep
      have := hstep.2.1
      unfold Inside at this
      omega
    rw [if_neg hns, zero_add] at hinv
    exact Or.inr ⟨s, keys, rfl, hinv, Finset.Subset.refl _, hcurQ, rfl⟩
  · rw [if_neg hout]
    have hin : Inside grid n := by
      unfold Inside
      omega
    obtain ⟨hn, hhn⟩ := heightAt_of_inside hrect hin
    obtain ⟨hc, hhc⟩ := heightAt_of_inside hrect (hinv.inside cur hcur)
    rw [hhn, hhc]
    simp only
    by_cases hne : hn ≠ hc + 1
    · rw [if_pos hne]
      have hns : ¬ Step grid cur n := by
        intro hstep
        have h5 := hstep.2.2.2.2
        rw [hhn, hhc] at h5
        exact hne (Option.some.inj h5)
      rw [if_neg hns, zero_add] at hinv
      exact Or.inr ⟨s, keys, rfl, hinv, Finset.Subset.refl _, hcurQ, rfl⟩
    · rw [if_neg hne]
      have heq : hn = hc + 1 := not_not.mp hne
      have hstep : Step grid cur n :=
        ⟨hinv.inside cur hcur, hin, hadj, by rw [hhc]; simp, by rw [hhn, hhc, heq]; rfl⟩
      rw [if_pos hstep] at hinv
      have hgc : hgt grid cur = hc := hgt_of_heightAt hhc
      have hgn : hgt grid n = hc + 1 := by rw [hgt_of_heightAt hhn, heq]
      have hncur : n ≠ cur := by
        intro h
        rw [h, hgc] at hgn
        omega
      obtain ⟨vc, hvc⟩ : ∃ vc, s.visited cur = some vc :=
        Option.ne_none_iff_exists'.mp ((hinv.key cur).mpr hcur)
      have hcc : countOf s cur = vc := countOf_of_visited hvc
      have hmapAt : mapAt s.visited cur = .ok vc := by simp [mapAt, hvc]
      rw [hmapAt]
      cases hvn : s.visited n with
      | some vn =>
        simp only
        have hnk : n ∈ keys := (hinv.key n).mp (by rw [hvn]; simp)
        have hnQ : n ∈ s.Q := by
          by_contra hnot
          have := hinv.popped n hnk hnot
          omega
        rcases hadd : addInt vn vc with e | v
        · left
          rw [addInt_error hadd]
        · right
          have hv : v = vn + vc := addInt_ok hadd
          subst hv
          simp only
          refine ⟨_, keys, rfl, ?_, Finset.Subset.refl _, hcurQ, rfl⟩
          have hcount : ∀ p, p ≠ n →
              countOf { s with visited := mapSet s.visited n (vn + vc) } p = countOf s p := by
            intro p hp
            simp [countOf, mapSet, hp]
          have hcountn : countOf { s with visited := mapSet s.visited n (vn + vc) } n =
              countOf s n + vc := by
            simp [countOf, mapSet, hvn]
          constructor
          · intro p
            by_cases hp : p = n
            · subst hp
              simp [mapSet, hnk]
            · simp only [mapSet, if_neg hp]
              exact hinv.key p
          · exact hinv.inside
          · exact hinv.nodup
          · exact hinv.queue
          · exact hinv.low
          · exact hinv.sorted
          · exact hinv.popped
          · show s.numberOfTrails + (s.Q.map fun q =>
                countOf { s with visited := mapSet s.visited n (vn + vc) } q *
                  trailCount grid q).sum +
              countOf { s with visited := mapSet s.visited n (vn + vc) } cur * rest = _
            rw [sum_map_update hinv.nodup hnQ (countOf s) _ vc hcount hcountn,
              hcount cur (Ne.symm hncur), ← hinv.flow, hcc]
            ring
      | none =>
        simp only
        have hnk : n ∉ keys := fun h => (hinv.key n).mpr h hvn
        have hnQ : n ∉ s.Q := fun h => hnk (hinv.queue n h)
        right
        refine ⟨_, insert n keys, rfl, ?_, Finset.subset_insert _ _, ?_, ?_⟩
        · have hcount : ∀ p, p ≠ n →
              countOf { s with visited := mapSet s.visited n vc, Q := n :: s.Q } p =
                countOf s p := by
            intro p hp
            simp [countOf, mapSet, hp]
          have hcountn : countOf { s with visited := mapSet s.visited n vc, Q := n :: s.Q } n =
              vc := by
            simp [countOf, mapSet]
          constructor
          · intro p
            by_cases hp : p = n
            · subst hp
              simp [mapSet]
            · simp only [mapSet, if_neg hp, Finset.mem_insert, hp, false_or]
              exact hinv.key p
          · intro p hp
            rcases Finset.mem_insert.mp hp with rfl | hp
            · exact hin
            · exact hinv.inside p hp
          · exact List.nodup_cons.mpr ⟨hnQ, hinv.nodup⟩
          · intro q hq
            rcases List.mem_cons.mp hq with rfl | hq
            · exact Finset.mem_insert_self _ _
            · exact Finset.mem_insert_of_mem (hinv.queue q hq)
          · intro q hq
            rcases List.mem_cons.mp hq with rfl | hq
            · rw [hgn, hgc]
              omega
            · exact hinv.low q hq
          · refine List.Pairwise.cons ?_ hinv.sorted
            intro b hb
            have := (hinv.low b hb).2
            rw [hgn]
            rw [hgc] at this
            exact this
          · intro v hv hvQ
            have hvn : v ≠ n := fun h => hvQ (h ▸ List.mem_cons_self _ _)
            exact hinv.popped v ((Finset.mem_insert.mp hv).resolve_left hvn)
              (fun h => hvQ (List.mem_cons_of_mem _ h))
          · show s.numberOfTrails + ((n :: s.Q).map fun q =>
                countOf { s with visited := mapSet s.visited n vc, Q := n :: s.Q } q *
                  trailCount grid q).sum +
              countOf { s with visited := mapSet s.visited n vc, Q := n :: s.Q } cur * rest = _
            rw [List.map_cons, List.sum_cons, hcountn,
              sum_map_same hnQ (countOf s) _ hcount, hcount cur (Ne.symm hncur), ← hinv.flow, hcc]
            ring
        · show cur ∉ n :: s.Q
          intro h
          rcases List.mem_cons.mp h with h | h
          · exact hncur h.symm
          · exact hcurQ h
        · show (n :: s.Q).length + keys.card = s.Q.length + (insert n keys).card
          rw [Finset.card_insert_of_not_mem hnk, List.length_cons]
          omega

end HoofIt

namespace HoofIt

open GardenGroups (Pos neighbors Adjacent adjacent_iff_mem_neighbors)

theorem ratingNeighbors_spec {grid : HGrid} (hrect : Rectangular grid) {start cur : Pos}
    (ns : List Pos) (hns : ∀ n ∈ ns, Adjacent cur n) :
    ∀ (s : RatingState) (keys : Finset Pos) (rest : Int), cur ∈ keys → cur ∉ s.Q →
      RatingInv grid start keys (hgt grid cur)
        (countOf s cur * (((ns.filter fun n => Step grid cur n).map
          fun m => trailCount grid m).sum + rest)) s →
      ratingNeighbors grid cur ns s = .error .overflow ∨
      ∃ s1 keys1, ratingNeighbors grid cur ns s = .ok s1 ∧
        RatingInv grid start keys1 (hgt grid cur) (countOf s1 cur * rest) s1 ∧
        keys ⊆ keys1 ∧ cur ∉ s1.Q ∧
        s1.Q.length + keys.card = s.Q.length + keys1.card := by
  induction ns with
  | nil =>
    intro s keys rest _ hcurQ hinv
    simp only [List.filter_nil, List.map_nil, List.sum_nil, zero_add] at hinv
    exact Or.inr ⟨s, keys, rfl, hinv, Finset.Subset.refl _, hcurQ, rfl⟩
  | cons n ns ih =>
    intro s keys rest hcur hcurQ hinv
    have hsplit : (((n :: ns).filter fun n => Step grid cur n).map
        fun m => trailCount grid m).sum + rest =
        (if Step grid cur n then trailCount grid n else 0) +
          (((ns.filter fun n => Step grid cur n).map fun m => trailCount grid m).sum + rest) := by
      by_cases hstep : Step grid cur n
      · rw [List.filter_cons_of_pos (by simpa using hstep), if_pos hstep]
        simp only [List.map_cons, List.sum_cons]
        ring
      · rw [List.filter_cons_of_neg (by simpa using hstep), if_neg hstep]
        ring
    rw [hsplit] at hinv
    rcases ratingNeighbor_spec hrect (hns n (List.mem_cons_self _ _)) hcur hcurQ hinv with
      h1 | ⟨s1, keys1, h1, hinv1, hsub1, hcurQ1, hlen1⟩
    · left
      simp only [ratingNeighbors, h1]
    · rcases ih (fun m hm => hns m (List.mem_cons_of_mem _ hm)) s1 keys1 rest (hsub1 hcur)
        hcurQ1 hinv1 with h2 | ⟨s2, keys2, h2, hinv2, hsub2, hcurQ2, hlen2⟩
      · left
        simp only [ratingNeighbors, h1]
        exact h2
      · right
        refine ⟨s2, keys2, ?_, hinv2, hsub1.trans hsub2, hcurQ2, by omega⟩
        simp only [ratingNeighbors, h1]
        exact h2

theorem ratingLoop_spec {grid : HGrid} (hrect : Rectangular grid) {start : Pos} :
    ∀ (fuel : Nat) (s : RatingState) (keys : Finset Pos) (level : Int),
      RatingInv grid start keys level 0 s →
      s.Q.length + grid.length * cols grid ≤ fuel + keys.card →
      ratingLoop grid fuel s = .error .overflow ∨
      ∃ s1, ratingLoop grid fuel s = .ok s1 ∧ s1.numberOfTrails = trailCount grid start := by
  intro fuel
  induction fuel with
  | zero =>
    intro s keys level hinv hfuel
    have hcard := card_le_of_inside hinv.inside
    have hQ : s.Q = [] := List.length_eq_zero.mp (by omega)
    right
    refine ⟨s, by simp [ratingLoop, hQ], ?_⟩
    have := hinv.flow
    rw [hQ] at this
    simpa using this
  | succ fuel ih =>
    intro s keys level hinv hfuel
    rcases List.eq_nil_or_concat s.Q with hQ | ⟨Q1, cur, hQ⟩
    · right
      refine ⟨s, by simp [ratingLoop, hQ], ?_⟩
      have := hinv.flow
      rw [hQ] at this
      simpa using this
    · rw [List.concat_eq_append] at hQ
      have hlast : s.Q.getLast? = some cur := by rw [hQ]; simp
      have hdrop : s.Q.dropLast = Q1 := by rw [hQ]; simp
      have hcurk : cur ∈ keys := hinv.queue cur (by rw [hQ]; simp)
      have hnodup : (Q1 ++ [cur]).Nodup := hQ ▸ hinv.nodup
      have hcurQ1 : cur ∉ Q1 := by
        intro h
        exact (List.nodup_append.mp hnodup).2.2 h (List.mem_singleton_self cur)
      have hsorted : (Q1 ++ [cur]).Pairwise fun a b => hgt grid b ≤ hgt grid a :=
        hQ ▸ hinv.sorted
      obtain ⟨hc, hhc⟩ := heightAt_of_inside hrect (hinv.inside cur hcurk)
      obtain ⟨vc, hvc⟩ : ∃ vc, s.visited cur = some vc :=
        Option.ne_none_iff_exists'.mp ((hinv.key cur).mpr hcurk)
      have hlevel := hinv.low cur (by rw [hQ]; simp)
      have hflow := hinv.flow
      rw [hQ, List.map_append, List.sum_append] at hflow
      simp only [List.map_cons, List.map_nil, List.sum_cons, List.sum_nil, add_zero] at hflow
      rw [trailCount_eq hrect (hinv.inside cur hcurk)] at hflow
      -- the state after the cell is taken from the queue and counted
      have harrive : ratingArrive grid cur { s with Q := Q1 } = .error .overflow ∨
          ∃ s0, ratingArrive grid cur { s with Q := Q1 } = .ok s0 ∧
          s0.Q = Q1 ∧ s0.visited = s.visited ∧
          s0.numberOfTrails =
            s.numberOfTrails + countOf s cur * (if heightAt grid cur = some 9 then 1 else 0) := by
        unfold ratingArrive
        rw [hhc]
        simp only
        by_cases h9 : hc = 9
        · rw [if_pos h9]
          have hmapAt : mapAt s.visited cur = .ok vc := by simp [mapAt, hvc]
          rw [hmapAt]
          simp only
          rcases hadd : addInt s.numberOfTrails vc with e | v
          · left
            rw [addInt_error hadd]
          · right
            refine ⟨_, rfl, rfl, rfl, ?_⟩
            rw [addInt_ok hadd]
            simp [h9, countOf, hvc]
        · rw [if_neg h9]
          right
          refine ⟨_, rfl, rfl, rfl, ?_⟩
          simp [h9]
      rcases harrive with h0 | ⟨s0, h0, hQ0, hv0, hn0⟩
      · left
        simp only [ratingLoop, hlast, hdrop, h0]
      · have hcount0 : ∀ p, countOf s0 p = countOf s p := by
          intro p
          simp [countOf, hv0]
        have hmid : RatingInv grid start keys (hgt grid cur)
            (countOf s0 cur * (((((neighbors cur).filter fun n => Step grid cur n).map
              fun m => trailCount grid m).sum) + 0)) s0 := by
          constructor
          · intro p
            rw [hv0]
            exact hinv.key p
          · exact hinv.inside
          · rw [hQ0]
            exact (List.nodup_append.mp hnodup).1
          · intro q hq
            rw [hQ0] at hq
            exact hinv.queue q (by rw [hQ]; simp [hq])
          · intro q hq
            rw [hQ0] at hq
            have h1 := hinv.low q (by rw [hQ]; simp [hq])
            have h2 := (List.pairwise_append.mp hsorted).2.2 q hq cur (List.mem_singleton_self cur)
            omega
          · rw [hQ0]
            exact (List.pairwise_append.mp hsorted).1
          · intro v hv hvQ
            rw [hQ0] at hvQ
            by_cases hvc2 : v = cur
            · rw [hvc2]
            · have := hinv.popped v hv (by
                rw [hQ]
                simp only [List.mem_append, List.mem_singleton, not_or]
                exact ⟨hvQ, hvc2⟩)
              omega
          · rw [hQ0, hn0]
            simp only [hcount0]
            rw [← hflow]
            simp only [stepsFrom]
            ring
        rcases ratingNeighbors_spec hrect (neighbors cur)
            (fun n hn => (adjacent_iff_mem_neighbors cur n).mpr hn) s0 keys 0 hcurk
            (by rw [hQ0]; exact hcurQ1) hmid with h1 | ⟨s1, keys1, h1, hinv1, hsub1, _, hlen1⟩
        · left
          simp only [ratingLoop, hlast, hdrop, h0, h1]
        · rw [mul_zero] at hinv1
          have hlenQ : s.Q.length = Q1.length + 1 := by rw [hQ]; simp
          rw [hQ0] at hlen1
          rcases ih s1 keys1 (hgt grid cur) hinv1 (by omega) with h2 | ⟨s2, h2, hres⟩
          · left
            simp only [ratingLoop, hlast, hdrop, h0, h1]
            exact h2
          · right
            refine ⟨s2, ?_, hres⟩
            simp only [ratingLoop, hlast, hdrop, h0, h1]
            exact h2

/-- The rating on a rectangular grid, for a trailhead of the grid: unless an addition
leaves `int`, `calculateRatingForTrailhead` returns the number of distinct hiking trails
from the trailhead, the lists of cells that begin with the trailhead, move between
4-adjacent cells with the height increasing by exactly 1 at every step, and end on a
cell of height 9. -/
theorem rating_eq_trails_or_overflow (grid : HGrid) (hrect : Rectangular grid)
    (trailhead : Pos) (hin : Inside grid trailhead) :
    ∃ all : Finset (List Pos), (∀ l, l ∈ all ↔ IsTrail grid trailhead l) ∧
      (calculateRatingForTrailhead grid trailhead = .ok (all.card : Int) ∨
        calculateRatingForTrailhead grid trailhead = .error .overflow) := by
  refine ⟨trails grid trailhead, mem_trails hrect hin, ?_⟩
  obtain ⟨h, hh⟩ := heightAt_of_inside hrect hin
  have hinit : RatingInv grid trailhead {trailhead} (hgt grid trailhead) 0
      { Q := [trailhead], visited := mapSet (fun _ => none) trailhead 1, numberOfTrails := 0 } := by
    constructor
    · intro p
      by_cases hp : p = trailhead
      · simp [mapSet, hp]
      · simp [mapSet, hp]
    · intro p hp
      rw [Finset.mem_singleton.mp hp]
      exact hin
    · exact List.nodup_singleton _
    · intro q hq
      rw [List.mem_singleton.mp hq]
      exact Finset.mem_singleton_self _
    · intro q hq
      rw [List.mem_singleton.mp hq]
      omega
    · exact List.pairwise_singleton _ _
    · intro v hv _
      rw [Finset.mem_singleton.mp hv]
    · simp [countOf, mapSet]
  rcases ratingLoop_spec hrect (grid.length * cols grid + 1) _ _ _ hinit (by
    show [trailhead].length + grid.length * cols grid ≤
      grid.length * cols grid + 1 + ({trailhead} : Finset Pos).card
    rw [Finset.card_singleton, List.length_singleton]
    omega) with hs | ⟨s, hs, hres⟩
  · right
    simp only [calculateRatingForTrailhead, hs]
  · left
    simp only [calculateRatingForTrailhead, hs, hres, trailCount]


theorem addInt_of_bounds {a b : Int} (h0 : 0 ≤ a + b) (h : a + b < 2 ^ 31) :
    addInt a b = .ok (a + b) := by
  unfold addInt
  rw [if_pos ⟨by omega, h⟩]

theorem one_le_weight (grid : HGrid) (p : Pos) : 1 ≤ weight grid p :=
  one_le_pow₀ (by decide)

theorem mem_row_of_heightAt {grid : HGrid} {p : Pos} {h : Int}
    (hp : heightAt grid p = some h) : ∃ row ∈ grid, h ∈ row := by
  unfold heightAt at hp
  split_ifs at hp
  rcases hrow : grid[p.1.toNat]? with _ | row
  · rw [hrow] at hp
    cases hp
  · rw [hrow] at hp
    obtain ⟨h1, h2⟩ := List.getElem?_eq_some_iff.mp hrow
    obtain ⟨h3, h4⟩ := List.getElem?_eq_some_iff.mp hp
    exact ⟨row, h2 ▸ List.getElem_mem h1, h4 ▸ List.getElem_mem h3⟩

theorem hgt_of_digitGrid {grid : HGrid} (hrect : Rectangular grid) (hdig : DigitGrid grid)
    {p : Pos} (hp : Inside grid p) : -1 ≤ hgt grid p ∧ hgt grid p ≤ 9 := by
  obtain ⟨h, hh⟩ := heightAt_of_inside hrect hp
  obtain ⟨row, hrow, hmem⟩ := mem_row_of_heightAt hh
  rw [hgt_of_heightAt hh]
  exact hdig row hrow h hmem

/-- The weights go down along the steps: a cell of height 9 has no step, and the at most
four cells one step from a lower cell have a quarter of its weight each. -/
theorem weight_steps {grid : HGrid} (hrect : Rectangular grid) (hdig : DigitGrid grid)
    {q : Pos} (hq : Inside grid q) :
    (if heightAt grid q = some 9 then 1 else 0) +
      ((stepsFrom grid q).map fun m => weight grid m).sum ≤ weight grid q := by
  obtain ⟨h, hh⟩ := heightAt_of_inside hrect hq
  have hgq : hgt grid q = h := hgt_of_heightAt hh
  have hnext : ∀ m ∈ stepsFrom grid q, hgt grid m = h + 1 ∧ h + 1 ≤ 9 := by
    intro m hm
    have hstep := mem_stepsFrom.mp hm
    have h5 := hstep.2.2.2.2
    rw [hh] at h5
    have hm1 : hgt grid m = h + 1 := hgt_of_heightAt h5
    have := (hgt_of_digitGrid hrect hdig hstep.2.1).2
    rw [hm1] at this
    exact ⟨hm1, this⟩
  rcases List.eq_nil_or_concat (stepsFrom grid q) with hnil | ⟨l, m, hl⟩
  · rw [hnil, List.map_nil, List.sum_nil, add_zero]
    have := one_le_weight grid q
    split_ifs
    · exact this
    · omega
  · have hm : m ∈ stepsFrom grid q := by rw [hl]; simp
    have h8 : h ≤ 8 := by
      have := (hnext m hm).2
      omega
    have hne : heightAt grid q ≠ some 9 := by
      rw [hh]
      intro heq
      have := Option.some.inj heq
      omega
    rw [if_neg hne, zero_add]
    have hle : ∀ x ∈ (stepsFrom grid q).map fun m => weight grid m,
        x ≤ (4 : Int) ^ (8 - h).toNat := by
      intro x hx
      obtain ⟨m1, hm1, rfl⟩ := List.mem_map.mp hx
      unfold weight
      rw [(hnext m1 hm1).1]
      have : (9 - (h + 1)).toNat = (8 - h).toNat := by omega
      rw [this]
    have hsum := List.sum_le_card_nsmul _ _ hle
    rw [List.length_map] at hsum
    have hlen : (stepsFrom grid q).length ≤ 4 := by
      unfold stepsFrom
      exact le_trans (List.length_filter_le _ _) (by simp [neighbors])
    have hw : weight grid q = 4 * (4 : Int) ^ (8 - h).toNat := by
      unfold weight
      rw [hgq]
      have : (9 - h).toNat = (8 - h).toNat + 1 := by omega
      rw [this, pow_succ]
      ring
    rw [hw]
    have hc : (0 : Int) ≤ (4 : Int) ^ (8 - h).toNat := pow_nonneg (by decide) _
    have h4 : ((stepsFrom grid q).length : Int) ≤ 4 := by exact_mod_cast hlen
    have : (stepsFrom grid q).length • (4 : Int) ^ (8 - h).toNat ≤
        4 * (4 : Int) ^ (8 - h).toNat := by
      rw [nsmul_eq_mul]
      exact mul_le_mul_of_nonneg_right h4 hc
    exact le_trans hsum this

theorem sum_nonneg_of_bounded (grid : HGrid) {s : RatingState} (hc : ∀ p, 0 ≤ countOf s p)
    (l : List Pos) : 0 ≤ (l.map fun q => countOf s q * weight grid q).sum := by
  apply List.sum_nonneg
  intro x hx
  obtain ⟨q, _, rfl⟩ := List.mem_map.mp hx
  exact mul_nonneg (hc q) (le_trans (by decide) (one_le_weight grid q))

theorem term_le_sum (grid : HGrid) {s : RatingState} (hc : ∀ p, 0 ≤ countOf s p)
    {l : List Pos} {n : Pos} (hn : n ∈ l) :
    countOf s n * weight grid n ≤ (l.map fun q => countOf s q * weight grid q).sum := by
  apply List.single_le_sum
  · intro x hx
    obtain ⟨q, _, rfl⟩ := List.mem_map.mp hx
    exact mul_nonneg (hc q) (le_trans (by decide) (one_le_weight grid q))
  · exact List.mem_map.mpr ⟨n, hn, rfl⟩

/-- One neighbour in `calculateRatingForTrailhead` under the bound: the addition stays
inside `int`, and the bound is kept. -/
theorem ratingNeighbor_bounded {grid : HGrid} (hrect : Rectangular grid) {start cur : Pos}
    {keys : Finset Pos} {s : RatingState} {n : Pos} {rest restW total : Int}
    (hadj : Adjacent cur n) (hcur : cur ∈ keys)
    (hinv : RatingInv grid start keys (hgt grid cur)
      (countOf s cur * ((if Step grid cur n then trailCount grid n else 0) + rest)) s)
    (hb : Bounded grid total
      (countOf s cur * ((if Step grid cur n then weight grid n else 0) + restW)) s)
    (hrest : 0 ≤ restW) (htotal : total < 2 ^ 31) :
    ∃ s1, ratingNeighbor grid cur s n = .ok s1 ∧
      Bounded grid total (countOf s1 cur * restW) s1 := by
  obtain ⟨hN, hcnt, hflow⟩ := hb
  unfold ratingNeighbor
  by_cases hout : n.1 < 0 ∨ n.2 < 0 ∨ (grid.length : Int) ≤ n.1 ∨ (cols grid : Int) ≤ n.2
  · rw [if_pos hout]
    have hns : ¬ Step grid cur n := by
      intro hstep
      have := hstep.2.1
      unfold Inside at this
      omega
    rw [if_neg hns, zero_add] at hflow
    exact ⟨s, rfl, hN, hcnt, hflow⟩
  · rw [if_neg hout]
    have hin : Inside grid n := by
      unfold Inside
      omega
    obtain ⟨hn, hhn⟩ := heightAt_of_inside hrect hin
    obtain ⟨hc, hhc⟩ := heightAt_of_inside hrect (hinv.inside cur hcur)
    rw [hhn, hhc]
    simp only
    by_cases hne : hn ≠ hc + 1
    · rw [if_pos hne]
      have hns : ¬ Step grid cur n := by
        intro hstep
        have h5 := hstep.2.2.2.2
        rw [hhn, hhc] at h5
        exact hne (Option.some.inj h5)
      rw [if_neg hns, zero_add] at hflow
      exact ⟨s, rfl, hN, hcnt, hflow⟩
    · rw [if_neg hne]
      have heq : hn = hc + 1 := not_not.mp hne
      have hstep : Step grid cur n :=
        ⟨hinv.inside cur hcur, hin, hadj, by rw [hhc]; simp, by rw [hhn, hhc, heq]; rfl⟩
      rw [if_pos hstep] at hflow
      have hgc : hgt grid cur = hc := hgt_of_heightAt hhc
      have hgn : hgt grid n = hc + 1 := by rw [hgt_of_heightAt hhn, heq]
      have hncur : n ≠ cur := by
        intro h
        rw [h, hgc] at hgn
        omega
      obtain ⟨vc, hvc⟩ : ∃ vc, s.visited cur = some vc :=
        Option.ne_none_iff_exists'.mp ((hinv.key cur).mpr hcur)
      have hcc : countOf s cur = vc := countOf_of_visited hvc
      have hvc0 : 0 ≤ vc := hcc ▸ hcnt cur
      have hmapAt : mapAt s.visited cur = .ok vc := by simp [mapAt, hvc]
      have hw1 := one_le_weight grid n
      rw [hmapAt]
      rw [hcc] at hflow
      have hprod : vc * (weight grid n + restW) = vc * weight grid n + vc * restW := by ring
      rw [hprod] at hflow
      have hvr : 0 ≤ vc * restW := mul_nonneg hvc0 hrest
      cases hvn : s.visited n with
      | some vn =>
        simp only
        have hnk : n ∈ keys := (hinv.key n).mp (by rw [hvn]; simp)
        have hnQ : n ∈ s.Q := by
          by_contra hnot
          have := hinv.popped n hnk hnot
          omega
        have hcn : countOf s n = vn := countOf_of_visited hvn
        have hvn0 : 0 ≤ vn := hcn ▸ hcnt n
        have hterm := term_le_sum grid hcnt hnQ
        rw [hcn] at hterm
        have hle : vn + vc ≤ (vn + vc) * weight grid n :=
          le_mul_of_one_le_right (by omega) hw1
        have hexp : (vn + vc) * weight grid n = vn * weight grid n + vc * weight grid n := by
          ring
        rw [addInt_of_bounds (by omega) (by omega)]
        simp only
        have hcount : ∀ p, p ≠ n →
            countOf { s with visited := mapSet s.visited n (vn + vc) } p = countOf s p := by
          intro p hp
          simp [countOf, mapSet, hp]
        have hcountn : countOf { s with visited := mapSet s.visited n (vn + vc) } n =
            countOf s n + vc := by
          simp [countOf, mapSet, hvn]
        refine ⟨_, rfl, hN, ?_, ?_⟩
        · intro p
          by_cases hp : p = n
          · rw [hp, hcountn, hcn]
            omega
          · rw [hcount p hp]
            exact hcnt p
        · show s.numberOfTrails + (s.Q.map fun q =>
              countOf { s with visited := mapSet s.visited n (vn + vc) } q *
                weight grid q).sum +
            countOf { s with visited := mapSet s.visited n (vn + vc) } cur * restW ≤ total
          rw [sum_map_update hinv.nodup hnQ (countOf s) _ vc hcount hcountn,
            hcount cur (Ne.symm hncur), hcc]
          omega
      | none =>
        simp only
        have hnk : n ∉ keys := fun h => (hinv.key n).mpr h hvn
        have hnQ : n ∉ s.Q := fun h => hnk (hinv.queue n h)
        have hcount : ∀ p, p ≠ n →
            countOf { s with visited := mapSet s.visited n vc, Q := n :: s.Q } p =
              countOf s p := by
          intro p hp
          simp [countOf, mapSet, hp]
        have hcountn : countOf { s with visited := mapSet s.visited n vc, Q := n :: s.Q } n =
            vc := by
          simp [countOf, mapSet]
        refine ⟨_, rfl, hN, ?_, ?_⟩
        · intro p
          by_cases hp : p = n
          · rw [hp, hcountn]
            exact hvc0
          · rw [hcount p hp]
            exact hcnt p
        · show s.numberOfTrails + ((n :: s.Q).map fun q =>
              countOf { s with visited := mapSet s.visited n vc, Q := n :: s.Q } q *
                weight grid q).sum +
            countOf { s with visited := mapSet s.visited n vc, Q := n :: s.Q } cur * restW ≤
              total
          rw [List.map_cons, List.sum_cons, hcountn,
            sum_map_same hnQ (countOf s) _ hcount, hcount cur (Ne.symm hncur), hcc]
          omega

theorem sum_weight_nonneg (grid : HGrid) (l : List Pos) :
    0 ≤ (l.map fun m => weight grid m).sum := by
  apply List.sum_nonneg
  intro x hx
  obtain ⟨q, _, rfl⟩ := List.mem_map.mp hx
  exact le_trans (by decide) (one_le_weight grid q)

/-- The `for` loop over the neighbours under the bound: no addition leaves `int`, and the
invariant and the bound are kept. -/
theorem ratingNeighbors_bounded {grid : HGrid} (hrect : Rectangular grid) {start cur : Pos}
    {total : Int} (htotal : total < 2 ^ 31) (ns : List Pos)
    (hns : ∀ n ∈ ns, Adjacent cur n) :
    ∀ (s : RatingState) (keys : Finset Pos) (rest restW : Int), cur ∈ keys → cur ∉ s.Q →
      0 ≤ restW →
      RatingInv grid start keys (hgt grid cur)
        (countOf s cur * (((ns.filter fun n => Step grid cur n).map
          fun m => trailCount grid m).sum + rest)) s →
      Bounded grid total
        (countOf s cur * (((ns.filter fun n => Step grid cur n).map
          fun m => weight grid m).sum + restW)) s →
      ∃ s1 keys1, ratingNeighbors grid cur ns s = .ok s1 ∧
        RatingInv grid start keys1 (hgt grid cur) (countOf s1 cur * rest) s1 ∧
        keys ⊆ keys1 ∧ cur ∉ s1.Q ∧
        s1.Q.length + keys.card = s.Q.length + keys1.card ∧
        Bounded grid total (countOf s1 cur * restW) s1 := by
  induction ns with
  | nil =>
    intro s keys rest restW _ hcurQ _ hinv hb
    simp only [List.filter_nil, List.map_nil, List.sum_nil, zero_add] at hinv hb
    exact ⟨s, keys, rfl, hinv, Finset.Subset.refl _, hcurQ, rfl, hb⟩
  | cons n ns ih =>
    intro s keys rest restW hcur hcurQ hrest hinv hb
    have hsplit : ∀ (w : Pos → Int) (r : Int),
        (((n :: ns).filter fun n => Step grid cur n).map fun m => w m).sum + r =
        (if Step grid cur n then w n else 0) +
          (((ns.filter fun n => Step grid cur n).map fun m => w m).sum + r) := by
      intro w r
      by_cases hstep : Step grid cur n
      · rw [List.filter_cons_of_pos (by simpa using hstep), if_pos hstep]
        simp only [List.map_cons, List.sum_cons]
        ring
      · rw [List.filter_cons_of_neg (by simpa using hstep), if_neg hstep]
        ring
    rw [hsplit] at hinv hb
    have hrest1 : 0 ≤ ((ns.filter fun n => Step grid cur n).map fun m => weight grid m).sum +
        restW := add_nonneg (sum_weight_nonneg grid _) hrest
    obtain ⟨s1, h1, hb1⟩ := ratingNeighbor_bounded hrect (hns n (List.mem_cons_self _ _)) hcur
      hinv hb hrest1 htotal
    rcases ratingNeighbor_spec hrect (hns n (List.mem_cons_self _ _)) hcur hcurQ hinv with
      herr | ⟨s1b, keys1, h1b, hinv1, hsub1, hcurQ1, hlen1⟩
    · rw [h1] at herr
      cases herr
    · rw [h1] at h1b
      cases h1b
      obtain ⟨s2, keys2, h2, hinv2, hsub2, hcurQ2, hlen2, hb2⟩ :=
        ih (fun m hm => hns m (List.mem_cons_of_mem _ hm)) s1 keys1 rest restW (hsub1 hcur)
          hcurQ1 hrest hinv1 hb1
      refine ⟨s2, keys2, ?_, hinv2, hsub1.trans hsub2, hcurQ2, by omega, hb2⟩
      simp only [ratingNeighbors, h1]
      exact h2

/-- The part of the loop body before the `for` loop: when the cell taken from the queue
is counted, the invariant holds with the trails through its neighbours pending. -/
theorem ratingArrive_spec {grid : HGrid} (hrect : Rectangular grid) {start cur : Pos}
    {keys : Finset Pos} {level : Int} {s s0 : RatingState} {Q1 : List Pos}
    (hinv : RatingInv grid start keys level 0 s) (hQ : s.Q = Q1 ++ [cur])
    (h0 : ratingArrive grid cur { s with Q := Q1 } = .ok s0) :
    s0.Q = Q1 ∧ s0.visited = s.visited ∧
      s0.numberOfTrails =
        s.numberOfTrails + countOf s cur * (if heightAt grid cur = some 9 then 1 else 0) ∧
      RatingInv grid start keys (hgt grid cur)
        (countOf s0 cur * (((((neighbors cur).filter fun n => Step grid cur n).map
          fun m => trailCount grid m).sum) + 0)) s0 := by
  have hcurk : cur ∈ keys := hinv.queue cur (by rw [hQ]; simp)
  have hnodup : (Q1 ++ [cur]).Nodup := hQ ▸ hinv.nodup
  have hsorted : (Q1 ++ [cur]).Pairwise fun a b => hgt grid b ≤ hgt grid a :=
    hQ ▸ hinv.sorted
  obtain ⟨hc, hhc⟩ := heightAt_of_inside hrect (hinv.inside cur hcurk)
  obtain ⟨vc, hvc⟩ : ∃ vc, s.visited cur = some vc :=
    Option.ne_none_iff_exists'.mp ((hinv.key cur).mpr hcurk)
  have hlevel := hinv.low cur (by rw [hQ]; simp)
  have hflow := hinv.flow
  rw [hQ, List.map_append, List.sum_append] at hflow
  simp only [List.map_cons, List.map_nil, List.sum_cons, List.sum_nil, add_zero] at hflow
  rw [trailCount_eq hrect (hinv.inside cur hcurk)] at hflow
  have harrive : s0.Q = Q1 ∧ s0.visited = s.visited ∧
      s0.numberOfTrails =
        s.numberOfTrails + countOf s cur * (if heightAt grid cur = some 9 then 1 else 0) := by
    unfold ratingArrive at h0
    rw [hhc] at h0
    simp only at h0
    by_cases h9 : hc = 9
    · rw [if_pos h9] at h0
      have hmapAt : mapAt s.visited cur = .ok vc := by simp [mapAt, hvc]
      rw [hmapAt] at h0
      simp only at h0
      rcases hadd : addInt s.numberOfTrails vc with e | v
      · rw [hadd] at h0
        cases h0
      · rw [hadd] at h0
        simp only at h0
        cases h0
        refine ⟨rfl, rfl, ?_⟩
        show v = _
        rw [addInt_ok hadd]
        simp [h9, hhc, countOf, hvc]
    · rw [if_neg h9] at h0
      cases h0
      refine ⟨rfl, rfl, ?_⟩
      simp [h9, hhc]
  obtain ⟨hQ0, hv0, hn0⟩ := harrive
  have hcount0 : ∀ p, countOf s0 p = countOf s p := by
    intro p
    simp [countOf, hv0]
  refine ⟨hQ0, hv0, hn0, ?_⟩
  constructor
  · intro p
    rw [hv0]
    exact hinv.key p
  · exact hinv.inside
  · rw [hQ0]
    exact (List.nodup_append.mp hnodup).1
  · intro q hq
    rw [hQ0] at hq
    exact hinv.queue q (by rw [hQ]; simp [hq])
  · intro q hq
    rw [hQ0] at hq
    have h1 := hinv.low q (by rw [hQ]; simp [hq])
    have h2 := (List.pairwise_append.mp hsorted).2.2 q hq cur (List.mem_singleton_self cur)
    omega
  · rw [hQ0]
    exact (List.pairwise_append.mp hsorted).1
  · intro v hv hvQ
    rw [hQ0] at hvQ
    by_cases hvc2 : v = cur
    · rw [hvc2]
    · have := hinv.popped v hv (by
        rw [hQ]
        simp only [List.mem_append, List.mem_singleton, not_or]
        exact ⟨hvQ, hvc2⟩)
      omega
  · rw [hQ0, hn0]
    simp only [hcount0]
    rw [← hflow]
    simp only [stepsFrom]
    ring

/-- The `while` loop under the bound, on a grid of digits: no addition leaves `int`, the
loop ends, and `numberOfTrails` is the number of trails from the trailhead. -/
theorem ratingLoop_bounded {grid : HGrid} (hrect : Rectangular grid) (hdig : DigitGrid grid)
    {start : Pos} {total : Int} (htotal : total < 2 ^ 31) :
    ∀ (fuel : Nat) (s : RatingState) (keys : Finset Pos) (level : Int),
      RatingInv grid start keys level 0 s → Bounded grid total 0 s →
      s.Q.length + grid.length * cols grid ≤ fuel + keys.card →
      ∃ s1, ratingLoop grid fuel s = .ok s1 ∧ s1.numberOfTrails = trailCount grid start := by
  intro fuel
  induction fuel with
  | zero =>
    intro s keys level hinv _ hfuel
    have hcard := card_le_of_inside hinv.inside
    have hQ : s.Q = [] := List.length_eq_zero.mp (by omega)
    refine ⟨s, by simp [ratingLoop, hQ], ?_⟩
    have := hinv.flow
    rw [hQ] at this
    simpa using this
  | succ fuel ih =>
    intro s keys level hinv hb hfuel
    rcases List.eq_nil_or_concat s.Q with hQ | ⟨Q1, cur, hQ⟩
    · refine ⟨s, by simp [ratingLoop, hQ], ?_⟩
      have := hinv.flow
      rw [hQ] at this
      simpa using this
    · rw [List.concat_eq_append] at hQ
      have hlast : s.Q.getLast? = some cur := by rw [hQ]; simp
      have hdrop : s.Q.dropLast = Q1 := by rw [hQ]; simp
      have hcurk : cur ∈ keys := hinv.queue cur (by rw [hQ]; simp)
      have hnodup : (Q1 ++ [cur]).Nodup := hQ ▸ hinv.nodup
      have hcurQ1 : cur ∉ Q1 := by
        intro h
        exact (List.nodup_append.mp hnodup).2.2 h (List.mem_singleton_self cur)
      obtain ⟨hc, hhc⟩ := heightAt_of_inside hrect (hinv.inside cur hcurk)
      obtain ⟨vc, hvc⟩ : ∃ vc, s.visited cur = some vc :=
        Option.ne_none_iff_exists'.mp ((hinv.key cur).mpr hcurk)
      have hcc : countOf s cur = vc := countOf_of_visited hvc
      obtain ⟨hN, hcnt, hflow⟩ := hb
      have hvc0 : 0 ≤ vc := hcc ▸ hcnt cur
      rw [hQ, List.map_append, List.sum_append] at hflow
      simp only [List.map_cons, List.map_nil, List.sum_cons, List.sum_nil, add_zero] at hflow
      rw [hcc] at hflow
      have hQ1 := sum_nonneg_of_bounded grid hcnt Q1
      have hsteps := weight_steps hrect hdig (hinv.inside cur hcurk)
      have hsw := sum_weight_nonneg grid (stepsFrom grid cur)
      have hmul := mul_le_mul_of_nonneg_left hsteps hvc0
      rw [mul_add] at hmul
      -- the cell is counted without overflow
      have harrive : ∃ s0, ratingArrive grid cur { s with Q := Q1 } = .ok s0 := by
        unfold ratingArrive
        rw [hhc]
        simp only
        by_cases h9 : hc = 9
        · rw [if_pos h9]
          have hmapAt : mapAt s.visited cur = .ok vc := by simp [mapAt, hvc]
          rw [hmapAt]
          simp only
          have h9a : heightAt grid cur = some 9 := by rw [hhc, h9]
          rw [if_pos h9a, mul_one] at hmul
          have hvs : 0 ≤ vc * ((stepsFrom grid cur).map fun m => weight grid m).sum :=
            mul_nonneg hvc0 hsw
          rw [addInt_of_bounds (by omega) (by omega)]
          exact ⟨_, rfl⟩
        · rw [if_neg h9]
          exact ⟨_, rfl⟩
      obtain ⟨s0, h0⟩ := harrive
      obtain ⟨hQ0, hv0, hn0, hmid⟩ := ratingArrive_spec hrect hinv hQ h0
      have hcount0 : ∀ p, countOf s0 p = countOf s p := by
        intro p
        simp [countOf, hv0]
      have hind : (0 : Int) ≤ (if heightAt grid cur = some 9 then 1 else 0) := by
        split_ifs
        · decide
        · exact le_refl _
      have hbmid : Bounded grid total
          (countOf s0 cur * (((((neighbors cur).filter fun n => Step grid cur n).map
            fun m => weight grid m).sum) + 0)) s0 := by
        refine ⟨?_, fun p => (hcount0 p).symm ▸ hcnt p, ?_⟩
        · rw [hn0, hcc]
          exact add_nonneg hN (mul_nonneg hvc0 hind)
        · rw [hQ0, hn0]
          simp only [hcount0]
          rw [hcc, add_zero]
          have hst : ((neighbors cur).filter fun n => Step grid cur n) = stepsFrom grid cur := rfl
          rw [hst]
          omega
      obtain ⟨s1, keys1, h1, hinv1, hsub1, _, hlen1, hb1⟩ :=
        ratingNeighbors_bounded hrect htotal (neighbors cur)
          (fun n hn => (adjacent_iff_mem_neighbors cur n).mpr hn) s0 keys 0 0 hcurk
          (by rw [hQ0]; exact hcurQ1) (le_refl _) hmid hbmid
      rw [mul_zero] at hinv1 hb1
      have hlenQ : s.Q.length = Q1.length + 1 := by rw [hQ]; simp
      rw [hQ0] at hlen1
      obtain ⟨s2, h2, hres⟩ := ih s1 keys1 (hgt grid cur) hinv1 hb1 (by omega)
      refine ⟨s2, ?_, hres⟩
      simp only [ratingLoop, hlast, hdrop, h0, h1]
      exact h2

/-- The rating on a grid of digits: on a rectangular grid whose heights are between -1
and 9, for a trailhead of the grid, `calculateRatingForTrailhead` returns the number of
distinct hiking trails from the trailhead; no count leaves `int`. -/
theorem rating_of_digitGrid (grid : HGrid) (hrect : Rectangular grid) (hdig : DigitGrid grid)
    (trailhead : Pos) (hin : Inside grid trailhead) :
    ∃ all : Finset (List Pos), (∀ l, l ∈ all ↔ IsTrail grid trailhead l) ∧
      calculateRatingForTrailhead grid trailhead = .ok (all.card : Int) := by
  refine ⟨trails grid trailhead, mem_trails hrect hin, ?_⟩
  have hinit : RatingInv grid trailhead {trailhead} (hgt grid trailhead) 0
      { Q := [trailhead], visited := mapSet (fun _ => none) trailhead 1, numberOfTrails := 0 } := by
    constructor
    · intro p
      by_cases hp : p = trailhead
      · simp [mapSet, hp]
      · simp [mapSet, hp]
    · intro p hp
      rw [Finset.mem_singleton.mp hp]
      exact hin
    · exact List.nodup_singleton _
    · intro q hq
      rw [List.mem_singleton.mp hq]
      exact Finset.mem_singleton_self _
    · intro q hq
      rw [List.mem_singleton.mp hq]
      omega
    · exact List.pairwise_singleton _ _
    · intro v hv _
      rw [Finset.mem_singleton.mp hv]
    · simp [countOf, mapSet]
  have hbinit : Bounded grid (weight grid trailhead) 0
      { Q := [trailhead], visited := mapSet (fun _ => none) trailhead 1, numberOfTrails := 0 } := by
    refine ⟨le_refl _, ?_, ?_⟩
    · intro p
      by_cases hp : p = trailhead
      · simp [countOf, mapSet, hp]
      · simp [countOf, mapSet, hp]
    · simp [countOf, mapSet]
  have htotal : weight grid trailhead < 2 ^ 31 := by
    have h1 := (hgt_of_digitGrid hrect hdig hin).1
    unfold weight
    have hle : (9 - hgt grid trailhead).toNat ≤ 10 := by omega
    calc (4 : Int) ^ (9 - hgt grid trailhead).toNat ≤ 4 ^ 10 :=
          pow_le_pow_right₀ (by decide) hle
      _ < 2 ^ 31 := by decide
  obtain ⟨s, hs, hres⟩ := ratingLoop_bounded hrect hdig htotal (grid.length * cols grid + 1)
    _ _ _ hinit hbinit (by
      show [trailhead].length + grid.length * cols grid ≤
        grid.length * cols grid + 1 + ({trailhead} : Finset Pos).card
      rw [Finset.card_singleton, List.length_singleton]
      omega)
  simp only [calculateRatingForTrailhead, hs, hres, trailCount]

/-- An instance: the trailhead `(0, 2)` of the example of the puzzle text. -/
theorem rating_of_digitGrid_example :
    ∃ all : Finset (List Pos), (∀ l, l ∈ all ↔ IsTrail exampleMap (0, 2) l) ∧
      calculateRatingForTrailhead exampleMap (0, 2) = .ok (all.card : Int) :=
  rating_of_digitGrid exampleMap (by decide) (by decide) (0, 2) (by decide)

/-- The rating of the trailhead `(0, 2)` of the example of the puzzle text. -/
theorem rating_example : calculateRatingForTrailhead exampleMap (0, 2) = .ok 20 := by
  decide!

end HoofIt

namespace BridgeRepair

theorem evalLeft_cons (first : Int) (others : List Int) (ops : List Op) :
    evalLeft (first :: others) ops =
      if ops.length = others.length then
        some ((ops.zip others).foldl (fun acc oy => applyOp oy.1 acc oy.2) first)
      else none := rfl

theorem canEvaluateTo_singleton (x t : Int) : CanEvaluateTo [x] t ↔ t = x := by
  unfold CanEvaluateTo
  constructor
  · rintro ⟨ops, h⟩
    rw [evalLeft_cons] at h
    by_cases hlen : ops.length = ([] : List Int).length
    · rw [if_pos hlen] at h
      have hops : ops = [] := List.length_eq_zero.mp hlen
      subst hops
      simp at h
      exact h.symm
    · rw [if_neg hlen] at h
      exact absurd h (by simp)
  · rintro rfl
    exact ⟨[], by simp [evalLeft]⟩

theorem canEvaluateTo_append (init : List Int) (hinit : init ≠ []) (last t : Int) :
    CanEvaluateTo (init ++ [last]) t ↔
      ∃ v, CanEvaluateTo init v ∧ (t = v * last ∨ t = v + last) := by
  obtain ⟨x, xs, rfl⟩ := List.exists_cons_of_ne_nil hinit
  unfold CanEvaluateTo
  constructor
  · rintro ⟨ops, h⟩
    rw [List.cons_append] at h
    rw [evalLeft_cons] at h
    by_cases hlen : ops.length = (xs ++ [last]).length
    · rw [if_pos hlen] at h
      rw [List.length_append, List.length_singleton] at hlen
      rcases List.eq_nil_or_concat ops with hnil | ⟨ops1, o, hops⟩
      · rw [hnil] at hlen
        simp at hlen
      · rw [List.concat_eq_append] at hops
        subst hops
        have hlen1 : ops1.length = xs.length := by
          rw [List.length_append, List.length_singleton] at hlen
          omega
        rw [List.zip_append hlen1, List.foldl_append] at h
        simp only [List.zip_cons_cons, List.zip_nil_right, List.foldl_cons, List.foldl_nil,
          Option.some.injEq] at h
        refine ⟨(ops1.zip xs).foldl (fun acc oy => applyOp oy.1 acc oy.2) x,
          ⟨ops1, by simp [evalLeft, hlen1]⟩, ?_⟩
        cases o with
        | add => exact Or.inr h.symm
        | mul => exact Or.inl h.symm
    · rw [if_neg hlen] at h
      exact absurd h (by simp)
  · rintro ⟨v, ⟨ops1, h1⟩, hv⟩
    rw [evalLeft_cons] at h1
    by_cases hlen1 : ops1.length = xs.length
    · rw [if_pos hlen1] at h1
      have hv1 := Option.some.inj h1
      rcases hv with hmul | hadd
      · refine ⟨ops1 ++ [Op.mul], ?_⟩
        rw [List.cons_append]
        rw [evalLeft_cons]
        rw [if_pos (by simp [hlen1]), List.zip_append hlen1, List.foldl_append]
        simp only [List.zip_cons_cons, List.zip_nil_right, List.foldl_cons, List.foldl_nil, hv1,
          hmul]
        rfl
      · refine ⟨ops1 ++ [Op.add], ?_⟩
        rw [List.cons_append]
        rw [evalLeft_cons]
        rw [if_pos (by simp [hlen1]), List.zip_append hlen1, List.foldl_append]
        simp only [List.zip_cons_cons, List.zip_nil_right, List.foldl_cons, List.foldl_nil, hv1,
          hadd]
        rfl
    · rw [if_neg hlen1] at h1
      exact absurd h1 (by simp)

theorem canEvaluateTo_pos :
    ∀ (n : Nat) (l : List Int), l.length = n → (∀ x ∈ l, 0 < x) →
      ∀ v, CanEvaluateTo l v → 0 < v := by
  intro n
  induction n with
  | zero =>
    intro l hlen _ v hv
    rw [List.length_eq_zero.mp hlen] at hv
    obtain ⟨ops, h⟩ := hv
    simp [evalLeft] at h
  | succ n ih =>
    intro l hlen hpos v hv
    rcases List.eq_nil_or_concat l with hnil | ⟨init, last, hl⟩
    · rw [hnil] at hlen
      simp at hlen
    · rw [List.concat_eq_append] at hl
      subst hl
      have hlast : 0 < last := hpos last (by simp)
      by_cases hinit : init = []
      · subst hinit
        rw [List.nil_append, canEvaluateTo_singleton] at hv
        rw [hv]
        exact hlast
      · rw [canEvaluateTo_append init hinit] at hv
        obtain ⟨w, hw, hvw⟩ := hv
        have hwpos : 0 < w := ih init (by simpa using hlen) (fun x hx => hpos x (by simp [hx])) w hw
        rcases hvw with rfl | rfl
        · exact Int.mul_pos hwpos hlast
        · omega

theorem check_spec :
    ∀ (fuel : Nat) (t : Int) (l : List Int), l ≠ [] → l.length ≤ fuel → (∀ x ∈ l, 0 < x) →
      0 < t → ∃ b, check fuel t l = some b ∧ (b = true ↔ CanEvaluateTo l t) := by
  intro fuel
  induction fuel with
  | zero =>
    intro t l hne hlen
    exact absurd (List.length_eq_zero.mp (Nat.le_zero.mp hlen)) hne
  | succ fuel ih =>
    intro t l hne hlen hpos ht
    rcases List.eq_nil_or_concat l with hnil | ⟨init, last, hl⟩
    · exact absurd hnil hne
    · rw [List.concat_eq_append] at hl
      subst hl
      have hlast : 0 < last := hpos last (by simp)
      unfold check
      by_cases hone : (init ++ [last]).length = 1
      · have hinit : init = [] := by
          rw [List.length_append, List.length_singleton] at hone
          exact List.length_eq_zero.mp (by omega)
        subst hinit
        rw [if_pos hone]
        simp only [List.nil_append, List.getElem?_cons_zero]
        refine ⟨decide (t = last), rfl, ?_⟩
        rw [canEvaluateTo_singleton]
        simp
      · have hinit : init ≠ [] := by
          intro h
          apply hone
          rw [h]
          rfl
        have hinitlen : init.length ≤ fuel := by
          rw [List.length_append, List.length_singleton] at hlen
          omega
        have hinitpos : ∀ x ∈ init, 0 < x := fun x hx => hpos x (by simp [hx])
        have hvpos : ∀ v, CanEvaluateTo init v → 0 < v :=
          canEvaluateTo_pos init.length init rfl hinitpos
        have hgl : (init ++ [last]).getLast? = some last := by simp
        have hdl : removeLastElement (init ++ [last]) = init := by simp [removeLastElement]
        rw [if_neg hone, hgl]
        simp only [hdl]
        rw [if_neg (by omega)]
        rw [canEvaluateTo_append init hinit]
        have hmod : t.tmod last = t % last := Int.tmod_eq_emod (by omega) (by omega)
        have hdiv : t.tdiv last = t / last := Int.tdiv_eq_ediv (by omega) (by omega)
        rw [hmod, hdiv]
        -- what the second `if` of the source returns
        have hsub : ∃ b2, (if t > last then check fuel (t - last) init else some false) = some b2 ∧
            (b2 = true ↔ ∃ v, CanEvaluateTo init v ∧ t = v + last) := by
          by_cases hgt : t > last
          · rw [if_pos hgt]
            obtain ⟨b2, hb2, hiff⟩ := ih (t - last) init hinit hinitlen hinitpos (by omega)
            refine ⟨b2, hb2, hiff.trans ?_⟩
            constructor
            · exact fun h => ⟨t - last, h, by ring⟩
            · rintro ⟨v, hv, hvt⟩
              have : t - last = v := by omega
              rw [this]
              exact hv
          · rw [if_neg hgt]
            refine ⟨false, rfl, ?_⟩
            constructor
            · intro h
              exact absurd h (by simp)
            · rintro ⟨v, hv, hvt⟩
              have := hvpos v hv
              omega
        obtain ⟨b2, hb2, hiff2⟩ := hsub
        by_cases hdvd : t % last = 0
        · rw [if_pos hdvd]
          have hmul : t / last * last = t := Int.ediv_mul_cancel (Int.dvd_of_emod_eq_zero hdvd)
          have hqpos : 0 < t / last := by
            by_contra hq
            have : t / last * last ≤ 0 := Int.mul_nonpos_of_nonpos_of_nonneg (by omega) (by omega)
            omega
          obtain ⟨b1, hb1, hiff1⟩ := ih (t / last) init hinit hinitlen hinitpos hqpos
          rw [hb1]
          cases b1 with
          | true =>
            refine ⟨true, rfl, ?_⟩
            simp only [true_iff]
            exact ⟨t / last, hiff1.mp rfl, Or.inl hmul.symm⟩
          | false =>
            simp only
            refine ⟨b2, hb2, hiff2.trans ?_⟩
            constructor
            · rintro ⟨v, hv, hvt⟩
              exact ⟨v, hv, Or.inr hvt⟩
            · rintro ⟨v, hv, hvt | hvt⟩
              · exfalso
                have hq : t / last = v := by
                  rw [hvt]
                  exact Int.mul_ediv_cancel v (by omega)
                rw [hq] at hiff1
                exact absurd (hiff1.mpr hv) (by simp)
              · exact ⟨v, hv, hvt⟩
        · rw [if_neg hdvd]
          simp only
          refine ⟨b2, hb2, hiff2.trans ?_⟩
          constructor
          · rintro ⟨v, hv, hvt⟩
            exact ⟨v, hv, Or.inr hvt⟩
          · rintro ⟨v, hv, hvt | hvt⟩
            · exfalso
              apply hdvd
              rw [hvt]
              exact Int.mul_emod_left v last
            · exact ⟨v, hv, hvt⟩

/-- C19: for a positive test value and a non-empty list of positive integers,
`checkIfEquationCanBeTrue` returns, and it returns true if and only if some choice of
`+` or `*` between consecutive numbers, evaluated strictly left to right, makes the list
evaluate to the test value. -/
theorem checkIfEquationCanBeTrue_iff (testValue : Int) (listOfNumbers : List Int)
    (htest : 0 < testValue) (hne : listOfNumbers ≠ []) (hpos : ∀ x ∈ listOfNumbers, 0 < x) :
    ∃ b, checkIfEquationCanBeTrue testValue listOfNumbers = some b ∧
      (b = true ↔ ∃ ops, evalLeft listOfNumbers ops = some testValue) :=
  check_spec listOfNumbers.length testValue listOfNumbers hne (Nat.le_refl _) hpos htest

theorem checkIfEquationCanBeTrue_iff_witness :
    (0 : Int) < 3267 ∧ ([81, 40, 27] : List Int) ≠ [] ∧
      (∀ x ∈ ([81, 40, 27] : List Int), 0 < x) ∧
      ∃ b, checkIfEquationCanBeTrue 3267 [81, 40, 27] = some b ∧
        (b = true ↔ ∃ ops, evalLeft [81, 40, 27] ops = some 3267) :=
  ⟨by decide, by decide, by decide,
    checkIfEquationCanBeTrue_iff 3267 [81, 40, 27] (by decide) (by decide) (by decide)⟩

end BridgeRepair

namespace GuardGallivant

open GardenGroups (Pos Grid cellAt width InGrid WellFormed cellAt_of_inGrid)

theorem length_setCell (grid : Grid) (p : Pos) (c : Char) :
    (setCell grid p c).length = grid.length := by
  simp [setCell]

theorem width_setCell (grid : Grid) (p : Pos) (c : Char) :
    width (setCell grid p c) = width grid := by
  unfold width setCell
  rw [List.headD_eq_head?_getD, List.headD_eq_head?_getD, List.head?_eq_getElem?,
    List.head?_eq_getElem?, List.getElem?_set]
  by_cases h0 : p.1.toNat = 0
  · rw [if_pos h0, h0]
    by_cases hlen : 0 < grid.length
    · rw [if_pos hlen, List.getD_eq_getElem _ _ hlen, List.getElem?_eq_getElem hlen]
      simp
    · rw [if_neg hlen]
      have : grid = [] := List.length_eq_zero.mp (by omega)
      simp [this]
  · rw [if_neg h0]

theorem cellAt_neg (grid : Grid) {q : Pos} (hq : q.1 < 0 ∨ q.2 < 0) : cellAt grid q = none := by
  unfold cellAt
  rw [if_pos hq]

theorem cellAt_nonneg (grid : Grid) {q : Pos} (hq : ¬ (q.1 < 0 ∨ q.2 < 0)) :
    cellAt grid q = (grid[q.1.toNat]?).bind fun row => row[q.2.toNat]? := by
  unfold cellAt
  rw [if_neg hq]
  cases grid[q.1.toNat]? <;> rfl

theorem cellAt_setCell (grid : Grid) (p q : Pos) (c : Char) (hp1 : 0 ≤ p.1) (hp2 : 0 ≤ p.2) :
    cellAt (setCell grid p c) q =
      if q = p then (cellAt grid p).map (fun _ => c) else cellAt grid q := by
  by_cases hq : q.1 < 0 ∨ q.2 < 0
  · have hqp : q ≠ p := by
      intro h
      rw [h] at hq
      omega
    rw [if_neg hqp, cellAt_neg _ hq, cellAt_neg _ hq]
  · rw [cellAt_nonneg _ hq, cellAt_nonneg grid hq,
      cellAt_nonneg grid (show ¬ (p.1 < 0 ∨ p.2 < 0) by omega)]
    unfold setCell
    rw [List.getElem?_set]
    by_cases hrow : p.1.toNat = q.1.toNat
    · rw [if_pos hrow]
      by_cases hlen : p.1.toNat < grid.length
      · rw [if_pos hlen, List.getD_eq_getElem _ _ hlen, ← hrow, List.getElem?_eq_getElem hlen]
        simp only [Option.some_bind]
        rw [List.getElem?_set]
        by_cases hcol : p.2.toNat = q.2.toNat
        · have hqp : q = p := Prod.ext (by omega) (by omega)
          rw [if_pos hcol, if_pos hqp]
          by_cases hlen2 : p.2.toNat < (grid[p.1.toNat]).length
          · rw [if_pos hlen2, List.getElem?_eq_getElem hlen2]
            rfl
          · rw [if_neg hlen2, List.getElem?_eq_none (by omega)]
            rfl
        · have hqp : q ≠ p := fun h => hcol (by rw [h])
          rw [if_neg hcol, if_neg hqp]
      · rw [if_neg hlen]
        have hnone : grid[p.1.toNat]? = none := List.getElem?_eq_none (by omega)
        rw [← hrow, hnone]
        simp
    · have hqp : q ≠ p := fun h => hrow (by rw [h])
      rw [if_neg hrow, if_neg hqp]

theorem wellFormed_setCell {grid : Grid} (hwf : WellFormed grid) (p : Pos) (c : Char) :
    WellFormed (setCell grid p c) := by
  constructor
  · intro h
    have := length_setCell grid p c
    rw [h] at this
    exact hwf.1 (List.length_eq_zero.mp this.symm)
  · intro row hrow
    rw [width_setCell]
    unfold setCell at hrow
    by_cases hlen : p.1.toNat < grid.length
    · rcases List.mem_or_eq_of_mem_set hrow with h | h
      · exact hwf.2 row h
      · rw [h, List.length_set, List.getD_eq_getElem _ _ hlen]
        exact hwf.2 _ (List.getElem_mem _)
    · rw [List.set_eq_of_length_le (by omega)] at hrow
      exact hwf.2 row hrow

theorem inGrid_setCell (grid : Grid) (p : Pos) (c : Char) (q : Pos) :
    InGrid (setCell grid p c) q ↔ InGrid grid q := by
  unfold InGrid
  rw [length_setCell, width_setCell]

/-- Clearing the start cell changes no answer to "is this cell an obstacle". -/
theorem obstacle_setCell {grid : Grid} (hwf : WellFormed grid) {start : Pos}
    (hstart : cellAt grid start = some '^') {q : Pos} (hq : InGrid grid q) :
    ∃ ch, cellAt (setCell grid start '.') q = some ch ∧
      (ch = '#' ↔ cellAt grid q = some '#') := by
  have hs1 : 0 ≤ start.1 := by
    by_contra h
    rw [cellAt_neg grid (Or.inl (by omega))] at hstart
    exact absurd hstart (by simp)
  have hs2 : 0 ≤ start.2 := by
    by_contra h
    rw [cellAt_neg grid (Or.inr (by omega))] at hstart
    exact absurd hstart (by simp)
  rw [cellAt_setCell grid start q '.' hs1 hs2]
  by_cases hqs : q = start
  · rw [if_pos hqs, hstart, hqs, hstart]
    exact ⟨'.', rfl, by decide⟩
  · rw [if_neg hqs]
    obtain ⟨ch, hch⟩ := cellAt_of_inGrid hwf hq
    rw [hch]
    exact ⟨ch, rfl, by simp⟩

theorem findStart_fold (grid : Grid) :
    ∀ n, n ≤ grid.length →
      ((List.range n).foldl
        (fun pos (i : Nat) =>
          let row := grid.getD i []
          if row.indexOf '^' < row.length then
            some ((i : Int), ((row.indexOf '^' : Nat) : Int))
          else pos) none = none ∧ ∀ i, i < n → '^' ∉ grid.getD i []) ∨
      ∃ p, (List.range n).foldl
        (fun pos (i : Nat) =>
          let row := grid.getD i []
          if row.indexOf '^' < row.length then
            some ((i : Int), ((row.indexOf '^' : Nat) : Int))
          else pos) none = some p ∧ cellAt grid p = some '^' := by
  intro n
  induction n with
  | zero =>
    intro _
    exact Or.inl ⟨rfl, fun i hi => absurd hi (Nat.not_lt_zero i)⟩
  | succ n ih =>
    intro hn
    rw [List.range_succ, List.foldl_append]
    simp only [List.foldl_cons, List.foldl_nil]
    have hlt : n < grid.length := by omega
    by_cases hfound : (grid.getD n []).indexOf '^' < (grid.getD n []).length
    · rw [if_pos hfound]
      refine Or.inr ⟨_, rfl, ?_⟩
      rw [cellAt_nonneg _ (by simp)]
      simp only [Int.toNat_ofNat, List.getElem?_eq_getElem hlt, Option.some_bind]
      have hrow : grid.getD n [] = grid[n] := List.getD_eq_getElem _ _ hlt
      rw [hrow] at hfound ⊢
      rw [List.getElem?_eq_getElem hfound, List.getElem_indexOf]
    · rw [if_neg hfound]
      rcases ih (by omega) with ⟨hnone, hall⟩ | hsome
      · refine Or.inl ⟨hnone, ?_⟩
        intro i hi
        by_cases hin : i = n
        · rw [hin]
          exact fun hmem => hfound (List.indexOf_lt_length.mpr hmem)
        · exact hall i (by omega)
      · exact Or.inr hsome

theorem findStartPosition_eq {grid : Grid} {start : Pos} (hstart : cellAt grid start = some '^')
    (huniq : ∀ p, cellAt grid p = some '^' → p = start) :
    findStartPosition grid = some start := by
  unfold findStartPosition
  rcases findStart_fold grid grid.length (Nat.le_refl _) with ⟨_, hall⟩ | ⟨p, hp, hcell⟩
  · exfalso
    have hnn : ¬ (start.1 < 0 ∨ start.2 < 0) := by
      intro h
      rw [cellAt_neg grid h] at hstart
      exact absurd hstart (by simp)
    rw [cellAt_nonneg grid hnn] at hstart
    cases hrow : grid[start.1.toNat]? with
    | none =>
      rw [hrow] at hstart
      exact absurd hstart (by simp)
    | some row =>
      rw [hrow] at hstart
      simp only [Option.some_bind] at hstart
      have hlt : start.1.toNat < grid.length := by
        by_contra h
        rw [List.getElem?_eq_none (by omega)] at hrow
        exact absurd hrow (by simp)
      apply hall start.1.toNat hlt
      rw [List.getD_eq_getElem _ _ hlt]
      rw [List.getElem?_eq_getElem hlt] at hrow
      rw [Option.some.inj hrow]
      exact List.getElem?_mem hstart
  · rw [hp, huniq p hcell]

end GuardGallivant

namespace GuardGallivant

open GardenGroups (Pos Grid cellAt width InGrid WellFormed cellAt_of_inGrid)

theorem walk_none_add {grid : Grid} {start : Pos} {n : Nat} (h : walk grid start n = none)
    (m : Nat) : walk grid start (n + m) = none := by
  induction m with
  | zero => exact h
  | succ m ih =>
    show (walk grid start (n + m)).bind (guardStep grid) = none
    rw [ih]
    rfl

theorem walk_shift {grid : Grid} {start : Pos} {i j : Nat}
    (h : walk grid start i = walk grid start j) (m : Nat) :
    walk grid start (i + m) = walk grid start (j + m) := by
  induction m with
  | zero => exact h
  | succ m ih =>
    show (walk grid start (i + m)).bind (guardStep grid) =
      (walk grid start (j + m)).bind (guardStep grid)
    rw [ih]

/-- A state that occurs twice in the walk makes the walk go on for ever. -/
theorem walk_never_leaves_of_repeat {grid : Grid} {start : Pos} {i j : Nat} (hij : i < j)
    (h : walk grid start i = walk grid start j) (hsome : walk grid start i ≠ none) :
    ∀ n, walk grid start n ≠ none := by
  intro n
  induction n using Nat.strong_induction_on with
  | _ n ih =>
    by_cases hn : n ≤ j
    · intro hnone
      have := walk_none_add hnone (j - n)
      rw [show n + (j - n) = j by omega, ← h] at this
      exact hsome this
    · have hshift := walk_shift h (n - j)
      rw [show j + (n - j) = n by omega] at hshift
      rw [← hshift]
      exact ih (i + (n - j)) (by omega)

theorem guardStep_inGrid {grid : Grid} {st st1 : Pos × Direction} (hst : InGrid grid st.1)
    (h : guardStep grid st = some st1) : InGrid grid st1.1 := by
  unfold guardStep at h
  by_cases hin : InGrid grid (moveForward st.1 st.2)
  · rw [if_pos hin] at h
    by_cases hob : cellAt grid (moveForward st.1 st.2) = some '#'
    · rw [if_pos hob] at h
      rw [← Option.some.inj h]
      exact hst
    · rw [if_neg hob] at h
      rw [← Option.some.inj h]
      exact hin
  · rw [if_neg hin] at h
    exact absurd h (by simp)

theorem walk_inGrid {grid : Grid} {start : Pos} (hstart : InGrid grid start) :
    ∀ n st, walk grid start n = some st → InGrid grid st.1 := by
  intro n
  induction n with
  | zero =>
    intro st h
    rw [← Option.some.inj h]
    exact hstart
  | succ n ih =>
    intro st h
    change (walk grid start n).bind (guardStep grid) = some st at h
    cases hw : walk grid start n with
    | none =>
      rw [hw] at h
      exact absurd h (by simp)
    | some st0 =>
      rw [hw] at h
      exact guardStep_inGrid (ih st0 hw) h

theorem mem_allStates {grid : Grid} {st : Pos × Direction} :
    st ∈ allStates grid ↔ InGrid grid st.1 := by
  unfold allStates
  rw [Finset.mem_product, GardenGroups.mem_cells]
  constructor
  · exact fun h => h.1
  · intro h
    refine ⟨h, ?_⟩
    cases st.2 <;> decide

theorem card_allStates (grid : Grid) : (allStates grid).card = 4 * (grid.length * width grid) := by
  unfold allStates
  rw [Finset.card_product, GardenGroups.card_cells]
  have : ({Direction.UP, Direction.RIGHT, Direction.DOWN, Direction.LEFT} :
      Finset Direction).card = 4 := by decide
  rw [this]
  ring

/-- While no state has occurred twice, the walk has made fewer moves than there are
states. -/
theorem moves_lt_of_distinct {grid : Grid} {start : Pos} (hstart : InGrid grid start) {k : Nat}
    (hsome : ∀ i, i ≤ k → walk grid start i ≠ none)
    (hdist : ∀ i j, i ≤ k → j ≤ k → walk grid start i = walk grid start j → i = j) :
    k + 1 ≤ 4 * (grid.length * width grid) := by
  rw [← card_allStates, ← Finset.card_range (k + 1)]
  have hsub : (Finset.range (k + 1)).image (fun i => walk grid start i) ⊆
      (allStates grid).image some := by
    intro o ho
    obtain ⟨i, hi, rfl⟩ := Finset.mem_image.mp ho
    have hik : i ≤ k := by
      have := Finset.mem_range.mp hi
      omega
    obtain ⟨st, hst⟩ := Option.ne_none_iff_exists'.mp (hsome i hik)
    rw [hst]
    exact Finset.mem_image.mpr ⟨st, mem_allStates.mpr (walk_inGrid hstart i st hst), rfl⟩
  have hinj : Set.InjOn (fun i => walk grid start i) (Finset.range (k + 1) : Set Nat) := by
    intro i hi j hj hij
    have hi' := Finset.mem_range.mp (Finset.mem_coe.mp hi)
    have hj' := Finset.mem_range.mp (Finset.mem_coe.mp hj)
    exact hdist i j (by omega) (by omega) hij
  calc (Finset.range (k + 1)).card
      = ((Finset.range (k + 1)).image fun i => walk grid start i).card :=
        (Finset.card_image_of_injOn hinj).symm
    _ ≤ ((allStates grid).image some).card := Finset.card_le_card hsub
    _ ≤ (allStates grid).card := Finset.card_image_le

end GuardGallivant

namespace GuardGallivant

open GardenGroups (Pos Grid cellAt width InGrid WellFormed cellAt_of_inGrid)

theorem inGrid_of_cellAt {grid : Grid} (hwf : WellFormed grid) {p : Pos} {c : Char}
    (hp : cellAt grid p = some c) : InGrid grid p := by
  have hnn : ¬ (p.1 < 0 ∨ p.2 < 0) := by
    intro h
    rw [cellAt_neg grid h] at hp
    exact absurd hp (by simp)
  rw [cellAt_nonneg grid hnn] at hp
  cases hrow : grid[p.1.toNat]? with
  | none =>
    rw [hrow] at hp
    exact absurd hp (by simp)
  | some row =>
    rw [hrow] at hp
    simp only [Option.some_bind] at hp
    have hlt : p.1.toNat < grid.length := by
      by_contra h
      rw [List.getElem?_eq_none (by omega)] at hrow
      exact absurd hrow (by simp)
    rw [List.getElem?_eq_getElem hlt] at hrow
    have hrowlen : row.length = width grid := by
      rw [← Option.some.inj hrow]
      exact hwf.2 _ (List.getElem_mem _)
    have hlt2 : p.2.toNat < row.length := by
      by_contra h
      rw [List.getElem?_eq_none (by omega)] at hp
      exact absurd hp (by simp)
    unfold InGrid
    omega

theorem navLoop_spec {grid : Grid} (hwf : WellFormed grid) {start : Pos}
    (hstart : cellAt grid start = some '^') (hin : InGrid grid start) :
    ∀ (fuel k : Nat) (s : NavState), NavInv grid start k s →
      4 * (grid.length * width grid) + 1 ≤ fuel + k →
      ∃ count b, navLoop (setCell grid start '.') fuel s = .ok (count, b) ∧
        (b = true ↔ ∀ n, walk grid start n ≠ none) := by
  intro fuel
  induction fuel with
  | zero =>
    intro k s hinv hfuel
    exfalso
    have hsome : ∀ i, i ≤ k → walk grid start i ≠ none := by
      intro i hi hnone
      have := walk_none_add hnone (k - i)
      rw [show i + (k - i) = k by omega, hinv.cur] at this
      exact absurd this (by simp)
    have := moves_lt_of_distinct hin hsome hinv.distinct
    omega
  | succ fuel ih =>
    intro k s hinv hfuel
    have hnext : walk grid start (k + 1) = guardStep grid (s.pos, s.dir) := by
      show (walk grid start k).bind (guardStep grid) = _
      rw [hinv.cur]
      rfl
    unfold navLoop
    simp only [length_setCell, width_setCell]
    by_cases hout : (moveForward s.pos s.dir).1 < 0 ∨
        (grid.length : Int) ≤ (moveForward s.pos s.dir).1 ∨ (moveForward s.pos s.dir).2 < 0 ∨
        (width grid : Int) ≤ (moveForward s.pos s.dir).2
    · rw [if_pos hout]
      refine ⟨_, false, rfl, ?_⟩
      have hnot : ¬ InGrid grid (moveForward s.pos s.dir) := by
        unfold InGrid
        omega
      have hleft : walk grid start (k + 1) = none := by
        rw [hnext]
        unfold guardStep
        rw [if_neg hnot]
      constructor
      · intro h
        exact absurd h (by simp)
      · intro h
        exact absurd hleft (h (k + 1))
    · rw [if_neg hout]
      have hing : InGrid grid (moveForward s.pos s.dir) := by
        unfold InGrid
        omega
      obtain ⟨ch, hch, hob⟩ := obstacle_setCell hwf hstart hing
      rw [hch]
      simp only
      have cont : ∀ s1 : NavState, s1.visitedStates = s.visitedStates →
          guardStep grid (s.pos, s.dir) = some (s1.pos, s1.dir) →
          ∃ count b,
            (if (s1.pos, s1.dir) ∈ s1.visitedStates then
              (Except.ok (s1.visitedPositions.card, true) : Except NavError (Nat × Bool))
            else navLoop (setCell grid start '.') fuel
              { s1 with visitedStates := insert (s1.pos, s1.dir) s1.visitedStates }) =
              .ok (count, b) ∧
            (b = true ↔ ∀ n, walk grid start n ≠ none) := by
        intro s1 hvs hst1
        have hwalk1 : walk grid start (k + 1) = some (s1.pos, s1.dir) := by rw [hnext, hst1]
        by_cases hseen : (s1.pos, s1.dir) ∈ s1.visitedStates
        · rw [if_pos hseen]
          refine ⟨_, true, rfl, ?_⟩
          simp only [true_iff]
          rw [hvs] at hseen
          obtain ⟨i, hik, hi⟩ := (hinv.seen _).mp hseen
          exact walk_never_leaves_of_repeat (show i < k + 1 by omega) (by rw [hi, hwalk1])
            (by rw [hi]; simp)
        · rw [if_neg hseen]
          rw [hvs] at hseen
          apply ih (k + 1) _ _ (by omega)
          constructor
          · exact hwalk1
          · intro st
            show st ∈ insert (s1.pos, s1.dir) s1.visitedStates ↔ _
            rw [hvs, Finset.mem_insert, hinv.seen st]
            constructor
            · rintro (rfl | ⟨i, hik, hi⟩)
              · exact ⟨k + 1, le_refl _, hwalk1⟩
              · exact ⟨i, by omega, hi⟩
            · rintro ⟨i, hik, hi⟩
              by_cases hlast : i = k + 1
              · rw [hlast, hwalk1] at hi
                exact Or.inl (Option.some.inj hi).symm
              · exact Or.inr ⟨i, by omega, hi⟩
          · intro i j hi hj hij
            have hnew : ∀ m, m ≤ k → walk grid start m ≠ walk grid start (k + 1) := by
              intro m hm heq
              apply hseen
              exact (hinv.seen _).mpr ⟨m, hm, by rw [heq, hwalk1]⟩
            by_cases hik : i = k + 1
            · by_cases hjk : j = k + 1
              · omega
              · exfalso
                rw [hik] at hij
                exact hnew j (by omega) hij.symm
            · by_cases hjk : j = k + 1
              · exfalso
                rw [hjk] at hij
                exact hnew i (by omega) hij
              · exact hinv.distinct i j (by omega) (by omega) hij
      by_cases hc : ch = '#'
      · simp only [if_pos hc]
        refine cont { s with dir := turnRight s.dir } rfl ?_
        unfold guardStep
        rw [if_pos hing, if_pos (hob.mp hc)]
      · simp only [if_neg hc]
        refine cont ⟨moveForward s.pos s.dir, s.dir,
          insert (moveForward s.pos s.dir) s.visitedPositions, s.visitedStates⟩ rfl ?_
        unfold guardStep
        rw [if_pos hing, if_neg (fun h => hc (hob.mpr h))]

/-- C20: on a non-empty rectangular grid with exactly one `^`, `navigateGrid` of
guard-gallivant_p2.cpp returns, and the boolean it returns is true if and only if the
guard's walk never leaves the grid; the walk never leaves the grid exactly when some
state (position, direction) occurs twice in it. -/
theorem navigateGrid_detects_loop (grid : Grid) (hwf : WellFormed grid) (start : Pos)
    (hstart : cellAt grid start = some '^')
    (huniq : ∀ p ∈ GardenGroups.cells grid, cellAt grid p = some '^' → p = start) :
    ∃ count b, navigateGrid grid = .ok (count, b) ∧
      (b = true ↔ ∀ n, walk grid start n ≠ none) ∧
      ((∀ n, walk grid start n ≠ none) ↔
        ∃ i j, i < j ∧ walk grid start i ≠ none ∧ walk grid start i = walk grid start j) := by
  have hin : InGrid grid start := inGrid_of_cellAt hwf hstart
  have huniq1 : ∀ p, cellAt grid p = some '^' → p = start := fun p hp =>
    huniq p (GardenGroups.mem_cells.mpr (inGrid_of_cellAt hwf hp)) hp
  have hinit : NavInv grid start 0
      { pos := start, dir := .UP, visitedPositions := {start},
        visitedStates := {(start, .UP)} } := by
    constructor
    · rfl
    · intro st
      rw [Finset.mem_singleton]
      constructor
      · rintro rfl
        exact ⟨0, le_refl _, rfl⟩
      · rintro ⟨i, hi, hw⟩
        rw [Nat.le_zero.mp hi] at hw
        exact (Option.some.inj hw).symm
    · intro i j hi hj _
      omega
  obtain ⟨count, b, hnav, hb⟩ := navLoop_spec hwf hstart hin
    (4 * (grid.length * width grid) + 1) 0 _ hinit (by omega)
  refine ⟨count, b, ?_, hb, ?_⟩
  · unfold navigateGrid
    rw [findStartPosition_eq hstart huniq1]
    simp only [hstart]
    exact hnav
  · constructor
    · intro hall
      by_contra hno
      push_neg at hno
      have hdist : ∀ i j, i ≤ 4 * (grid.length * width grid) →
          j ≤ 4 * (grid.length * width grid) →
          walk grid start i = walk grid start j → i = j := by
        intro i j _ _ hij
        rcases Nat.lt_trichotomy i j with h | h | h
        · exact absurd hij (hno i j h (hall i))
        · exact h
        · exact absurd hij.symm (hno j i h (hall j))
      have := moves_lt_of_distinct hin (fun i _ => hall i) hdist
      omega
    · rintro ⟨i, j, hij, hsome, heq⟩
      exact walk_never_leaves_of_repeat hij heq hsome

set_option maxRecDepth 100000 in
theorem navigateGrid_detects_loop_witness :
    WellFormed closedLab ∧ cellAt closedLab (1, 1) = some '^' ∧
      (∀ p ∈ GardenGroups.cells closedLab, cellAt closedLab p = some '^' → p = (1, 1)) ∧
      ∃ count b, navigateGrid closedLab = .ok (count, b) ∧
        (b = true ↔ ∀ n, walk closedLab (1, 1) n ≠ none) ∧
        ((∀ n, walk closedLab (1, 1) n ≠ none) ↔
          ∃ i j, i < j ∧ walk closedLab (1, 1) i ≠ none ∧
            walk closedLab (1, 1) i = walk closedLab (1, 1) j) :=
  ⟨by decide, by decide, by decide,
    navigateGrid_detects_loop closedLab (by decide) (1, 1) (by decide) (by decide)⟩

end GuardGallivant

namespace GardenGroups

theorem nodup_perimeter_neighbors (p : Pos) : (neighbors p).Nodup := by
  obtain ⟨a, b⟩ := p
  simp [neighbors]
  omega

theorem countP_neighbors_eq_card (region : Finset Pos) (p : Pos) :
    (neighbors p).countP (· ∈ region) = (region.filter fun q => Adjacent p q).card := by
  have h : region.filter (fun q => Adjacent p q) =
      ((neighbors p).filter (· ∈ region)).toFinset := by
    ext q
    simp only [Finset.mem_filter, List.mem_toFinset, List.mem_filter, decide_eq_true_eq,
      adjacent_iff_mem_neighbors]
    tauto
  rw [h, List.toFinset_card_of_nodup ((nodup_perimeter_neighbors p).filter _),
    List.countP_eq_length_filter]

theorem card_adjacentOrdered (region : Finset Pos) :
    (adjacentOrdered region).card = ∑ p ∈ region, (neighbors p).countP (· ∈ region) := by
  rw [adjacentOrdered, Finset.card_filter, Finset.sum_product]
  refine Finset.sum_congr rfl fun p _ => ?_
  rw [countP_neighbors_eq_card, Finset.card_filter]

theorem adjacent_ne {p q : Pos} (h : Adjacent p q) : p ≠ q := by
  rintro rfl
  simp [Adjacent] at h

/-- Every shared edge is seen twice, once from each of its two cells. -/
theorem card_adjacentOrdered_eq_twice (region : Finset Pos) :
    (adjacentOrdered region).card = 2 * (sharedEdges region).card := by
  rw [sharedEdges, Finset.card_eq_sum_card_image (fun pq : Pos × Pos => s(pq.1, pq.2)),
    mul_comm, ← smul_eq_mul, ← Finset.sum_const]
  refine Finset.sum_congr rfl fun e he => ?_
  obtain ⟨⟨p, q⟩, hpq, rfl⟩ := Finset.mem_image.mp he
  have hmem := Finset.mem_filter.mp hpq
  have hadj : Adjacent p q := hmem.2
  have hp : p ∈ region := (Finset.mem_product.mp hmem.1).1
  have hq : q ∈ region := (Finset.mem_product.mp hmem.1).2
  have hfib : (adjacentOrdered region).filter (fun x => s(x.1, x.2) = s(p, q)) =
      {(p, q), (q, p)} := by
    ext ⟨a, b⟩
    simp only [Finset.mem_filter, Finset.mem_insert, Finset.mem_singleton, Prod.mk.injEq,
      Sym2.eq_iff]
    constructor
    · rintro ⟨_, h⟩
      exact h
    · rintro (⟨rfl, rfl⟩ | ⟨rfl, rfl⟩)
      · exact ⟨hpq, Or.inl ⟨rfl, rfl⟩⟩
      · exact ⟨Finset.mem_filter.mpr ⟨Finset.mem_product.mpr ⟨hq, hp⟩, adjacent_symm hadj⟩,
          Or.inr ⟨rfl, rfl⟩⟩
  rw [hfib, Finset.card_pair]
  intro h
  exact adjacent_ne hadj (Prod.mk.inj h).1

theorem calculatePerimeter_eq_sub (region : Finset Pos) :
    calculatePerimeter region = 4 * (region.card : Int) - 2 * ((sharedEdges region).card : Int) := by
  have h := card_adjacentOrdered_eq_twice region
  rw [card_adjacentOrdered] at h
  have h2 : (∑ p ∈ region, ((neighbors p).countP (· ∈ region) : Int)) =
      2 * ((sharedEdges region).card : Int) := by
    rw [← Nat.cast_sum, h]
    push_cast
    rfl
  rw [calculatePerimeter_eq_sum, Finset.sum_sub_distrib, h2, Finset.sum_const, nsmul_eq_mul]
  ring

/-- C29: the perimeter of a region of area `n` is `4 * n - 2 * e`, where `e` is the number
of unordered pairs of 4-adjacent cells that both lie in the region; every such pair is
counted from each of its two cells, which gives the factor 2. -/
theorem perimeter_eq_four_area_sub_shared (region : Finset Pos) :
    calculatePerimeter region =
      4 * (region.card : Int) - 2 * ((sharedEdges region).card : Int) ∧
    ∑ p ∈ region, (neighbors p).countP (· ∈ region) = 2 * (sharedEdges region).card := by
  refine ⟨calculatePerimeter_eq_sub region, ?_⟩
  rw [← card_adjacentOrdered]
  exact card_adjacentOrdered_eq_twice region

/-- C28: the perimeter of every finite region is an even number, wherever the region lies
in the grid. -/
theorem even_calculatePerimeter (region : Finset Pos) : Even (calculatePerimeter region) := by
  rw [calculatePerimeter_eq_sub]
  exact ⟨2 * (region.card : Int) - ((sharedEdges region).card : Int), by ring⟩

theorem firstRowShortest_of_wellFormed {grid : Grid} (hwf : WellFormed grid) :
    FirstRowShortest grid := fun row hrow => le_of_eq (hwf.2 row hrow).symm

theorem inGrid_of_cellAt_some {grid : Grid} (hwf : WellFormed grid) {p : Pos}
    (h : cellAt grid p ≠ none) : InGrid grid p := by
  unfold cellAt at h
  by_cases hneg : p.1 < 0 ∨ p.2 < 0
  · rw [if_pos hneg] at h
    exact absurd rfl h
  · rw [if_neg hneg] at h
    cases hrow : grid[p.1.toNat]? with
    | none =>
      rw [hrow] at h
      exact absurd rfl h
    | some row =>
      rw [hrow] at h
      simp only at h
      have hlt := (List.getElem?_eq_some_iff.mp hrow).1
      have hmem : row ∈ grid := List.getElem?_mem hrow
      have hlen := hwf.2 row hmem
      cases hc : row[p.2.toNat]? with
      | none => exact absurd hc h
      | some ch =>
        have hlt2 := (List.getElem?_eq_some_iff.mp hc).1
        refine ⟨by omega, by omega, by omega, by omega⟩

theorem bfsLoop_safe {grid : Grid} (hg : FirstRowShortest grid) (plant : Char) (p0 : Pos) :
    ∀ (fuel : Nat) (s : BfsState), (∀ q ∈ s.region, q = p0 ∨ InGrid grid q) →
      bfsLoop grid plant fuel s ≠ .error .outOfBounds := by
  intro fuel
  induction fuel with
  | zero =>
    intro s _
    unfold bfsLoop
    split_ifs <;> simp
  | succ fuel ih =>
    intro s hreg
    unfold bfsLoop
    cases hlast : s.Q.getLast? with
    | none => simp
    | some cur =>
      simp only
      obtain ⟨s1, h1, hreg1, _⟩ :=
        visitNeighbors_ok hg plant p0 (neighbors cur) { s with Q := s.Q.dropLast } hreg
      rw [h1]
      exact ih s1 hreg1

theorem scanCells_safe {grid : Grid} (hg : FirstRowShortest grid) (fuel : Nat) (ps : List Pos)
    (hps : ∀ p ∈ ps, ∃ ch, cellAt grid p = some ch) :
    ∀ s : ScanState, scanCells fuel grid ps s ≠ .error .outOfBounds := by
  induction ps with
  | nil =>
    intro s
    simp [scanCells]
  | cons p ps ih =>
    intro s
    have hcell : scanCell fuel grid s p ≠ .error .outOfBounds := by
      unfold scanCell
      by_cases hv : p ∈ s.visited
      · rw [if_pos hv]
        simp
      · rw [if_neg hv]
        obtain ⟨ch, hch⟩ := hps p (List.mem_cons_self _ _)
        rw [hch]
        simp only
        have hb := bfsLoop_safe hg ch p fuel
          { region := {p}, visited := insert p s.visited, Q := p :: s.Q }
          (fun q hq => Or.inl (Finset.mem_singleton.mp hq))
        cases hres : bfsLoop grid ch fuel
            { region := {p}, visited := insert p s.visited, Q := p :: s.Q } with
        | error e =>
          rw [hres] at hb
          simp only
          intro h
          apply hb
          cases h
          rfl
        | ok b => simp
    unfold scanCells
    cases hc : scanCell fuel grid s p with
    | error e =>
      rw [hc] at hcell
      simp only
      exact hcell
    | ok s1 =>
      simp only
      exact ih (fun q hq => hps q (List.mem_cons_of_mem _ hq)) s1

/-- C30: on a non-empty rectangular grid the element accesses `grid[r][c]` that do not
leave the vectors are those with `0 ≤ r < rows` and `0 ≤ c < cols`, and the scan makes no
other access, however long its loops run: it never stops on an access outside the grid,
and it returns the regions and the price. -/
theorem scan_accesses_in_bounds (grid : Grid) (hwf : WellFormed grid) :
    (∀ p, cellAt grid p ≠ none ↔ InGrid grid p) ∧
    (∀ fuel, scanWith fuel grid ≠ .error .outOfBounds) ∧
    ∃ regs price, discoverRegions grid = .ok regs ∧ calculatePriceOfFences grid = .ok price := by
  refine ⟨fun p => ⟨inGrid_of_cellAt_some hwf, fun hp => ?_⟩, fun fuel => ?_, ?_⟩
  · obtain ⟨ch, hch⟩ := cellAt_of_inGrid hwf hp
    rw [hch]
    simp
  · have h := scanCells_safe (firstRowShortest_of_wellFormed hwf) fuel (scanOrder grid)
      (fun p hp => cellAt_of_mem_scanOrder hp) { allRegions := ∅, visited := ∅, Q := [] }
    unfold scanWith
    cases hc : scanCells fuel grid (scanOrder grid) { allRegions := ∅, visited := ∅, Q := [] } with
    | error e =>
      rw [hc] at h
      simp only
      intro h1
      apply h
      cases h1
      rfl
    | ok s1 => simp
  · obtain ⟨regs, hregs, _⟩ := discoverRegions_spec hwf
    exact ⟨regs, priceOfRegions calculatePerimeter regs, hregs,
      by simp only [calculatePriceOfFences, hregs]⟩

set_option maxRecDepth 100000 in
theorem scan_accesses_in_bounds_witness :
    WellFormed scenarioB ∧
      (∀ p, cellAt scenarioB p ≠ none ↔ InGrid scenarioB p) ∧
      (∀ fuel, scanWith fuel scenarioB ≠ .error .outOfBounds) ∧
      ∃ regs price, discoverRegions scenarioB = .ok regs ∧
        calculatePriceOfFences scenarioB = .ok price :=
  ⟨by decide, scan_accesses_in_bounds scenarioB (by decide)⟩

end GardenGroups

namespace PrintQueue

theorem firstAt_indexOf {l : List Int} {a : Int} (h : a ∈ l) : FirstAt l a (l.indexOf a) := by
  have hlt : l.indexOf a < l.length := List.indexOf_lt_length.mpr h
  refine ⟨?_, fun j hj hja => ?_⟩
  · rw [List.getElem?_eq_getElem hlt]
    exact congrArg some (List.indexOf_get hlt)
  · have hjl : j < l.length := lt_trans hj hlt
    rw [List.getElem?_eq_getElem hjl] at hja
    have hja1 : l[j] = a := Option.some.inj hja
    have := List.not_of_lt_findIdx (p := (· == a)) hj
    simp [hja1] at this

theorem firstAt_unique {l : List Int} {a : Int} {i j : Nat} (hi : FirstAt l a i)
    (hj : FirstAt l a j) : i = j := by
  rcases Nat.lt_trichotomy i j with h | h | h
  · exact absurd hi.1 (hj.2 i h)
  · exact h
  · exact absurd hj.1 (hi.2 j h)

theorem mem_of_firstAt {l : List Int} {a : Int} {i : Nat} (h : FirstAt l a i) : a ∈ l :=
  List.getElem?_mem h.1

theorem find_number_of_firstAt {l : List Int} {a : Int} {i : Nat} (h : FirstAt l a i) :
    find_number_in_vector l a = i := by
  have hmem := mem_of_firstAt h
  have hi : i = l.indexOf a := firstAt_unique h (firstAt_indexOf hmem)
  have hlt : l.indexOf a < l.length := List.indexOf_lt_length.mpr hmem
  simp only [find_number_in_vector]
  rw [if_pos (Nat.ne_of_lt hlt), hi]

theorem find_number_of_not_mem {l : List Int} {a : Int} (h : a ∉ l) :
    find_number_in_vector l a = -1 := by
  have : l.indexOf a = l.length := List.indexOf_eq_length.mpr h
  simp only [find_number_in_vector]
  rw [if_neg (by simpa using this)]

theorem find_number_cases (l : List Int) (a : Int) :
    (a ∉ l ∧ find_number_in_vector l a = -1) ∨
      ∃ i, FirstAt l a i ∧ find_number_in_vector l a = i := by
  by_cases h : a ∈ l
  · exact Or.inr ⟨_, firstAt_indexOf h, find_number_of_firstAt (firstAt_indexOf h)⟩
  · exact Or.inl ⟨h, find_number_of_not_mem h⟩

/-- The test of the loop holds exactly for a broken rule. -/
theorem test_iff_broken (update : List Int) (pair : Pair) :
    (find_number_in_vector update pair.x > find_number_in_vector update pair.y ∧
      find_number_in_vector update pair.y ≠ -1) ↔ Broken update pair := by
  constructor
  · rintro ⟨hgt, hne⟩
    rcases find_number_cases update pair.y with ⟨_, hy⟩ | ⟨j, hj, hy⟩
    · exact absurd hy hne
    · rcases find_number_cases update pair.x with ⟨_, hx⟩ | ⟨i, hi, hx⟩
      · rw [hx, hy] at hgt
        omega
      · rw [hx, hy] at hgt
        exact ⟨i, j, hi, hj, by omega⟩
  · rintro ⟨i, j, hi, hj, hlt⟩
    rw [find_number_of_firstAt hi, find_number_of_firstAt hj]
    constructor <;> omega

theorem validate_of_broken {pairs : List Pair} {update : List Int}
    (h : ∃ pair ∈ pairs, Broken update pair) :
    validate_update_based_on_pairs pairs update = some 0 := by
  induction pairs with
  | nil =>
    obtain ⟨pair, hmem, _⟩ := h
    exact absurd hmem (List.not_mem_nil _)
  | cons pair pairs ih =>
    simp only [validate_update_based_on_pairs]
    by_cases hb : Broken update pair
    · rw [if_pos ((test_iff_broken update pair).mpr hb)]
    · rw [if_neg (fun ht => hb ((test_iff_broken update pair).mp ht))]
      apply ih
      obtain ⟨q, hq, hqb⟩ := h
      rcases List.mem_cons.mp hq with rfl | hq
      · exact absurd hqb hb
      · exact ⟨q, hq, hqb⟩

theorem validate_of_not_broken {pairs : List Pair} {update : List Int}
    (h : ∀ pair ∈ pairs, ¬ Broken update pair) :
    validate_update_based_on_pairs pairs update = update[update.length / 2]? := by
  induction pairs with
  | nil => rfl
  | cons pair pairs ih =>
    simp only [validate_update_based_on_pairs]
    rw [if_neg (fun ht => h pair (List.mem_cons_self _ _) ((test_iff_broken update pair).mp ht))]
    exact ih fun q hq => h q (List.mem_cons_of_mem _ hq)

theorem middle_lt {update : List Int} (hne : update ≠ []) :
    update.length / 2 < update.length :=
  Nat.div_lt_self (List.length_pos.mpr hne) (by decide)

/-- C22: on a non-empty update the function returns 0 if some rule `(x, y)` has `y` in the
update and the first occurrence of `x` after the first occurrence of `y`, and the middle
element `update[size / 2]` otherwise. -/
theorem validate_returns_zero_or_middle (pairs : List Pair) (update : List Int)
    (hne : update ≠ []) :
    ((∃ pair ∈ pairs, ∃ i j, FirstAt update pair.x i ∧ FirstAt update pair.y j ∧ j < i) →
      validate_update_based_on_pairs pairs update = some 0) ∧
    ((¬ ∃ pair ∈ pairs, ∃ i j, FirstAt update pair.x i ∧ FirstAt update pair.y j ∧ j < i) →
      validate_update_based_on_pairs pairs update =
        some (update.get ⟨update.length / 2, middle_lt hne⟩)) := by
  refine ⟨fun h => validate_of_broken h, fun h => ?_⟩
  rw [validate_of_not_broken fun pair hp hb => h ⟨pair, hp, hb⟩]
  exact List.getElem?_eq_getElem (middle_lt hne)

theorem validate_returns_zero_or_middle_witness :
    ([75, 47, 61, 53, 29] : List Int) ≠ [] ∧
    validate_update_based_on_pairs [⟨47, 53⟩, ⟨97, 75⟩] [75, 47, 61, 53, 29] = some 61 := by
  refine ⟨by decide, ?_⟩
  have h := (validate_returns_zero_or_middle [⟨47, 53⟩, ⟨97, 75⟩] [75, 47, 61, 53, 29]
    (by decide)).2
  refine h ?_
  rintro ⟨pair, hp, i, j, hi, hj, hlt⟩
  have hx := find_number_of_firstAt hi
  have hy := find_number_of_firstAt hj
  simp only [List.mem_cons, List.mem_singleton, List.not_mem_nil, or_false] at hp
  rcases hp with rfl | rfl
  · have hx1 : find_number_in_vector [75, 47, 61, 53, 29] 47 = 1 := by decide
    have hy1 : find_number_in_vector [75, 47, 61, 53, 29] 53 = 3 := by decide
    simp only at hx hy
    omega
  · have hx1 : find_number_in_vector [75, 47, 61, 53, 29] 97 = -1 := by decide
    simp only at hx
    omega

/-- The order that the code accepts: a value other than 0 is returned for a non-empty
update exactly when for every rule pair whose two integers both occur in the update the
first integer of the pair does not come after the second one (first occurrences are
compared), and the middle element of the update is not 0. -/
theorem valid_iff_first_before_second (pairs : List Pair) (update : List Int)
    (hne : update ≠ []) :
    (∃ r, validate_update_based_on_pairs pairs update = some r ∧ r ≠ 0) ↔
      (∀ pair ∈ pairs, ∀ i j, FirstAt update pair.x i → FirstAt update pair.y j → i ≤ j) ∧
        update.get ⟨update.length / 2, middle_lt hne⟩ ≠ 0 := by
  by_cases hb : ∃ pair ∈ pairs, Broken update pair
  · rw [validate_of_broken hb]
    constructor
    · rintro ⟨r, hr, hr0⟩
      exact absurd (Option.some.inj hr).symm hr0
    · rintro ⟨hall, _⟩
      obtain ⟨pair, hp, i, j, hi, hj, hlt⟩ := hb
      have := hall pair hp i j hi hj
      omega
  · rw [validate_of_not_broken fun pair hp hbr => hb ⟨pair, hp, hbr⟩,
      List.getElem?_eq_getElem (middle_lt hne)]
    constructor
    · rintro ⟨r, hr, hr0⟩
      refine ⟨fun pair hp i j hi hj => ?_, ?_⟩
      · by_contra hlt
        exact hb ⟨pair, hp, i, j, hi, hj, by omega⟩
      · rw [← Option.some.inj hr] at hr0
        exact hr0
    · rintro ⟨_, hmid⟩
      exact ⟨_, rfl, hmid⟩

theorem valid_iff_first_before_second_witness :
    ([75, 47, 61, 53, 29] : List Int) ≠ [] ∧
    ((∃ r, validate_update_based_on_pairs [⟨47, 53⟩] [75, 47, 61, 53, 29] = some r ∧ r ≠ 0) ↔
      (∀ pair ∈ [(⟨47, 53⟩ : Pair)], ∀ i j, FirstAt [75, 47, 61, 53, 29] pair.x i →
        FirstAt [75, 47, 61, 53, 29] pair.y j → i ≤ j) ∧
        ([75, 47, 61, 53, 29] : List Int).get ⟨5 / 2, by decide⟩ ≠ 0) :=
  ⟨by decide, valid_iff_first_before_second [⟨47, 53⟩] [75, 47, 61, 53, 29] (by decide)⟩

end PrintQueue

namespace CeresSearch

theorem at2_some {grid : Grid} (h : Rectangular grid) {i j : Int} (hi0 : 0 ≤ i)
    (hi : i < grid.length) (hj0 : 0 ≤ j) (hj : j < (grid.headD []).length) :
    ∃ c, at2 grid i j = some c := by
  have hlt : i.toNat < grid.length := by omega
  have hrow : (grid[i.toNat]).length = (grid.headD []).length := h.2 _ (List.getElem_mem _)
  have hlt2 : j.toNat < (grid[i.toNat]).length := by omega
  refine ⟨(grid[i.toNat])[j.toNat], ?_⟩
  unfold at2
  rw [if_neg (by omega), List.getElem?_eq_getElem hlt]
  simp only
  exact List.getElem?_eq_getElem hlt2

theorem andThen_some (a b : Bool) : andThen (some a) (some b) = some (a && b) := by
  cases a <;> rfl

theorem orElse_some (a b : Bool) : orElse (some a) (some b) = some (a || b) := by
  cases a <;> rfl

theorem corners_eq {grid : Grid} {i j : Int} {ul ur ll lr : Char}
    (hul : at2 grid (i - 1) (j - 1) = some ul)
    (hur : at2 grid (i - 1) (j + 1) = some ur) (hll : at2 grid (i + 1) (j - 1) = some ll)
    (hlr : at2 grid (i + 1) (j + 1) = some lr) (a b c d : Char) :
    corners grid i j a b c d =
      some (decide (ul = a) && (decide (ur = b) && (decide (ll = c) && decide (lr = d)))) := by
  simp only [corners, eqAt, hul, hur, hll, hlr, Option.map_some', andThen_some]

/-- The condition of the `if`, once the five cells it reads exist. -/
theorem isXCenter_eq {grid : Grid} {i j : Int} {c ul ur ll lr : Char}
    (hc : at2 grid i j = some c) (hul : at2 grid (i - 1) (j - 1) = some ul)
    (hur : at2 grid (i - 1) (j + 1) = some ur) (hll : at2 grid (i + 1) (j - 1) = some ll)
    (hlr : at2 grid (i + 1) (j + 1) = some lr) :
    isXCenter grid i j = some (decide (c = 'A' ∧
      ((ul = 'M' ∧ ur = 'M' ∧ ll = 'S' ∧ lr = 'S') ∨ (ul = 'M' ∧ ur = 'S' ∧ ll = 'M' ∧ lr = 'S') ∨
       (ul = 'S' ∧ ur = 'S' ∧ ll = 'M' ∧ lr = 'M') ∨
       (ul = 'S' ∧ ur = 'M' ∧ ll = 'S' ∧ lr = 'M')))) := by
  unfold isXCenter
  rw [corners_eq hul hur hll hlr, corners_eq hul hur hll hlr, corners_eq hul hur hll hlr,
    corners_eq hul hur hll hlr]
  simp only [eqAt, hc, Option.map_some', andThen_some, orElse_some]
  congr 1
  simp only [Bool.decide_and, Bool.decide_or]

/-- The four patterns of the condition are the two diagonals reading `MAS` or `SAM`. -/
theorem patterns_iff (ul ur ll lr : Char) :
    ((ul = 'M' ∧ ur = 'M' ∧ ll = 'S' ∧ lr = 'S') ∨ (ul = 'M' ∧ ur = 'S' ∧ ll = 'M' ∧ lr = 'S') ∨
       (ul = 'S' ∧ ur = 'S' ∧ ll = 'M' ∧ lr = 'M') ∨
       (ul = 'S' ∧ ur = 'M' ∧ ll = 'S' ∧ lr = 'M')) ↔
      IsMS (some ul) (some lr) ∧ IsMS (some ur) (some ll) := by
  simp only [IsMS, Option.some.injEq]
  tauto

theorem isXCenter_spec {grid : Grid} (h : Rectangular grid) {i j : Int} (hi0 : 1 ≤ i)
    (hi : i + 1 < grid.length) (hj0 : 1 ≤ j) (hj : j + 1 < (grid.headD []).length) :
    isXCenter grid i j = some (decide (IsXShape grid (i, j))) := by
  obtain ⟨c, hc⟩ := at2_some h (i := i) (j := j) (by omega) (by omega) (by omega) (by omega)
  obtain ⟨ul, hul⟩ :=
    at2_some h (i := i - 1) (j := j - 1) (by omega) (by omega) (by omega) (by omega)
  obtain ⟨ur, hur⟩ :=
    at2_some h (i := i - 1) (j := j + 1) (by omega) (by omega) (by omega) (by omega)
  obtain ⟨ll, hll⟩ :=
    at2_some h (i := i + 1) (j := j - 1) (by omega) (by omega) (by omega) (by omega)
  obtain ⟨lr, hlr⟩ :=
    at2_some h (i := i + 1) (j := j + 1) (by omega) (by omega) (by omega) (by omega)
  rw [isXCenter_eq hc hul hur hll hlr]
  congr 1
  apply decide_eq_decide.mpr
  rw [patterns_iff]
  simp only [IsXShape, hc, hul, hur, hll, hlr, Option.some.injEq]
  constructor
  · rintro ⟨h1, h2, h3⟩
    exact ⟨hi0, hi, hj0, hj, h1, h2, h3⟩
  · rintro ⟨_, _, _, _, h1, h2, h3⟩
    exact ⟨h1, h2, h3⟩

theorem mem_interior {n : Nat} {k : Int} : k ∈ interior n ↔ 1 ≤ k ∧ k + 1 < n := by
  simp only [interior, List.mem_map, List.mem_range]
  constructor
  · rintro ⟨a, ha, rfl⟩
    omega
  · rintro ⟨h1, h2⟩
    exact ⟨(k - 1).toNat, by omega, by omega⟩

theorem pairwise_interior (n : Nat) : (interior n).Pairwise (· < ·) := by
  rw [interior, List.pairwise_map]
  exact (List.pairwise_lt_range (n - 2)).imp fun h => by omega

/-- The X shapes of row `i` among the columns `js`. -/
theorem scanRow_eq {grid : Grid} (h : Rectangular grid) {i : Int} (hi0 : 1 ≤ i)
    (hi : i + 1 < grid.length) (js : List Int)
    (hjs : ∀ j ∈ js, 1 ≤ j ∧ j + 1 < (grid.headD []).length) :
    ∀ centers, scanRow grid i js centers =
      some (centers ++ (js.filter fun j => decide (IsXShape grid (i, j))).map fun j => (i, j)) := by
  induction js with
  | nil =>
    intro centers
    simp [scanRow]
  | cons j js ih =>
    intro centers
    have hj := hjs j (List.mem_cons_self _ _)
    have ih1 := ih fun k hk => hjs k (List.mem_cons_of_mem _ hk)
    unfold scanRow
    rw [isXCenter_spec h hi0 hi hj.1 hj.2]
    by_cases hx : IsXShape grid (i, j)
    · simp only [hx, decide_True, ih1, List.filter_cons_of_pos, List.map_cons,
        List.append_assoc, List.singleton_append]
    · simp only [hx, decide_False, ih1, List.filter_cons_of_neg, Bool.false_eq_true,
        not_false_eq_true]

theorem scanRows_eq {grid : Grid} (h : Rectangular grid) (js : List Int)
    (hjs : ∀ j ∈ js, 1 ≤ j ∧ j + 1 < (grid.headD []).length) (rows : List Int)
    (hrows : ∀ i ∈ rows, 1 ≤ i ∧ i + 1 < grid.length) :
    ∀ centers, scanRows grid js rows centers =
      some (centers ++ rows.flatMap fun i =>
        (js.filter fun j => decide (IsXShape grid (i, j))).map fun j => (i, j)) := by
  induction rows with
  | nil =>
    intro centers
    simp [scanRows]
  | cons i rows ih =>
    intro centers
    have hi := hrows i (List.mem_cons_self _ _)
    unfold scanRows
    rw [scanRow_eq h hi.1 hi.2 js hjs]
    simp only
    rw [ih fun k hk => hrows k (List.mem_cons_of_mem _ hk)]
    simp only [List.flatMap_cons, List.append_assoc]

/-- C23: on a non-empty rectangular grid `find_x_shape_centers` returns a list that is in
row-major order, has no repetition, and holds exactly the interior positions with an `A`
through which both diagonals read `MAS` or `SAM`. -/
theorem find_x_shape_centers_spec (grid : Grid) (h : Rectangular grid) :
    ∃ centers, find_x_shape_centers grid = some centers ∧ centers.Pairwise RowMajorLt ∧
      centers.Nodup ∧ ∀ p, p ∈ centers ↔ IsXShape grid p := by
  obtain ⟨hne, hrect⟩ := h
  cases grid with
  | nil => exact absurd rfl hne
  | cons row0 rest =>
    have h : Rectangular (row0 :: rest) := ⟨hne, hrect⟩
    have heq := scanRows_eq h (interior row0.length)
      (fun j hj => by simpa using mem_interior.mp hj) (interior (row0 :: rest).length)
      (fun i hi => mem_interior.mp hi) []
    have hpw : (List.flatMap (interior (row0 :: rest).length) fun i =>
        ((interior row0.length).filter fun j => decide (IsXShape (row0 :: rest) (i, j))).map
          fun j => (i, j)).Pairwise RowMajorLt := by
      rw [List.pairwise_flatMap]
      constructor
      · intro i _
        rw [List.pairwise_map]
        exact ((pairwise_interior row0.length).filter _).imp fun hlt => Or.inr ⟨rfl, hlt⟩
      · refine (pairwise_interior _).imp ?_
        intro i1 i2 hlt p hp q hq
        obtain ⟨_, _, rfl⟩ := List.mem_map.mp hp
        obtain ⟨_, _, rfl⟩ := List.mem_map.mp hq
        exact Or.inl hlt
    refine ⟨_, heq, by simpa using hpw, ?_, ?_⟩
    · simp only [List.nil_append]
      refine hpw.imp ?_
      rintro p q (hlt | ⟨_, hlt⟩) rfl <;> omega
    · intro p
      obtain ⟨i, j⟩ := p
      simp only [List.nil_append, List.mem_flatMap, List.mem_map, List.mem_filter,
        decide_eq_true_eq, Prod.mk.injEq, mem_interior]
      constructor
      · rintro ⟨i1, _, j1, ⟨_, hx⟩, rfl, rfl⟩
        exact hx
      · intro hx
        have hx1 := hx
        obtain ⟨h1, h2, h3, h4, _⟩ := hx1
        exact ⟨i, ⟨h1, h2⟩, j, ⟨⟨h3, by simpa using h4⟩, hx⟩, rfl, rfl⟩

set_option maxRecDepth 100000 in
theorem find_x_shape_centers_spec_witness :
    Rectangular exampleGrid ∧
      ∃ centers, find_x_shape_centers exampleGrid = some centers ∧
        centers.Pairwise RowMajorLt ∧ centers.Nodup ∧ ∀ p, p ∈ centers ↔ IsXShape exampleGrid p :=
  ⟨by decide, find_x_shape_centers_spec exampleGrid (by decide)⟩

end CeresSearch

namespace PlutonianPebbles

theorem toInt32_of_lt {x : Int} (h0 : 0 ≤ x) (h : x < 2 ^ 31) : toInt32 x = x := by
  unfold toInt32
  omega

theorem exactDigits_bounds {num : Int} (h1 : 1 ≤ num) :
    (10 : Int) ^ (exactDigits num - 1) ≤ num ∧ num < (10 : Int) ^ exactDigits num ∧
      1 ≤ exactDigits num := by
  obtain ⟨n, rfl⟩ := Int.eq_ofNat_of_zero_le (by omega : 0 ≤ num)
  have hn : n ≠ 0 := by omega
  have hlen : exactDigits (n : Int) = Nat.log 10 n + 1 := by
    simp only [exactDigits, Int.toNat_ofNat]
    exact Nat.digits_len 10 n (by decide) hn
  rw [hlen]
  refine ⟨?_, ?_, by omega⟩
  · have := Nat.pow_log_le_self 10 hn
    rw [Nat.add_sub_cancel]
    exact_mod_cast this
  · have := Nat.lt_pow_succ_log_self (by decide : 1 < 10) n
    exact_mod_cast this

theorem exactDigits_le {num : Int} (h1 : 1 ≤ num) {m : Nat} (h2 : num < (10 : Int) ^ m) :
    exactDigits num ≤ m := by
  obtain ⟨hlow, _, hpos⟩ := exactDigits_bounds h1
  by_contra hgt
  have hle : m ≤ exactDigits num - 1 := by omega
  have : (10 : Int) ^ m ≤ (10 : Int) ^ (exactDigits num - 1) :=
    pow_le_pow_right₀ (by decide) hle
  omega

/-- The split where the digit count that the source takes from `std::log10` is the exact
one: for `1 ≤ num < 10 ^ 18` with `d` decimal digits `splitNumber` returns the quotient
and the remainder of `num` by `10 ^ (d / 2)`; they recompose `num`, and for odd `d` the
left part has `d / 2 + 1` digits. -/
theorem splitNumber_spec (log10Plus1 : Int → Int) (num : Int) (h1 : 1 ≤ num)
    (h2 : num < 10 ^ 18) (hd : log10Plus1 num = exactDigits num) :
    splitNumber log10Plus1 num =
        some (num / 10 ^ (exactDigits num / 2), num % 10 ^ (exactDigits num / 2)) ∧
      num / 10 ^ (exactDigits num / 2) * 10 ^ (exactDigits num / 2) +
        num % 10 ^ (exactDigits num / 2) = num ∧
      (exactDigits num % 2 = 1 →
        exactDigits (num / 10 ^ (exactDigits num / 2)) = exactDigits num / 2 + 1) := by
  obtain ⟨hlow, hhigh, hpos⟩ := exactDigits_bounds h1
  have hle : exactDigits num ≤ 18 := exactDigits_le h1 h2
  set d := exactDigits num with hdef
  set k := d / 2 with hk
  have hk9 : k ≤ 9 := by omega
  have hpk : (10 : Int) ^ k ≤ 10 ^ 9 := pow_le_pow_right₀ (by decide) hk9
  have hpk0 : (0 : Int) < 10 ^ k := by positivity
  have hsplit : Int.tdiv (d : Int) 2 = (k : Int) := by
    rw [Int.tdiv_eq_ediv (by omega) (by decide)]
    omega
  have hpow : powToInt (k : Int) = some ((10 : Int) ^ k) := by
    unfold powToInt
    rw [if_neg (by omega), Int.toNat_ofNat, if_pos (by omega)]
  have hdk : d ≤ k + 9 := by omega
  have hleft0 : 0 ≤ num / 10 ^ k := Int.ediv_nonneg (by omega) (le_of_lt hpk0)
  have hleft : num / 10 ^ k < 10 ^ 9 := by
    apply Int.ediv_lt_of_lt_mul hpk0
    calc num < (10 : Int) ^ d := hhigh
      _ ≤ (10 : Int) ^ (9 + k) := pow_le_pow_right₀ (by decide) (by omega)
      _ = 10 ^ 9 * 10 ^ k := by rw [pow_add]
  have hright0 : 0 ≤ num % 10 ^ k := Int.emod_nonneg _ (ne_of_gt hpk0)
  have hright : num % 10 ^ k < 10 ^ k := Int.emod_lt_of_pos _ hpk0
  refine ⟨?_, ?_, ?_⟩
  · unfold splitNumber
    rw [if_neg (by omega), hd]
    simp only
    rw [hsplit, hpow]
    simp only
    rw [if_neg (ne_of_gt hpk0), Int.tmod_eq_emod (by omega) (le_of_lt hpk0),
      Int.tdiv_eq_ediv (by omega) (le_of_lt hpk0), toInt32_of_lt hleft0 (by omega),
      toInt32_of_lt hright0 (by omega)]
  · rw [mul_comm]
    exact Int.ediv_add_emod num (10 ^ k)
  · intro hodd
    have hd2 : d = 2 * k + 1 := by omega
    have hge : (10 : Int) ^ k ≤ num / 10 ^ k := by
      apply Int.le_ediv_of_mul_le hpk0
      calc (10 : Int) ^ k * 10 ^ k = 10 ^ (d - 1) := by rw [← pow_add]; congr 1; omega
        _ ≤ num := hlow
    have hlt : num / 10 ^ k < (10 : Int) ^ (k + 1) := by
      apply Int.ediv_lt_of_lt_mul hpk0
      calc num < (10 : Int) ^ d := hhigh
        _ = 10 ^ (k + 1) * 10 ^ k := by rw [← pow_add]; congr 1; omega
    have hl1 : 1 ≤ num / 10 ^ k := le_trans (by exact_mod_cast Nat.one_le_pow k 10 (by decide)) hge
    obtain ⟨hlow1, hhigh1, hpos1⟩ := exactDigits_bounds hl1
    have hup := exactDigits_le hl1 hlt
    by_contra hne
    have hlt1 : exactDigits (num / 10 ^ k) ≤ k := by omega
    have : (10 : Int) ^ exactDigits (num / 10 ^ k) ≤ (10 : Int) ^ k :=
      pow_le_pow_right₀ (by decide) hlt1
    omega

theorem splitNumber_spec_witness :
    ((1 : Int) ≤ 12345 ∧ (12345 : Int) < 10 ^ 18 ∧
      (fun n : Int => ((Nat.log 10 n.toNat : Nat) : Int) + 1) 12345 = exactDigits 12345) ∧
    splitNumber (fun n : Int => ((Nat.log 10 n.toNat : Nat) : Int) + 1) 12345 =
        some ((12345 : Int) / 10 ^ (exactDigits 12345 / 2),
          (12345 : Int) % 10 ^ (exactDigits 12345 / 2)) := by
  have hlog : Nat.log 10 12345 = 4 := by
    rw [Nat.log_eq_iff (by decide)]
    decide
  have hdig : exactDigits 12345 = 5 := by
    simp [exactDigits]
  have hd : (fun n : Int => ((Nat.log 10 n.toNat : Nat) : Int) + 1) 12345 = exactDigits 12345 := by
    simp only [Int.toNat_ofNat, hdig]
    rw [show (12345 : Int).toNat = 12345 from rfl, hlog]
    rfl
  exact ⟨⟨by decide, by decide, hd⟩,
    (splitNumber_spec _ 12345 (by decide) (by decide) hd).1⟩

end PlutonianPebbles

namespace ClawContraption

theorem toInt32_of_natAbs {x : Int} (h : x.natAbs < 2 ^ 31) : toInt32 x = x := by
  unfold toInt32
  omega

theorem int32_of_natAbs {x : Int} (h : x.natAbs < 2 ^ 31) : int32 x = some x := by
  unfold int32
  rw [if_pos (by omega)]

theorem int64_of_natAbs {x : Int} (h : x.natAbs < 2 ^ 63) : int64 x = some x := by
  unfold int64
  rw [if_pos (by omega)]

theorem natAbs_mul_le {a b : Int} {A B : Nat} (ha : a.natAbs ≤ A) (hb : b.natAbs ≤ B) :
    (a * b).natAbs ≤ A * B := by
  rw [Int.natAbs_mul]
  exact Nat.mul_le_mul ha hb

theorem mem_presses {k : Int} : k ∈ presses ↔ 0 ≤ k ∧ k ≤ 100 := by
  simp only [presses, List.mem_map, List.mem_range]
  constructor
  · rintro ⟨a, ha, rfl⟩
    omega
  · rintro ⟨h1, h2⟩
    exact ⟨k.toNat, by omega, by omega⟩

theorem linInt_of_small {a b i j : Int} (ha : a.natAbs ≤ 10000000) (hb : b.natAbs ≤ 10000000)
    (hi : i ∈ presses) (hj : j ∈ presses) : linInt a i b j = some (a * i + b * j) := by
  have hi1 := mem_presses.mp hi
  have hj1 := mem_presses.mp hj
  have h1 : (a * i).natAbs ≤ 10000000 * 100 := natAbs_mul_le ha (by omega)
  have h2 : (b * j).natAbs ≤ 10000000 * 100 := natAbs_mul_le hb (by omega)
  unfold linInt
  rw [int32_of_natAbs (by omega), int32_of_natAbs (by omega)]
  exact int32_of_natAbs (by omega)

theorem hits_of_small {m : Machine} (hm : SmallButtons m) {i j : Int} (hi : i ∈ presses)
    (hj : j ∈ presses) : ∃ b, hits m i j = some b ∧ (b = true ↔ Hit m i j) := by
  obtain ⟨h1, h2, h3, h4⟩ := hm
  unfold hits
  rw [linInt_of_small h1 h3 hi hj, linInt_of_small h2 h4 hi hj]
  simp only
  by_cases hx : m.ax * i + m.bx * j = m.px
  · rw [if_neg (not_not.mpr hx)]
    exact ⟨_, rfl, by simp [Hit, hx]⟩
  · rw [if_pos hx]
    exact ⟨_, rfl, by simp [Hit, hx]⟩

theorem innerLoop_spec {m : Machine} (hm : SmallButtons m) {i : Int} (hi : i ∈ presses)
    (js : List Int) (hjs : ∀ j ∈ js, j ∈ presses) :
    ∀ M, ∃ F, innerLoop m i js M = some F ∧ F ≤ M ∧
      (∀ j ∈ js, Hit m i j → F ≤ i * 3 + j) ∧
      (F = M ∨ ∃ j ∈ js, Hit m i j ∧ F = i * 3 + j) := by
  induction js with
  | nil =>
    intro M
    exact ⟨M, rfl, le_refl _, fun j hj => absurd hj (List.not_mem_nil _), Or.inl rfl⟩
  | cons j js ih =>
    intro M
    have ih1 := ih fun k hk => hjs k (List.mem_cons_of_mem _ hk)
    obtain ⟨b, hb, hbiff⟩ := hits_of_small hm hi (hjs j (List.mem_cons_self _ _))
    unfold innerLoop
    rw [hb]
    cases b with
    | true =>
      have hhit : Hit m i j := hbiff.mp rfl
      obtain ⟨F, hF, hle, hall, hex⟩ := ih1 (min M (i * 3 + j))
      refine ⟨F, hF, le_trans hle (min_le_left _ _), ?_, ?_⟩
      · intro k hk hkhit
        rcases List.mem_cons.mp hk with rfl | hk
        · exact le_trans hle (min_le_right _ _)
        · exact hall k hk hkhit
      · rcases hex with hex | ⟨k, hk, hkhit, hkF⟩
        · rcases min_choice M (i * 3 + j) with hmin | hmin
          · exact Or.inl (hex.trans hmin)
          · exact Or.inr ⟨j, List.mem_cons_self _ _, hhit, hex.trans hmin⟩
        · exact Or.inr ⟨k, List.mem_cons_of_mem _ hk, hkhit, hkF⟩
    | false =>
      have hnhit : ¬ Hit m i j := fun h => by simpa using hbiff.mpr h
      obtain ⟨F, hF, hle, hall, hex⟩ := ih1 M
      refine ⟨F, hF, hle, ?_, ?_⟩
      · intro k hk hkhit
        rcases List.mem_cons.mp hk with rfl | hk
        · exact absurd hkhit hnhit
        · exact hall k hk hkhit
      · rcases hex with hex | ⟨k, hk, hkhit, hkF⟩
        · exact Or.inl hex
        · exact Or.inr ⟨k, List.mem_cons_of_mem _ hk, hkhit, hkF⟩

theorem outerLoop_spec {m : Machine} (hm : SmallButtons m) (js : List Int)
    (hjs : ∀ j ∈ js, j ∈ presses) (rows : List Int) (hrows : ∀ i ∈ rows, i ∈ presses) :
    ∀ M, ∃ F, outerLoop m js rows M = some F ∧ F ≤ M ∧
      (∀ i ∈ rows, ∀ j ∈ js, Hit m i j → F ≤ i * 3 + j) ∧
      (F = M ∨ ∃ i ∈ rows, ∃ j ∈ js, Hit m i j ∧ F = i * 3 + j) := by
  induction rows with
  | nil =>
    intro M
    exact ⟨M, rfl, le_refl _, fun i hi => absurd hi (List.not_mem_nil _), Or.inl rfl⟩
  | cons i rows ih =>
    intro M
    obtain ⟨F1, hF1, hle1, hall1, hex1⟩ :=
      innerLoop_spec hm (hrows i (List.mem_cons_self _ _)) js hjs M
    obtain ⟨F, hF, hle, hall, hex⟩ := ih (fun k hk => hrows k (List.mem_cons_of_mem _ hk)) F1
    unfold outerLoop
    rw [hF1]
    refine ⟨F, hF, le_trans hle hle1, ?_, ?_⟩
    · intro k hk j hj hhit
      rcases List.mem_cons.mp hk with rfl | hk
      · exact le_trans hle (hall1 j hj hhit)
      · exact hall k hk j hj hhit
    · rcases hex with hex | ⟨k, hk, j, hj, hhit, hkF⟩
      · rcases hex1 with hex1 | ⟨j, hj, hhit, hjF⟩
        · exact Or.inl (hex.trans hex1)
        · exact Or.inr ⟨i, List.mem_cons_self _ _, j, hj, hhit, hex.trans hjF⟩
      · exact Or.inr ⟨k, List.mem_cons_of_mem _ hk, j, hj, hhit, hkF⟩

theorem mem_solutions {numList : List Int} {i j : Int} :
    (i, j) ∈ solutions numList ↔ i ∈ presses ∧ j ∈ presses ∧
      numList.getD 0 0 * i + numList.getD 2 0 * j = numList.getD 4 0 ∧
      numList.getD 1 0 * i + numList.getD 3 0 * j = numList.getD 5 0 := by
  simp only [solutions, Finset.mem_filter, Finset.mem_image, Finset.mem_product,
    Finset.mem_range, Prod.mk.injEq, Prod.exists, mem_presses]
  constructor
  · rintro ⟨⟨a, b, ⟨ha, hb⟩, rfl, rfl⟩, h1, h2⟩
    exact ⟨by omega, by omega, h1, h2⟩
  · rintro ⟨hi, hj, h1, h2⟩
    exact ⟨⟨i.toNat, j.toNat, ⟨by omega, by omega⟩, by omega, by omega⟩, h1, h2⟩

theorem readMachine_eq {ax ay bx by_ px py : Int} (h1 : ax.natAbs < 2 ^ 63)
    (h2 : ay.natAbs < 2 ^ 63) (h3 : bx.natAbs < 2 ^ 63) (h4 : by_.natAbs < 2 ^ 63)
    (hpx : px.natAbs < 2 ^ 63) (hpy : py.natAbs < 2 ^ 63) :
    readMachine 0 [ax, ay, bx, by_, px, py] =
      some ⟨toInt32 ax, toInt32 ay, toInt32 bx, toInt32 by_, px, py⟩ := by
  simp only [readMachine, entry, List.getElem?_cons_zero, List.getElem?_cons_succ,
    int64_of_natAbs h1, int64_of_natAbs h2, int64_of_natAbs h3, int64_of_natAbs h4,
    int64_of_natAbs hpx, int64_of_natAbs hpy, add_zero, Option.bind_eq_bind, Option.some_bind,
    Option.pure_def]

theorem readMachine_of_small {ax ay bx by_ px py : Int}
    (hm : SmallButtons ⟨ax, ay, bx, by_, px, py⟩) (hpx : px.natAbs < 2 ^ 63)
    (hpy : py.natAbs < 2 ^ 63) :
    readMachine 0 [ax, ay, bx, by_, px, py] = some ⟨ax, ay, bx, by_, px, py⟩ := by
  obtain ⟨h1, h2, h3, h4⟩ := hm
  simp only at h1 h2 h3 h4
  rw [readMachine_eq (by omega) (by omega) (by omega) (by omega) hpx hpy,
    toInt32_of_natAbs (show ax.natAbs < 2 ^ 31 by omega),
    toInt32_of_natAbs (show ay.natAbs < 2 ^ 31 by omega),
    toInt32_of_natAbs (show bx.natAbs < 2 ^ 31 by omega),
    toInt32_of_natAbs (show by_.natAbs < 2 ^ 31 by omega)]

/-- The value the two loops leave in `minTokens`, turned into what is added to the sum. -/
theorem tokens_of_loops {m : Machine} (hm : SmallButtons m) (numList : List Int)
    (hsol : ∀ i j, (i, j) ∈ solutions numList ↔ i ∈ presses ∧ j ∈ presses ∧ Hit m i j) :
    ∃ F, outerLoop m presses presses LLONG_MAX = some F ∧
      (if F ≠ LLONG_MAX then some F else some 0) = some (fewestTokens numList) := by
  obtain ⟨F, hF, _, hall, hex⟩ :=
    outerLoop_spec hm presses (fun _ h => h) presses (fun _ h => h) LLONG_MAX
  refine ⟨F, hF, ?_⟩
  by_cases hne : (solutions numList).Nonempty
  · obtain ⟨⟨i0, j0⟩, h0⟩ := hne
    obtain ⟨hi0, hj0, hit0⟩ := (hsol i0 j0).mp h0
    have hle0 := hall i0 hi0 j0 hj0 hit0
    have hi1 := mem_presses.mp hi0
    have hj1 := mem_presses.mp hj0
    have hFne : F ≠ LLONG_MAX := by
      unfold LLONG_MAX
      omega
    rw [if_pos hFne]
    congr 1
    rcases hex with hex | ⟨i, hi, j, hj, hhit, hFeq⟩
    · exact absurd hex hFne
    · unfold fewestTokens
      rw [dif_pos ⟨(i0, j0), h0⟩]
      apply le_antisymm
      · apply Finset.le_min'
        intro c hc
        obtain ⟨⟨a, b⟩, hab, rfl⟩ := Finset.mem_image.mp hc
        obtain ⟨ha, hb, hhitab⟩ := (hsol a b).mp hab
        have := hall a ha b hb hhitab
        simp only
        omega
      · apply Finset.min'_le
        refine Finset.mem_image.mpr ⟨(i, j), (hsol i j).mpr ⟨hi, hj, hhit⟩, ?_⟩
        simp only
        omega
  · have hFeq : F = LLONG_MAX := by
      rcases hex with hex | ⟨i, hi, j, hj, hhit, _⟩
      · exact hex
      · exact absurd ⟨(i, j), (hsol i j).mpr ⟨hi, hj, hhit⟩⟩ hne
    rw [if_neg (not_not.mpr hFeq)]
    unfold fewestTokens
    rw [dif_neg hne]

/-- For small button values `calculateMinNumberOfTokens` adds, for a machine, the minimum
of `3 * i + j` over the solutions with `0 ≤ i, j ≤ 100`, and 0 when there is none. -/
theorem machineTokens_of_small {numList : List Int} (h : SmallMachine numList) :
    machineTokens numList = some (fewestTokens numList) := by
  obtain ⟨ax, ay, bx, by_, px, py, rfl, hm, hpx, hpy⟩ := h
  obtain ⟨F, hF, hres⟩ := tokens_of_loops hm [ax, ay, bx, by_, px, py] (fun i j => by
    rw [mem_solutions]
    simp [Hit])
  unfold machineTokens
  rw [readMachine_of_small hm hpx hpy]
  simp only
  rw [hF]
  exact hres

theorem calculateMinNumberOfTokens_cons {numList : List Int} {rest : List (List Int)}
    {t total : Int} (h1 : machineTokens numList = some t)
    (h2 : calculateMinNumberOfTokens rest = some total) :
    calculateMinNumberOfTokens (numList :: rest) = some (t + total) := by
  unfold calculateMinNumberOfTokens
  rw [h1, h2]

theorem calculateMinNumberOfTokens_of_small (numberGroups : List (List Int))
    (h : ∀ numList ∈ numberGroups, SmallMachine numList) :
    calculateMinNumberOfTokens numberGroups = some (numberGroups.map fewestTokens).sum := by
  induction numberGroups with
  | nil => rfl
  | cons numList rest ih =>
    rw [List.map_cons, List.sum_cons]
    exact calculateMinNumberOfTokens_cons (machineTokens_of_small (h numList (List.mem_cons_self _ _)))
      (ih fun g hg => h g (List.mem_cons_of_mem _ hg))

theorem smallMachine_example : SmallMachine exampleMachine :=
  ⟨94, 34, 22, 67, 8400, 5400, rfl, by decide, by decide, by decide⟩

theorem solutions_example : solutions exampleMachine = {(80, 40)} := by
  ext ⟨i, j⟩
  rw [mem_solutions, Finset.mem_singleton, Prod.mk.injEq, mem_presses, mem_presses]
  simp only [exampleMachine, List.getD_cons_zero, List.getD_cons_succ]
  omega

theorem fewestTokens_example : fewestTokens exampleMachine = 280 := by
  unfold fewestTokens
  simp only [solutions_example, Finset.singleton_nonempty, dite_true, Finset.image_singleton,
    Finset.min'_singleton]
  rfl

theorem solutions_wide : solutions wideMachine = ∅ := by
  ext ⟨i, j⟩
  rw [mem_solutions, mem_presses, mem_presses]
  simp only [wideMachine, List.getD_cons_zero, List.getD_cons_succ, Finset.not_mem_empty,
    iff_false]
  omega

theorem machineTokens_congr {l1 l2 : List Int} (h : readMachine 0 l1 = readMachine 0 l2) :
    machineTokens l1 = machineTokens l2 := by
  unfold machineTokens
  rw [h]

theorem readMachine_wide : readMachine 0 wideMachine = readMachine 0 exampleMachine := by
  have hwide : toInt32 4294967390 = 94 := by
    unfold toInt32
    omega
  have h1 : readMachine 0 wideMachine =
      some ⟨toInt32 4294967390, toInt32 34, toInt32 22, toInt32 67, 8400, 5400⟩ :=
    readMachine_eq (by omega) (by omega) (by omega) (by omega) (by omega) (by omega)
  have h2 : readMachine 0 exampleMachine = some ⟨94, 34, 22, 67, 8400, 5400⟩ :=
    readMachine_of_small (by decide) (by omega) (by omega)
  rw [h1, h2, hwide, toInt32_of_natAbs (show (34 : Int).natAbs < 2 ^ 31 by omega),
    toInt32_of_natAbs (show (22 : Int).natAbs < 2 ^ 31 by omega),
    toInt32_of_natAbs (show (67 : Int).natAbs < 2 ^ 31 by omega)]

theorem machineTokens_wide : machineTokens wideMachine = some 280 :=
  (machineTokens_congr readMachine_wide).trans
    ((machineTokens_of_small smallMachine_example).trans (congrArg some fewestTokens_example))

theorem fewestTokens_wide : fewestTokens wideMachine = 0 := by
  unfold fewestTokens
  rw [dif_neg (by rw [solutions_wide]; exact Finset.not_nonempty_empty)]

/-- C24 fails on the code: the button values are stored in `int` variables. For the
machine with the numbers 4294967390, 34, 22, 67 and the prize 8400, 5400 the equations
have no solution with `0 ≤ i, j ≤ 100`, so the sum of the minima is 0; the function works
with `ax = 94` and returns 280. -/
theorem wide_button_value_is_cut :
    calculateMinNumberOfTokens [wideMachine] = some 280 ∧
      ([wideMachine].map fewestTokens).sum = 0 := by
  constructor
  · have h := @calculateMinNumberOfTokens_cons wideMachine [] 280 0 machineTokens_wide rfl
    rw [add_zero] at h
    exact h
  · rw [List.map_cons, List.sum_cons, fewestTokens_wide]
    rfl

theorem fewestTokens_of_empty {numList : List Int} (h : ∀ ij, ij ∉ solutions numList) :
    fewestTokens numList = 0 := by
  unfold fewestTokens
  rw [dif_neg]
  rintro ⟨ij, hij⟩
  exact h ij hij

theorem fewestTokens_of_min {numList : List Int} {i j : Int}
    (hmem : (i, j) ∈ solutions numList)
    (hmin : ∀ ij ∈ solutions numList, i * 3 + j ≤ ij.1 * 3 + ij.2) :
    fewestTokens numList = i * 3 + j := by
  unfold fewestTokens
  rw [dif_pos ⟨(i, j), hmem⟩]
  apply le_antisymm
  · apply Finset.min'_le
    refine Finset.mem_image.mpr ⟨(i, j), hmem, ?_⟩
    simp only
    omega
  · apply Finset.le_min'
    intro c hc
    obtain ⟨ij, hij, rfl⟩ := Finset.mem_image.mp hc
    have := hmin ij hij
    omega

theorem fewestTokens_of_unique {numList : List Int} {i j : Int}
    (hmem : (i, j) ∈ solutions numList) (huniq : ∀ ij ∈ solutions numList, ij = (i, j)) :
    fewestTokens numList = i * 3 + j :=
  fewestTokens_of_min hmem fun ij hij => by rw [huniq ij hij]

/-- Two solutions of a system with determinant other than 0 are equal. -/
theorem solution_unique {ax ay bx by_ px py i j i1 j1 : Int} (hdet : ax * by_ - ay * bx ≠ 0)
    (h1 : ax * i + bx * j = px) (h2 : ay * i + by_ * j = py)
    (h3 : ax * i1 + bx * j1 = px) (h4 : ay * i1 + by_ * j1 = py) : i = i1 ∧ j = j1 := by
  constructor
  · have h : (ax * by_ - ay * bx) * (i - i1) = 0 := by
      linear_combination by_ * h1 - bx * h2 - by_ * h3 + bx * h4
    rcases mul_eq_zero.mp h with h | h
    · exact absurd h hdet
    · omega
  · have h : (ax * by_ - ay * bx) * (j - j1) = 0 := by
      linear_combination ax * h2 - ay * h1 - ax * h4 + ay * h3
    rcases mul_eq_zero.mp h with h | h
    · exact absurd h hdet
    · omega

/-- When the two remainders are 0, the two quotients solve the system. -/
theorem solution_of_quotients {ax ay bx by_ px py : Int} (hbx : bx ≠ 0)
    (hA : (px * by_ - py * bx).tmod (ax * by_ - ay * bx) = 0)
    (hB : (px - ax * (px * by_ - py * bx).tdiv (ax * by_ - ay * bx)).tmod bx = 0) :
    ax * (px * by_ - py * bx).tdiv (ax * by_ - ay * bx) +
        bx * (px - ax * (px * by_ - py * bx).tdiv (ax * by_ - ay * bx)).tdiv bx = px ∧
      ay * (px * by_ - py * bx).tdiv (ax * by_ - ay * bx) +
        by_ * (px - ax * (px * by_ - py * bx).tdiv (ax * by_ - ay * bx)).tdiv bx = py := by
  have h1 := Int.mul_tdiv_cancel_of_tmod_eq_zero hA
  have h2 := Int.mul_tdiv_cancel_of_tmod_eq_zero hB
  set A := (px * by_ - py * bx).tdiv (ax * by_ - ay * bx) with hAdef
  set B := (px - ax * A).tdiv bx with hBdef
  constructor
  · linear_combination h2
  · have h : bx * (ay * A + by_ * B - py) = 0 := by
      linear_combination by_ * h2 - h1
    rcases mul_eq_zero.mp h with h | h
    · exact absurd h hbx
    · omega

/-- A solution of the system is found by the two divisions. -/
theorem quotients_of_solution {ax ay bx by_ px py i j : Int} (hdet : ax * by_ - ay * bx ≠ 0)
    (hbx : bx ≠ 0) (h1 : ax * i + bx * j = px) (h2 : ay * i + by_ * j = py) :
    (px * by_ - py * bx).tmod (ax * by_ - ay * bx) = 0 ∧
      (px * by_ - py * bx).tdiv (ax * by_ - ay * bx) = i ∧
      (px - ax * i).tmod bx = 0 ∧ (px - ax * i).tdiv bx = j := by
  have hn : px * by_ - py * bx = (ax * by_ - ay * bx) * i := by
    linear_combination bx * h2 - by_ * h1
  have hr : px - ax * i = bx * j := by
    linear_combination -h1
  rw [hn, hr]
  exact ⟨Int.mul_tmod_right _ _, Int.mul_tdiv_cancel_left _ hdet, Int.mul_tmod_right _ _,
    Int.mul_tdiv_cancel_left _ hbx⟩

/-- A system with determinant 0 and a solution has integer solutions outside the box. -/
theorem no_solution_of_det_zero {ax ay bx by_ px py : Int} (hdet : ax * by_ - ay * bx = 0)
    (hbox : ∀ i j : Int, ax * i + bx * j = px → ay * i + by_ * j = py →
      0 ≤ i ∧ i ≤ 100 ∧ 0 ≤ j ∧ j ≤ 100) (i j : Int) (h1 : ax * i + bx * j = px) :
    ay * i + by_ * j ≠ py := by
  intro h2
  have hb := hbox i j h1 h2
  have hshift := hbox (i + 101 * bx) (j - 101 * ax) (by linear_combination h1)
    (by linear_combination h2 - 101 * hdet)
  have hbx : bx = 0 := by omega
  have hax : ax = 0 := by omega
  subst hbx hax
  have hshift2 := hbox (i + 101 * by_) (j - 101 * ay) (by linear_combination h1)
    (by linear_combination h2)
  have hby : by_ = 0 := by omega
  have hay : ay = 0 := by omega
  subst hby hay
  have hfar := hbox 101 0 (by linear_combination h1) (by linear_combination h2)
  omega

theorem determinantOf_eq {m : Machine} (h1 : m.ax.natAbs ≤ 30000) (h2 : m.ay.natAbs ≤ 30000)
    (h3 : m.bx.natAbs ≤ 30000) (h4 : m.by_.natAbs ≤ 30000) :
    determinantOf m = some (m.ax * m.by_ - m.ay * m.bx) := by
  have hd1 : (m.ax * m.by_).natAbs ≤ 30000 * 30000 := natAbs_mul_le h1 h4
  have hd2 : (m.ay * m.bx).natAbs ≤ 30000 * 30000 := natAbs_mul_le h2 h3
  unfold determinantOf
  rw [int32_of_natAbs (by omega), int32_of_natAbs (by omega)]
  exact int32_of_natAbs (by omega)

theorem divLL_eq {a b : Int} (hb : b ≠ 0) (ha : a.natAbs < 2 ^ 63) :
    divLL a b = some (a.tdiv b) := by
  unfold divLL
  rw [if_neg hb]
  apply int64_of_natAbs
  rw [Int.natAbs_tdiv]
  exact lt_of_le_of_lt (Nat.div_le_self _ _) ha

/-- The body of `if (determinant != 0)` on small numbers. -/
theorem solveMachine_eq {m : Machine} (h1 : m.ax.natAbs ≤ 30000)
    (h3 : m.bx.natAbs ≤ 30000) (h4 : m.by_.natAbs ≤ 30000) (hpx : m.px.natAbs ≤ 1000000000)
    (hpy : m.py.natAbs ≤ 1000000000) {determinant : Int} (hdet : determinant ≠ 0)
    (hbx : m.bx ≠ 0) :
    solveMachine m determinant =
      some (if (m.px * m.by_ - m.py * m.bx).tmod determinant = 0 ∧
          (m.px - m.ax * (m.px * m.by_ - m.py * m.bx).tdiv determinant).tmod m.bx = 0 then
        (m.px * m.by_ - m.py * m.bx).tdiv determinant * 3 +
          (m.px - m.ax * (m.px * m.by_ - m.py * m.bx).tdiv determinant).tdiv m.bx
        else 0) := by
  have hn1 : (m.px * m.by_).natAbs ≤ 1000000000 * 30000 := natAbs_mul_le hpx h4
  have hn2 : (m.py * m.bx).natAbs ≤ 1000000000 * 30000 := natAbs_mul_le hpy h3
  have hn : (m.px * m.by_ - m.py * m.bx).natAbs ≤ 60000000000000 := by omega
  have hnum : numeratorOf m = some (m.px * m.by_ - m.py * m.bx) := by
    unfold numeratorOf
    rw [int64_of_natAbs (by omega), int64_of_natAbs (by omega)]
    exact int64_of_natAbs (by omega)
  have hA : ((m.px * m.by_ - m.py * m.bx).tdiv determinant).natAbs ≤ 60000000000000 := by
    rw [Int.natAbs_tdiv]
    exact le_trans (Nat.div_le_self _ _) hn
  have ht : (m.ax * (m.px * m.by_ - m.py * m.bx).tdiv determinant).natAbs ≤
      30000 * 60000000000000 := natAbs_mul_le h1 hA
  have hr : (m.px - m.ax * (m.px * m.by_ - m.py * m.bx).tdiv determinant).natAbs ≤
      1800000001000000000 := by omega
  have hrest : restOf m ((m.px * m.by_ - m.py * m.bx).tdiv determinant) =
      some (m.px - m.ax * (m.px * m.by_ - m.py * m.bx).tdiv determinant) := by
    unfold restOf
    rw [int64_of_natAbs (by omega)]
    exact int64_of_natAbs (by omega)
  have hB : ((m.px - m.ax * (m.px * m.by_ - m.py * m.bx).tdiv determinant).tdiv m.bx).natAbs ≤
      1800000001000000000 := by
    rw [Int.natAbs_tdiv]
    exact le_trans (Nat.div_le_self _ _) hr
  have htok : tokensOf ((m.px * m.by_ - m.py * m.bx).tdiv determinant)
      ((m.px - m.ax * (m.px * m.by_ - m.py * m.bx).tdiv determinant).tdiv m.bx) =
      some ((m.px * m.by_ - m.py * m.bx).tdiv determinant * 3 +
        (m.px - m.ax * (m.px * m.by_ - m.py * m.bx).tdiv determinant).tdiv m.bx) := by
    unfold tokensOf
    rw [int64_of_natAbs (by omega)]
    exact int64_of_natAbs (by omega)
  unfold solveMachine
  rw [hnum]
  simp only
  rw [divLL_eq hdet (by omega)]
  simp only
  rw [hrest]
  simp only
  rw [divLL_eq hbx (by omega)]
  simp only
  split_ifs
  · exact htok
  · rfl

/-- For a tame machine the optimized function with `prizeIncrease = 0` adds the minimum
over the solutions with `0 ≤ i, j ≤ 100`, as the function of part 1 does. -/
theorem machineTokensOptimized_of_tame {numList : List Int} (h : Tame numList) :
    machineTokensOptimized 0 numList = some (fewestTokens numList) := by
  obtain ⟨ax, ay, bx, by_, px, py, rfl, h1, h2, h3, h4, hpx, hpy, hbx, hbox⟩ := h
  have hread : readMachine 0 [ax, ay, bx, by_, px, py] = some ⟨ax, ay, bx, by_, px, py⟩ :=
    readMachine_of_small ⟨by simp only; omega, by simp only; omega, by simp only; omega,
      by simp only; omega⟩ (by omega) (by omega)
  have hsol : ∀ i j, (i, j) ∈ solutions [ax, ay, bx, by_, px, py] ↔
      i ∈ presses ∧ j ∈ presses ∧ ax * i + bx * j = px ∧ ay * i + by_ * j = py := by
    intro i j
    rw [mem_solutions]
    simp
  unfold machineTokensOptimized
  rw [hread]
  simp only
  rw [determinantOf_eq h1 h2 h3 h4]
  simp only
  by_cases hdet : ax * by_ - ay * bx = 0
  · rw [if_neg (not_not.mpr hdet)]
    congr 1
    symm
    apply fewestTokens_of_empty
    rintro ⟨i, j⟩ hij
    obtain ⟨_, _, e1, e2⟩ := (hsol i j).mp hij
    exact no_solution_of_det_zero hdet hbox i j e1 e2
  · rw [if_pos hdet, solveMachine_eq h1 h3 h4 hpx hpy hdet (hbx hdet)]
    congr 1
    simp only
    split_ifs with hcond
    · obtain ⟨e1, e2⟩ := solution_of_quotients (hbx hdet) hcond.1 hcond.2
      have hb := hbox _ _ e1 e2
      symm
      apply fewestTokens_of_unique
      · exact (hsol _ _).mpr ⟨mem_presses.mpr ⟨hb.1, hb.2.1⟩, mem_presses.mpr ⟨hb.2.2.1, hb.2.2.2⟩,
          e1, e2⟩
      · rintro ⟨i, j⟩ hij
        obtain ⟨_, _, e3, e4⟩ := (hsol i j).mp hij
        obtain ⟨hi, hj⟩ := solution_unique hdet e3 e4 e1 e2
        rw [hi, hj]
    · symm
      apply fewestTokens_of_empty
      rintro ⟨i, j⟩ hij
      obtain ⟨_, _, e1, e2⟩ := (hsol i j).mp hij
      obtain ⟨q1, q2, q3, q4⟩ := quotients_of_solution hdet (hbx hdet) e1 e2
      apply hcond
      refine ⟨q1, ?_⟩
      rw [q2]
      exact q3

theorem smallMachine_of_tame {numList : List Int} (h : Tame numList) : SmallMachine numList := by
  obtain ⟨ax, ay, bx, by_, px, py, rfl, h1, h2, h3, h4, hpx, hpy, _, _⟩ := h
  exact ⟨ax, ay, bx, by_, px, py, rfl, ⟨by simp only; omega, by simp only; omega,
    by simp only; omega, by simp only; omega⟩, by omega, by omega⟩

theorem calculateMinNumberOfTokensOptimized_cons {prizeIncrease : Int} {numList : List Int}
    {rest : List (List Int)} {t total : Int}
    (h1 : machineTokensOptimized prizeIncrease numList = some t)
    (h2 : calculateMinNumberOfTokensOptimized prizeIncrease rest = some total) :
    calculateMinNumberOfTokensOptimized prizeIncrease (numList :: rest) = some (t + total) := by
  unfold calculateMinNumberOfTokensOptimized
  rw [h1, h2]

theorem calculateMinNumberOfTokensOptimized_of_tame (numberGroups : List (List Int))
    (h : ∀ numList ∈ numberGroups, Tame numList) :
    calculateMinNumberOfTokensOptimized 0 numberGroups =
      some (numberGroups.map fewestTokens).sum := by
  induction numberGroups with
  | nil => rfl
  | cons numList rest ih =>
    rw [List.map_cons, List.sum_cons]
    exact calculateMinNumberOfTokensOptimized_cons
      (machineTokensOptimized_of_tame (h numList (List.mem_cons_self _ _)))
      (ih fun g hg => h g (List.mem_cons_of_mem _ hg))

theorem calculateMinNumberOfTokens_single {numList : List Int} (h : SmallMachine numList)
    {t : Int} (ht : fewestTokens numList = t) :
    calculateMinNumberOfTokens [numList] = some t := by
  have h1 := @calculateMinNumberOfTokens_cons numList [] (fewestTokens numList) 0
    (machineTokens_of_small h) rfl
  rw [add_zero, ht] at h1
  exact h1

theorem part1_far : calculateMinNumberOfTokens [farMachine] = some 0 := by
  refine @calculateMinNumberOfTokens_single farMachine
    ⟨1, 1, 1, 2, 200, 200, rfl, by decide, by decide, by decide⟩ 0 ?_
  apply fewestTokens_of_empty
  rintro ⟨i, j⟩ hij
  rw [mem_solutions, mem_presses, mem_presses] at hij
  simp only [farMachine, List.getD_cons_zero, List.getD_cons_succ] at hij
  omega

theorem part1_flat : calculateMinNumberOfTokens [flatMachine] = some 2 := by
  refine @calculateMinNumberOfTokens_single flatMachine
    ⟨1, 1, 1, 1, 2, 2, rfl, by decide, by decide, by decide⟩ 2 ?_
  have h : fewestTokens flatMachine = 0 * 3 + 2 := by
    apply fewestTokens_of_min
    · simp only [mem_solutions, mem_presses, flatMachine, List.getD_cons_zero, List.getD_cons_succ]
      omega
    · rintro ⟨i, j⟩ hij
      rw [mem_solutions, mem_presses, mem_presses] at hij
      simp only [flatMachine, List.getD_cons_zero, List.getD_cons_succ] at hij
      simp only
      omega
  rw [h]
  rfl

theorem part1_axis : calculateMinNumberOfTokens [axisMachine] = some 8 := by
  refine @calculateMinNumberOfTokens_single axisMachine
    ⟨1, 0, 0, 1, 2, 2, rfl, by decide, by decide, by decide⟩ 8 ?_
  have h : fewestTokens axisMachine = 2 * 3 + 2 := by
    apply fewestTokens_of_min
    · simp only [mem_solutions, mem_presses, axisMachine, List.getD_cons_zero, List.getD_cons_succ]
      omega
    · rintro ⟨i, j⟩ hij
      rw [mem_solutions, mem_presses, mem_presses] at hij
      simp only [axisMachine, List.getD_cons_zero, List.getD_cons_succ] at hij
      simp only
      omega
  rw [h]
  rfl

/-- C25 fails on the code: with `prizeIncrease = 0` the optimized function has no limit
of 100 presses (600 for a machine that part 1 leaves out), skips every machine with
determinant 0 (0 where part 1 finds 2 tokens), and divides by `bx` (undefined for
`bx = 0`, where part 1 finds 8 tokens). -/
theorem optimized_differs_from_part1 :
    calculateMinNumberOfTokensOptimized 0 [farMachine] = some 600 ∧
      calculateMinNumberOfTokens [farMachine] = some 0 ∧
      calculateMinNumberOfTokensOptimized 0 [flatMachine] = some 0 ∧
      calculateMinNumberOfTokens [flatMachine] = some 2 ∧
      calculateMinNumberOfTokensOptimized 0 [axisMachine] = none ∧
      calculateMinNumberOfTokens [axisMachine] = some 8 :=
  ⟨by decide, part1_far, by decide, part1_flat, by decide, part1_axis⟩

/-- C25, as the code has it: on every list of tame machines (small numbers, `bx ≠ 0` when
the determinant is not 0, every integer solution of a machine within `0 ≤ i, j ≤ 100`)
the optimized function with `prizeIncrease = 0` returns the value of
`calculateMinNumberOfTokens`, the sum of the minima of part 1. -/
theorem optimized_eq_part1_of_tame (numberGroups : List (List Int))
    (h : ∀ numList ∈ numberGroups, Tame numList) :
    calculateMinNumberOfTokensOptimized 0 numberGroups =
        calculateMinNumberOfTokens numberGroups ∧
      calculateMinNumberOfTokens numberGroups = some (numberGroups.map fewestTokens).sum := by
  have h1 := calculateMinNumberOfTokensOptimized_of_tame numberGroups h
  have h2 := calculateMinNumberOfTokens_of_small numberGroups
    fun numList hn => smallMachine_of_tame (h numList hn)
  exact ⟨h1.trans h2.symm, h2⟩

theorem tame_example : Tame exampleMachine :=
  ⟨94, 34, 22, 67, 8400, 5400, rfl, by decide, by decide, by decide, by decide, by decide,
    by decide, fun _ => by decide, fun i j h1 h2 => by omega⟩

theorem tame_example2 : Tame exampleMachine2 :=
  ⟨26, 66, 67, 21, 12748, 12176, rfl, by decide, by decide, by decide, by decide, by decide,
    by decide, fun _ => by decide, fun i j h1 h2 => by omega⟩

theorem optimized_eq_part1_of_tame_witness :
    (∀ numList ∈ [exampleMachine, exampleMachine2], Tame numList) ∧
      calculateMinNumberOfTokensOptimized 0 [exampleMachine, exampleMachine2] =
        calculateMinNumberOfTokens [exampleMachine, exampleMachine2] ∧
      calculateMinNumberOfTokens [exampleMachine, exampleMachine2] =
        some ([exampleMachine, exampleMachine2].map fewestTokens).sum := by
  have h : ∀ numList ∈ [exampleMachine, exampleMachine2], Tame numList := by
    intro numList hn
    simp only [List.mem_cons, List.mem_singleton, List.not_mem_nil, or_false] at hn
    rcases hn with rfl | rfl
    · exact tame_example
    · exact tame_example2
  exact ⟨h, optimized_eq_part1_of_tame _ h⟩

end ClawContraption

namespace DiskFragmenterP2

theorem sortedFrom_mono {lo lo1 : Nat} (h : lo1 ≤ lo) :
    ∀ {free : List Block}, SortedFrom lo free → SortedFrom lo1 free
  | [], _ => trivial
  | (_, _) :: _, hs => ⟨le_trans h hs.1, hs.2.1, hs.2.2⟩

theorem sortedFrom_lower {lo : Nat} {free : List Block} (h : SortedFrom lo free) :
    ∀ c ∈ free, lo ≤ c.1 := by
  induction free generalizing lo with
  | nil =>
    intro c hc
    exact absurd hc (List.not_mem_nil _)
  | cons b rest ih =>
    obtain ⟨s, l⟩ := b
    intro c hc
    rcases List.mem_cons.mp hc with rfl | hc
    · exact h.1
    · exact le_trans (le_trans h.1 (Nat.le_add_right s l)) (ih h.2.2 c hc)

theorem earliestFit_cons_of_not_fits {filePosition fileLenght : Nat} {b : Block}
    (h : ¬ Fits filePosition fileLenght b) (free : List Block) :
    earliestFit filePosition fileLenght (b :: free) = earliestFit filePosition fileLenght free := by
  unfold earliestFit
  rw [List.filter_cons_of_neg (by simpa using h)]

theorem earliestFit_of_none {filePosition fileLenght : Nat} {free : List Block}
    (h : ∀ c ∈ free, ¬ Fits filePosition fileLenght c) :
    earliestFit filePosition fileLenght free = none := by
  unfold earliestFit
  rw [List.filter_eq_nil_iff.mpr (fun c hc => by simpa using h c hc), List.argmin_nil]

theorem earliestFit_head {filePosition fileLenght : Nat} {b : Block} {free : List Block}
    (h : Fits filePosition fileLenght b) (hlt : ∀ c ∈ free, b.1 < c.1) :
    earliestFit filePosition fileLenght (b :: free) = some b := by
  unfold earliestFit
  rw [List.filter_cons_of_pos (by simpa using h), List.argmin_eq_some_iff]
  refine ⟨List.mem_cons_self _ _, ?_, ?_⟩
  · intro a ha
    rcases List.mem_cons.mp ha with rfl | ha
    · exact le_refl _
    · exact le_of_lt (hlt a (List.mem_of_mem_filter ha))
  · intro a _ _
    rw [List.indexOf_cons_self]
    exact Nat.zero_le _

theorem mem_of_earliestFit {filePosition fileLenght : Nat} {b : Block} {free : List Block}
    (h : earliestFit filePosition fileLenght free = some b) :
    b ∈ free ∧ Fits filePosition fileLenght b := by
  unfold earliestFit at h
  have hmem := List.argmin_mem h
  rw [List.mem_filter] at hmem
  exact ⟨hmem.1, by simpa using hmem.2⟩

theorem useBlock_head {fileLenght : Nat} {b : Block} {free : List Block}
    (hne : ∀ c ∈ free, c ≠ b) :
    useBlock fileLenght b (b :: free) =
      if fileLenght = b.2 then free else (b.1 + fileLenght, b.2 - fileLenght) :: free := by
  unfold useBlock
  split_ifs with h
  · exact List.erase_cons_head b free
  · rw [List.map_cons, if_pos rfl]
    congr 1
    conv_rhs => rw [← List.map_id free]
    exact List.map_congr_left fun c hc => by rw [if_neg (hne c hc)]; rfl

theorem useBlock_cons {fileLenght : Nat} {a b : Block} (hab : a ≠ b) (free : List Block) :
    useBlock fileLenght b (a :: free) = a :: useBlock fileLenght b free := by
  unfold useBlock
  split_ifs with h
  · exact List.erase_cons_tail (by simpa using hab)
  · rw [List.map_cons, if_neg hab]

/-- The loop over the free blocks against the description, for one file: `free ++ tail`
are the free blocks of the description, of which the source still has `free`; the blocks
of `tail` do not lie before the file. -/
theorem moveFile_spec (filePosition fileLenght : Nat) (tail : List Block)
    (htail : ∀ c ∈ tail, filePosition ≤ c.1) :
    ∀ (free : List Block) (lo : Nat), SortedFrom lo (free ++ tail) →
      (earliestFit filePosition fileLenght (free ++ tail) = none →
        (moveFile filePosition fileLenght free).1 = none ∧
        ∃ tail1, free ++ tail = (moveFile filePosition fileLenght free).2 ++ tail1 ∧
          ∀ c ∈ tail1, filePosition ≤ c.1) ∧
      (∀ b, earliestFit filePosition fileLenght (free ++ tail) = some b →
        (moveFile filePosition fileLenght free).1 = some b.1 ∧
        useBlock fileLenght b (free ++ tail) =
          (moveFile filePosition fileLenght free).2 ++ tail ∧
        SortedFrom lo (useBlock fileLenght b (free ++ tail))) := by
  intro free
  induction free with
  | nil =>
    intro lo _
    have hnone : earliestFit filePosition fileLenght ([] ++ tail) = none :=
      earliestFit_of_none fun c hc hfit => by
        have := htail c hc
        have := hfit.1
        omega
    refine ⟨fun _ => ⟨rfl, tail, rfl, htail⟩, fun b hb => ?_⟩
    rw [hnone] at hb
    exact absurd hb (by simp)
  | cons blk rest ih =>
    obtain ⟨s, l⟩ := blk
    intro lo hsorted
    obtain ⟨hlo, hl, hrest⟩ : lo ≤ s ∧ 0 < l ∧ SortedFrom (s + l) (rest ++ tail) := hsorted
    have hlower := sortedFrom_lower hrest
    by_cases hbehind : s ≥ filePosition
    · have hmv : moveFile filePosition fileLenght ((s, l) :: rest) = (none, []) := by
        simp only [moveFile, if_pos hbehind]
      have hnone : earliestFit filePosition fileLenght ((s, l) :: rest ++ tail) = none :=
        earliestFit_of_none fun c hc hfit => by
          have h1 := hfit.1
          rcases List.mem_cons.mp hc with rfl | hc
          · simp only at h1
            omega
          · have := hlower c hc
            omega
      rw [hmv]
      refine ⟨fun _ => ⟨rfl, (s, l) :: rest ++ tail, rfl, ?_⟩, fun b hb => ?_⟩
      · intro c hc
        rcases List.mem_cons.mp hc with rfl | hc
        · exact hbehind
        · have := hlower c hc
          omega
      · rw [hnone] at hb
        exact absurd hb (by simp)
    · by_cases hfits : fileLenght ≤ l
      · have hmv : moveFile filePosition fileLenght ((s, l) :: rest) =
            (some s, if fileLenght = l then rest else (s + fileLenght, l - fileLenght) :: rest) := by
          simp only [moveFile, if_neg hbehind, if_pos hfits]
        have hlt : ∀ c ∈ rest ++ tail, (s, l).1 < c.1 := fun c hc => by
          have := hlower c hc
          simp only
          omega
        have hsome : earliestFit filePosition fileLenght ((s, l) :: rest ++ tail) = some (s, l) :=
          earliestFit_head ⟨by simp only; omega, hfits⟩ hlt
        rw [hmv]
        refine ⟨fun hn => ?_, fun b hb => ?_⟩
        · rw [hsome] at hn
          exact absurd hn (by simp)
        · rw [hsome] at hb
          obtain rfl := Option.some.inj hb
          have huse : useBlock fileLenght (s, l) ((s, l) :: rest ++ tail) =
              if fileLenght = l then rest ++ tail
              else (s + fileLenght, l - fileLenght) :: (rest ++ tail) :=
            useBlock_head fun c hc heq => by
              have := hlt c hc
              rw [heq] at this
              exact lt_irrefl _ this
          refine ⟨rfl, ?_, ?_⟩
          · rw [huse]
            split_ifs <;> rfl
          · rw [huse]
            split_ifs with heq
            · exact sortedFrom_mono (by omega) hrest
            · refine ⟨by omega, by omega, ?_⟩
              have : s + fileLenght + (l - fileLenght) = s + l := by omega
              rw [this]
              exact hrest
      · have hmv : moveFile filePosition fileLenght ((s, l) :: rest) =
            ((moveFile filePosition fileLenght rest).1,
              (s, l) :: (moveFile filePosition fileLenght rest).2) := by
          simp only [moveFile, if_neg hbehind, if_neg hfits]
        have hnot : ¬ Fits filePosition fileLenght (s, l) := fun h => hfits h.2
        have hskip : earliestFit filePosition fileLenght ((s, l) :: rest ++ tail) =
            earliestFit filePosition fileLenght (rest ++ tail) :=
          earliestFit_cons_of_not_fits hnot _
        obtain ⟨ih1, ih2⟩ := ih (s + l) hrest
        rw [hmv, hskip]
        refine ⟨fun hn => ?_, fun b hb => ?_⟩
        · obtain ⟨h1, tail1, h2, h3⟩ := ih1 hn
          refine ⟨h1, tail1, ?_, h3⟩
          simp only [List.cons_append]
          rw [h2]
        · obtain ⟨h1, h2, h3⟩ := ih2 b hb
          have hne : (s, l) ≠ b := fun heq => hnot (heq ▸ (mem_of_earliestFit hb).2)
          have huse : useBlock fileLenght b ((s, l) :: rest ++ tail) =
              (s, l) :: useBlock fileLenght b (rest ++ tail) := useBlock_cons hne _
          refine ⟨h1, ?_, ?_⟩
          · rw [huse, h2]
            rfl
          · rw [huse]
            exact ⟨hlo, hl, h3⟩

theorem map_snd_set {files : List Block} {fileIndex : Nat} {p : Block}
    (h : files[fileIndex]? = some p) (start : Nat) :
    (files.set fileIndex (start, p.2)).map Prod.snd = files.map Prod.snd := by
  induction files generalizing fileIndex with
  | nil => rfl
  | cons f rest ih =>
    cases fileIndex with
    | zero =>
      simp only [List.getElem?_cons_zero, Option.some.injEq] at h
      simp only [List.set_cons_zero, List.map_cons, h]
    | succ k =>
      simp only [List.getElem?_cons_succ] at h
      simp only [List.set_cons_succ, List.map_cons, ih h]

/-- The loop over the files against the description. -/
theorem fragmentLoop_spec :
    ∀ (fileIndex : Nat) (files free tail : List Block), fileIndex ≤ files.length →
      (∀ i j p q, i ≤ j → j < fileIndex → files[i]? = some p → files[j]? = some q → p.1 ≤ q.1) →
      SortedFrom 0 (free ++ tail) →
      (∀ c ∈ tail, ∀ j p, j < fileIndex → files[j]? = some p → p.1 ≤ c.1) →
      ∃ v1, fragmentLoop fileIndex ⟨files, free⟩ = some v1 ∧
        v1.files = compactFiles fileIndex files (free ++ tail) ∧
        v1.files.map Prod.snd = files.map Prod.snd := by
  intro fileIndex
  induction fileIndex with
  | zero =>
    intro files free tail _ _ _ _
    exact ⟨⟨files, free⟩, rfl, rfl, rfl⟩
  | succ k ih =>
    intro files free tail hlen hmono hsorted htail
    have hk : k < files.length := hlen
    have hget : files[k]? = some (files[k]) := List.getElem?_eq_getElem hk
    rcases hfile : files[k] with ⟨filePosition, fileLenght⟩
    rw [hfile] at hget
    have htailk : ∀ c ∈ tail, filePosition ≤ c.1 := fun c hc =>
      htail c hc k _ (Nat.lt_succ_self k) hget
    obtain ⟨hnone, hsome⟩ := moveFile_spec filePosition fileLenght tail htailk free 0 hsorted
    have hmono1 : ∀ i j p q, i ≤ j → j < k → files[i]? = some p → files[j]? = some q →
        p.1 ≤ q.1 := fun i j p q hij hj => hmono i j p q hij (Nat.lt_succ_of_lt hj)
    cases hfit : earliestFit filePosition fileLenght (free ++ tail) with
    | none =>
      obtain ⟨hr, tail1, hsplit, htail1⟩ := hnone hfit
      obtain ⟨v1, hv1, hfiles, hlens⟩ := ih files (moveFile filePosition fileLenght free).2 tail1
        (Nat.le_of_lt hk) hmono1 (hsplit ▸ hsorted) (fun c hc j p hj hp =>
          le_trans (hmono j k p _ (Nat.le_of_lt hj) (Nat.lt_succ_self k) hp hget) (htail1 c hc))
      refine ⟨v1, ?_, ?_, hlens⟩
      · unfold fragmentLoop
        simp only [hget]
        rw [show moveFile filePosition fileLenght free =
          (none, (moveFile filePosition fileLenght free).2) from Prod.ext hr rfl]
        exact hv1
      · unfold compactFiles
        simp only [hget, hfit]
        rw [hfiles, hsplit]
    | some b =>
      obtain ⟨hr, huse, hsorted1⟩ := hsome b hfit
      have hsame : ∀ j, j < k → (files.set k (b.1, fileLenght))[j]? = files[j]? := fun j hj =>
        List.getElem?_set_ne (by omega)
      obtain ⟨v1, hv1, hfiles, hlens⟩ := ih (files.set k (b.1, fileLenght))
        (moveFile filePosition fileLenght free).2 tail (by rw [List.length_set]; exact Nat.le_of_lt hk)
        (fun i j p q hij hj hp hq => by
          rw [hsame i (by omega)] at hp
          rw [hsame j hj] at hq
          exact hmono1 i j p q hij hj hp hq)
        (huse ▸ hsorted1)
        (fun c hc j p hj hp => by
          rw [hsame j hj] at hp
          exact htail c hc j p (Nat.lt_succ_of_lt hj) hp)
      refine ⟨v1, ?_, ?_, ?_⟩
      · unfold fragmentLoop
        simp only [hget]
        rw [show moveFile filePosition fileLenght free =
          (some b.1, (moveFile filePosition fileLenght free).2) from Prod.ext hr rfl]
        exact hv1
      · unfold compactFiles
        simp only [hget, hfit]
        rw [hfiles, huse]
      · rw [hlens]
        exact map_snd_set hget b.1

theorem sortedFrom_append {s l : Nat} (hl : 0 < l) :
    ∀ {free : List Block} {lo : Nat}, SortedFrom lo free → lo ≤ s →
      (∀ c ∈ free, c.1 + c.2 ≤ s) → SortedFrom lo (free ++ [(s, l)])
  | [], _, _, hlo, _ => ⟨hlo, hl, trivial⟩
  | (s1, l1) :: _, _, hs, _, hend =>
    ⟨hs.1, hs.2.1, sortedFrom_append hl hs.2.2 (hend (s1, l1) (List.mem_cons_self _ _))
      fun c hc => hend c (List.mem_cons_of_mem _ hc)⟩

/-- The loop of `expandMapView` keeps the files in position order and the free blocks in
increasing order, disjoint and not empty, all of them before `filePosition`. -/
theorem expandLoop_wellFormed :
    ∀ (diskMap : List Nat) (i : Nat) (files free : List Block) (filePosition : Nat) (v : View),
      files.Pairwise (fun a b => a.1 ≤ b.1) → (∀ f ∈ files, f.1 ≤ filePosition) →
      SortedFrom 0 free → (∀ c ∈ free, c.1 + c.2 ≤ filePosition) →
      expandLoop diskMap i files free filePosition = some v → WellFormedView v := by
  intro diskMap
  induction diskMap with
  | nil =>
    intro i files free filePosition v hfiles _ hfree _ h
    simp only [expandLoop, Option.some.injEq] at h
    subst h
    exact ⟨hfiles, hfree⟩
  | cons fileLenght rest ih =>
    intro i files free filePosition v hfiles hfpos hfree hfend h
    unfold expandLoop at h
    have hfpos1 : ∀ f ∈ files, f.1 ≤ filePosition + fileLenght := fun f hf =>
      le_trans (hfpos f hf) (Nat.le_add_right _ _)
    have hfend1 : ∀ c ∈ free, c.1 + c.2 ≤ filePosition + fileLenght := fun c hc =>
      le_trans (hfend c hc) (Nat.le_add_right _ _)
    by_cases hfile : i = 0 ∨ i % 2 = 0
    · rw [if_pos hfile] at h
      by_cases hzero : fileLenght = 0
      · rw [if_pos hzero] at h
        exact absurd h (by simp)
      · rw [if_neg hzero] at h
        refine ih (i + 1) _ free _ v ?_ ?_ hfree hfend1 h
        · rw [List.pairwise_append]
          refine ⟨hfiles, List.pairwise_singleton _ _, ?_⟩
          intro a ha b hb
          rw [List.mem_singleton.mp hb]
          exact hfpos a ha
        · intro f hf
          rcases List.mem_append.mp hf with hf | hf
          · exact hfpos1 f hf
          · rw [List.mem_singleton.mp hf]
            exact Nat.le_add_right _ _
    · rw [if_neg hfile] at h
      by_cases hzero : fileLenght ≠ 0
      · rw [if_pos hzero] at h
        refine ih (i + 1) files _ _ v hfiles hfpos1 ?_ ?_ h
        · exact sortedFrom_append (Nat.pos_of_ne_zero hzero) hfree (Nat.zero_le _) hfend
        · intro c hc
          rcases List.mem_append.mp hc with hc | hc
          · exact hfend1 c hc
          · rw [List.mem_singleton.mp hc]
      · rw [if_neg hzero] at h
        exact ih (i + 1) files free _ v hfiles hfpos1 hfree hfend1 h

/-- Every view that `expandMapView` returns is well formed. -/
theorem expandMapView_wellFormed {diskMap : List Nat} {v : View}
    (h : expandMapView diskMap = some v) : WellFormedView v :=
  expandLoop_wellFormed diskMap 0 [] [] 0 v List.Pairwise.nil
    (fun _ hf => absurd hf (List.not_mem_nil _)) trivial
    (fun _ hc => absurd hc (List.not_mem_nil _)) h

theorem expandMapView_example : expandMapView exampleDiskMap = some exampleView := by
  decide

/-- C26: on a view whose files are in position order by id and whose free blocks are in
increasing order, disjoint and not empty, as `expandMapView` produces it, `fragmentMemory`
returns, and the files it leaves are those of the description: the files are taken from
the highest id to the lowest, a file moves to the start of the earliest free block that
lies before it and can hold it, the block being shrunk or removed, a file without such a
block keeps its position; no length changes. -/
theorem fragmentMemory_follows_description (v : View) (h : WellFormedView v) :
    ∃ v1, fragmentMemory v = some (checksum v1.files, v1) ∧
      v1.files = compactFiles v.files.length v.files v.free ∧
      v1.files.map Prod.snd = v.files.map Prod.snd := by
  obtain ⟨hfiles, hfree⟩ := h
  obtain ⟨v1, hv1, h1, h2⟩ := fragmentLoop_spec v.files.length v.files v.free []
    (le_refl _)
    (fun i j p q hij hj hp hq => by
      rcases Nat.eq_or_lt_of_le hij with rfl | hlt
      · rw [hp] at hq
        rw [Option.some.inj hq]
      · have hi : i < v.files.length := by omega
        rw [List.getElem?_eq_getElem hi] at hp
        rw [List.getElem?_eq_getElem hj] at hq
        rw [← Option.some.inj hp, ← Option.some.inj hq]
        exact List.pairwise_iff_getElem.mp hfiles i j hi hj hlt)
    (by rw [List.append_nil]; exact hfree)
    (fun c hc => absurd hc (List.not_mem_nil _))
  rw [List.append_nil] at h1
  refine ⟨v1, ?_, h1, h2⟩
  unfold fragmentMemory
  rw [show (⟨v.files, v.free⟩ : View) = v from rfl] at hv1
  rw [hv1]

theorem fragmentMemory_follows_description_witness :
    WellFormedView exampleView ∧
      ∃ v1, fragmentMemory exampleView = some (checksum v1.files, v1) ∧
        v1.files = compactFiles exampleView.files.length exampleView.files exampleView.free ∧
        v1.files.map Prod.snd = exampleView.files.map Prod.snd :=
  ⟨by decide, fragmentMemory_follows_description exampleView (by decide)⟩

end DiskFragmenterP2

namespace GardenGroups

theorem traceStep_refl (s : BfsState) (t : Trace) : TraceStep s t s t :=
  ⟨Finset.Subset.refl _, ⟨[], rfl, List.nodup_nil, fun p => by simp⟩, rfl⟩

theorem traceStep_trans {s s1 s2 : BfsState} {t t1 t2 : Trace} (h1 : TraceStep s t s1 t1)
    (h2 : TraceStep s1 t1 s2 t2) : TraceStep s t s2 t2 := by
  obtain ⟨hsub1, ⟨new1, hp1, hnd1, hmem1⟩, hc1⟩ := h1
  obtain ⟨hsub2, ⟨new2, hp2, hnd2, hmem2⟩, hc2⟩ := h2
  refine ⟨hsub1.trans hsub2, ⟨new2 ++ new1, ?_, ?_, ?_⟩, by omega⟩
  · rw [hp2, hp1, List.append_assoc]
  · rw [List.nodup_append]
    refine ⟨hnd2, hnd1, ?_⟩
    intro a ha2 ha1
    exact ((hmem2 a).mp ha2).2 ((hmem1 a).mp ha1).1
  · intro p
    rw [List.mem_append, hmem1, hmem2]
    constructor
    · rintro (⟨h, hn⟩ | ⟨h, hn⟩)
      · exact ⟨h, fun hs => hn (hsub1 hs)⟩
      · exact ⟨hsub2 h, hn⟩
    · rintro ⟨h, hn⟩
      by_cases h1 : p ∈ s1.region
      · exact Or.inr ⟨h1, hn⟩
      · exact Or.inl ⟨h, h1⟩

/-- The step on a neighbour with the trace does to the state what the step without it
does, and the trace records the push. -/
theorem visitNeighborT_spec (grid : Grid) (plant : Char) (s : BfsState) (t : Trace) (n : Pos) :
    (∃ e, visitNeighbor grid plant s n = .error e ∧
        visitNeighborT grid plant (s, t) n = .error e) ∨
      ∃ s1 t1, visitNeighbor grid plant s n = .ok s1 ∧
        visitNeighborT grid plant (s, t) n = .ok (s1, t1) ∧ TraceStep s t s1 t1 := by
  unfold visitNeighbor visitNeighborT
  by_cases hout : n.1 < 0 ∨ n.2 < 0 ∨ (grid.length : Int) ≤ n.1 ∨ (width grid : Int) ≤ n.2
  · rw [if_pos hout, if_pos hout]
    exact Or.inr ⟨s, t, rfl, rfl, traceStep_refl s t⟩
  · rw [if_neg hout, if_neg hout]
    cases hc : cellAt grid n with
    | none => exact Or.inl ⟨_, rfl, rfl⟩
    | some ch =>
      simp only
      by_cases hch : ch ≠ plant
      · rw [if_pos hch, if_pos hch]
        exact Or.inr ⟨s, t, rfl, rfl, traceStep_refl s t⟩
      · rw [if_neg hch, if_neg hch]
        by_cases hreg : n ∈ s.region
        · rw [if_pos hreg, if_pos hreg]
          exact Or.inr ⟨s, t, rfl, rfl, traceStep_refl s t⟩
        · rw [if_neg hreg, if_neg hreg]
          refine Or.inr ⟨_, _, rfl, rfl, Finset.subset_insert _ _, ⟨[n], rfl,
            List.nodup_singleton n, fun p => ?_⟩, ?_⟩
          · simp only [List.mem_singleton, Finset.mem_insert]
            constructor
            · rintro rfl
              exact ⟨Or.inl rfl, hreg⟩
            · rintro ⟨h | h, hn⟩
              · exact h
              · exact absurd h hn
          · simp only [List.length_cons]
            omega

theorem visitNeighborsT_spec (grid : Grid) (plant : Char) (ns : List Pos) :
    ∀ (s : BfsState) (t : Trace),
      (∃ e, visitNeighbors grid plant ns s = .error e ∧
          visitNeighborsT grid plant ns (s, t) = .error e) ∨
        ∃ s1 t1, visitNeighbors grid plant ns s = .ok s1 ∧
          visitNeighborsT grid plant ns (s, t) = .ok (s1, t1) ∧ TraceStep s t s1 t1 := by
  induction ns with
  | nil =>
    intro s t
    exact Or.inr ⟨s, t, rfl, rfl, traceStep_refl s t⟩
  | cons n ns ih =>
    intro s t
    unfold visitNeighbors visitNeighborsT
    rcases visitNeighborT_spec grid plant s t n with ⟨e, h1, h2⟩ | ⟨s1, t1, h1, h2, hstep⟩
    · rw [h1, h2]
      exact Or.inl ⟨e, rfl, rfl⟩
    · rw [h1, h2]
      simp only
      rcases ih s1 t1 with ⟨e, h3, h4⟩ | ⟨s2, t2, h3, h4, hstep2⟩
      · exact Or.inl ⟨e, h3, h4⟩
      · exact Or.inr ⟨s2, t2, h3, h4, traceStep_trans hstep hstep2⟩

theorem bfsLoopT_spec (grid : Grid) (plant : Char) :
    ∀ (fuel : Nat) (s : BfsState) (t : Trace),
      (∃ e, bfsLoop grid plant fuel s = .error e ∧
          bfsLoopT grid plant fuel (s, t) = .error e) ∨
        ∃ s1 t1, bfsLoop grid plant fuel s = .ok s1 ∧
          bfsLoopT grid plant fuel (s, t) = .ok (s1, t1) ∧ TraceStep s t s1 t1 := by
  intro fuel
  induction fuel with
  | zero =>
    intro s t
    unfold bfsLoop bfsLoopT
    by_cases hQ : s.Q = []
    · rw [if_pos hQ, if_pos hQ]
      exact Or.inr ⟨s, t, rfl, rfl, traceStep_refl s t⟩
    · rw [if_neg hQ, if_neg hQ]
      exact Or.inl ⟨_, rfl, rfl⟩
  | succ fuel ih =>
    intro s t
    unfold bfsLoop bfsLoopT
    cases hlast : s.Q.getLast? with
    | none => exact Or.inr ⟨s, t, rfl, rfl, traceStep_refl s t⟩
    | some cur =>
      simp only
      have hne : s.Q ≠ [] := by
        intro h
        rw [h] at hlast
        simp at hlast
      have hpop : TraceStep s t { s with Q := s.Q.dropLast }
          { pushed := t.pushed, pops := t.pops + 1 } := by
        refine ⟨Finset.Subset.refl _, ⟨[], rfl, List.nodup_nil, fun p => by simp⟩, ?_⟩
        have hlen : 0 < s.Q.length := List.length_pos.mpr hne
        simp only [List.length_dropLast]
        omega
      rcases visitNeighborsT_spec grid plant (neighbors cur) { s with Q := s.Q.dropLast }
          { pushed := t.pushed, pops := t.pops + 1 } with ⟨e, h1, h2⟩ | ⟨s1, t1, h1, h2, hstep⟩
      · rw [h1, h2]
        exact Or.inl ⟨e, rfl, rfl⟩
      · rw [h1, h2]
        simp only
        rcases ih s1 t1 with ⟨e, h3, h4⟩ | ⟨s2, t2, h3, h4, hstep2⟩
        · exact Or.inl ⟨e, h3, h4⟩
        · exact Or.inr ⟨s2, t2, h3, h4, traceStep_trans (traceStep_trans hpop hstep) hstep2⟩

/-- The scan of one position with the trace against the scan without it. -/
theorem scanCellT_spec (fuel : Nat) (grid : Grid) (s : ScanState) (t : Trace) (p : Pos) :
    (∃ e, scanCell fuel grid s p = .error e ∧ scanCellT fuel grid (s, t) p = .error e) ∨
      ∃ s1 t1, scanCell fuel grid s p = .ok s1 ∧ scanCellT fuel grid (s, t) p = .ok (s1, t1) ∧
        ((p ∈ s.visited ∧ s1 = s ∧ t1 = t) ∨
          (p ∉ s.visited ∧ ∃ R new, s1.allRegions = insert R s.allRegions ∧ p ∈ R ∧
            t1.pushed = new ++ t.pushed ∧ new.Nodup ∧ (∀ q, q ∈ new ↔ q ∈ R) ∧
            t1.pops + s1.Q.length + t.pushed.length =
              t.pops + s.Q.length + t1.pushed.length)) := by
  unfold scanCell scanCellT
  by_cases hv : p ∈ s.visited
  · rw [if_pos hv, if_pos hv]
    exact Or.inr ⟨s, t, rfl, rfl, Or.inl ⟨hv, rfl, rfl⟩⟩
  · rw [if_neg hv, if_neg hv]
    cases hc : cellAt grid p with
    | none => exact Or.inl ⟨_, rfl, rfl⟩
    | some plant =>
      simp only
      rcases bfsLoopT_spec grid plant fuel
          { region := {p}, visited := insert p s.visited, Q := p :: s.Q }
          { pushed := p :: t.pushed, pops := t.pops } with ⟨e, h1, h2⟩ | ⟨b, tb, h1, h2, hstep⟩
      · rw [h1, h2]
        exact Or.inl ⟨e, rfl, rfl⟩
      · rw [h1, h2]
        simp only
        obtain ⟨hsub, ⟨new, hpushed, hnd, hmem⟩, hcount⟩ := hstep
        simp only at hsub hpushed hmem hcount
        have hpR : p ∈ b.region := hsub (Finset.mem_singleton_self p)
        refine Or.inr ⟨_, _, rfl, rfl, Or.inr ⟨hv, b.region, new ++ [p], rfl, hpR, ?_, ?_, ?_, ?_⟩⟩
        · rw [hpushed, List.append_assoc]
          rfl
        · rw [List.nodup_append]
          refine ⟨hnd, List.nodup_singleton p, ?_⟩
          intro a ha hap
          rw [List.mem_singleton] at hap
          exact ((hmem a).mp ha).2 (Finset.mem_singleton.mpr hap)
        · intro q
          rw [List.mem_append, hmem, List.mem_singleton, Finset.mem_singleton]
          constructor
          · rintro (⟨h, _⟩ | rfl)
            · exact h
            · exact hpR
          · intro h
            by_cases hq : q = p
            · exact Or.inr hq
            · exact Or.inl ⟨h, hq⟩
        · simp only [List.length_cons] at hcount ⊢
          omega

/-- On a non-empty rectangular grid the scan with the trace returns what the scan
returns, and the trace keeps its invariant. -/
theorem scanCellsT_spec {grid : Grid} (hwf : WellFormed grid) {fuel : Nat}
    (hfuel : grid.length * width grid ≤ fuel) (ps : List Pos) (hps : ∀ p ∈ ps, InGrid grid p) :
    ∀ (s : ScanState) (t : Trace), ScanInv grid s → TraceInv s t →
      ∃ s1 t1, scanCells fuel grid ps s = .ok s1 ∧ scanCellsT fuel grid ps (s, t) = .ok (s1, t1) ∧
        ScanInv grid s1 ∧ TraceInv s1 t1 := by
  induction ps with
  | nil =>
    intro s t hinv htr
    exact ⟨s, t, rfl, rfl, hinv, htr⟩
  | cons p ps ih =>
    intro s t hinv htr
    obtain ⟨s1, h1, hinv1, _, _⟩ := scanCell_spec hwf hfuel hinv (hps p (List.mem_cons_self _ _))
    have hstep : ∃ t1, scanCellT fuel grid (s, t) p = .ok (s1, t1) ∧ TraceInv s1 t1 := by
      rcases scanCellT_spec fuel grid s t p with ⟨e, h2, _⟩ | ⟨s1a, t1, h2, h3, hrel⟩
      · rw [h1] at h2
        exact absurd h2 (by simp)
      · rw [h1] at h2
        obtain rfl : s1 = s1a := Except.ok.inj h2
        refine ⟨t1, h3, ?_⟩
        rcases hrel with ⟨_, rfl, rfl⟩ | ⟨hv, R, new, hall, hpR, hpushed, hnd, hmem, hcount⟩
        · exact htr
        · obtain ⟨hnd0, hmem0, hpops0⟩ := htr
          have hR : IsRegion grid R := hinv1.regions R (by rw [hall]; exact Finset.mem_insert_self _ _)
          have hdisj : ∀ q, q ∈ R → q ∉ s.visited := by
            intro q hq hqv
            obtain ⟨R1, hR1, hq1⟩ := (hinv.visited q).mp hqv
            have heq : R = R1 := isRegion_eq_of_mem hR (hinv.regions R1 hR1) hq hq1
            exact hv ((hinv.visited p).mpr ⟨R1, hR1, heq ▸ hpR⟩)
          refine ⟨?_, ?_, ?_⟩
          · rw [hpushed, List.nodup_append]
            refine ⟨hnd, hnd0, ?_⟩
            intro a ha ha0
            exact hdisj a ((hmem a).mp ha) ((hmem0 a).mp ha0)
          · intro q
            rw [hpushed, List.mem_append, hmem, hmem0, hinv1.visited q, hall]
            constructor
            · rintro (h | h)
              · exact ⟨R, Finset.mem_insert_self _ _, h⟩
              · obtain ⟨R1, hR1, hq1⟩ := (hinv.visited q).mp h
                exact ⟨R1, Finset.mem_insert_of_mem hR1, hq1⟩
            · rintro ⟨R1, hR1, hq1⟩
              rcases Finset.mem_insert.mp hR1 with rfl | hR1
              · exact Or.inl hq1
              · exact Or.inr ((hinv.visited q).mpr ⟨R1, hR1, hq1⟩)
          · rw [hinv.queue, hinv1.queue] at hcount
            simp only [List.length_nil] at hcount
            omega
    obtain ⟨t1, h2, htr1⟩ := hstep
    obtain ⟨s2, t2, h3, h4, hinv2, htr2⟩ :=
      ih (fun q hq => hps q (List.mem_cons_of_mem _ hq)) s1 t1 hinv1 htr1
    refine ⟨s2, t2, ?_, ?_, hinv2, htr2⟩
    · simp only [scanCells, h1]
      exact h3
    · simp only [scanCellsT, h2]
      exact h4

/-- C31: on a non-empty rectangular grid the region scan terminates, with every fuel
from `rows * cols` on: it returns the regions of the scan, no coordinate is put in
`visited` and pushed on the queue twice, every coordinate pushed is a position of the
grid, all of them are popped, and the number of pops over the whole scan is at most
`rows * cols`. -/
theorem scan_pops_at_most_cells (grid : Grid) (hwf : WellFormed grid) (fuel : Nat)
    (hfuel : grid.length * width grid ≤ fuel) :
    ∃ regs t, scanWithT fuel grid = .ok (regs, t) ∧ scanWith fuel grid = .ok regs ∧
      t.pushed.Nodup ∧ (∀ p ∈ t.pushed, InGrid grid p) ∧ t.pops = t.pushed.length ∧
      t.pops ≤ grid.length * width grid := by
  have hinit : ScanInv grid { allRegions := ∅, visited := ∅, Q := [] } := by
    constructor
    · rfl
    · intro R hR
      exact absurd hR (Finset.not_mem_empty R)
    · intro p
      simp
  have htr : TraceInv { allRegions := ∅, visited := ∅, Q := [] } { pushed := [], pops := 0 } :=
    ⟨List.nodup_nil, fun p => by simp, rfl⟩
  obtain ⟨s1, t1, h1, h2, hinv1, hnd, hmem, hpops⟩ :=
    scanCellsT_spec hwf hfuel (scanOrder grid) (fun p hp => (mem_scanOrder hwf p).mp hp) _ _
      hinit htr
  have hin : ∀ p ∈ t1.pushed, InGrid grid p := by
    intro p hp
    obtain ⟨R, hR, hpR⟩ := (hinv1.visited p).mp ((hmem p).mp hp)
    exact (hinv1.regions R hR).inGrid p hpR
  refine ⟨s1.allRegions, t1, ?_, ?_, hnd, hin, hpops, ?_⟩
  · simp only [scanWithT, h2]
  · simp only [scanWith, h1]
  · rw [hpops, ← card_cells, ← List.toFinset_card_of_nodup hnd]
    exact Finset.card_le_card fun p hp => mem_cells.mpr (hin p (List.mem_toFinset.mp hp))

set_option maxRecDepth 100000 in
theorem scan_pops_at_most_cells_witness :
    (WellFormed scenarioB ∧ scenarioB.length * width scenarioB ≤ 16) ∧
      ∃ regs t, scanWithT 16 scenarioB = .ok (regs, t) ∧ scanWith 16 scenarioB = .ok regs ∧
        t.pushed.Nodup ∧ (∀ p ∈ t.pushed, InGrid scenarioB p) ∧ t.pops = t.pushed.length ∧
        t.pops ≤ scenarioB.length * width scenarioB :=
  ⟨⟨by decide, by decide⟩, scan_pops_at_most_cells scenarioB (by decide) 16 (by decide)⟩

end GardenGroups

namespace PlutonianPebbles

theorem int64_of_lt {x : Int} (h0 : 0 ≤ x) (h : x < 2 ^ 63) : int64 x = some x := by
  unfold int64
  rw [if_pos (by omega)]

theorem process_zero (f : Int → Int) (stone : Int) (cache : Cache) :
    processStoneAfterBlinks f stone 0 cache =
      match cache (stone, 0) with
      | some v => some (v, cache)
      | none => some (1, cache) := by
  rw [processStoneAfterBlinks]

theorem process_hit (f : Int → Int) (stone : Int) (k : Nat) (cache : Cache) (v : Int)
    (h : cache (stone, k) = some v) :
    processStoneAfterBlinks f stone k cache = some (v, cache) := by
  cases k with
  | zero => rw [processStoneAfterBlinks, h]
  | succ k => rw [processStoneAfterBlinks, h]

theorem process_succ_miss (f : Int → Int) (stone : Int) (k : Nat) (cache : Cache)
    (h : cache (stone, k + 1) = none) :
    processStoneAfterBlinks f stone (k + 1) cache =
      if stone = 0 then
        match processStoneAfterBlinks f 1 k cache with
        | none => none
        | some (r, c1) => some (r, setEntry c1 (stone, k + 1) r)
      else if (f stone).tmod 2 = 0 then
        match splitNumber f stone with
        | none => none
        | some (first, second) =>
          match processStoneAfterBlinks f first k cache with
          | none => none
          | some (r1, c1) =>
            match processStoneAfterBlinks f second k c1 with
            | none => none
            | some (r2, c2) =>
              match int64 (r1 + r2) with
              | none => none
              | some r => some (r, setEntry c2 (stone, k + 1) r)
      else
        match int64 (stone * 2024) with
        | none => none
        | some next =>
          match processStoneAfterBlinks f next k cache with
          | none => none
          | some (r, c1) => some (r, setEntry c1 (stone, k + 1) r) := by
  rw [processStoneAfterBlinks, h]

theorem validCache_setEntry {cache : Cache} (hc : ValidCache cache) {s : Nat} {j : Nat} :
    ValidCache (setEntry cache ((s : Int), j) (count s j : Int)) := by
  intro s1 j1 v hv
  unfold setEntry at hv
  by_cases hkey : (s1, j1) = ((s : Int), j)
  · rw [if_pos hkey] at hv
    obtain ⟨rfl, rfl⟩ := Prod.mk.inj hkey
    rw [← Option.some.inj hv]
    exact ⟨Int.natCast_nonneg s, by rw [Int.toNat_ofNat]⟩
  · rw [if_neg hkey] at hv
    exact hc s1 j1 v hv

/-- The halves that `splitNumber` returns when the digit count is the exact one. -/
theorem splitNumber_of_exact (f : Int → Int) (s : Nat) (h1 : 1 ≤ s) (h2 : s < 10 ^ 18)
    (hd : f s = exactDigits s) :
    splitNumber f s = some (((s / 10 ^ (exactDigits s / 2) : Nat) : Int),
      ((s % 10 ^ (exactDigits s / 2) : Nat) : Int)) := by
  have h1i : (1 : Int) ≤ s := by exact_mod_cast h1
  have h2i : (s : Int) < 10 ^ 18 := by exact_mod_cast h2
  obtain ⟨hlow, hhigh, hpos⟩ := exactDigits_bounds h1i
  have hle : exactDigits (s : Int) ≤ 18 := exactDigits_le h1i h2i
  set d := exactDigits (s : Int) with hdef
  set k := d / 2 with hk
  have hk9 : k ≤ 9 := by omega
  have hpk : (10 : Int) ^ k ≤ 10 ^ 9 := pow_le_pow_right₀ (by decide) hk9
  have hpk0 : (0 : Int) < 10 ^ k := by positivity
  have hsplit : Int.tdiv (d : Int) 2 = (k : Int) := by
    rw [Int.tdiv_eq_ediv (by omega) (by decide)]
    omega
  have hpow : powToInt (k : Int) = some ((10 : Int) ^ k) := by
    unfold powToInt
    rw [if_neg (by omega), Int.toNat_ofNat, if_pos (by omega)]
  have hleft0 : 0 ≤ (s : Int) / 10 ^ k := Int.ediv_nonneg (by omega) (le_of_lt hpk0)
  have hleft : (s : Int) / 10 ^ k < 10 ^ 9 := by
    apply Int.ediv_lt_of_lt_mul hpk0
    calc (s : Int) < (10 : Int) ^ d := hhigh
      _ ≤ (10 : Int) ^ (9 + k) := pow_le_pow_right₀ (by decide) (by omega)
      _ = 10 ^ 9 * 10 ^ k := by rw [pow_add]
  have hright0 : 0 ≤ (s : Int) % 10 ^ k := Int.emod_nonneg _ (ne_of_gt hpk0)
  have hright : (s : Int) % 10 ^ k < 10 ^ k := Int.emod_lt_of_pos _ hpk0
  unfold splitNumber
  rw [if_neg (by omega), hd]
  simp only
  rw [hsplit, hpow]
  simp only
  rw [if_neg (ne_of_gt hpk0), Int.tmod_eq_emod (by omega) (le_of_lt hpk0),
    Int.tdiv_eq_ediv (by omega) (le_of_lt hpk0), toInt32_of_lt hleft0 (by omega),
    toInt32_of_lt hright0 (by omega)]
  push_cast
  rfl

theorem exactDigits_even_lt {s : Nat} (h1 : 1 ≤ s) (h2 : s < 2 ^ 63)
    (heven : exactDigits (s : Int) % 2 = 0) : s < 10 ^ 18 := by
  have h1i : (1 : Int) ≤ s := by exact_mod_cast h1
  have h2i : (s : Int) < 10 ^ 19 := by
    have : (s : Int) < 2 ^ 63 := by exact_mod_cast h2
    omega
  obtain ⟨_, hhigh, _⟩ := exactDigits_bounds h1i
  have hle : exactDigits (s : Int) ≤ 19 := exactDigits_le h1i h2i
  have hle18 : exactDigits (s : Int) ≤ 18 := by omega
  have : (s : Int) < 10 ^ 18 :=
    lt_of_lt_of_le hhigh (pow_le_pow_right₀ (by decide) hle18)
  exact_mod_cast this

theorem blink_zero : blink 0 = [1] := by
  simp [blink]

theorem blink_even {s : Nat} (h0 : s ≠ 0) (h : exactDigits (s : Int) % 2 = 0) :
    blink s = [s / 10 ^ (exactDigits s / 2), s % 10 ^ (exactDigits s / 2)] := by
  unfold blink
  rw [if_neg h0, if_pos h]

theorem blink_odd {s : Nat} (h0 : s ≠ 0) (h : ¬ exactDigits (s : Int) % 2 = 0) :
    blink s = [s * 2024] := by
  unfold blink
  rw [if_neg h0, if_neg h]

theorem count_succ (s k : Nat) : count s (k + 1) = ((blink s).map fun x => count x k).sum := by
  rw [count]

/-- The branch of `processStoneAfterBlinks` that splits the stone. -/
theorem process_split {f : Int → Int} {stone : Int} {k : Nat} {cache c1 c2 : Cache}
    {first second r1 r2 r : Int} (hmiss : cache (stone, k + 1) = none) (h0 : stone ≠ 0)
    (htest : (f stone).tmod 2 = 0) (hsplit : splitNumber f stone = some (first, second))
    (h1 : processStoneAfterBlinks f first k cache = some (r1, c1))
    (h2 : processStoneAfterBlinks f second k c1 = some (r2, c2))
    (hsum : int64 (r1 + r2) = some r) :
    processStoneAfterBlinks f stone (k + 1) cache =
      some (r, setEntry c2 (stone, k + 1) r) := by
  rw [process_succ_miss f _ _ _ hmiss, if_neg h0, if_pos htest, hsplit]
  simp only
  rw [h1]
  simp only
  rw [h2]
  simp only
  rw [hsum]

/-- The memoization is sound where the arithmetic of the source is exact: from a valid
cache, on blinks that stay inside `long long` and on which the digit count of the source
is the exact one, `processStoneAfterBlinks` returns `count stone k` and leaves a valid
cache. -/
theorem process_of_safe (f : Int → Int) :
    ∀ (k s : Nat) (cache : Cache), ValidCache cache → Safe f s k →
      ∃ c1, processStoneAfterBlinks f (s : Int) k cache = some ((count s k : Int), c1) ∧
        ValidCache c1 := by
  intro k
  induction k with
  | zero =>
    intro s cache hc _
    cases hhit : cache ((s : Int), 0) with
    | some v =>
      rw [process_hit f _ _ _ v hhit]
      have := (hc _ _ _ hhit).2
      rw [Int.toNat_ofNat] at this
      exact ⟨cache, by rw [this], hc⟩
    | none =>
      rw [process_zero, hhit]
      exact ⟨cache, rfl, hc⟩
  | succ k ih =>
    intro s cache hc hsafe
    cases hhit : cache ((s : Int), k + 1) with
    | some v =>
      rw [process_hit f _ _ _ v hhit]
      have := (hc _ _ _ hhit).2
      rw [Int.toNat_ofNat] at this
      exact ⟨cache, by rw [this], hc⟩
    | none =>
      obtain ⟨hs63, hcount, hdig, hnext⟩ : s < 2 ^ 63 ∧ count s (k + 1) < 2 ^ 63 ∧
        (s ≠ 0 → f s = exactDigits s) ∧ ∀ x ∈ blink s, x < 2 ^ 63 ∧ Safe f x k := hsafe
      by_cases h0 : s = 0
      · subst h0
        rw [process_succ_miss f _ _ _ hhit, if_pos (by simp)]
        rw [blink_zero] at hnext
        obtain ⟨c1, h1, hc1⟩ := ih 1 cache hc (hnext 1 (List.mem_singleton_self 1)).2
        rw [Nat.cast_one] at h1
        rw [h1]
        simp only
        have hcnt : count 0 (k + 1) = count 1 k := by
          rw [count_succ, blink_zero]
          simp
        refine ⟨_, by rw [hcnt], ?_⟩
        rw [← hcnt]
        exact validCache_setEntry hc1
      · have h0i : (s : Int) ≠ 0 := by exact_mod_cast h0
        by_cases heven : exactDigits (s : Int) % 2 = 0
        · have htest : (f (s : Int)).tmod 2 = 0 := by
            rw [hdig h0, Int.tmod_eq_emod (Int.natCast_nonneg _) (by decide)]
            omega
          have hlt := exactDigits_even_lt (Nat.one_le_iff_ne_zero.mpr h0) hs63 heven
          have hsplit := splitNumber_of_exact f s (Nat.one_le_iff_ne_zero.mpr h0) hlt (hdig h0)
          rw [blink_even h0 heven] at hnext
          obtain ⟨c1, h1, hc1⟩ := ih _ cache hc (hnext _ (List.mem_cons_self _ _)).2
          obtain ⟨c2, h2, hc2⟩ := ih _ c1 hc1
            (hnext _ (List.mem_cons_of_mem _ (List.mem_singleton_self _))).2
          have hcnt : count s (k + 1) = count (s / 10 ^ (exactDigits s / 2)) k +
              count (s % 10 ^ (exactDigits s / 2)) k := by
            rw [count_succ, blink_even h0 heven, List.map_cons, List.map_cons, List.map_nil,
              List.sum_cons, List.sum_cons, List.sum_nil, add_zero]
          have hsum : ((count (s / 10 ^ (exactDigits s / 2)) k : Nat) : Int) +
              ((count (s % 10 ^ (exactDigits s / 2)) k : Nat) : Int) =
              ((count s (k + 1) : Nat) : Int) := by
            rw [hcnt, Nat.cast_add]
          have hint : int64 (((count (s / 10 ^ (exactDigits s / 2)) k : Nat) : Int) +
              ((count (s % 10 ^ (exactDigits s / 2)) k : Nat) : Int)) =
              some ((count s (k + 1) : Nat) : Int) := by
            rw [hsum]
            exact int64_of_lt (Int.natCast_nonneg _) (by omega)
          exact ⟨_, process_split hhit h0i htest hsplit h1 h2 hint, validCache_setEntry hc2⟩
        · have htest : ¬ (f (s : Int)).tmod 2 = 0 := by
            rw [hdig h0, Int.tmod_eq_emod (Int.natCast_nonneg _) (by decide)]
            omega
          rw [process_succ_miss f _ _ _ hhit, if_neg h0i, if_neg htest]
          rw [blink_odd h0 heven] at hnext
          obtain ⟨hprod, hsafe1⟩ := hnext _ (List.mem_singleton_self _)
          have hmul : (s : Int) * 2024 = ((s * 2024 : Nat) : Int) := by push_cast; rfl
          rw [hmul, int64_of_lt (Int.natCast_nonneg _) (by omega)]
          simp only
          obtain ⟨c1, h1, hc1⟩ := ih _ cache hc hsafe1
          rw [h1]
          simp only
          have hcnt : count s (k + 1) = count (s * 2024) k := by
            rw [count_succ, blink_odd h0 heven]
            simp
          refine ⟨_, by rw [hcnt], ?_⟩
          rw [← hcnt]
          exact validCache_setEntry hc1

/-- The exact digit count of a number between two consecutive powers of 10. -/
theorem exactDigits_eq {n d : Nat} (hlow : 10 ^ d ≤ n) (hhigh : n < 10 ^ (d + 1)) :
    exactDigits (n : Int) = d + 1 := by
  have hn : n ≠ 0 := by
    intro h
    rw [h] at hlow
    have : 0 < 10 ^ d := Nat.pow_pos (by decide)
    omega
  simp only [exactDigits, Int.toNat_ofNat]
  rw [Nat.digits_len 10 n (by decide) hn]
  congr 1
  rw [Nat.log_eq_iff (Or.inr ⟨by decide, hn⟩)]
  exact ⟨hlow, hhigh⟩

/-- The conversion to `double` rounds the 17-digit stone `10 ^ 17 - 1` up to `10 ^ 17`. -/
theorem toDouble_rounds_up : toDouble 99999999999999999 = 100000000000000000 := by
  decide

/-- The stone 17 is safe for two blinks: 17 → 1, 7 → 2024, 14168 → 4 stones. -/
theorem safe_seventeen : Safe (fun n : Int => (exactDigits n : Int)) 17 2 := by
  have e17 : exactDigits ((17 : Nat) : Int) = 2 := exactDigits_eq (by decide) (by decide)
  have e1 : exactDigits ((1 : Nat) : Int) = 1 := exactDigits_eq (by decide) (by decide)
  have e7 : exactDigits ((7 : Nat) : Int) = 1 := exactDigits_eq (by decide) (by decide)
  have b17 : blink 17 = [1, 7] := by
    rw [blink_even (by decide) (by rw [e17]), e17]
    rfl
  have b1 : blink 1 = [2024] := by
    rw [blink_odd (by decide) (by rw [e1]; decide)]
  have b7 : blink 7 = [14168] := by
    rw [blink_odd (by decide) (by rw [e7]; decide)]
  have c1 : count 1 1 = 1 := by
    rw [count_succ, b1]
    rfl
  have c7 : count 7 1 = 1 := by
    rw [count_succ, b7]
    rfl
  have c17 : count 17 2 = 2 := by
    rw [count_succ, b17, List.map_cons, List.map_cons, List.map_nil, c1, c7]
    rfl
  refine ⟨by decide, by rw [c17]; decide, fun _ => rfl, ?_⟩
  intro x hx
  rw [b17] at hx
  rcases List.mem_cons.mp hx with rfl | hx
  · refine ⟨by decide, by decide, by rw [c1]; decide, fun _ => rfl, ?_⟩
    intro y hy
    rw [b1] at hy
    rw [List.mem_singleton.mp hy]
    exact ⟨by decide, trivial⟩
  · rw [List.mem_singleton.mp hx]
    refine ⟨by decide, by decide, by rw [c7]; decide, fun _ => rfl, ?_⟩
    intro y hy
    rw [b7] at hy
    rw [List.mem_singleton.mp hy]
    exact ⟨by decide, trivial⟩

/-- The soundness of the memoization on the stone 17 with two blinks from the empty
cache: the result is `count 17 2` and the cache that is left is valid. -/
theorem process_seventeen :
    ∃ c1, processStoneAfterBlinks (fun n : Int => (exactDigits n : Int)) 17 2 emptyCache =
        some ((count 17 2 : Int), c1) ∧ ValidCache c1 :=
  process_of_safe _ 2 17 emptyCache (fun _ _ _ h => by cases h) safe_seventeen

/-- C32 fails on the code: the stone `10 ^ 17 - 1` has 17 digits, so one blink multiplies
it by 2024 and `count` is 1; the source takes `std::log10` of the stone converted to
`double`, which is `10 ^ 17`, finds 18 digits wherever the library gives
`log10(1e17) + 1 = 18`, splits the stone into 99999999 and 999999999, and returns 2 from
the empty cache. -/
theorem process_differs_from_count (lib : Int → Int) (hlib : lib 100000000000000000 = 18) :
    (processStoneAfterBlinks (fun n => lib (toDouble n)) 99999999999999999 1 emptyCache).map
        Prod.fst = some 2 ∧
      count 99999999999999999 1 = 1 := by
  have hdig : (fun n => lib (toDouble n)) 99999999999999999 = 18 := by
    show lib (toDouble 99999999999999999) = 18
    rw [toDouble_rounds_up, hlib]
  have hsplit : splitNumber (fun n => lib (toDouble n)) 99999999999999999 =
      some (99999999, 999999999) := by
    unfold splitNumber
    rw [if_neg (by decide)]
    simp only [hdig]
    rfl
  have hrun := @process_split (fun n => lib (toDouble n)) 99999999999999999 0 emptyCache
    _ _ _ _ _ _ 2 rfl (by decide) (by rw [hdig]; rfl) hsplit
    (process_zero _ _ _) (process_zero _ _ _) rfl
  have e : exactDigits ((99999999999999999 : Nat) : Int) = 17 :=
    exactDigits_eq (by decide) (by decide)
  constructor
  · rw [hrun]
    rfl
  · rw [count_succ, blink_odd (by decide) (by rw [e]; decide)]
    rfl

theorem process_differs_from_count_witness :
    (fun x : Int => (exactDigits x : Int)) 100000000000000000 = 18 ∧
      (processStoneAfterBlinks (fun n => (fun x : Int => (exactDigits x : Int)) (toDouble n))
          99999999999999999 1 emptyCache).map Prod.fst = some 2 ∧
      count 99999999999999999 1 = 1 :=
  have h : (fun x : Int => (exactDigits x : Int)) 100000000000000000 = 18 := by
    show ((exactDigits ((100000000000000000 : Nat) : Int) : Nat) : Int) = 18
    rw [exactDigits_eq (d := 17) (by decide) (by decide)]
    rfl
  ⟨h, process_differs_from_count (fun x : Int => (exactDigits x : Int)) h⟩

end PlutonianPebbles

namespace DiskFragmenter

/-- The disk map `12345`: the vector `0..111....22222` becomes `022111222`, and the
checksum is 60. -/
theorem fragmentMemory_example :
    fragmentMemory (expandMapView [1, 2, 3, 4, 5]) = .ok ([0, 2, 2, 1, 1, 1, 2, 2, 2], 60) := by
  decide

/-- The disk map `12`: both free entries are popped, the element that was popped last is
read and overwritten in the storage, and the vector that is left is `0`. -/
theorem fragmentMemory_pops_free_tail :
    fragmentMemory (expandMapView [1, 2]) = .ok ([0], 0) := by
  decide

end DiskFragmenter

namespace PlutonianPebbles

/-- A second way to leave `count`: the stone `10 ^ 16` has 17 digits, and its product
with 2024 is outside `long long`, where the source has no defined result. -/
theorem process_overflows (lib : Int → Int) (hlib : lib 10000000000000000 = 17) :
    processStoneAfterBlinks (fun n => lib (toDouble n)) 10000000000000000 1 emptyCache =
        none ∧
      count 10000000000000000 1 = 1 := by
  have htd : toDouble 10000000000000000 = 10000000000000000 := by decide
  have hdig : lib (toDouble 10000000000000000) = 17 := by
    rw [htd, hlib]
  have e : exactDigits ((10000000000000000 : Nat) : Int) = 17 :=
    exactDigits_eq (by decide) (by decide)
  constructor
  · rw [process_succ_miss _ _ _ _ rfl, if_neg (by decide), hdig, if_neg (by decide)]
    rfl
  · rw [count_succ, blink_odd (by decide) (by rw [e]; decide)]
    rfl

end PlutonianPebbles

namespace PlutonianPebbles

/-- C27 fails on the code: the number `10 ^ 17 - 1` has 17 digits, so the claim asks for
the parts `999999999` and `99999999`, the quotient and the remainder by `10 ^ 8`. The
source takes `std::log10` of the number converted to `double`, which is `10 ^ 17`, finds
18 digits wherever the library gives `log10(1e17) + 1 = 18`, divides by `10 ^ 9` and
returns `99999999` and `999999999`: the left part is the shorter one. -/
theorem splitNumber_differs_from_exact (lib : Int → Int)
    (hlib : lib 100000000000000000 = 18) :
    splitNumber (fun n => lib (toDouble n)) 99999999999999999 =
        some (99999999, 999999999) ∧
      exactDigits 99999999999999999 = 17 ∧
      ((99999999999999999 : Int) / 10 ^ (exactDigits 99999999999999999 / 2),
        (99999999999999999 : Int) % 10 ^ (exactDigits 99999999999999999 / 2)) =
        (999999999, 99999999) := by
  have hdig : lib (toDouble 99999999999999999) = 18 := by
    rw [toDouble_rounds_up, hlib]
  have e : exactDigits ((99999999999999999 : Nat) : Int) = 17 :=
    exactDigits_eq (by decide) (by decide)
  have e1 : exactDigits (99999999999999999 : Int) = 17 := e
  refine ⟨?_, e1, ?_⟩
  · unfold splitNumber
    rw [if_neg (by decide)]
    simp only [hdig]
    rfl
  · rw [e1]
    rfl

theorem splitNumber_differs_from_exact_witness :
    (fun x : Int => (exactDigits x : Int)) 100000000000000000 = 18 ∧
      splitNumber (fun n => (fun x : Int => (exactDigits x : Int)) (toDouble n))
          99999999999999999 = some (99999999, 999999999) ∧
      exactDigits 99999999999999999 = 17 ∧
      ((99999999999999999 : Int) / 10 ^ (exactDigits 99999999999999999 / 2),
        (99999999999999999 : Int) % 10 ^ (exactDigits 99999999999999999 / 2)) =
        (999999999, 99999999) :=
  have h : (fun x : Int => (exactDigits x : Int)) 100000000000000000 = 18 := by
    show ((exactDigits ((100000000000000000 : Nat) : Int) : Nat) : Int) = 18
    rw [@exactDigits_eq 100000000000000000 17 (by decide) (by decide)]
    rfl
  ⟨h, splitNumber_differs_from_exact (fun x : Int => (exactDigits x : Int)) h⟩

/-- The same defect below `2 ^ 53`, where the conversion to `double` is exact: the
number `10 ^ 15 - 1` has 15 digits, and a library whose `log10` rounds the logarithm
`14.9999999999999996` to `15` makes the source count 16 digits and return the parts
`9999999` and `99999999` in place of `99999999` and `9999999`. -/
theorem splitNumber_log_rounds_up (lib : Int → Int) (hlib : lib 999999999999999 = 16) :
    splitNumber (fun n => lib (toDouble n)) 999999999999999 = some (9999999, 99999999) ∧
      exactDigits 999999999999999 = 15 := by
  have htd : toDouble 999999999999999 = 999999999999999 := by decide
  have hdig : lib (toDouble 999999999999999) = 16 := by
    rw [htd, hlib]
  have e : exactDigits ((999999999999999 : Nat) : Int) = 15 :=
    exactDigits_eq (by decide) (by decide)
  refine ⟨?_, e⟩
  unfold splitNumber
  rw [if_neg (by decide)]
  simp only [hdig]
  rfl

end PlutonianPebbles
